import Mathlib

/-!
# go-trade: symbol registry and date-time decoder

A shallow embedding of `symbol.go` and `datetime.go` of the `trade` package,
followed by the properties established for them.

Conventions of the embedding:

* Go `uint` values (`ID`, `ParentID`) are natural numbers; they are only ever
  compared, never computed with, so no wrap-around can occur.
* `SymbolType` is Go `int8`; it is embedded in `Int`, and the two declared
  constants are `0` and `1`. Any other `int8` value is a legal `SymbolType`.
* A Go `[]byte` / `string` holding raw input is a list of byte values
  (`Bytes`); `'0'` is `48`, `'-'` is `45`, `' '` is `32`, `':'` is `58`,
  `'.'` is `46`, `','` is `44`, `'"'` is `34`.
* A pointer into a slice (`&ss[i]`) is the index `i`; a nil pointer is `none`.
-/

namespace Trade

/-! ## Go strings -/

/-- A Go `[]byte` or `string`: the sequence of its byte values. -/
abbrev Bytes := List Nat

/-- The bytes of an ASCII text. -/
def bytesOf (s : String) : Bytes := s.toList.map Char.toNat

/-! ## symbol.go -/

/-- SymbolType classifies a trading symbol as fiat or cryptocurrency (Go `int8`). -/
abbrev SymbolType := Int

/-- Fiat currency (`iota` = 0). -/
def SymbolFiat : SymbolType := 0

/-- Cryptocurrency (`iota` = 1). -/
def SymbolCrypto : SymbolType := 1

/-- String returns a human-readable label for the symbol type. -/
def SymbolType.String (s : SymbolType) : String :=
  if s = SymbolFiat then "fiat"
  else if s = SymbolCrypto then "crypto"
  else "unknown"

/-- Symbol represents a market trading symbol. The Go field `Type` is spelled
`Type_` because `Type` is reserved; a Go `string` is the sequence of its
bytes. -/
structure Symbol where
  ID : Nat
  Type_ : SymbolType
  ParentID : Nat
  Code : Bytes
  Name : Bytes
  Description : Bytes
  Website : Bytes
deriving DecidableEq, Repr

/-- IsRoot returns true if this symbol has no parent. -/
def Symbol.IsRoot (s : Symbol) : Bool := s.ParentID == 0

/-- IsFiat returns true if this is a fiat currency symbol. -/
def Symbol.IsFiat (s : Symbol) : Bool := s.Type_ == SymbolFiat

/-- IsCrypto returns true if this is a cryptocurrency symbol. -/
def Symbol.IsCrypto (s : Symbol) : Bool := s.Type_ == SymbolCrypto

/-- Symbols is a collection of Symbol values with lookup helpers. -/
abbrev Symbols := List Symbol

/-- The loop `for i := range ss` of `GetByCode`, with `i` the current index and
the list the elements `ss[i:]` still to visit. -/
def GetByCode.loop (code : Bytes) : Nat → Symbols → Option Nat
  | _, [] => none
  | i, s :: rest => if s.Code == code then some i else GetByCode.loop code (i + 1) rest

/-- GetByCode returns (the index of) the first symbol matching the given code, or nil. -/
def Symbols.GetByCode (ss : Symbols) (code : Bytes) : Option Nat :=
  GetByCode.loop code 0 ss

/-- The loop `for i := range ss` of `GetByID`, with `i` the current index and
the list the elements `ss[i:]` still to visit. -/
def GetByID.loop (id : Nat) : Nat → Symbols → Option Nat
  | _, [] => none
  | i, s :: rest => if s.ID == id then some i else GetByID.loop id (i + 1) rest

/-- GetByID returns (the index of) the symbol with the given ID, or nil. -/
def Symbols.GetByID (ss : Symbols) (id : Nat) : Option Nat :=
  GetByID.loop id 0 ss

/-- Children returns all symbols whose ParentID matches the given ID:
`result` starts nil and every matching symbol is appended in range order. -/
def Symbols.Children (ss : Symbols) (parentID : Nat) : Symbols :=
  ss.foldl (fun result s => if s.ParentID == parentID then result ++ [s] else result) []

/-- Roots returns all top-level symbols. -/
def Symbols.Roots (ss : Symbols) : Symbols := ss.Children 0

/-- Fiats returns all fiat currency symbols. -/
def Symbols.Fiats (ss : Symbols) : Symbols :=
  ss.foldl (fun result s => if s.IsFiat then result ++ [s] else result) []

/-- Cryptos returns all cryptocurrency symbols. -/
def Symbols.Cryptos (ss : Symbols) : Symbols :=
  ss.foldl (fun result s => if s.IsCrypto then result ++ [s] else result) []

/-- The collection used by the repository's tests (`sampleSymbols`). -/
def sampleSymbols : Symbols :=
  [ { ID := 1, Type_ := SymbolFiat, ParentID := 0, Code := bytesOf "USD",
      Name := bytesOf "US Dollar",
      Description := [], Website := [] },
    { ID := 2, Type_ := SymbolCrypto, ParentID := 1, Code := bytesOf "USDT",
      Name := bytesOf "Tether",
      Description := [], Website := [] },
    { ID := 3, Type_ := SymbolCrypto, ParentID := 1, Code := bytesOf "USDC",
      Name := bytesOf "USD Coin",
      Description := [], Website := [] },
    { ID := 4, Type_ := SymbolFiat, ParentID := 1, Code := bytesOf "EUR",
      Name := bytesOf "Euro",
      Description := [], Website := [] },
    { ID := 5, Type_ := SymbolFiat, ParentID := 1, Code := bytesOf "GBP",
      Name := bytesOf "British Pound",
      Description := [], Website := [] },
    { ID := 14, Type_ := SymbolCrypto, ParentID := 0, Code := bytesOf "BTC",
      Name := bytesOf "Bitcoin",
      Description := [], Website := bytesOf "https://bitcoin.org" },
    { ID := 22, Type_ := SymbolCrypto, ParentID := 14, Code := bytesOf "BTCFT",
      Name := bytesOf "BTC Futures Token", Description := [], Website := [] },
    { ID := 23, Type_ := SymbolCrypto, ParentID := 14, Code := bytesOf "BTCM24",
      Name := bytesOf "BTC June 2024 Future", Description := [], Website := [] } ]

/-! ## datetime.go

`DateTime.UnmarshalJSON` calls `time.Parse(time.DateTime, _)` of the Go
standard library. The functions of package `time` on that path
(`parse`, `skip`, `cutspace`, `getnum`, `atoi`, `leadingInt`, `isDigit`,
`parseNanoseconds`, `daysIn`, `isLeap`) are embedded below, with `parse`
specialised to the one layout the repository uses. -/

/-- A `time.Time` in UTC, represented by what its accessors `Year()`,
`Month()`, `Day()`, `Hour()`, `Minute()`, `Second()` and `Nanosecond()`
report. -/
structure Time where
  Year : Int
  Month : Int
  Day : Int
  Hour : Int
  Minute : Int
  Second : Int
  Nanosecond : Int
deriving DecidableEq, Repr

/-- The zero `time.Time{}`: January 1, year 1, 00:00:00.000000000 UTC. -/
def Time.zero : Time :=
  { Year := 1, Month := 1, Day := 1, Hour := 0, Minute := 0, Second := 0, Nanosecond := 0 }

/-- Go `time.Date(year, month, day, hour, min, sec, nsec, time.UTC)`. `Date`
normalises fields that are out of range; `parse` calls it only after it has
checked `1 ≤ month ≤ 12`, `1 ≤ day ≤ daysIn(month, year)`, `hour < 24`,
`min < 60`, `sec < 60` and `0 ≤ nsec < 10^9`, where nothing is normalised and
the accessors report the arguments. -/
def Date (year month day hour min sec nsec : Int) : Time :=
  { Year := year, Month := month, Day := day, Hour := hour, Minute := min, Second := sec,
    Nanosecond := nsec }

/-- The message suffix of a `*time.ParseError`. -/
inductive ParseMessage where
  /-- The empty message. -/
  | empty
  /-- The text `": " + what + " out of range"`. -/
  | outOfRange (what : String)
  /-- The text `": extra text: " + quote(text)`. -/
  | extraText (text : Bytes)
deriving DecidableEq, Repr

/-- A `*time.ParseError`: the describing fields of a parse failure. -/
structure ParseError where
  Layout : Bytes
  Value : Bytes
  LayoutElem : Bytes
  ValueElem : Bytes
  Message : ParseMessage
deriving DecidableEq, Repr

/-- The layout `time.DateTime`, the text "2006-01-02 15:04:05". -/
def DateTimeLayout : Bytes :=
  [50, 48, 48, 54, 45, 48, 49, 45, 48, 50, 32, 49, 53, 58, 48, 52, 58, 48, 53]

/-- Go `isDigit(s, i)` reports whether `s[i]` is in range and is a decimal digit. -/
def isDigit (s : Bytes) (i : Nat) : Bool :=
  match s[i]? with
  | none => false
  | some c => decide (48 ≤ c) && decide (c ≤ 57)

/-- Go `commaOrPeriod(b)`: `b == '.' || b == ','`. -/
def commaOrPeriod (b : Nat) : Bool := b == 46 || b == 44

/-- Go `getnum(s, fixed)` parses `s[0:1]` or `s[0:2]` (fixed forces `s[0:2]`) as a
decimal integer and returns the integer, the remainder of the string and
whether it failed. -/
def getnum (s : Bytes) (fixed : Bool) : Int × Bytes × Bool :=
  if !isDigit s 0 then (0, s, true)
  else if !isDigit s 1 then
    if fixed then (0, s, true)
    else (((s.getD 0 0 - 48 : Nat) : Int), s.drop 1, false)
  else ((((s.getD 0 0 - 48) * 10 + (s.getD 1 0 - 48) : Nat) : Int), s.drop 2, false)

/-- Go `cutspace(s)` drops the leading spaces of `s`. -/
def cutspace : Bytes → Bytes
  | [] => []
  | c :: s => if c = 32 then cutspace s else c :: s

/-- The loop of `skip`; the first argument bounds the number of iterations
and is started at `len(prefix)`, every iteration removing at least one byte
of the prefix. -/
def skip.loop : Nat → Bytes → Bytes → Bytes × Bool
  | _, value, [] => (value, false)
  | 0, value, _ :: _ => (value, true)
  | fuel + 1, value, p :: pre =>
    if p = 32 then
      if value.length > 0 ∧ value.getD 0 0 ≠ 32 then (value, true)
      else skip.loop fuel (cutspace value) (cutspace (p :: pre))
    else
      if value.length = 0 ∨ value.getD 0 0 ≠ p then (value, true)
      else skip.loop fuel (value.drop 1) pre

/-- Go `skip(value, prefix)` removes the given prefix from `value`, treating runs
of space characters as equivalent; the Boolean is `err != nil`. -/
def skip (value pre : Bytes) : Bytes × Bool := skip.loop pre.length value pre

/-- Go `leadingInt(s)` consumes the leading `[0-9]*` of `s`, with `x` the number
read so far: the number, the remainder and whether it overflowed. -/
def leadingInt : Bytes → Nat → Nat × Bytes × Bool
  | [], x => (x, [], false)
  | c :: rest, x =>
    if c < 48 ∨ c > 57 then (x, c :: rest, false)
    else if x > 2 ^ 63 / 10 then (0, [], true)
    else if x * 10 + c - 48 > 2 ^ 63 then (0, [], true)
    else leadingInt rest (x * 10 + c - 48)

/-- Conversion to Go `int` (64 bits, two's complement). -/
def toInt64 (z : Int) : Int := (z + 2 ^ 63) % 2 ^ 64 - 2 ^ 63

/-- Go `atoi(s)`: an optional sign followed by decimal digits and nothing else. -/
def atoi (s : Bytes) : Int × Bool :=
  let neg := decide (s.length > 0 ∧ s.getD 0 0 = 45)
  let s1 := if s.length > 0 ∧ (s.getD 0 0 = 45 ∨ s.getD 0 0 = 43) then s.drop 1 else s
  match leadingInt s1 0 with
  | (q, rem, err) =>
    let x := toInt64 (q : Int)
    if err ∨ rem.length > 0 then (0, true)
    else if neg then (toInt64 (-x), false)
    else (x, false)

/-- The digit scan `for ; n < len(value) && isDigit(value, n); n++ {}`, with
the list the bytes `value[n:]`. -/
def scanDigits : Bytes → Nat → Nat
  | [], n => n
  | c :: rest, n => if 48 ≤ c ∧ c ≤ 57 then scanDigits rest (n + 1) else n

/-- Go `parseNanoseconds(value, nbytes)`: the nanoseconds, the range error
string and whether it failed. -/
def parseNanoseconds (value : Bytes) (nbytes : Nat) : Int × String × Bool :=
  if !commaOrPeriod (value.getD 0 0) then (0, "", true)
  else
    let value1 := if nbytes > 10 then value.take 10 else value
    let nbytes1 := if nbytes > 10 then 10 else nbytes
    match atoi ((value1.take nbytes1).drop 1) with
    | (ns, err) =>
      if err then (ns, "", true)
      else if ns < 0 then (ns, "fractional second", false)
      else ((fun n : Int => n * 10)^[10 - nbytes1] ns, "", false)

/-- Go `isLeap(year)`: the Gregorian leap-year rule, with Go's truncated `%`. -/
def isLeap (year : Int) : Bool :=
  Int.tmod year 4 == 0 && (Int.tmod year 100 != 0 || Int.tmod year 400 == 0)

/-- The table `daysBefore`: the days in a non-leap year before month `m + 1`. -/
def daysBefore : List Int := [0, 31, 59, 90, 120, 151, 181, 212, 243, 273, 304, 334, 365]

/-- Go `daysIn(m, year)`: 29 for a leap-year February, otherwise the difference of
consecutive entries of `daysBefore`. -/
def daysIn (m year : Int) : Int :=
  if m = 2 ∧ isLeap year = true then 29
  else daysBefore.getD m.toNat 0 - daysBefore.getD (m.toNat - 1) 0

/-- The layout elements that occur in `time.DateTime`. -/
inductive Std where
  | stdLongYear
  | stdZeroMonth
  | stdZeroDay
  | stdHour
  | stdZeroMinute
  | stdZeroSecond
deriving DecidableEq, Repr

/-- The chunks `nextStdChunk` cuts `time.DateTime` into, in order, each as
(literal text before the element, element, the element's layout text):
"2006", "-" "01", "-" "02", " " "15", ":" "04", ":" "05". After the last
one the layout is empty and `nextStdChunk` reports no further element. -/
def dateTimeChunks : List (Bytes × Std × Bytes) :=
  [ ([], Std.stdLongYear, [50, 48, 48, 54]),
    ([45], Std.stdZeroMonth, [48, 49]),
    ([45], Std.stdZeroDay, [48, 50]),
    ([32], Std.stdHour, [49, 53]),
    ([58], Std.stdZeroMinute, [48, 52]),
    ([58], Std.stdZeroSecond, [48, 53]) ]

/-- The variables of `parse` that hold the time being constructed. -/
structure Fields where
  year : Int
  month : Int
  day : Int
  hour : Int
  min : Int
  sec : Int
  nsec : Int
deriving DecidableEq, Repr

/-- Their initial values in `parse`. -/
def Fields.init : Fields :=
  { year := 0, month := -1, day := -1, hour := 0, min := 0, sec := 0, nsec := 0 }

/-- One pass through the `switch std & stdMask` of `parse`, for the elements of
`time.DateTime`: the rest of the value, the updated variables,
`rangeErrString` and whether `err != nil`. -/
def parseStd (std : Std) (value : Bytes) (f : Fields) : Bytes × Fields × String × Bool :=
  match std with
  | Std.stdLongYear =>
    if value.length < 4 ∨ !isDigit value 0 then (value, f, "", true)
    else
      match atoi (value.take 4) with
      | (year, err) => (value.drop 4, { f with year := year }, "", err)
  | Std.stdZeroMonth =>
    match getnum value true with
    | (month, rest, err) =>
      (rest, { f with month := month },
        if !err ∧ (month ≤ 0 ∨ 12 < month) then "month" else "", err)
  | Std.stdZeroDay =>
    match getnum value true with
    | (day, rest, err) => (rest, { f with day := day }, "", err)
  | Std.stdHour =>
    match getnum value false with
    | (hour, rest, err) =>
      (rest, { f with hour := hour }, if hour < 0 ∨ 24 ≤ hour then "hour" else "", err)
  | Std.stdZeroMinute =>
    match getnum value true with
    | (min, rest, err) =>
      (rest, { f with min := min }, if min < 0 ∨ 60 ≤ min then "minute" else "", err)
  | Std.stdZeroSecond =>
    match getnum value true with
    | (sec, rest, err) =>
      if err then (rest, { f with sec := sec }, "", true)
      else if sec < 0 ∨ 60 ≤ sec then (rest, { f with sec := sec }, "second", false)
      else if rest.length ≥ 2 ∧ commaOrPeriod (rest.getD 0 0) ∧ isDigit rest 1 then
        -- a fractional second in the input and none in the layout
        let n := scanDigits (rest.drop 2) 2
        match parseNanoseconds rest n with
        | (nsec, rangeErrString, err1) =>
          (rest.drop n, { f with sec := sec, nsec := nsec }, rangeErrString, err1)
      else (rest, { f with sec := sec }, "", false)

/-- The loop `for { ... }` of `parse` over the chunks of the layout that are
still to be processed; `avalue` is the whole text, for error reports. -/
def parse.loop (avalue : Bytes) : List (Bytes × Std × Bytes) → Bytes → Fields →
    Except ParseError (Bytes × Fields)
  | [], value, f =>
    -- the layout is used up: `prefix` is empty and `std == 0`
    if value.length ≠ 0 then
      Except.error { Layout := DateTimeLayout, Value := avalue, LayoutElem := [],
                     ValueElem := value, Message := ParseMessage.extraText value }
    else Except.ok (value, f)
  | (pre, std, stdstr) :: chunks, value, f =>
    match skip value pre with
    | (value1, true) =>
      Except.error { Layout := DateTimeLayout, Value := avalue, LayoutElem := pre,
                     ValueElem := value1, Message := ParseMessage.empty }
    | (value1, false) =>
      match parseStd std value1 f with
      | (value2, f2, rangeErrString, err) =>
        if rangeErrString ≠ "" then
          Except.error { Layout := DateTimeLayout, Value := avalue, LayoutElem := stdstr,
                         ValueElem := value2,
                         Message := ParseMessage.outOfRange rangeErrString }
        else if err then
          Except.error { Layout := DateTimeLayout, Value := avalue, LayoutElem := stdstr,
                         ValueElem := value1, Message := ParseMessage.empty }
        else parse.loop avalue chunks value2 f2

/-- Go `parse(time.DateTime, value, UTC, Local)`: the loop over the layout, then
the defaults for an absent month or day, the validation of the day of the
month and the construction of the time. -/
def parse (value : Bytes) : Time × Option ParseError :=
  match parse.loop value dateTimeChunks value Fields.init with
  | Except.error e => (Time.zero, some e)
  | Except.ok (rest, f) =>
    let month := if f.month < 0 then 1 else f.month
    let day := if f.day < 0 then 1 else f.day
    if day < 1 ∨ day > daysIn month f.year then
      (Time.zero, some { Layout := DateTimeLayout, Value := value, LayoutElem := [],
                         ValueElem := rest, Message := ParseMessage.outOfRange "day" })
    else (Date f.year month day f.hour f.min f.sec f.nsec, none)

/-- Go `time.Parse(time.DateTime, value)`: the parsed time and the error (`none`
is a nil error). On failure the time is the zero `time.Time{}`. -/
def Parse (value : Bytes) : Time × Option ParseError := parse value

/-- DateTime wraps `*time.Time`; `none` is the nil pointer. -/
structure DateTime where
  Time : Option Time
deriving DecidableEq, Repr

/-- UnmarshalJSON parses a date-time string in "2006-01-02 15:04:05" format:
the wrapper after the call and the returned error. -/
def DateTime.UnmarshalJSON (t : DateTime) (data : Bytes) : DateTime × Option ParseError :=
  if data.length < 7 then (t, none)
  else
    let data1 := (data.take (data.length - 1)).drop 1
    match Parse data1 with
    | (ts, err) => ({ Time := some ts }, err)

/-! ## Texts of dates and times, as the specification words them -/

/-- A byte is a decimal digit. -/
def digitByte (c : Nat) : Prop := 48 ≤ c ∧ c ≤ 57

/-- The number written by two digit bytes. -/
def num2 (a b : Nat) : Nat := (a - 48) * 10 + (b - 48)

/-- The number written by four digit bytes. -/
def num4 (a b c d : Nat) : Nat := (((a - 48) * 10 + (b - 48)) * 10 + (c - 48)) * 10 + (d - 48)

/-- A fractional second in the text: nothing, or `.` or `,` followed by one
or more digits. -/
def fractionText (frac : Bytes) : Prop :=
  frac = [] ∨ ∃ p d ds, frac = p :: d :: ds ∧ (p = 46 ∨ p = 44) ∧ ∀ c ∈ d :: ds, digitByte c

/-- An hour in the text: one digit or two digits, writing the number `h`. -/
def hourText (hh : Bytes) (h : Nat) : Prop :=
  (∃ a, hh = [a] ∧ digitByte a ∧ h = a - 48)
  ∨ (∃ a b, hh = [a, b] ∧ digitByte a ∧ digitByte b ∧ h = num2 a b)

/-- Leap years of the Gregorian calendar. -/
def leapYear (y : Nat) : Bool := y % 4 == 0 && (y % 100 != 0 || y % 400 == 0)

/-- The number of days of month `m` of year `y` in the Gregorian calendar. -/
def daysInMonth (y m : Nat) : Nat :=
  if m = 2 then (if leapYear y then 29 else 28)
  else if m = 4 ∨ m = 6 ∨ m = 9 ∨ m = 11 then 30
  else 31

/-- The fields are those of a date and time of day that exist. -/
def validCalendar (y m d h mi s : Nat) : Prop :=
  1 ≤ m ∧ m ≤ 12 ∧ 1 ≤ d ∧ d ≤ daysInMonth y m ∧ h ≤ 23 ∧ mi ≤ 59 ∧ s ≤ 59

/-- The texts `time.Parse` accepts for the layout "2006-01-02 15:04:05":
`YYYY-MM-DD`, one or more spaces, `H` or `HH`, `:MM:SS`, and optionally a
fractional second, the numbers being those of an existing date and time. -/
def lenientDateTimeText (s : Bytes) : Prop :=
  ∃ (y1 y2 y3 y4 m1 m2 d1 d2 k : Nat) (hh : Bytes) (h n1 n2 s1 s2 : Nat) (frac : Bytes),
    s = y1 :: y2 :: y3 :: y4 :: 45 :: m1 :: m2 :: 45 :: d1 :: d2 ::
          (List.replicate (k + 1) 32 ++ (hh ++ 58 :: n1 :: n2 :: 58 :: s1 :: s2 :: frac))
    ∧ digitByte y1 ∧ digitByte y2 ∧ digitByte y3 ∧ digitByte y4
    ∧ digitByte m1 ∧ digitByte m2 ∧ digitByte d1 ∧ digitByte d2
    ∧ hourText hh h
    ∧ digitByte n1 ∧ digitByte n2 ∧ digitByte s1 ∧ digitByte s2
    ∧ fractionText frac
    ∧ validCalendar (num4 y1 y2 y3 y4) (num2 m1 m2) (num2 d1 d2) h (num2 n1 n2) (num2 s1 s2)

/-- The text between the first and the last byte of the input, `data[1 : len(data)-1]`. -/
def innerText (data : Bytes) : Bytes := (data.take (data.length - 1)).drop 1

/-- The fixed format "YYYY-MM-DD HH:MM:SS" read literally: nineteen bytes,
a digit wherever the format has a letter and the format's own `-`, space and
`:` elsewhere. -/
def fixedFormatText (s : Bytes) : Bool :=
  s.length == 19
  && [0, 1, 2, 3, 5, 6, 8, 9, 11, 12, 14, 15, 17, 18].all (fun i => isDigit s i)
  && s.getD 4 0 == 45 && s.getD 7 0 == 45 && s.getD 10 0 == 32
  && s.getD 13 0 == 58 && s.getD 16 0 == 58

/-- The two-digit decimal text of `n`, zero padded. -/
def digits2 (n : Nat) : Bytes := [48 + n / 10 % 10, 48 + n % 10]

/-- The four-digit decimal text of `n`, zero padded. -/
def digits4 (n : Nat) : Bytes :=
  [48 + n / 1000 % 10, 48 + n / 100 % 10, 48 + n / 10 % 10, 48 + n % 10]

/-- The text "YYYY-MM-DD HH:MM:SS" of the given fields. -/
def formatDateTime (y m d h mi s : Nat) : Bytes :=
  digits4 y ++ [45] ++ digits2 m ++ [45] ++ digits2 d ++ [32] ++ digits2 h ++ [58]
    ++ digits2 mi ++ [58] ++ digits2 s

/-- A text written as a double-quoted string. -/
def quoted (s : Bytes) : Bytes := [34] ++ s ++ [34]

/-! ## Package `unicode/utf8` and `unicode/utf16`, as used by `encoding/json` -/

/-- The rune `utf8.RuneError`, U+FFFD. -/
def utf8.RuneError : Nat := 65533

/-- The table `first` of package `utf8`: for a leading byte, the kind of
sequence it starts. The value 240 (`as`) is ASCII, 241 (`xx`) is invalid; for
the others the low three bits are the length of the sequence and the high four
bits index `acceptRanges`. -/
def utf8.first (b : Nat) : Nat :=
  if b < 128 then 240
  else if b < 194 then 241
  else if b < 224 then 2
  else if b = 224 then 19
  else if b < 237 then 3
  else if b = 237 then 35
  else if b < 240 then 3
  else if b = 240 then 52
  else if b < 244 then 4
  else if b = 244 then 68
  else 241

/-- The table `acceptRanges`: the range allowed for the second byte. -/
def utf8.acceptRanges (i : Nat) : Nat × Nat :=
  if i = 0 then (128, 191)
  else if i = 1 then (160, 191)
  else if i = 2 then (128, 159)
  else if i = 3 then (144, 191)
  else if i = 4 then (128, 143)
  else (0, 0)

/-- Go `utf8.DecodeRune(p)`: the first rune of `p` and its width in bytes; an
invalid encoding gives `(RuneError, 1)` and an empty input `(RuneError, 0)`. -/
def utf8.DecodeRune (p : Bytes) : Nat × Nat :=
  match p with
  | [] => (utf8.RuneError, 0)
  | p0 :: rest =>
    let x := utf8.first p0
    if x ≥ 240 then (if x = 241 then utf8.RuneError else p0, 1)
    else
      let sz := x % 8
      let accept := utf8.acceptRanges (x / 16)
      if p.length < sz then (utf8.RuneError, 1)
      else
        let b1 := rest.getD 0 0
        if b1 < accept.1 ∨ accept.2 < b1 then (utf8.RuneError, 1)
        else if sz ≤ 2 then ((p0 % 32) * 64 + b1 % 64, 2)
        else
          let b2 := rest.getD 1 0
          if b2 < 128 ∨ 191 < b2 then (utf8.RuneError, 1)
          else if sz ≤ 3 then ((p0 % 16) * 4096 + (b1 % 64) * 64 + b2 % 64, 3)
          else
            let b3 := rest.getD 2 0
            if b3 < 128 ∨ 191 < b3 then (utf8.RuneError, 1)
            else ((p0 % 8) * 262144 + (b1 % 64) * 4096 + (b2 % 64) * 64 + b3 % 64, 4)

/-- The three-byte encoding used by `utf8.EncodeRune`. -/
def utf8.encode3 (r : Nat) : Bytes := [224 + r / 4096, 128 + r / 64 % 64, 128 + r % 64]

/-- Go `utf8.EncodeRune`: the UTF-8 encoding of the rune; a surrogate or a
rune above U+10FFFF is encoded as `RuneError`. -/
def utf8.EncodeRune (r : Nat) : Bytes :=
  if r ≤ 127 then [r]
  else if r ≤ 2047 then [192 + r / 64, 128 + r % 64]
  else if r > 1114111 ∨ (55296 ≤ r ∧ r ≤ 57343) then utf8.encode3 utf8.RuneError
  else if r ≤ 65535 then utf8.encode3 r
  else [240 + r / 262144, 128 + r / 4096 % 64, 128 + r / 64 % 64, 128 + r % 64]

/-- Go `utf16.IsSurrogate(r)`. -/
def utf16.IsSurrogate (r : Nat) : Bool := decide (55296 ≤ r ∧ r < 57344)

/-- Go `utf16.DecodeRune(r1, r2)`: the rune of a surrogate pair, or U+FFFD when
the pair is not valid. The second argument is an `Int` because `getu4`
reports a missing escape as `-1`. -/
def utf16.DecodeRune (r1 : Nat) (r2 : Int) : Nat :=
  if 55296 ≤ r1 ∧ r1 < 56320 ∧ 56320 ≤ r2 ∧ r2 < 57344 then
    (r1 - 55296) * 1024 + (r2.toNat - 56320) + 65536
  else 65533

/-! ## Package `encoding/json`: decoding into a `string` -/

/-- Go `isSpace(c)` of the JSON scanner. -/
def json.isSpace (c : Nat) : Bool := c == 32 || c == 9 || c == 13 || c == 10

/-- The value of a hexadecimal digit, or `none`. -/
def json.hexVal (c : Nat) : Option Nat :=
  if 48 ≤ c ∧ c ≤ 57 then some (c - 48)
  else if 97 ≤ c ∧ c ≤ 102 then some (c - 97 + 10)
  else if 65 ≤ c ∧ c ≤ 70 then some (c - 65 + 10)
  else none

/-- Go `getu4(s)`: the rune of the escape `\uXXXX` at the start of `s`, or `-1`. -/
def json.getu4 (s : Bytes) : Int :=
  match s with
  | 92 :: 117 :: a :: b :: c :: d :: _ =>
    match json.hexVal a, json.hexVal b, json.hexVal c, json.hexVal d with
    | some x, some y, some z, some w => (((x * 16 + y) * 16 + z) * 16 + w : Nat)
    | _, _, _, _ => -1
  | _ => -1

/-- The scanner states `stateInString`, `stateInStringEsc` and
`stateInStringEscU…` run from just after an opening quote: the raw text up to
the closing quote and the input after it, or `none` when the scanner reports
a syntax error (a control character, an unknown escape, a bad `\u` escape or
no closing quote). -/
def json.scanString : Bytes → Option (Bytes × Bytes)
  | [] => none
  | c :: rest =>
    if c = 34 then some ([], rest)
    else if c = 92 then
      match rest with
      | [] => none
      | e :: rest1 =>
        if e = 98 ∨ e = 102 ∨ e = 110 ∨ e = 114 ∨ e = 116 ∨ e = 92 ∨ e = 47 ∨ e = 34 then
          (json.scanString rest1).map (fun r => (c :: e :: r.1, r.2))
        else if e = 117 then
          match rest1 with
          | a :: b :: x :: d :: rest2 =>
            if (json.hexVal a).isSome ∧ (json.hexVal b).isSome ∧ (json.hexVal x).isSome
                ∧ (json.hexVal d).isSome then
              (json.scanString rest2).map (fun r => (c :: e :: a :: b :: x :: d :: r.1, r.2))
            else none
          | _ => none
        else none
    else if c < 32 then none
    else (json.scanString rest).map (fun r => (c :: r.1, r.2))

/-- The first loop of `unquoteBytes`: whether the text has no backslash, no
quote, no control character and no invalid UTF-8, so that it needs no
unquoting. The first argument bounds the iterations by the length. -/
def json.unquotePlain : Nat → Bytes → Bool
  | _, [] => true
  | 0, _ :: _ => false
  | fuel + 1, c :: rest =>
    if c = 92 ∨ c = 34 ∨ c < 32 then false
    else if c < 128 then json.unquotePlain fuel rest
    else
      match utf8.DecodeRune (c :: rest) with
      | (rr, size) =>
        if rr = utf8.RuneError ∧ size = 1 then false
        else json.unquotePlain fuel ((c :: rest).drop size)

/-- The second loop of `unquoteBytes`: the text with its escapes replaced and
coerced to well-formed UTF-8, or `none` where `unquoteBytes` reports failure.
The first argument bounds the iterations by the length. -/
def json.unquoteSlow : Nat → Bytes → Option Bytes
  | _, [] => some []
  | 0, _ :: _ => none
  | fuel + 1, c :: rest =>
    if c = 92 then
      match rest with
      | [] => none
      | e :: rest1 =>
        if e = 34 ∨ e = 92 ∨ e = 47 ∨ e = 39 then (json.unquoteSlow fuel rest1).map (e :: ·)
        else if e = 98 then (json.unquoteSlow fuel rest1).map (8 :: ·)
        else if e = 102 then (json.unquoteSlow fuel rest1).map (12 :: ·)
        else if e = 110 then (json.unquoteSlow fuel rest1).map (10 :: ·)
        else if e = 114 then (json.unquoteSlow fuel rest1).map (13 :: ·)
        else if e = 116 then (json.unquoteSlow fuel rest1).map (9 :: ·)
        else if e = 117 then
          let rr := json.getu4 (c :: rest)
          if rr < 0 then none
          else
            let after := (c :: rest).drop 6
            if utf16.IsSurrogate rr.toNat then
              let dec := utf16.DecodeRune rr.toNat (json.getu4 after)
              if dec ≠ 65533 then
                (json.unquoteSlow fuel (after.drop 6)).map (utf8.EncodeRune dec ++ ·)
              else (json.unquoteSlow fuel after).map (utf8.EncodeRune 65533 ++ ·)
            else (json.unquoteSlow fuel after).map (utf8.EncodeRune rr.toNat ++ ·)
        else none
    else if c = 34 ∨ c < 32 then none
    else if c < 128 then (json.unquoteSlow fuel rest).map (c :: ·)
    else
      match utf8.DecodeRune (c :: rest) with
      | (rr, size) =>
        (json.unquoteSlow fuel ((c :: rest).drop size)).map (utf8.EncodeRune rr ++ ·)

/-- Go `unquoteBytes` applied to a string literal, given the text between its
quotes. -/
def json.unquote (s : Bytes) : Option Bytes :=
  if json.unquotePlain s.length s then some s else json.unquoteSlow s.length s

/-- The outcome of `json.Unmarshal(data, &aux)` for a `string` variable `aux`. -/
inductive json.StringResult where
  /-- An error is returned and `aux` is not assigned: the input is not valid
  JSON, or it is a JSON value other than a string or `null`. -/
  | error
  /-- The input is `null`: no error, `aux` is not assigned. -/
  | null
  /-- The input is a string literal: no error, `aux` is assigned its content. -/
  | str (s : Bytes)
deriving DecidableEq, Repr

/-- Leading JSON white space removed. -/
def json.skipSpace : Bytes → Bytes
  | [] => []
  | c :: rest => if json.isSpace c then json.skipSpace rest else c :: rest

/-- Go `json.Unmarshal(data, &aux)` with `aux` a `string`: the input must be one
JSON value surrounded by optional white space (`checkValid`); a string
literal is unquoted and stored, `null` stores nothing, and every other value
is a type error. -/
def json.UnmarshalString (data : Bytes) : json.StringResult :=
  match json.skipSpace data with
  | 34 :: rest =>
    match json.scanString rest with
    | none => json.StringResult.error
    | some (body, after) =>
      if json.skipSpace after = [] then
        match json.unquote body with
        | some s => json.StringResult.str s
        | none => json.StringResult.error
      else json.StringResult.error
  | 110 :: 117 :: 108 :: 108 :: after =>
    if json.skipSpace after = [] then json.StringResult.null else json.StringResult.error
  | _ => json.StringResult.error

/-! ## Package `github.com/google/uuid` -/

/-- A `uuid.UUID`, Go `[16]byte`: its sixteen byte values. -/
abbrev uuid.UUID := List Nat

/-- The errors `uuid.Parse` returns. -/
inductive uuid.ParseError where
  /-- The error `invalidLengthError{len}`. -/
  | invalidLength (len : Nat)
  /-- The error "invalid urn prefix". -/
  | invalidUrnPrefix (text : Bytes)
  /-- The error "invalid UUID format". -/
  | invalidFormat
deriving DecidableEq, Repr

/-- The table `xvalues`: the value of a hexadecimal digit, 255 for any other byte. -/
def uuid.xvalues (c : Nat) : Nat :=
  if 48 ≤ c ∧ c ≤ 57 then c - 48
  else if 97 ≤ c ∧ c ≤ 102 then c - 97 + 10
  else if 65 ≤ c ∧ c ≤ 70 then c - 65 + 10
  else 255

/-- Go `xtob(x1, x2)`: the byte written by two hexadecimal digits and whether
both were digits; the byte is `(b1 << 4) | b2` truncated to eight bits. -/
def uuid.xtob (x1 x2 : Nat) : Nat × Bool :=
  (((uuid.xvalues x1 <<< 4) ||| uuid.xvalues x2) % 256,
    uuid.xvalues x1 != 255 && uuid.xvalues x2 != 255)

/-- The loops `for i := range uuid` and `for i, x := range [16]int{...}` of
`Parse`: byte `i` of the result is read from the two digits at the `i`-th
offset, and the first pair that is not two digits ends the parse with
"invalid UUID format". -/
def uuid.parseBytes (s : Bytes) : List Nat → Except uuid.ParseError uuid.UUID
  | [] => Except.ok []
  | x :: offsets =>
    match uuid.xtob (s.getD x 0) (s.getD (x + 1) 0) with
    | (_, false) => Except.error uuid.ParseError.invalidFormat
    | (v, true) =>
      match uuid.parseBytes s offsets with
      | Except.error e => Except.error e
      | Except.ok rest => Except.ok (v :: rest)

/-- The offsets of the sixteen digit pairs in the form
`xxxxxxxx-xxxx-xxxx-xxxx-xxxxxxxxxxxx`. -/
def uuid.hyphenatedOffsets : List Nat :=
  [0, 2, 4, 6, 9, 11, 14, 16, 19, 21, 24, 26, 28, 30, 32, 34]

/-- The offsets of the sixteen digit pairs in the raw form of 32 digits, `i*2`. -/
def uuid.rawOffsets : List Nat :=
  [0, 2, 4, 6, 8, 10, 12, 14, 16, 18, 20, 22, 24, 26, 28, 30]

/-- ASCII lower case of a byte. -/
def asciiLower (c : Nat) : Nat := if 65 ≤ c ∧ c ≤ 90 then c + 32 else c

/-- The text "urn:uuid:". -/
def uuid.urnText : Bytes := [117, 114, 110, 58, 117, 117, 105, 100, 58]

/-- Go `uuid.Parse(s)`. The length selects the form: 36 bytes hyphenated,
45 bytes with the prefix "urn:uuid:" (compared without regard to case),
38 bytes with one byte before and one after (neither is examined), 32 bytes
raw digits. The array Go returns beside an error is dropped by every
caller and is not represented. -/
def uuid.Parse (s : Bytes) : Except uuid.ParseError uuid.UUID :=
  let hyphenated (t : Bytes) : Except uuid.ParseError uuid.UUID :=
    if t.getD 8 0 ≠ 45 ∨ t.getD 13 0 ≠ 45 ∨ t.getD 18 0 ≠ 45 ∨ t.getD 23 0 ≠ 45 then
      Except.error uuid.ParseError.invalidFormat
    else uuid.parseBytes t uuid.hyphenatedOffsets
  if s.length = 36 then hyphenated s
  else if s.length = 36 + 9 then
    if (s.take 9).map asciiLower ≠ uuid.urnText then
      Except.error (uuid.ParseError.invalidUrnPrefix (s.take 9))
    else hyphenated (s.drop 9)
  else if s.length = 36 + 2 then hyphenated (s.drop 1)
  else if s.length = 32 then uuid.parseBytes s uuid.rawOffsets
  else Except.error (uuid.ParseError.invalidLength s.length)

/-- The table `hextable` of package `encoding/hex`, "0123456789abcdef". -/
def hex.hextable (n : Nat) : Nat := if n < 10 then 48 + n else 87 + n

/-- Go `hex.Encode`: two lower-case hexadecimal digits for every byte. -/
def hex.Encode : Bytes → Bytes
  | [] => []
  | v :: rest => hex.hextable (v / 16) :: hex.hextable (v % 16) :: hex.Encode rest

/-- Go `uuid.UUID.String()` (through `encodeHex`): the form
`xxxxxxxx-xxxx-xxxx-xxxx-xxxxxxxxxxxx`. -/
def uuid.UUID.String (u : uuid.UUID) : Bytes :=
  hex.Encode (u.take 4) ++ [45] ++ hex.Encode ((u.drop 4).take 2) ++ [45]
    ++ hex.Encode ((u.drop 6).take 2) ++ [45] ++ hex.Encode ((u.drop 8).take 2) ++ [45]
    ++ hex.Encode (u.drop 10)

/-! ## uuid.go -/

/-- The errors `UUID.UnmarshalJSON` returns: the error of `json.Unmarshal` or
the error of `uuid.Parse`. -/
inductive UUIDError where
  | json
  | parse (e : uuid.ParseError)
deriving DecidableEq, Repr

/-- UUID wraps `*uuid.UUID`; `none` is the nil pointer. -/
structure UUID where
  Value : Option uuid.UUID
deriving DecidableEq, Repr

/-- UnmarshalJSON parses a JSON string into a uuid.UUID: the wrapper after the
call and the returned error. `aux` starts as the empty string and is assigned
only when the input is a string literal. -/
def UUID.UnmarshalJSON (u : UUID) (data : Bytes) : UUID × Option UUIDError :=
  if data.length < 7 then (u, none)
  else
    match json.UnmarshalString data with
    | json.StringResult.error => (u, some UUIDError.json)
    | r =>
      let aux : Bytes := match r with
        | json.StringResult.str s => s
        | _ => []
      match uuid.Parse aux with
      | Except.error e => (u, some (UUIDError.parse e))
      | Except.ok id => ({ Value := some id }, none)

/-- String returns the UUID string representation, or empty string if nil. -/
def UUID.String (u : UUID) : Bytes :=
  match u.Value with
  | none => []
  | some id => id.String

/-! ## Texts of UUIDs, as the specification words them -/

/-- A hexadecimal digit of either case. -/
def hexDigit (c : Nat) : Bool :=
  (decide (48 ≤ c) && decide (c ≤ 57)) || (decide (97 ≤ c) && decide (c ≤ 102))
    || (decide (65 ≤ c) && decide (c ≤ 70))

/-- A lower-case hexadecimal digit. -/
def lowerHexDigit (c : Nat) : Bool :=
  (decide (48 ≤ c) && decide (c ≤ 57)) || (decide (97 ≤ c) && decide (c ≤ 102))

/-- The positions of the 32 digits in the form `xxxxxxxx-xxxx-xxxx-xxxx-xxxxxxxxxxxx`. -/
def uuidDigitPositions : List Nat :=
  [0, 1, 2, 3, 4, 5, 6, 7, 9, 10, 11, 12, 14, 15, 16, 17, 19, 20, 21, 22,
   24, 25, 26, 27, 28, 29, 30, 31, 32, 33, 34, 35]

/-- The first 36 bytes of the text have hyphens at positions 8, 13, 18 and 23
and digits of the given kind everywhere else. -/
def hyphenatedAt (digit : Nat → Bool) (t : Bytes) : Bool :=
  t.getD 8 0 == 45 && t.getD 13 0 == 45 && t.getD 18 0 == 45 && t.getD 23 0 == 45
    && uuidDigitPositions.all (fun i => digit (t.getD i 0))

/-- The canonical lower-case form: 36 bytes `xxxxxxxx-xxxx-xxxx-xxxx-xxxxxxxxxxxx`
with lower-case hexadecimal digits. -/
def canonicalUUIDText (s : Bytes) : Bool := s.length == 36 && hyphenatedAt lowerHexDigit s

/-- UUID text in one of the four customary forms, with digits of either case:
hyphenated; hyphenated after "urn:uuid:"; hyphenated between `{` and `}`; 32
digits without hyphens. -/
def standardUUIDText (s : Bytes) : Bool :=
  (s.length == 36 && hyphenatedAt hexDigit s)
  || (s.length == 45 && (s.take 9).map asciiLower == uuid.urnText
        && hyphenatedAt hexDigit (s.drop 9))
  || (s.length == 38 && s.getD 0 0 == 123 && s.getD 37 0 == 125
        && hyphenatedAt hexDigit (s.drop 1))
  || (s.length == 32 && s.all hexDigit)

/-- The texts `uuid.Parse` accepts: the four customary forms, except that in
the 38-byte form the byte before and the byte after the hyphenated text may
be any bytes. -/
def acceptedUUIDText (s : Bytes) : Bool :=
  (s.length == 36 && hyphenatedAt hexDigit s)
  || (s.length == 45 && (s.take 9).map asciiLower == uuid.urnText
        && hyphenatedAt hexDigit (s.drop 9))
  || (s.length == 38 && hyphenatedAt hexDigit (s.drop 1))
  || (s.length == 32 && s.all hexDigit)

/-- A byte that a JSON string literal holds as itself: printable ASCII other
than the quote and the backslash. -/
def plainByte (c : Nat) : Bool :=
  decide (32 ≤ c) && decide (c < 128) && decide (c ≠ 34) && decide (c ≠ 92)

/-! ## Package `encoding/json`: the syntax of a JSON text -/

/-- A JSON value as the decoder reads it. A string is held unquoted; a number
is held as its literal text (decoded into `interface{}` it becomes the
`float64` that text denotes). -/
inductive json.Value where
  | null
  | bool (b : Bool)
  | number (lit : Bytes)
  | string (s : Bytes)
  | array (items : List json.Value)
  | object (members : List (Bytes × json.Value))

/-- The leading decimal digits of a text and what follows them. -/
def json.spanDigits : Bytes → Bytes × Bytes
  | [] => ([], [])
  | c :: rest =>
    if 48 ≤ c ∧ c ≤ 57 then ((json.spanDigits rest).1.cons c, (json.spanDigits rest).2)
    else ([], c :: rest)

/-- The exponent part of a number literal (`e` or `E`, an optional sign and
digits) at the start of the text, if there is one: the part and the rest;
`none` when the part is begun and not completed. -/
def json.scanExponent (s : Bytes) : Option (Bytes × Bytes) :=
  match s with
  | e :: rest =>
    if e = 101 ∨ e = 69 then
      let signed : Bytes × Bytes := match rest with
        | c :: r => if c = 43 ∨ c = 45 then ([c], r) else ([], rest)
        | [] => ([], [])
      match json.spanDigits signed.2 with
      | ([], _) => none
      | (ds, r) => some (e :: (signed.1 ++ ds), r)
    else some ([], s)
  | [] => some ([], [])

/-- The fraction part of a number literal (`.` and digits) at the start of the
text, if there is one; `none` when no digit follows the point. -/
def json.scanFraction (s : Bytes) : Option (Bytes × Bytes) :=
  match s with
  | 46 :: rest =>
    match json.spanDigits rest with
    | ([], _) => none
    | (ds, r) => some (46 :: ds, r)
  | _ => some ([], s)

/-- The optional `-` of a number literal and the input after it. -/
def json.scanSign : Bytes → Bytes × Bytes
  | 45 :: r => ([45], r)
  | s => ([], s)

/-- The integer part of a number literal, `0` or a digit `1`–`9` followed by
digits, and the input after it. -/
def json.scanIntPart : Bytes → Option (Bytes × Bytes)
  | c :: r =>
    if c = 48 then some ([48], r)
    else if 49 ≤ c ∧ c ≤ 57 then some (c :: (json.spanDigits r).1, (json.spanDigits r).2)
    else none
  | [] => none

/-- The scanner states for a number: an optional `-`, then `0` or a digit
`1`–`9` followed by digits, then an optional fraction and an optional
exponent. The literal and the input after it. -/
def json.scanNumber (s : Bytes) : Option (Bytes × Bytes) :=
  match json.scanIntPart (json.scanSign s).2 with
  | none => none
  | some (ip, r1) =>
    match json.scanFraction r1 with
    | none => none
    | some (fp, r2) =>
      match json.scanExponent r2 with
      | none => none
      | some (ep, r3) => some ((json.scanSign s).1 ++ ip ++ fp ++ ep, r3)

/-- The constant `maxNestingDepth` of the scanner. -/
def json.maxNestingDepth : Nat := 10000

mutual
/-- One JSON value at the start of the text, after optional white space: the
value and the input after it, or `none` for a syntax error. The first
argument bounds the recursion and is started above the length of the text;
the second is the number of arrays and objects that are open. -/
def json.parseValue : Nat → Nat → Bytes → Option (json.Value × Bytes)
  | 0, _, _ => none
  | fuel + 1, depth, s =>
    match json.skipSpace s with
    | [] => none
    | c :: rest =>
      if c = 123 then
        if depth + 1 > json.maxNestingDepth then none
        else
          match json.skipSpace rest with
          | 125 :: rest1 => some (json.Value.object [], rest1)
          | _ =>
            (json.parseMembers fuel (depth + 1) rest).map
              (fun r => (json.Value.object r.1, r.2))
      else if c = 91 then
        if depth + 1 > json.maxNestingDepth then none
        else
          match json.skipSpace rest with
          | 93 :: rest1 => some (json.Value.array [], rest1)
          | _ =>
            (json.parseElements fuel (depth + 1) rest).map
              (fun r => (json.Value.array r.1, r.2))
      else if c = 34 then
        match json.scanString rest with
        | none => none
        | some (body, rest1) => (json.unquote body).map (fun t => (json.Value.string t, rest1))
      else if c = 45 ∨ (48 ≤ c ∧ c ≤ 57) then
        (json.scanNumber (c :: rest)).map (fun r => (json.Value.number r.1, r.2))
      else
        match c :: rest with
        | 116 :: 114 :: 117 :: 101 :: rest1 => some (json.Value.bool true, rest1)
        | 102 :: 97 :: 108 :: 115 :: 101 :: rest1 => some (json.Value.bool false, rest1)
        | 110 :: 117 :: 108 :: 108 :: rest1 => some (json.Value.null, rest1)
        | _ => none
/-- The members of an object from its first key on: `"key" : value`, then
either `,` and more members or the closing brace. -/
def json.parseMembers : Nat → Nat → Bytes → Option (List (Bytes × json.Value) × Bytes)
  | 0, _, _ => none
  | fuel + 1, depth, s =>
    match json.skipSpace s with
    | 34 :: rest =>
      match json.scanString rest with
      | none => none
      | some (body, rest1) =>
        match json.unquote body, json.skipSpace rest1 with
        | some key, 58 :: rest2 =>
          match json.parseValue fuel depth rest2 with
          | none => none
          | some (v, rest3) =>
            match json.skipSpace rest3 with
            | 44 :: rest4 =>
              (json.parseMembers fuel depth rest4).map (fun r => ((key, v) :: r.1, r.2))
            | 125 :: rest4 => some ([(key, v)], rest4)
            | _ => none
        | _, _ => none
    | _ => none
/-- The elements of an array from its first element on: a value, then either
`,` and more elements or the closing bracket. -/
def json.parseElements : Nat → Nat → Bytes → Option (List json.Value × Bytes)
  | 0, _, _ => none
  | fuel + 1, depth, s =>
    match json.parseValue fuel depth s with
    | none => none
    | some (v, rest) =>
      match json.skipSpace rest with
      | 44 :: rest1 => (json.parseElements fuel depth rest1).map (fun r => (v :: r.1, r.2))
      | 93 :: rest1 => some ([v], rest1)
      | _ => none
end

/-- Go `checkValid` together with the reading of the value: the text must be
one JSON value with nothing but white space after it. -/
def json.parse (data : Bytes) : Option json.Value :=
  match json.parseValue (data.length + 1) 0 data with
  | none => none
  | some (v, rest) => if json.skipSpace rest = [] then some v else none

/-- The number written by decimal digits. -/
def decimalValue : Bytes → Nat → Nat
  | [], acc => acc
  | c :: rest, acc => decimalValue rest (acc * 10 + (c - 48))

/-- The number `2^1024 - 2^970`, half way between the largest `float64` and
`2^1024`, written out. -/
def json.float64Limit : Nat :=
  179769313486231580793728971405303415079934132710037826936173778980444968292764750946649017977587207096330286416692887910946555547851940402630657488671505820681908902000708383676273854845817711531764475730270069855571366959622842914819860834936475292719074168444365510704342711559699508093042880177904174497792

/-- Whether `strconv.ParseFloat(lit, 64)` reports a range error for a JSON
number literal: the number rounds to infinity, that is, its magnitude is at
least `2^1024 - 2^970`, half way between the largest `float64` and `2^1024`.
The magnitude is `mantissa * 10^(exponent - fraction digits)`. -/
def json.floatOverflows (lit : Bytes) : Bool :=
  let unsigned : Bytes := match lit with
    | 45 :: r => r
    | _ => lit
  let ip := (json.spanDigits unsigned).1
  let afterInt := (json.spanDigits unsigned).2
  let fp : Bytes := match afterInt with
    | 46 :: r => (json.spanDigits r).1
    | _ => []
  let afterFrac : Bytes := match afterInt with
    | 46 :: r => (json.spanDigits r).2
    | _ => afterInt
  let expNeg : Bool := match afterFrac with
    | _ :: 45 :: _ => true
    | _ => false
  let expDigits : Bytes := match afterFrac with
    | _ :: c :: r => if c = 43 ∨ c = 45 then r else c :: r
    | _ => []
  let mantissa := decimalValue (ip ++ fp) 0
  let e := decimalValue expDigits 0
  let limit := json.float64Limit
  if expNeg then decide (mantissa ≥ limit * 10 ^ (e + fp.length))
  else if e ≥ fp.length then decide (mantissa * 10 ^ (e - fp.length) ≥ limit)
  else decide (mantissa ≥ limit * 10 ^ (fp.length - e))

mutual
/-- Whether some number in the value is out of the range of `float64`. -/
def json.Value.overflows : json.Value → Bool
  | json.Value.number lit => json.floatOverflows lit
  | json.Value.array items => json.Value.overflowsList items
  | json.Value.object members => json.Value.overflowsMembers members
  | _ => false
/-- The same for the elements of an array. -/
def json.Value.overflowsList : List json.Value → Bool
  | [] => false
  | v :: rest => json.Value.overflows v || json.Value.overflowsList rest
/-- The same for the members of an object. -/
def json.Value.overflowsMembers : List (Bytes × json.Value) → Bool
  | [] => false
  | (_, v) :: rest => json.Value.overflows v || json.Value.overflowsMembers rest
end

/-- Go `json.Unmarshal(data, &aux)` with `aux` a `map[string]interface{}` that
is nil: `none` is an error (a syntax error, a top-level value that is neither
an object nor `null`, or a number out of the range of `float64`); otherwise
the members of the object in the order of the text (none for `null`). A key
that occurs again replaces the earlier entry of the map, so the map holds the
last value of each key. -/
def json.UnmarshalMap (data : Bytes) : Option (List (Bytes × json.Value)) :=
  match json.parse data with
  | none => none
  | some json.Value.null => some []
  | some (json.Value.object members) =>
    if json.Value.overflowsMembers members then none else some members
  | some _ => none

/-! ## Package `strconv`: `ParseInt(s, 10, 64)` -/

/-- The error kinds of `*strconv.NumError`: `ErrSyntax` and `ErrRange`. -/
inductive strconv.NumError where
  | ErrSyntax
  | ErrRange
deriving DecidableEq, Repr

/-- The loop of `ParseUint(s, 10, 64)` over the bytes, with `n` the number read
so far: the result and the error. The cutoff is `maxUint64/10 + 1`; a byte
that is not a decimal digit (a letter has a digit value of ten or more, an
underscore is allowed only for base 0) is a syntax error. -/
def strconv.parseUintLoop : Bytes → Nat → Nat × Option strconv.NumError
  | [], n => (n, none)
  | c :: rest, n =>
    if ¬ (48 ≤ c ∧ c ≤ 57) then (0, some strconv.NumError.ErrSyntax)
    else if n ≥ (2 ^ 64 - 1) / 10 + 1 then (2 ^ 64 - 1, some strconv.NumError.ErrRange)
    else if n * 10 + (c - 48) > 2 ^ 64 - 1 then (2 ^ 64 - 1, some strconv.NumError.ErrRange)
    else strconv.parseUintLoop rest (n * 10 + (c - 48))

/-- Go `strconv.ParseUint(s, 10, 64)`. -/
def strconv.ParseUint (s : Bytes) : Nat × Option strconv.NumError :=
  if s = [] then (0, some strconv.NumError.ErrSyntax) else strconv.parseUintLoop s 0

/-- Go `strconv.ParseInt(s, 10, 64)`: an optional sign, then `ParseUint`, then the
range check against `1 << 63`. -/
def strconv.ParseInt (s : Bytes) : Int × Option strconv.NumError :=
  match s with
  | [] => (0, some strconv.NumError.ErrSyntax)
  | c :: rest =>
    let neg := decide (c = 45)
    let s1 := if c = 43 ∨ c = 45 then rest else s
    match strconv.ParseUint s1 with
    | (_, some strconv.NumError.ErrSyntax) => (0, some strconv.NumError.ErrSyntax)
    | (un, _) =>
      if ¬ neg ∧ un ≥ 2 ^ 63 then ((2 : Int) ^ 63 - 1, some strconv.NumError.ErrRange)
      else if neg ∧ un > 2 ^ 63 then (-(2 : Int) ^ 63, some strconv.NumError.ErrRange)
      else (if neg then -(un : Int) else (un : Int), none)

/-! ## Package `strings`: `EqualFold` against an ASCII name -/

/-- Go `strings.EqualFold(s, t)` for a text `t` of ASCII bytes: the runes of `s`
equal the bytes of `t` up to case. Besides the two cases of an ASCII letter,
U+212A (Kelvin sign) folds to `k` and U+017F (long s) folds to `s`; no other
rune outside ASCII folds to an ASCII letter. -/
def strings.EqualFold : Bytes → Bytes → Bool
  | [], [] => true
  | [], _ :: _ => false
  | _ :: _, [] => false
  | b :: s, c :: t =>
    if b < 128 then
      (decide (b = c) || decide (65 ≤ b ∧ b ≤ 90 ∧ c = b + 32)
        || decide (65 ≤ c ∧ c ≤ 90 ∧ b = c + 32))
      && strings.EqualFold s t
    else
      match utf8.DecodeRune (b :: s) with
      | (r, size) =>
        (decide (r = 8490 ∧ (c = 75 ∨ c = 107)) || decide (r = 383 ∧ (c = 83 ∨ c = 115)))
        && strings.EqualFold ((b :: s).drop size) t

/-! ## order.go

`Order.UnmarshalJSON` decodes the text with `json.Unmarshal` into a
`map[string]interface{}` and hands the map to a decoder of
`github.com/mitchellh/mapstructure` configured with the decode hook of the
repository. The part of `mapstructure` that runs for the fields of `Order`
(`decode`, `decodeStructFromMap`, `decodeInt`, `decodeUint`, `decodeString`,
`decodePtr`, `decodeStruct`, `decodeArray`) is embedded below. -/

/-- A Go value held in an `interface{}` on the way through the decoder: a value
`json.Unmarshal` produced (`nil`, `bool`, `float64`, `string`,
`[]interface{}`, `map[string]interface{}`), or one of the values the decode
hook and `mapstructure` produce. -/
inductive GoValue where
  | json (v : json.Value)
  | int (i : Int)
  | int64 (i : Int)
  | uint8 (n : Nat)
  | uuid (id : uuid.UUID)
  | time (t : Time)

/-- The errors the decode hook returns. -/
inductive HookError where
  | number (e : strconv.NumError)
  | uuid (e : uuid.ParseError)
  | time (e : ParseError)
deriving DecidableEq, Repr

/-- The outcome of a call of the decode hook: the returned value with a nil
error, a non-nil error, or a run-time panic of a failed type assertion. -/
inductive HookResult where
  | ok (v : GoValue)
  | error (e : HookError)
  | panic

/-- The decode hook of `Order.UnmarshalJSON`, a function of the name
`t.String()` of the target type and of the source value: `switch t.String()`
with the cases "int64", "uint8", "uuid.UUID" and "time.Time"; the type
assertions `data.(string)` and `data.(uint8)` panic when the source value has
another type; any other target returns the source value. -/
def Order.decodeHook (t : String) (data : GoValue) : HookResult :=
  if t = "int64" then
    match data with
    | GoValue.json (json.Value.string s) =>
      match strconv.ParseInt s with
      | (i, none) => HookResult.ok (GoValue.int64 i)
      | (_, some e) => HookResult.error (HookError.number e)
    | _ => HookResult.panic
  else if t = "uint8" then
    match data with
    | GoValue.uint8 n => HookResult.ok (GoValue.int64 n)
    | _ => HookResult.panic
  else if t = "uuid.UUID" then
    match data with
    | GoValue.json (json.Value.string s) =>
      match uuid.Parse s with
      | Except.ok id => HookResult.ok (GoValue.uuid id)
      | Except.error e => HookResult.error (HookError.uuid e)
    | _ => HookResult.panic
  else if t = "time.Time" then
    match data with
    | GoValue.json (json.Value.string s) =>
      if s = [] then HookResult.ok (GoValue.time Time.zero)
      else
        match Parse s with
        | (ts, none) => HookResult.ok (GoValue.time ts)
        | (_, some e) => HookResult.error (HookError.time e)
    | _ => HookResult.panic
  else HookResult.ok data

/-- Why `mapstructure` reports an error for a field. -/
inductive mapstructure.Cause where
  /-- The text "error decoding '<name>': <hook error>". -/
  | hook (e : HookError)
  /-- The text "'<name>' expected type '<type>', got unconvertible type ...". -/
  | unconvertible
  /-- The text "cannot parse '<name>', <n> overflows uint". -/
  | overflowsUint
deriving DecidableEq, Repr

/-- The outcome of `decode` for one field: the value of the field afterwards
with no error, the value of the field afterwards with an error, or a panic. -/
inductive mapstructure.Step (α : Type) where
  | ok (a : α)
  | failed (a : α) (e : mapstructure.Cause)
  | panic

/-- Whether the input of `decode` is nil, in which case nothing is set. -/
def GoValue.isNil : GoValue → Bool
  | GoValue.json json.Value.null => true
  | _ => false

/-- Go `decode` for a field of type `int64`: nothing for a nil input, else the
hook with target "int64" and `decodeInt` on what it returns (an `int64`, the
only kind the hook returns for this target, is stored). -/
def mapstructure.decodeInt64 (input : GoValue) (cur : Int) : mapstructure.Step Int :=
  if input.isNil then mapstructure.Step.ok cur
  else
    match Order.decodeHook "int64" input with
    | HookResult.panic => mapstructure.Step.panic
    | HookResult.error e => mapstructure.Step.failed cur (mapstructure.Cause.hook e)
    | HookResult.ok (GoValue.int64 i) => mapstructure.Step.ok i
    | HookResult.ok (GoValue.int i) => mapstructure.Step.ok i
    | HookResult.ok _ => mapstructure.Step.failed cur mapstructure.Cause.unconvertible

/-- Go `decode` for a field of type `string`: nothing for a nil input, else the
hook with target "string" and `decodeString` on what it returns: a string is
stored, and without `WeaklyTypedInput` any other kind is an error. -/
def mapstructure.decodeString (input : GoValue) (cur : Bytes) : mapstructure.Step Bytes :=
  if input.isNil then mapstructure.Step.ok cur
  else
    match Order.decodeHook "string" input with
    | HookResult.panic => mapstructure.Step.panic
    | HookResult.error e => mapstructure.Step.failed cur (mapstructure.Cause.hook e)
    | HookResult.ok (GoValue.json (json.Value.string s)) => mapstructure.Step.ok s
    | HookResult.ok _ => mapstructure.Step.failed cur mapstructure.Cause.unconvertible

/-- Go `decode` for a field of type `*time.Time`: nothing for a nil input, else
the hook with target "*time.Time", then `decodePtr`, which decodes into a
`time.Time` (the hook with target "time.Time", then `decodeStruct`, which
stores a value of the same type) and on success points the field at it. -/
def mapstructure.decodeTimePtr (input : GoValue) (cur : Option Time) :
    mapstructure.Step (Option Time) :=
  if input.isNil then mapstructure.Step.ok cur
  else
    match Order.decodeHook "*time.Time" input with
    | HookResult.panic => mapstructure.Step.panic
    | HookResult.error e => mapstructure.Step.failed cur (mapstructure.Cause.hook e)
    | HookResult.ok data =>
      if data.isNil then mapstructure.Step.ok none
      else
        match Order.decodeHook "time.Time" data with
        | HookResult.panic => mapstructure.Step.panic
        | HookResult.error e => mapstructure.Step.failed cur (mapstructure.Cause.hook e)
        | HookResult.ok (GoValue.time t) => mapstructure.Step.ok (some t)
        | HookResult.ok _ => mapstructure.Step.failed cur mapstructure.Cause.unconvertible

/-- The zero `uuid.UUID`. -/
def uuid.Nil : uuid.UUID := List.replicate 16 0

/-- The loop of `decodeArray` over the elements of the source array: element
`i` goes through `decode` with a `uint8` target (the hook with target "uint8",
then `decodeUint`, which rejects a negative number) and is stored in
`valArray[i]`; errors are collected and the loop goes on. The Boolean is
whether an error was collected. -/
def mapstructure.decodeElems : List Nat → Nat → uuid.UUID → Bool → Option (uuid.UUID × Bool)
  | [], _, valArray, failed => some (valArray, failed)
  | b :: rest, i, valArray, failed =>
    match Order.decodeHook "uint8" (GoValue.uint8 b) with
    | HookResult.panic => none
    | HookResult.error _ => mapstructure.decodeElems rest (i + 1) valArray true
    | HookResult.ok (GoValue.int64 n) =>
      if n < 0 then mapstructure.decodeElems rest (i + 1) valArray true
      else mapstructure.decodeElems rest (i + 1) (valArray.set i (n.toNat % 256)) failed
    | HookResult.ok _ => mapstructure.decodeElems rest (i + 1) valArray true

/-- Go `decode` for a field of type `uuid.UUID`, an array of sixteen `uint8`:
nothing for a nil input, else the hook with target "uuid.UUID" and
`decodeArray` on what it returns: the elements are decoded into a new array
when the field is zero and into the field's own array otherwise, and the
field is set to the result. `none` in the inner loop is a panic. -/
def mapstructure.decodeUUID (input : GoValue) (cur : uuid.UUID) :
    mapstructure.Step uuid.UUID :=
  if input.isNil then mapstructure.Step.ok cur
  else
    match Order.decodeHook "uuid.UUID" input with
    | HookResult.panic => mapstructure.Step.panic
    | HookResult.error e => mapstructure.Step.failed cur (mapstructure.Cause.hook e)
    | HookResult.ok (GoValue.uuid id) =>
      match mapstructure.decodeElems id 0 (if cur = uuid.Nil then uuid.Nil else cur) false with
      | none => mapstructure.Step.panic
      | some (valArray, false) => mapstructure.Step.ok valArray
      | some (valArray, true) =>
        mapstructure.Step.failed valArray mapstructure.Cause.unconvertible
    | HookResult.ok _ => mapstructure.Step.failed cur mapstructure.Cause.unconvertible

/-- Order represents a trading order. `OrderID` is the sixteen bytes of a
`uuid.UUID`; a `*time.Time` that is nil is `none`. -/
structure Order where
  OrderID : uuid.UUID
  CustomerID : Int
  Status : Bytes
  ApprovedAt : Option Time
  DeliveredToCustomerAt : Option Time
  DeliveredToCarrierAt : Option Time
  DeliveryEstimatedAt : Option Time
  PurchaseAt : Option Time
deriving DecidableEq, Repr

/-- The zero `Order{}`. -/
def Order.zero : Order :=
  { OrderID := uuid.Nil, CustomerID := 0, Status := [], ApprovedAt := none,
    DeliveredToCustomerAt := none, DeliveredToCarrierAt := none, DeliveryEstimatedAt := none,
    PurchaseAt := none }

/-- An error of one field, as `mapstructure` collects them. -/
structure mapstructure.FieldError where
  field : Bytes
  cause : mapstructure.Cause
deriving DecidableEq, Repr

/-- What a call of `Order.UnmarshalJSON` ends with. -/
inductive Order.Outcome where
  /-- A nil error. -/
  | ok
  /-- The error of `json.Unmarshal`. -/
  | jsonError
  /-- The `*mapstructure.Error` listing the errors of the fields. -/
  | fieldErrors (es : List mapstructure.FieldError)
  /-- No return: a panic of a type assertion in the decode hook. -/
  | panic
deriving DecidableEq, Repr

/-- A field of `Order` as `decodeStructFromMap` sees it: the name in its
`mapstructure` tag and `decode` into the field. -/
structure Order.Field where
  tag : Bytes
  decode : GoValue → Order → mapstructure.Step Order

/-- Turns the outcome for the value of a field into the outcome for the record. -/
def mapstructure.Step.map {α β : Type} (f : α → β) : mapstructure.Step α → mapstructure.Step β
  | mapstructure.Step.ok a => mapstructure.Step.ok (f a)
  | mapstructure.Step.failed a e => mapstructure.Step.failed (f a) e
  | mapstructure.Step.panic => mapstructure.Step.panic

/-- The fields of `Order` in the order of the declaration. -/
def Order.fields : List Order.Field :=
  [ { tag := bytesOf "order_id",
      decode := fun v r =>
        (mapstructure.decodeUUID v r.OrderID).map (fun a => { r with OrderID := a }) },
    { tag := bytesOf "customer_id",
      decode := fun v r =>
        (mapstructure.decodeInt64 v r.CustomerID).map (fun a => { r with CustomerID := a }) },
    { tag := bytesOf "order_status",
      decode := fun v r =>
        (mapstructure.decodeString v r.Status).map (fun a => { r with Status := a }) },
    { tag := bytesOf "order_approved_at",
      decode := fun v r =>
        (mapstructure.decodeTimePtr v r.ApprovedAt).map (fun a => { r with ApprovedAt := a }) },
    { tag := bytesOf "order_delivered_customer_date",
      decode := fun v r =>
        (mapstructure.decodeTimePtr v r.DeliveredToCustomerAt).map
          (fun a => { r with DeliveredToCustomerAt := a }) },
    { tag := bytesOf "order_delivered_carrier_date",
      decode := fun v r =>
        (mapstructure.decodeTimePtr v r.DeliveredToCarrierAt).map
          (fun a => { r with DeliveredToCarrierAt := a }) },
    { tag := bytesOf "order_estimated_delivery_date",
      decode := fun v r =>
        (mapstructure.decodeTimePtr v r.DeliveryEstimatedAt).map
          (fun a => { r with DeliveryEstimatedAt := a }) },
    { tag := bytesOf "order_purchase_timestamp",
      decode := fun v r =>
        (mapstructure.decodeTimePtr v r.PurchaseAt).map (fun a => { r with PurchaseAt := a }) } ]

/-- The choices of the Go run time in the loops `for dataValKey := range
dataValKeys` of `decodeStructFromMap`. A `range` over a Go map visits the keys
in an order that is not fixed and differs from one loop to the next; the loop
stops at the first key it meets that equals the name of the field up to case.
Given the name of the field and the keys of the map that equal it up to case,
listed as they come in the text, the function gives the position in that list
of the key this loop meets first (taken modulo the length of the list). -/
abbrev mapstructure.MapOrder := Bytes → List Bytes → Nat

/-- The keys of the payload that equal the name up to case
(`strings.EqualFold`), as they come in the text. -/
def mapstructure.foldKeys (aux : List (Bytes × json.Value)) (name : Bytes) : List Bytes :=
  (aux.map (fun kv => kv.1)).filter (fun k => strings.EqualFold k name)

/-- The map value `decodeStructFromMap` finds for a field name: the entry with
exactly that key (`dataVal.MapIndex`), else the entry of the first key the
`range` over the keys meets that equals the name up to case, which may be any
of these keys: `first` tells which. The map holds the last value of a
repeated key. -/
def mapstructure.mapIndex (first : mapstructure.MapOrder) (aux : List (Bytes × json.Value))
    (name : Bytes) : Option json.Value :=
  match aux.reverse.lookup name with
  | some v => some v
  | none =>
    match mapstructure.foldKeys aux name with
    | [] => none
    | k :: ks => aux.reverse.lookup ((k :: ks).getD (first name (k :: ks) % (ks.length + 1)) k)

/-- The order of visit in which the loop always meets first the matching key
that comes first in the text. -/
def mapstructure.textOrder : mapstructure.MapOrder := fun _ _ => 0

/-- The loop of `decodeStructFromMap` over the fields that are still to be
decoded: a field with no map entry is skipped, the error of a field is
collected and the loop goes on with the next field, and the errors are
returned together at the end. -/
def mapstructure.decodeStructFromMap (first : mapstructure.MapOrder)
    (aux : List (Bytes × json.Value)) :
    List Order.Field → Order → List mapstructure.FieldError → Order × Order.Outcome
  | [], r, errors =>
    (r, if errors.isEmpty then Order.Outcome.ok else Order.Outcome.fieldErrors errors)
  | f :: fs, r, errors =>
    match mapstructure.mapIndex first aux f.tag with
    | none => mapstructure.decodeStructFromMap first aux fs r errors
    | some v =>
      match f.decode (GoValue.json v) r with
      | mapstructure.Step.panic => (r, Order.Outcome.panic)
      | mapstructure.Step.ok r1 => mapstructure.decodeStructFromMap first aux fs r1 errors
      | mapstructure.Step.failed r1 e =>
        mapstructure.decodeStructFromMap first aux fs r1
          (errors ++ [{ field := f.tag, cause := e }])

/-- Go `decoder.Decode(aux)` with `Result: r`: `decode` at the top level runs the
hook with target "trade.Order" and then `decodeStruct`, which takes a map
through `decodeStructFromMap`. -/
def mapstructure.Decode (first : mapstructure.MapOrder) (aux : List (Bytes × json.Value))
    (r : Order) : Order × Order.Outcome :=
  match Order.decodeHook "trade.Order" (GoValue.json (json.Value.object aux)) with
  | HookResult.panic => (r, Order.Outcome.panic)
  | HookResult.error e =>
    (r, Order.Outcome.fieldErrors [{ field := [], cause := mapstructure.Cause.hook e }])
  | HookResult.ok (GoValue.json (json.Value.object members)) =>
    mapstructure.decodeStructFromMap first members Order.fields r []
  | HookResult.ok _ =>
    (r, Order.Outcome.fieldErrors [{ field := [], cause := mapstructure.Cause.unconvertible }])

/-- UnmarshalJSON handles string-to-native type conversions for exchange APIs
that encode numeric and date fields as strings: the record after the call
and how the call ends. The first argument stands for what the Go run time
chooses when `mapstructure` ranges over the keys of the map. -/
def Order.UnmarshalJSON (first : mapstructure.MapOrder) (r : Order) (data : Bytes) :
    Order × Order.Outcome :=
  match json.UnmarshalMap data with
  | none => (r, Order.Outcome.jsonError)
  | some aux => mapstructure.Decode first aux r

/-! ## Order payloads, as the specification words them -/

/-- The text is a base-10 representation of the 64-bit signed integer `n`: an
optional sign, then one or more decimal digits, writing a number between
`-2^63` and `2^63 - 1`. -/
def decimalInt64Text (s : Bytes) (n : Int) : Prop :=
  ∃ (sign digits : Bytes), s = sign ++ digits ∧ (sign = [] ∨ sign = [43] ∨ sign = [45])
    ∧ digits ≠ [] ∧ (∀ c ∈ digits, 48 ≤ c ∧ c ≤ 57)
    ∧ n = (if sign = [45] then -(decimalValue digits 0 : Int) else (decimalValue digits 0 : Int))
    ∧ -(2 : Int) ^ 63 ≤ n ∧ n ≤ (2 : Int) ^ 63 - 1

/-- A JSON string or `null`. -/
def json.Value.isStringOrNull : json.Value → Bool
  | json.Value.string _ => true
  | json.Value.null => true
  | _ => false

/-- The names in the `mapstructure` tags of `Order`. -/
def Order.tags : List Bytes := Order.fields.map (fun f => f.tag)

/-- The tags of the five timestamp fields. -/
def Order.timestampTags : List Bytes := Order.tags.drop 3

/-- An entry of the payload is looked at for the field of this name: its key
is the name, exactly or up to case. -/
def Order.keyFor (name : Bytes) (kv : Bytes × json.Value) : Bool :=
  kv.1 == name || strings.EqualFold kv.1 name

/-- The payload is in the exchange style the decoder is written for: every
value given for a field of `Order` is a JSON string (or `null`). -/
def Order.exchangeStyle (aux : List (Bytes × json.Value)) : Bool :=
  Order.tags.all (fun name => aux.all (fun kv => !Order.keyFor name kv || kv.2.isStringOrNull))

/-- The value is well formed for the field of this name: `null`, or a string
that is UUID text `uuid.Parse` accepts for `order_id`, a base-10 64-bit
integer for `customer_id`, empty or a date-time text `time.Parse` accepts for
a timestamp, and any string for `order_status`. -/
def Order.validFor (name : Bytes) (v : json.Value) : Prop :=
  v = json.Value.null
  ∨ ∃ s, v = json.Value.string s
      ∧ (name = bytesOf "order_id" → acceptedUUIDText s = true)
      ∧ (name = bytesOf "customer_id" → ∃ n, decimalInt64Text s n)
      ∧ (name ∈ Order.timestampTags → s = [] ∨ lenientDateTimeText s)

/-- Every value the payload gives for a field of `Order` is well formed for it. -/
def Order.wellFormed (aux : List (Bytes × json.Value)) : Prop :=
  ∀ name ∈ Order.tags, ∀ kv ∈ aux, Order.keyFor name kv = true → Order.validFor name kv.2

/-- The value a field has after `decode`, given the value it had before: the
decoded value when `decode` succeeds, the previous value when it fails. -/
def mapstructure.Step.value {α : Type} : mapstructure.Step α → α → α
  | mapstructure.Step.ok a, _ => a
  | mapstructure.Step.failed _ _, cur => cur
  | mapstructure.Step.panic, cur => cur

/-- The value of one field after the call when the field is decoded on its
own: unchanged when the payload has no entry for it or when its coercion
fails, else the decoded value. -/
def Order.fieldValue {α : Type} (first : mapstructure.MapOrder)
    (decode : GoValue → α → mapstructure.Step α) (aux : List (Bytes × json.Value))
    (name : Bytes) (cur : α) : α :=
  match mapstructure.mapIndex first aux name with
  | none => cur
  | some v => (decode (GoValue.json v) cur).value cur

/-- The errors `mapstructure` collects for one field: none when the payload
has no entry for it or `decode` succeeds, else the error of `decode` under
the name of the field. -/
def Order.fieldErrors {α : Type} (first : mapstructure.MapOrder)
    (decode : GoValue → α → mapstructure.Step α) (aux : List (Bytes × json.Value))
    (name : Bytes) (cur : α) : List mapstructure.FieldError :=
  match mapstructure.mapIndex first aux name with
  | none => []
  | some v =>
    match decode (GoValue.json v) cur with
    | mapstructure.Step.failed _ e => [{ field := name, cause := e }]
    | _ => []

/-- Whether `decode` of one field ends in a panic. -/
def Order.fieldPanics {α : Type} (first : mapstructure.MapOrder)
    (decode : GoValue → α → mapstructure.Step α) (aux : List (Bytes × json.Value))
    (name : Bytes) (cur : α) : Bool :=
  match mapstructure.mapIndex first aux name with
  | none => false
  | some v =>
    match decode (GoValue.json v) cur with
    | mapstructure.Step.panic => true
    | _ => false

/-- The record in which every field is decoded on its own from its entry of
the payload, whatever happens to the other fields. -/
def Order.fieldwise (first : mapstructure.MapOrder) (aux : List (Bytes × json.Value))
    (r : Order) : Order :=
  { OrderID :=
      Order.fieldValue first mapstructure.decodeUUID aux (bytesOf "order_id") r.OrderID,
    CustomerID :=
      Order.fieldValue first mapstructure.decodeInt64 aux (bytesOf "customer_id") r.CustomerID,
    Status :=
      Order.fieldValue first mapstructure.decodeString aux (bytesOf "order_status") r.Status,
    ApprovedAt :=
      Order.fieldValue first mapstructure.decodeTimePtr aux (bytesOf "order_approved_at")
        r.ApprovedAt,
    DeliveredToCustomerAt :=
      Order.fieldValue first mapstructure.decodeTimePtr aux
        (bytesOf "order_delivered_customer_date") r.DeliveredToCustomerAt,
    DeliveredToCarrierAt :=
      Order.fieldValue first mapstructure.decodeTimePtr aux
        (bytesOf "order_delivered_carrier_date") r.DeliveredToCarrierAt,
    DeliveryEstimatedAt :=
      Order.fieldValue first mapstructure.decodeTimePtr aux
        (bytesOf "order_estimated_delivery_date") r.DeliveryEstimatedAt,
    PurchaseAt :=
      Order.fieldValue first mapstructure.decodeTimePtr aux (bytesOf "order_purchase_timestamp")
        r.PurchaseAt }

/-- Every field of `Order` is looked up under its exact name or not at all:
for every field, the payload has an entry under exactly its name, or no key
that equals the name up to case. For such a payload the order in which the
keys of the map are visited plays no part. -/
def Order.exactKeys (aux : List (Bytes × json.Value)) : Bool :=
  Order.tags.all
    (fun name => (aux.reverse.lookup name).isSome || (mapstructure.foldKeys aux name).isEmpty)

/-- The 32 digits regrouped in the hyphenated form 8-4-4-4-12. -/
def regroupUUID (t : Bytes) : Bytes :=
  t.take 8 ++ [45] ++ (t.drop 8).take 4 ++ [45] ++ (t.drop 12).take 4 ++ [45]
    ++ (t.drop 16).take 4 ++ [45] ++ t.drop 20


/-- Whether `decode` of some field of the record ends in a panic. -/
def Order.panics (first : mapstructure.MapOrder) (aux : List (Bytes × json.Value))
    (r : Order) : Bool :=
  Order.fieldPanics first mapstructure.decodeUUID aux (bytesOf "order_id") r.OrderID
  || Order.fieldPanics first mapstructure.decodeInt64 aux (bytesOf "customer_id") r.CustomerID
  || Order.fieldPanics first mapstructure.decodeString aux (bytesOf "order_status") r.Status
  || Order.fieldPanics first mapstructure.decodeTimePtr aux (bytesOf "order_approved_at")
      r.ApprovedAt
  || Order.fieldPanics first mapstructure.decodeTimePtr aux
      (bytesOf "order_delivered_customer_date") r.DeliveredToCustomerAt
  || Order.fieldPanics first mapstructure.decodeTimePtr aux (bytesOf "order_delivered_carrier_date")
      r.DeliveredToCarrierAt
  || Order.fieldPanics first mapstructure.decodeTimePtr aux
      (bytesOf "order_estimated_delivery_date") r.DeliveryEstimatedAt
  || Order.fieldPanics first mapstructure.decodeTimePtr aux (bytesOf "order_purchase_timestamp")
      r.PurchaseAt

/-- The errors of the fields of the record, in the order of the declaration. -/
def Order.errorsOf (first : mapstructure.MapOrder) (aux : List (Bytes × json.Value))
    (r : Order) : List mapstructure.FieldError :=
  Order.fieldErrors first mapstructure.decodeUUID aux (bytesOf "order_id") r.OrderID
  ++ Order.fieldErrors first mapstructure.decodeInt64 aux (bytesOf "customer_id") r.CustomerID
  ++ Order.fieldErrors first mapstructure.decodeString aux (bytesOf "order_status") r.Status
  ++ Order.fieldErrors first mapstructure.decodeTimePtr aux (bytesOf "order_approved_at")
      r.ApprovedAt
  ++ Order.fieldErrors first mapstructure.decodeTimePtr aux
      (bytesOf "order_delivered_customer_date") r.DeliveredToCustomerAt
  ++ Order.fieldErrors first mapstructure.decodeTimePtr aux (bytesOf "order_delivered_carrier_date")
      r.DeliveredToCarrierAt
  ++ Order.fieldErrors first mapstructure.decodeTimePtr aux
      (bytesOf "order_estimated_delivery_date") r.DeliveryEstimatedAt
  ++ Order.fieldErrors first mapstructure.decodeTimePtr aux (bytesOf "order_purchase_timestamp")
      r.PurchaseAt

/-- How the call ends when the errors of the fields are these. -/
def Order.outcomeOf (es : List mapstructure.FieldError) : Order.Outcome :=
  if es.isEmpty then Order.Outcome.ok else Order.Outcome.fieldErrors es

/-- The timestamp field of the record whose tag is the name. -/
def Order.timeField (name : Bytes) (r : Order) : Option Time :=
  if name = bytesOf "order_approved_at" then r.ApprovedAt
  else if name = bytesOf "order_delivered_customer_date" then r.DeliveredToCustomerAt
  else if name = bytesOf "order_delivered_carrier_date" then r.DeliveredToCarrierAt
  else if name = bytesOf "order_estimated_delivery_date" then r.DeliveryEstimatedAt
  else if name = bytesOf "order_purchase_timestamp" then r.PurchaseAt
  else none


/-- A computable test of `Order.validFor`. -/
def Order.validForCheck (name : Bytes) : json.Value → Bool
  | json.Value.null => true
  | json.Value.string s =>
    (name != bytesOf "order_id" || acceptedUUIDText s)
    && (name != bytesOf "customer_id" || (strconv.ParseInt s).2 == none)
    && (!(Order.timestampTags.contains name) || s == [] || (Parse s).2 == none)
  | _ => false

/-- A computable test of `Order.wellFormed`. -/
def Order.wellFormedCheck (aux : List (Bytes × json.Value)) : Bool :=
  Order.tags.all
    (fun name => aux.all (fun kv => !Order.keyFor name kv || Order.validForCheck name kv.2))

/-- The payload of the test "valid data". -/
def Order.validPayload : Bytes :=
  bytesOf ("\x7b\"order_id\": \"b68d69564a79dea4776afa33d1d2fcab\", \"customer_id\": \"41\", "
    ++ "\"order_status\": \"shipped\", \"order_approved_at\": \"2018-02-28 10:40:35\", "
    ++ "\"order_delivered_customer_date\": \"2018-03-05 16:10:13\", "
    ++ "\"order_delivered_carrier_date\": \"2018-03-05 16:10:13\", "
    ++ "\"order_estimated_delivery_date\": \"2018-03-23 00:00:00\", "
    ++ "\"order_purchase_timestamp\": \"2018-02-28 08:57:03\"\x7d")

/-- The payload of the test "invalid customer_id". -/
def Order.invalidPayload : Bytes :=
  bytesOf ("\x7b\"order_id\": \"b68d69564a79dea4776afa33d1d2fcab\", "
    ++ "\"customer_id\": \"invalid\", "
    ++ "\"order_status\": \"shipped\", \"order_approved_at\": \"2018-02-28 10:40:35\", "
    ++ "\"order_delivered_customer_date\": \"2018-03-05 16:10:13\", "
    ++ "\"order_delivered_carrier_date\": \"2018-03-05 16:10:13\", "
    ++ "\"order_estimated_delivery_date\": \"2018-03-23 00:00:00\", "
    ++ "\"order_purchase_timestamp\": \"2018-02-28 08:57:03\"\x7d")

/-- The map `json.Unmarshal` builds from a payload (`nil` on an error). -/
def Order.mapOf (data : Bytes) : List (Bytes × json.Value) := (json.UnmarshalMap data).getD []

/-- A payload whose `customer_id` is a JSON number. -/
def Order.numberPayload : Bytes := bytesOf "\x7b\"customer_id\": 41\x7d"

/-- A payload whose `customer_id` is a string that is no number and whose
`order_id` is a JSON number. -/
def Order.numberIdPayload : Bytes :=
  bytesOf "\x7b\"order_id\": 5, \"customer_id\": \"invalid\"\x7d"

/-- A payload with two keys for `customer_id` that differ from the name, and
from each other, in case only, and an `order_id` that is no UUID. -/
def Order.mixedCasePayload : Bytes :=
  bytesOf "\x7b\"Customer_id\":\"1\",\"CUSTOMER_ID\":\"2\",\"order_id\":\"bad\"\x7d"

/-- The order of visit in which the loop always meets first the matching key
that comes last in the text. -/
def mapstructure.lastInText : mapstructure.MapOrder := fun _ keys => keys.length - 1

/-- A payload whose `order_approved_at` has a one-digit hour. -/
def Order.oneDigitHourPayload : Bytes :=
  bytesOf "\x7b\"order_approved_at\": \"2018-02-28 8:57:03\"\x7d"

/-- A payload whose `order_approved_at` is the empty string. -/
def Order.emptyTimestampPayload : Bytes := bytesOf "\x7b\"order_approved_at\": \"\"\x7d"

/-! ## Package `strconv`: `AppendInt` and `AppendUint` in base 10 -/

/-- The digit loop of `formatBits` in base 10: the decimal digits of `u`, the
most significant first. The first argument bounds the number of digits. -/
def strconv.formatBits : Nat → Nat → Bytes
  | 0, _ => []
  | fuel + 1, u => if u < 10 then [48 + u] else strconv.formatBits fuel (u / 10) ++ [48 + u % 10]

/-- Go `strconv.AppendUint(nil, u, 10)` for a 64-bit `u`, which has at most
twenty digits. -/
def strconv.FormatUint (u : Nat) : Bytes := strconv.formatBits 20 u

/-- Go `strconv.AppendInt(nil, i, 10)` for a 64-bit `i`: a `-` for a negative
number, then the digits of its magnitude. -/
def strconv.FormatInt (i : Int) : Bytes :=
  if i < 0 then 45 :: strconv.formatBits 20 (-i).toNat else strconv.formatBits 20 i.toNat

/-! ## Package `encoding/json`: `Marshal` of the record types -/

/-- The table `htmlSafeSet`: the ASCII bytes `appendString` writes as
themselves when HTML escaping is on (`json.Marshal` turns it on): the bytes
from the space to DEL except the quote, `&`, `<`, `>` and the backslash. -/
def json.htmlSafe (b : Nat) : Bool :=
  decide (32 ≤ b) && decide (b < 128) && decide (b ≠ 34) && decide (b ≠ 38)
    && decide (b ≠ 60) && decide (b ≠ 62) && decide (b ≠ 92)

/-- The escape `appendString` writes for an ASCII byte outside `htmlSafeSet`. -/
def json.escapeByte (b : Nat) : Bytes :=
  if b = 92 ∨ b = 34 then [92, b]
  else if b = 8 then [92, 98]
  else if b = 12 then [92, 102]
  else if b = 10 then [92, 110]
  else if b = 13 then [92, 114]
  else if b = 9 then [92, 116]
  else [92, 117, 48, 48, hex.hextable (b / 16), hex.hextable (b % 16)]

/-- The loop of `appendString` over the bytes of the string: a safe ASCII byte
is copied, another ASCII byte is escaped, a byte that starts no valid UTF-8
encoding is written as the escape of U+FFFD, the runes U+2028 and U+2029 are
written as their escapes, and any other rune is copied. `DecodeRune` is given
at most `utf8.UTFMax` bytes. The first argument bounds the iterations by the
length. -/
def json.appendStringLoop : Nat → Bytes → Bytes
  | _, [] => []
  | 0, _ :: _ => []
  | fuel + 1, b :: rest =>
    if b < 128 then
      if json.htmlSafe b then b :: json.appendStringLoop fuel rest
      else json.escapeByte b ++ json.appendStringLoop fuel rest
    else
      match utf8.DecodeRune ((b :: rest).take 4) with
      | (c, size) =>
        if c = utf8.RuneError ∧ size = 1 then
          [92, 117, 102, 102, 102, 100] ++ json.appendStringLoop fuel ((b :: rest).drop size)
        else if c = 8232 ∨ c = 8233 then
          [92, 117, 50, 48, 50, hex.hextable (c % 16)]
            ++ json.appendStringLoop fuel ((b :: rest).drop size)
        else (b :: rest).take size ++ json.appendStringLoop fuel ((b :: rest).drop size)

/-- Go `appendString(nil, s, true)`: the string as a JSON string literal. -/
def json.appendString (s : Bytes) : Bytes := 34 :: json.appendStringLoop s.length s ++ [34]

/-- A field as the struct encoder sees it: the quoted name with its colon
(`nameEscHTML`), whether the field is left out (`omitempty` on an empty
value), and the encoded value. -/
structure json.EncField where
  name : Bytes
  omitted : Bool
  value : Bytes

/-- The loop of the struct encoder: `next` is the byte written before the next
field, `{` at first and `,` afterwards; at the end `{}` is written when no
field was, else `}`. -/
def json.encodeStruct : List json.EncField → Nat → Bytes
  | [], next => if next = 123 then [123, 125] else [125]
  | f :: fs, next =>
    if f.omitted then json.encodeStruct fs next
    else next :: (f.name ++ f.value ++ json.encodeStruct fs 44)

/-! ## Package `encoding/json`: `Unmarshal` into the record types -/

/-- The errors `json.Unmarshal` returns: a `*SyntaxError` for a text that is
not valid JSON, or the first `*UnmarshalTypeError` met while storing. -/
inductive json.Error where
  | invalid
  | unmarshalType
deriving DecidableEq, Repr

/-- Go `d.saveError`: the first error is kept. -/
def json.saveError (saved new : Option json.Error) : Option json.Error :=
  match saved with
  | some e => some e
  | none => new

/-- The index of the first name the test accepts. -/
def json.findIndex (p : Bytes → Bool) : List Bytes → Nat → Option Nat
  | [], _ => none
  | n :: rest, i => if p n then some i else json.findIndex p rest (i + 1)

/-- The field an object key is stored in: the field with exactly that name,
else the first field whose name equals the key under Unicode case folding.
The names of the fields are ASCII; the key is any text, so it is the key whose
runes are folded (a key written with U+212A or U+017F matches a name with `k`
or `s`). -/
def json.fieldIndex (names : List Bytes) (key : Bytes) : Option Nat :=
  match json.findIndex (fun n => n == key) names 0 with
  | some i => some i
  | none => json.findIndex (fun n => strings.EqualFold key n) names 0

/-- Go `literalStore` and its siblings for a signed integer field of the given
size: a number literal is read with `strconv.ParseInt(s, 10, 64)` and stored
unless it overflows the field; `null` stores nothing; anything else, and a
literal that does not parse, is an `UnmarshalTypeError` and stores nothing. -/
def json.storeInt (bits : Nat) (v : json.Value) (cur : Int) : Int × Option json.Error :=
  match v with
  | json.Value.number lit =>
    match strconv.ParseInt lit with
    | (n, none) =>
      if n < -(2 : Int) ^ (bits - 1) ∨ n ≥ (2 : Int) ^ (bits - 1) then
        (cur, some json.Error.unmarshalType)
      else (n, none)
    | (_, some _) => (cur, some json.Error.unmarshalType)
  | json.Value.null => (cur, none)
  | _ => (cur, some json.Error.unmarshalType)

/-- The same for a `uint` field (64 bits): `strconv.ParseUint(s, 10, 64)`. -/
def json.storeUint (v : json.Value) (cur : Nat) : Nat × Option json.Error :=
  match v with
  | json.Value.number lit =>
    match strconv.ParseUint lit with
    | (n, none) => (n, none)
    | (_, some _) => (cur, some json.Error.unmarshalType)
  | json.Value.null => (cur, none)
  | _ => (cur, some json.Error.unmarshalType)

/-- The same for a `string` field: a string literal is stored unquoted. -/
def json.storeString (v : json.Value) (cur : Bytes) : Bytes × Option json.Error :=
  match v with
  | json.Value.string s => (s, none)
  | json.Value.null => (cur, none)
  | _ => (cur, some json.Error.unmarshalType)

/-! ## candle.go: `Temperatures` -/

/-- AskBid holds ask and bid counts. -/
structure AskBid where
  Ask : Int
  Bid : Int
deriving DecidableEq, Repr

/-- Temperatures aggregates ask/bid counts with timing data. -/
structure Temperatures where
  AskBid : AskBid
  TimeDurationMS : Int
  TradesCount : Int
deriving DecidableEq, Repr

/-- The zero `Temperatures{}`. -/
def Temperatures.zero : Temperatures :=
  { AskBid := { Ask := 0, Bid := 0 }, TimeDurationMS := 0, TradesCount := 0 }

/-- The struct encoder for `AskBid`. -/
def AskBid.encode (a : AskBid) : Bytes :=
  json.encodeStruct
    [ { name := bytesOf "\"ask\":", omitted := false, value := strconv.FormatInt a.Ask },
      { name := bytesOf "\"bid\":", omitted := false, value := strconv.FormatInt a.Bid } ] 123

/-- Marshal serializes Temperatures to JSON. The encoders of these fields
cannot fail, so the error is nil. -/
def Temperatures.Marshal (r : Temperatures) : Bytes × Option json.Error :=
  (json.encodeStruct
    [ { name := bytesOf "\"askBid\":", omitted := false, value := r.AskBid.encode },
      { name := bytesOf "\"timeDurationMs\":", omitted := false,
        value := strconv.FormatInt r.TimeDurationMS },
      { name := bytesOf "\"tradesCount\":", omitted := false,
        value := strconv.FormatInt r.TradesCount } ] 123, none)

/-- One member of an object stored into an `AskBid`: a key that names no field
is skipped. -/
def AskBid.storeMember (r : AskBid × Option json.Error) (kv : Bytes × json.Value) :
    AskBid × Option json.Error :=
  match json.fieldIndex [bytesOf "ask", bytesOf "bid"] kv.1 with
  | some 0 =>
    ({ r.1 with Ask := (json.storeInt 64 kv.2 r.1.Ask).1 },
      json.saveError r.2 (json.storeInt 64 kv.2 r.1.Ask).2)
  | some 1 =>
    ({ r.1 with Bid := (json.storeInt 64 kv.2 r.1.Bid).1 },
      json.saveError r.2 (json.storeInt 64 kv.2 r.1.Bid).2)
  | _ => r

/-- A JSON value stored into an `AskBid` field: the members of an object are
stored in the order of the text; `null` stores nothing; any other value is an
`UnmarshalTypeError`. -/
def AskBid.store (v : json.Value) (cur : AskBid) : AskBid × Option json.Error :=
  match v with
  | json.Value.object members => members.foldl AskBid.storeMember (cur, none)
  | json.Value.null => (cur, none)
  | _ => (cur, some json.Error.unmarshalType)

/-- One member of an object stored into a `Temperatures`. -/
def Temperatures.storeMember (r : Temperatures × Option json.Error)
    (kv : Bytes × json.Value) : Temperatures × Option json.Error :=
  match json.fieldIndex [bytesOf "askBid", bytesOf "timeDurationMs", bytesOf "tradesCount"]
      kv.1 with
  | some 0 =>
    ({ r.1 with AskBid := (AskBid.store kv.2 r.1.AskBid).1 },
      json.saveError r.2 (AskBid.store kv.2 r.1.AskBid).2)
  | some 1 =>
    ({ r.1 with TimeDurationMS := (json.storeInt 64 kv.2 r.1.TimeDurationMS).1 },
      json.saveError r.2 (json.storeInt 64 kv.2 r.1.TimeDurationMS).2)
  | some 2 =>
    ({ r.1 with TradesCount := (json.storeInt 64 kv.2 r.1.TradesCount).1 },
      json.saveError r.2 (json.storeInt 64 kv.2 r.1.TradesCount).2)
  | _ => r

/-- UnmarshalTemperatures parses JSON into a Temperatures value: `var r
Temperatures; err := json.Unmarshal(data, &r)`. -/
def UnmarshalTemperatures (data : Bytes) : Temperatures × Option json.Error :=
  match json.parse data with
  | none => (Temperatures.zero, some json.Error.invalid)
  | some (json.Value.object members) =>
    members.foldl Temperatures.storeMember (Temperatures.zero, none)
  | some json.Value.null => (Temperatures.zero, none)
  | some _ => (Temperatures.zero, some json.Error.unmarshalType)

/-! ## symbol.go: the JSON form of `Symbol` -/

/-- Go `json.Marshal(s)` for a `Symbol`: the fields under the names of their
`json` tags, `parentId`, `description` and `website` left out when empty. -/
def Symbol.Marshal (s : Symbol) : Bytes × Option json.Error :=
  (json.encodeStruct
    [ { name := bytesOf "\"id\":", omitted := false, value := strconv.FormatUint s.ID },
      { name := bytesOf "\"type\":", omitted := false, value := strconv.FormatInt s.Type_ },
      { name := bytesOf "\"parentId\":", omitted := s.ParentID == 0,
        value := strconv.FormatUint s.ParentID },
      { name := bytesOf "\"code\":", omitted := false, value := json.appendString s.Code },
      { name := bytesOf "\"name\":", omitted := false, value := json.appendString s.Name },
      { name := bytesOf "\"description\":", omitted := s.Description.isEmpty,
        value := json.appendString s.Description },
      { name := bytesOf "\"website\":", omitted := s.Website.isEmpty,
        value := json.appendString s.Website } ] 123, none)

/-- The zero `Symbol{}`. -/
def Symbol.zero : Symbol :=
  { ID := 0, Type_ := 0, ParentID := 0, Code := [], Name := [], Description := [],
    Website := [] }

/-- One member of an object stored into a `Symbol`. -/
def Symbol.storeMember (r : Symbol × Option json.Error) (kv : Bytes × json.Value) :
    Symbol × Option json.Error :=
  match json.fieldIndex [bytesOf "id", bytesOf "type", bytesOf "parentId", bytesOf "code",
      bytesOf "name", bytesOf "description", bytesOf "website"] kv.1 with
  | some 0 =>
    ({ r.1 with ID := (json.storeUint kv.2 r.1.ID).1 },
      json.saveError r.2 (json.storeUint kv.2 r.1.ID).2)
  | some 1 =>
    ({ r.1 with Type_ := (json.storeInt 8 kv.2 r.1.Type_).1 },
      json.saveError r.2 (json.storeInt 8 kv.2 r.1.Type_).2)
  | some 2 =>
    ({ r.1 with ParentID := (json.storeUint kv.2 r.1.ParentID).1 },
      json.saveError r.2 (json.storeUint kv.2 r.1.ParentID).2)
  | some 3 =>
    ({ r.1 with Code := (json.storeString kv.2 r.1.Code).1 },
      json.saveError r.2 (json.storeString kv.2 r.1.Code).2)
  | some 4 =>
    ({ r.1 with Name := (json.storeString kv.2 r.1.Name).1 },
      json.saveError r.2 (json.storeString kv.2 r.1.Name).2)
  | some 5 =>
    ({ r.1 with Description := (json.storeString kv.2 r.1.Description).1 },
      json.saveError r.2 (json.storeString kv.2 r.1.Description).2)
  | some 6 =>
    ({ r.1 with Website := (json.storeString kv.2 r.1.Website).1 },
      json.saveError r.2 (json.storeString kv.2 r.1.Website).2)
  | _ => r

/-- Go `json.Unmarshal(data, &parsed)` with `parsed` a `Symbol`: the record
afterwards and the error. -/
def Symbol.Unmarshal (data : Bytes) (parsed : Symbol) : Symbol × Option json.Error :=
  match json.parse data with
  | none => (parsed, some json.Error.invalid)
  | some (json.Value.object members) => members.foldl Symbol.storeMember (parsed, none)
  | some json.Value.null => (parsed, none)
  | some _ => (parsed, some json.Error.unmarshalType)

/-! ## Records and round trips, as the specification words them -/

/-- A continuation byte of UTF-8, `80`..`BF`. -/
def utf8.cont (b : Nat) : Bool := decide (128 ≤ b) && decide (b ≤ 191)

/-- The second byte allowed after the first byte of a three-byte encoding:
`A0`..`BF` after `E0` (no overlong form), `80`..`9F` after `ED` (no
surrogate), any continuation byte after `E1`..`EC`, `EE`, `EF`. -/
def utf8.second3 (c b1 : Nat) : Bool :=
  if c = 224 then decide (160 ≤ b1) && decide (b1 ≤ 191)
  else if c = 237 then decide (128 ≤ b1) && decide (b1 ≤ 159)
  else utf8.cont b1

/-- The second byte allowed after the first byte of a four-byte encoding:
`90`..`BF` after `F0` (no overlong form), `80`..`8F` after `F4` (nothing above
U+10FFFF), any continuation byte after `F1`..`F3`. -/
def utf8.second4 (c b1 : Nat) : Bool :=
  if c = 240 then decide (144 ≤ b1) && decide (b1 ≤ 191)
  else if c = 244 then decide (128 ≤ b1) && decide (b1 ≤ 143)
  else utf8.cont b1

/-- One well-formed byte sequence of the Unicode standard at the start of the
text `c :: rest`: the text after it, or `none` when the text starts with no
such sequence. -/
def utf8.wellFormedStep (c : Nat) (rest : Bytes) : Option Bytes :=
  if c < 128 then some rest
  else if 194 ≤ c ∧ c ≤ 223 then
    match rest with
    | b1 :: t => if utf8.cont b1 then some t else none
    | _ => none
  else if 224 ≤ c ∧ c ≤ 239 then
    match rest with
    | b1 :: b2 :: t => if utf8.second3 c b1 && utf8.cont b2 then some t else none
    | _ => none
  else if 240 ≤ c ∧ c ≤ 244 then
    match rest with
    | b1 :: b2 :: b3 :: t =>
      if utf8.second4 c b1 && utf8.cont b2 && utf8.cont b3 then some t else none
    | _ => none
  else none

/-- The text is a sequence of well-formed byte sequences. The first argument
bounds the iterations by the length. -/
def utf8.validLoop : Nat → Bytes → Bool
  | _, [] => true
  | 0, _ :: _ => false
  | fuel + 1, c :: rest =>
    match utf8.wellFormedStep c rest with
    | none => false
    | some t => utf8.validLoop fuel t

/-- The text is valid UTF-8 (what Go `utf8.Valid` reports). -/
def utf8.Valid (s : Bytes) : Bool := utf8.validLoop s.length s

/-- The text in which every byte that starts no well-formed byte sequence is
replaced by the three bytes `EF BF BD` of U+FFFD, the well-formed sequences
being kept. The first argument bounds the iterations by the length. -/
def utf8.replaceInvalidLoop : Nat → Bytes → Bytes
  | _, [] => []
  | 0, _ :: _ => []
  | fuel + 1, c :: rest =>
    match utf8.wellFormedStep c rest with
    | none => 239 :: 191 :: 189 :: utf8.replaceInvalidLoop fuel rest
    | some t => (c :: rest).take (rest.length + 1 - t.length) ++ utf8.replaceInvalidLoop fuel t

/-- The text with each invalid byte replaced by U+FFFD. -/
def utf8.replaceInvalid (s : Bytes) : Bytes := utf8.replaceInvalidLoop s.length s

/-- The number fits a Go `int64`. -/
def isInt64 (n : Int) : Prop := -(2 : Int) ^ 63 ≤ n ∧ n ≤ (2 : Int) ^ 63 - 1

/-- The fields of the record are values of their Go types: three `int64`
and, in `AskBid`, two more. -/
def Temperatures.wellTyped (t : Temperatures) : Prop :=
  isInt64 t.AskBid.Ask ∧ isInt64 t.AskBid.Bid ∧ isInt64 t.TimeDurationMS ∧ isInt64 t.TradesCount

/-- The numeric fields of the symbol are values of their Go types: `uint` (64
bits) for `ID` and `ParentID`, `int8` for `Type`. -/
def Symbol.wellTyped (s : Symbol) : Prop :=
  s.ID < 2 ^ 64 ∧ s.ParentID < 2 ^ 64 ∧ (-128 : Int) ≤ s.Type_ ∧ s.Type_ ≤ (127 : Int)

/-- The four strings of the symbol are valid UTF-8. -/
def Symbol.validText (s : Symbol) : Prop :=
  utf8.Valid s.Code = true ∧ utf8.Valid s.Name = true ∧ utf8.Valid s.Description = true
    ∧ utf8.Valid s.Website = true

/-- The symbol with each invalid byte of its four strings replaced by U+FFFD. -/
def Symbol.replaceInvalid (s : Symbol) : Symbol :=
  { s with
    Code := utf8.replaceInvalid s.Code, Name := utf8.replaceInvalid s.Name,
    Description := utf8.replaceInvalid s.Description,
    Website := utf8.replaceInvalid s.Website }

/-- The symbol of the test `TestSymbolJSON`. -/
def bitcoinSymbol : Symbol :=
  { ID := 14, Type_ := SymbolCrypto, ParentID := 0, Code := bytesOf "BTC",
    Name := bytesOf "Bitcoin", Description := [], Website := bytesOf "https://bitcoin.org" }

/-- A symbol whose `Code` is the one byte `0xff`, which is not valid UTF-8. -/
def invalidTextSymbol : Symbol :=
  { ID := 1, Type_ := SymbolFiat, ParentID := 0, Code := [255], Name := bytesOf "x",
    Description := [], Website := [] }

/-- The value of the test `TestTemperaturesRoundTrip`. -/
def sampleTemperatures : Temperatures :=
  { AskBid := { Ask := 100, Bid := 50 }, TimeDurationMS := 5000, TradesCount := 42 }

/-- The literal `appendString` writes for the string is read back as the
string: the scanner takes the whole literal, `unquoteBytes` turns it into the
string on its slow path, and the fast path applies only when the literal is
the string itself. The number `f` is the bound given to the loop of
`appendString`. -/
def json.ReadsBack (s : Bytes) : Prop :=
  ∀ f, s.length ≤ f →
    (∀ Y, json.scanString (json.appendStringLoop f s ++ Y)
      = (json.scanString Y).map (fun r => (json.appendStringLoop f s ++ r.1, r.2)))
    ∧ (∀ g, (json.appendStringLoop f s).length ≤ g →
        json.unquoteSlow g (json.appendStringLoop f s) = some s)
    ∧ (∀ g, json.unquotePlain g (json.appendStringLoop f s) = true →
        json.appendStringLoop f s = s)

/-- The literal `appendString` writes for the string `s` is read back as the
string `out`: as `json.ReadsBack`, with `out` for what `unquoteBytes` returns. -/
def json.ReadsBackAs (s out : Bytes) : Prop :=
  ∀ f, s.length ≤ f →
    (∀ Y, json.scanString (json.appendStringLoop f s ++ Y)
      = (json.scanString Y).map (fun r => (json.appendStringLoop f s ++ r.1, r.2)))
    ∧ (∀ g, (json.appendStringLoop f s).length ≤ g →
        json.unquoteSlow g (json.appendStringLoop f s) = some out)
    ∧ (∀ g, json.unquotePlain g (json.appendStringLoop f s) = true →
        json.appendStringLoop f s = out)

/-- The text `ev` is read as the value `v`: whatever text follows it inside the
output of the struct encoder (a comma, a closing brace or nothing), the
decoder reads `v` from the start of `ev` and stops right after it, given at
least `k` rounds and room for `m` more levels of nesting. -/
def json.ParsesTo (ev : Bytes) (v : json.Value) (k m : Nat) : Prop :=
  ∀ fuel, k ≤ fuel → ∀ depth, depth + m ≤ json.maxNestingDepth →
    ∀ rest : Bytes, (∀ c ∈ rest.head?, c = 44 ∨ c = 125) →
      json.parseValue fuel depth (ev ++ rest) = some (v, rest)

/-- A field of a record together with what the decoder is to read back from
its encoding: the name, whether the encoder leaves the field out, the
encoded value and the value read. -/
structure json.FieldSpec where
  nm : Bytes
  omitted : Bool
  value : Bytes
  tree : json.Value

/-- The field as the struct encoder sees it. -/
def json.FieldSpec.enc (f : json.FieldSpec) : json.EncField :=
  { name := 34 :: f.nm ++ [34, 58], omitted := f.omitted, value := f.value }

/-- The members the decoder reads from the encoding of the fields. -/
def json.keptMembers : List json.FieldSpec → List (Bytes × json.Value)
  | [] => []
  | f :: fs => if f.omitted then json.keptMembers fs else (f.nm, f.tree) :: json.keptMembers fs


/-! ## float64 comparison -/

/-- A Go `float64`, held as its IEEE 754 binary64 bit pattern
(`math.Float64bits`): bit 63 the sign, bits 62..52 the exponent, bits 51..0
the fraction. Only the low 64 bits of `bits` are looked at. -/
structure float64 where
  bits : Nat
deriving DecidableEq, Repr

/-- The sign bit of a `float64`. -/
def float64.negative (x : float64) : Bool := decide (x.bits / 2 ^ 63 % 2 = 1)

/-- The exponent field of a `float64`. -/
def float64.exponent (x : float64) : Nat := x.bits / 2 ^ 52 % 2048

/-- The fraction field of a `float64`. -/
def float64.fraction (x : float64) : Nat := x.bits % 2 ^ 52

/-- A NaN has all exponent bits set and a fraction that is not zero. -/
def float64.isNaN (x : float64) : Bool :=
  decide (x.exponent = 2047) && decide (x.fraction ≠ 0)

/-- The bit pattern read as sign and magnitude: binary64 values that are not NaN
are ordered as these integers are, `-0` and `+0` being both 0. -/
def float64.key (x : float64) : Int :=
  if x.negative then -((x.bits % 2 ^ 63 : Nat) : Int) else ((x.bits % 2 ^ 63 : Nat) : Int)

/-- Go `a > b` on `float64`: false when an operand is NaN, otherwise the order
of the two values. -/
def float64.gt (a b : float64) : Bool :=
  !a.isNaN && !b.isNaN && decide (a.key > b.key)

/-- Go `a < b` on `float64`: false when an operand is NaN, otherwise the order
of the two values. -/
def float64.lt (a b : float64) : Bool :=
  !a.isNaN && !b.isNaN && decide (a.key < b.key)

/-- Go `a == b` on `float64`: false when an operand is NaN; `-0 == +0`. -/
def float64.eq (a b : float64) : Bool :=
  !a.isNaN && !b.isNaN && decide (a.key = b.key)

/-! ## price_clusters.go, candle_delta_levels.go, candle.go -/

/-- PriceClusters holds ask/bid volume and timing data at a specific price level. -/
structure PriceClusters where
  Ask : float64
  Bid : float64
  Duration : float64
  Trades : float64
deriving DecidableEq, Repr

/-- CandleDeltaLevels captures the minimum and maximum delta levels within a candle. -/
structure CandleDeltaLevels where
  MinDeltaValue : float64
  MinDeltaPrice : float64
  MaxDeltaValue : float64
  MaxDeltaPrice : float64
deriving DecidableEq, Repr

/-- Candle represents an OHLC candlestick with extended market microstructure
data. The map `PriceClusters` is held as its list of entries and the two
pointers as options. -/
structure Candle where
  Empty : Bool
  TimeOpen : Time
  TimeClose : Time
  Open : float64
  High : float64
  Low : float64
  Close : float64
  Ask : float64
  Bid : float64
  TradesCount : float64
  PriceClusters : List (Bytes × PriceClusters)
  DeltaLevels : Option CandleDeltaLevels
  VolumeLevels : Option CandleDeltaLevels
  PriceSnake : List float64
deriving DecidableEq, Repr

/-- IsEmpty returns true if the candle contains no data. -/
def Candle.IsEmpty (c : Candle) : Bool := c.Empty

/-- IsBullish returns true if the close is above the open. -/
def Candle.IsBullish (c : Candle) : Bool := float64.gt c.Close c.Open

/-- IsBearish returns true if the close is below the open. -/
def Candle.IsBearish (c : Candle) : Bool := float64.lt c.Close c.Open

/-! ## instrument.go -/

/-- Market represents a trading pair (e.g. BTC/USDT). -/
structure Market where
  ID : Int
  FromSymbol : Bytes
  ToSymbol : Bytes
  Title : Bytes
  Description : Bytes
deriving DecidableEq, Repr

/-- String returns the market pair as "FROM/TO". -/
def Market.String (m : Market) : Bytes :=
  m.FromSymbol ++ bytesOf "/" ++ m.ToSymbol

/-! ## currency/currency.go -/

/-- Kind classifies a currency as fiat or crypto (`type Kind string`). -/
abbrev currency.Kind := Bytes

def currency.Fiat : currency.Kind := bytesOf "fiat"

def currency.Crypto : currency.Kind := bytesOf "crypto"

/-- Currency represents a single fiat or cryptocurrency. -/
structure currency.Currency where
  ID : Bytes
  Code : Bytes
  Description : Bytes
  Kind : currency.Kind
  Country : Bytes
deriving DecidableEq, Repr

/-- IsFiat returns true if this is a fiat currency. -/
def currency.Currency.IsFiat (c : currency.Currency) : Bool := c.Kind == currency.Fiat

/-- IsCrypto returns true if this is a cryptocurrency. -/
def currency.Currency.IsCrypto (c : currency.Currency) : Bool := c.Kind == currency.Crypto

/-- Currencies is a list of currencies with filter and lookup methods. -/
abbrev currency.Currencies := List currency.Currency

/-- Get returns a currency by its code, or nil if not found. The loop
`for _, v := range c` returns `&v`, a pointer to the loop variable, which holds
a copy of the element: the result is that copy, or `none` for nil. -/
def currency.Currencies.Get : currency.Currencies → Bytes → Option currency.Currency
  | [], _ => none
  | v :: rest, code => if v.Code == code then some v else currency.Currencies.Get rest code

/-! ## The number a float64 stands for -/

/-- The absolute value of a `float64` in units of `2 ^ (-1074)`, the smallest
positive binary64 number: the fraction itself for a subnormal, and
`(2 ^ 52 + fraction) * 2 ^ (exponent - 1)` otherwise. Infinity, whose exponent is
2047 and fraction 0, gets `2 ^ 2098`, above every finite value. -/
def float64.magnitude (x : float64) : Nat :=
  if x.exponent = 0 then x.fraction else (2 ^ 52 + x.fraction) * 2 ^ (x.exponent - 1)

/-- The value of a `float64` that is not NaN, in units of `2 ^ (-1074)`. -/
def float64.units (x : float64) : Int :=
  if x.negative then -(x.magnitude : Int) else (x.magnitude : Int)

/-- The float64 100.0, `0x4059000000000000`. -/
def float64.hundred : float64 := ⟨0x4059000000000000⟩

/-- The float64 108.0, `0x405B000000000000`. -/
def float64.hundredEight : float64 := ⟨0x405B000000000000⟩

/-- The float64 90.0, `0x4056800000000000`. -/
def float64.ninety : float64 := ⟨0x4056800000000000⟩

/-- A quiet NaN, `0x7FF8000000000001`. -/
def float64.quietNaN : float64 := ⟨0x7FF8000000000001⟩

/-- The float64 -0.0, `0x8000000000000000`. -/
def float64.negZero : float64 := ⟨0x8000000000000000⟩

/-- A candle with the given open and close and every other field zero. -/
def Candle.ofOpenClose (o c : float64) : Candle :=
  { Empty := false, TimeOpen := Time.zero, TimeClose := Time.zero,
    Open := o, High := ⟨0⟩, Low := ⟨0⟩, Close := c, Ask := ⟨0⟩, Bid := ⟨0⟩,
    TradesCount := ⟨0⟩, PriceClusters := [], DeltaLevels := none,
    VolumeLevels := none, PriceSnake := [] }

/-- The candle of `TestCandleMethods`, as far as prices go: open 100, high 110,
low 95, close 108. -/
def Candle.testCandle : Candle :=
  { Candle.ofOpenClose float64.hundred float64.hundredEight with
    High := ⟨0x405B800000000000⟩, Low := ⟨0x4057C00000000000⟩ }

/-- The market of `TestMarketString`. -/
def Market.btcUsdt : Market :=
  { ID := 0, FromSymbol := bytesOf "BTC", ToSymbol := bytesOf "USDT", Title := [],
    Description := [] }

/-- A short list of currencies in which the code "BTC" occurs twice. -/
def currency.sampleCurrencies : currency.Currencies :=
  [ { ID := bytesOf "usd", Code := bytesOf "USD", Description := bytesOf "US Dollar",
      Kind := currency.Fiat, Country := bytesOf "US" },
    { ID := bytesOf "btc", Code := bytesOf "BTC", Description := bytesOf "Bitcoin",
      Kind := currency.Crypto, Country := [] },
    { ID := bytesOf "btc2", Code := bytesOf "BTC", Description := bytesOf "Second entry",
      Kind := currency.Crypto, Country := [] } ]

/-! ## Values used in the statements -/

/-- A symbol whose `Type` is neither declared constant: `SymbolType(99)`, the
value the repository's `TestSymbolTypeString` labels "unknown". -/
def symbolOfUnknownType : Symbol :=
  { ID := 7, Type_ := 99, ParentID := 0, Code := bytesOf "XAU", Name := bytesOf "Gold",
    Description := [], Website := [] }

/-! ## Properties of the symbol registry -/

/-- The append-if loop shared by `Children`, `Fiats` and `Cryptos` computes
the accumulator followed by the filtered input. -/
theorem foldl_append_if_eq_filter (p : Symbol → Bool) (l acc : List Symbol) :
    l.foldl (fun result s => if p s then result ++ [s] else result) acc = acc ++ l.filter p := by
  induction l generalizing acc with
  | nil => simp
  | cons x xs ih =>
    rw [List.foldl_cons, ih]
    by_cases hx : p x = true
    · simp [hx, List.filter_cons]
    · simp [hx, List.filter_cons]

theorem Children_eq_filter (S : Symbols) (p : Nat) :
    S.Children p = S.filter (fun s => s.ParentID == p) := by
  unfold Symbols.Children
  rw [foldl_append_if_eq_filter (fun s => s.ParentID == p)]
  simp

theorem Fiats_eq_filter (S : Symbols) : S.Fiats = S.filter (fun s => s.IsFiat) := by
  unfold Symbols.Fiats
  rw [foldl_append_if_eq_filter (fun s => s.IsFiat)]
  simp

theorem Cryptos_eq_filter (S : Symbols) : S.Cryptos = S.filter (fun s => s.IsCrypto) := by
  unfold Symbols.Cryptos
  rw [foldl_append_if_eq_filter (fun s => s.IsCrypto)]
  simp

/-- C1: `S.Children p` is exactly the subsequence of `S` of the symbols whose
`ParentID` equals `p`, in their original order: it is `S` filtered by that
test, it is a sublist of `S`, it holds exactly the symbols of `S` with that
parent, and it is empty when no symbol has that parent. -/
theorem C1_children_is_parent_subsequence (S : Symbols) (p : Nat) :
    S.Children p = S.filter (fun s => decide (s.ParentID = p))
    ∧ List.Sublist (S.Children p) S
    ∧ (∀ s, s ∈ S.Children p ↔ s ∈ S ∧ s.ParentID = p)
    ∧ ((∀ s ∈ S, s.ParentID ≠ p) → S.Children p = []) := by
  have h : S.Children p = S.filter (fun s => decide (s.ParentID = p)) := by
    rw [Children_eq_filter]
    exact List.filter_congr (fun s _ => rfl)
  refine ⟨h, ?_, ?_, ?_⟩
  · rw [h]; exact List.filter_sublist S
  · intro s; rw [h]; simp [List.mem_filter]
  · intro hno
    rw [h, List.filter_eq_nil_iff]
    intro s hs
    simpa using hno s hs

theorem GetByCode_loop_none (c : Bytes) (l : Symbols) (k : Nat) :
    GetByCode.loop c k l = none ↔ ∀ s ∈ l, s.Code ≠ c := by
  induction l generalizing k with
  | nil => simp [GetByCode.loop]
  | cons x xs ih =>
    by_cases hx : x.Code = c
    · simp [GetByCode.loop, hx]
    · simp [GetByCode.loop, hx, ih]

theorem GetByCode_loop_some (c : Bytes) (l : Symbols) (k i : Nat) :
    GetByCode.loop c k l = some i ↔
      k ≤ i ∧ ∃ s, l[i - k]? = some s ∧ s.Code = c ∧
        ∀ j, j < i - k → ∀ t, l[j]? = some t → t.Code ≠ c := by
  induction l generalizing k with
  | nil => simp [GetByCode.loop]
  | cons x xs ih =>
    by_cases hx : x.Code = c
    · simp only [GetByCode.loop, hx, beq_self_eq_true, if_true, Option.some.injEq]
      constructor
      · intro h
        subst h
        exact ⟨le_refl _, x, by simp, hx, by simp⟩
      · rintro ⟨hk, s, hs, hsc, hmin⟩
        by_contra hne
        have hpos : 0 < i - k := by omega
        exact hmin 0 hpos x (by simp) hx
    · have hb : (x.Code == c) = false := by simpa using hx
      simp only [GetByCode.loop, hb, Bool.false_eq_true, if_false, ih]
      constructor
      · rintro ⟨hk, s, hs, hsc, hmin⟩
        refine ⟨by omega, s, ?_, hsc, ?_⟩
        · have e : i - k = (i - (k + 1)) + 1 := by omega
          rw [e, List.getElem?_cons_succ]; exact hs
        · intro j hj t ht
          cases j with
          | zero => simp at ht; subst ht; exact hx
          | succ j =>
            rw [List.getElem?_cons_succ] at ht
            exact hmin j (by omega) t ht
      · rintro ⟨hk, s, hs, hsc, hmin⟩
        have hki : k < i := by
          by_contra hlt
          have e : i - k = 0 := by omega
          rw [e] at hs
          simp at hs
          subst hs
          exact hx hsc
        refine ⟨by omega, s, ?_, hsc, ?_⟩
        · have e : i - k = (i - (k + 1)) + 1 := by omega
          rw [e, List.getElem?_cons_succ] at hs; exact hs
        · intro j hj t ht
          exact hmin (j + 1) (by omega) t (by rw [List.getElem?_cons_succ]; exact ht)

theorem GetByID_loop_none (n : Nat) (l : Symbols) (k : Nat) :
    GetByID.loop n k l = none ↔ ∀ s ∈ l, s.ID ≠ n := by
  induction l generalizing k with
  | nil => simp [GetByID.loop]
  | cons x xs ih =>
    by_cases hx : x.ID = n
    · simp [GetByID.loop, hx]
    · simp [GetByID.loop, hx, ih]

theorem GetByID_loop_some (n : Nat) (l : Symbols) (k i : Nat) :
    GetByID.loop n k l = some i ↔
      k ≤ i ∧ ∃ s, l[i - k]? = some s ∧ s.ID = n ∧
        ∀ j, j < i - k → ∀ t, l[j]? = some t → t.ID ≠ n := by
  induction l generalizing k with
  | nil => simp [GetByID.loop]
  | cons x xs ih =>
    by_cases hx : x.ID = n
    · simp only [GetByID.loop, hx, beq_self_eq_true, if_true, Option.some.injEq]
      constructor
      · intro h
        subst h
        exact ⟨le_refl _, x, by simp, hx, by simp⟩
      · rintro ⟨hk, s, hs, hsc, hmin⟩
        by_contra hne
        have hpos : 0 < i - k := by omega
        exact hmin 0 hpos x (by simp) hx
    · have hb : (x.ID == n) = false := by simpa using hx
      simp only [GetByID.loop, hb, Bool.false_eq_true, if_false, ih]
      constructor
      · rintro ⟨hk, s, hs, hsc, hmin⟩
        refine ⟨by omega, s, ?_, hsc, ?_⟩
        · have e : i - k = (i - (k + 1)) + 1 := by omega
          rw [e, List.getElem?_cons_succ]; exact hs
        · intro j hj t ht
          cases j with
          | zero => simp at ht; subst ht; exact hx
          | succ j =>
            rw [List.getElem?_cons_succ] at ht
            exact hmin j (by omega) t ht
      · rintro ⟨hk, s, hs, hsc, hmin⟩
        have hki : k < i := by
          by_contra hlt
          have e : i - k = 0 := by omega
          rw [e] at hs
          simp at hs
          subst hs
          exact hx hsc
        refine ⟨by omega, s, ?_, hsc, ?_⟩
        · have e : i - k = (i - (k + 1)) + 1 := by omega
          rw [e, List.getElem?_cons_succ] at hs; exact hs
        · intro j hj t ht
          exact hmin (j + 1) (by omega) t (by rw [List.getElem?_cons_succ]; exact ht)

/-- C3: `S.GetByCode c` returns no value exactly when no symbol of `S` has
`Code` equal to `c` (so in particular on the empty collection), and it returns
index `i` exactly when `S[i]` is the first symbol whose `Code` equals `c`:
`S[i].Code = c` and no earlier symbol has that code. The comparison is exact
string equality, hence case-sensitive: in the test collection "BTC" is found at
index 5 and "btc" is not found. -/
theorem C3_getByCode_first_exact_match (S : Symbols) (c : Bytes) :
    (Symbols.GetByCode [] c = none)
    ∧ (S.GetByCode c = none ↔ ∀ s ∈ S, s.Code ≠ c)
    ∧ (∀ i, S.GetByCode c = some i ↔
        ∃ s, S[i]? = some s ∧ s.Code = c ∧ ∀ j, j < i → ∀ t, S[j]? = some t → t.Code ≠ c)
    ∧ sampleSymbols.GetByCode (bytesOf "BTC") = some 5
    ∧ sampleSymbols.GetByCode (bytesOf "btc") = none := by
  refine ⟨rfl, ?_, ?_, by decide, by decide⟩
  · exact GetByCode_loop_none c S 0
  · intro i
    have h := GetByCode_loop_some c S 0 i
    simpa [Symbols.GetByCode] using h

/-- C4: `S.GetByID n` returns no value exactly when no symbol of `S` has
`ID` equal to `n`, and it returns index `i` exactly when `S[i]` is the first
symbol whose `ID` equals `n`; in particular the returned symbol has `ID = n`. -/
theorem C4_getByID_first_match (S : Symbols) (n : Nat) :
    (S.GetByID n = none ↔ ∀ s ∈ S, s.ID ≠ n)
    ∧ (∀ i, S.GetByID n = some i ↔
        ∃ s, S[i]? = some s ∧ s.ID = n ∧ ∀ j, j < i → ∀ t, S[j]? = some t → t.ID ≠ n)
    ∧ (∀ i, S.GetByID n = some i → ∃ s, S[i]? = some s ∧ s.ID = n) := by
  have hsome : ∀ i, S.GetByID n = some i ↔
      ∃ s, S[i]? = some s ∧ s.ID = n ∧ ∀ j, j < i → ∀ t, S[j]? = some t → t.ID ≠ n := by
    intro i
    have h := GetByID_loop_some n S 0 i
    simpa [Symbols.GetByID] using h
  refine ⟨GetByID_loop_none n S 0, hsome, ?_⟩
  intro i hi
  obtain ⟨s, hs, hid, _⟩ := (hsome i).1 hi
  exact ⟨s, hs, hid⟩

/-- C2 (as stated, refuted): a symbol of type `SymbolType(99)`, a legal `int8`
value that `String` labels "unknown", is in the collection but in neither
`Fiats()` nor `Cryptos()`, so the two lengths do not add up to the length of
the collection. -/
theorem C2_unknown_type_in_neither :
    (-128 ≤ symbolOfUnknownType.Type_ ∧ symbolOfUnknownType.Type_ ≤ 127)
    ∧ SymbolType.String symbolOfUnknownType.Type_ = "unknown"
    ∧ symbolOfUnknownType ∈ [symbolOfUnknownType]
    ∧ symbolOfUnknownType ∉ Symbols.Fiats [symbolOfUnknownType]
    ∧ symbolOfUnknownType ∉ Symbols.Cryptos [symbolOfUnknownType]
    ∧ (Symbols.Fiats [symbolOfUnknownType]).length
        + (Symbols.Cryptos [symbolOfUnknownType]).length ≠ [symbolOfUnknownType].length := by
  decide

/-- C2 (amended): when every symbol of `S` has type `SymbolFiat` or
`SymbolCrypto`, `Fiats()` and `Cryptos()` partition `S`: every symbol of `S`
is in exactly one of them, every symbol occurs in the two together as often
as in `S`, and the two lengths add up to the length of `S`. In every
collection `T`, whatever the types of its symbols, a symbol whose type is
neither `SymbolFiat` nor `SymbolCrypto` is in neither `T.Fiats()` nor
`T.Cryptos()`. -/
theorem C2_fiats_cryptos_partition_two_kinds (S : Symbols)
    (h : ∀ s ∈ S, s.Type_ = SymbolFiat ∨ s.Type_ = SymbolCrypto) :
    (∀ s ∈ S, (s ∈ S.Fiats ∧ s ∉ S.Cryptos) ∨ (s ∉ S.Fiats ∧ s ∈ S.Cryptos))
    ∧ (∀ s, S.Fiats.count s + S.Cryptos.count s = S.count s)
    ∧ S.Fiats.length + S.Cryptos.length = S.length
    ∧ (∀ (T : Symbols) (s : Symbol), s.Type_ ≠ SymbolFiat → s.Type_ ≠ SymbolCrypto →
        s ∉ T.Fiats ∧ s ∉ T.Cryptos) := by
  have hother : ∀ (T : Symbols) (s : Symbol), s.Type_ ≠ SymbolFiat →
      s.Type_ ≠ SymbolCrypto → s ∉ T.Fiats ∧ s ∉ T.Cryptos := by
    intro T s hf hc
    rw [Fiats_eq_filter, Cryptos_eq_filter]
    constructor
    · intro hm
      have ht := (List.mem_filter.1 hm).2
      simp only [Symbol.IsFiat, beq_iff_eq] at ht
      exact hf ht
    · intro hm
      have ht := (List.mem_filter.1 hm).2
      simp only [Symbol.IsCrypto, beq_iff_eq] at ht
      exact hc ht
  rw [Fiats_eq_filter, Cryptos_eq_filter]
  refine ⟨?_, ?_, ?_, hother⟩
  · intro s hs
    rcases h s hs with hf | hc
    · left
      simp [List.mem_filter, hs, Symbol.IsFiat, Symbol.IsCrypto, hf, SymbolFiat, SymbolCrypto]
    · right
      simp [List.mem_filter, hs, Symbol.IsFiat, Symbol.IsCrypto, hc, SymbolFiat, SymbolCrypto]
  · intro s
    induction S with
    | nil => simp
    | cons x xs ih =>
      have ih2 := ih (fun t ht => h t (List.mem_cons_of_mem _ ht))
      rcases h x (List.mem_cons_self _ _) with hf | hc
      · have h1 : x.IsFiat = true := by simp [Symbol.IsFiat, hf]
        have h2 : x.IsCrypto = false := by simp [Symbol.IsCrypto, hf, SymbolFiat, SymbolCrypto]
        simp only [List.filter_cons, h1, h2, if_true, Bool.false_eq_true, if_false,
          List.count_cons]
        omega
      · have h1 : x.IsFiat = false := by simp [Symbol.IsFiat, hc, SymbolFiat, SymbolCrypto]
        have h2 : x.IsCrypto = true := by simp [Symbol.IsCrypto, hc]
        simp only [List.filter_cons, h1, h2, if_true, Bool.false_eq_true, if_false,
          List.count_cons]
        omega
  · induction S with
    | nil => simp
    | cons x xs ih =>
      have ih2 := ih (fun t ht => h t (List.mem_cons_of_mem _ ht))
      rcases h x (List.mem_cons_self _ _) with hf | hc
      · have h1 : x.IsFiat = true := by simp [Symbol.IsFiat, hf]
        have h2 : x.IsCrypto = false := by simp [Symbol.IsCrypto, hf, SymbolFiat, SymbolCrypto]
        simp only [List.filter_cons, h1, h2, if_true, Bool.false_eq_true, if_false,
          List.length_cons]
        omega
      · have h1 : x.IsFiat = false := by simp [Symbol.IsFiat, hc, SymbolFiat, SymbolCrypto]
        have h2 : x.IsCrypto = true := by simp [Symbol.IsCrypto, hc]
        simp only [List.filter_cons, h1, h2, if_true, Bool.false_eq_true, if_false,
          List.length_cons]
        omega

/-- Witness for C2 (amended): the test collection has only the two declared
kinds, and the partition holds for it; in every collection a symbol of another
type is in neither list. -/
theorem C2_fiats_cryptos_partition_two_kinds_witness :
    (∀ s ∈ sampleSymbols, s.Type_ = SymbolFiat ∨ s.Type_ = SymbolCrypto)
    ∧ ((∀ s ∈ sampleSymbols,
          (s ∈ sampleSymbols.Fiats ∧ s ∉ sampleSymbols.Cryptos)
          ∨ (s ∉ sampleSymbols.Fiats ∧ s ∈ sampleSymbols.Cryptos))
      ∧ (∀ s, sampleSymbols.Fiats.count s + sampleSymbols.Cryptos.count s
          = sampleSymbols.count s)
      ∧ sampleSymbols.Fiats.length + sampleSymbols.Cryptos.length = sampleSymbols.length
      ∧ (∀ (T : Symbols) (s : Symbol), s.Type_ ≠ SymbolFiat → s.Type_ ≠ SymbolCrypto →
          s ∉ T.Fiats ∧ s ∉ T.Cryptos)) :=
  ⟨by decide, C2_fiats_cryptos_partition_two_kinds sampleSymbols (by decide)⟩

/-- C5: `S.Fiats()` is `S` filtered, in order, by `Type = SymbolFiat`, and
`S.Cryptos()` is `S` filtered, in order, by `Type = SymbolCrypto`; both are
sublists of `S`, every element of `Fiats()` satisfies `IsFiat` and every
element of `Cryptos()` satisfies `IsCrypto`. -/
theorem C5_fiats_cryptos_are_type_filters (S : Symbols) :
    S.Fiats = S.filter (fun s => decide (s.Type_ = SymbolFiat))
    ∧ S.Cryptos = S.filter (fun s => decide (s.Type_ = SymbolCrypto))
    ∧ List.Sublist S.Fiats S ∧ List.Sublist S.Cryptos S
    ∧ (∀ s ∈ S.Fiats, s.IsFiat = true)
    ∧ (∀ s ∈ S.Cryptos, s.IsCrypto = true) := by
  have hf : S.Fiats = S.filter (fun s => decide (s.Type_ = SymbolFiat)) := by
    rw [Fiats_eq_filter]
    exact List.filter_congr (fun s _ => by simp only [Symbol.IsFiat, beq_eq_decide]; exact decide_eq_decide.2 Iff.rfl)
  have hc : S.Cryptos = S.filter (fun s => decide (s.Type_ = SymbolCrypto)) := by
    rw [Cryptos_eq_filter]
    exact List.filter_congr (fun s _ => by simp only [Symbol.IsCrypto, beq_eq_decide]; exact decide_eq_decide.2 Iff.rfl)
  refine ⟨hf, hc, ?_, ?_, ?_, ?_⟩
  · rw [hf]; exact List.filter_sublist S
  · rw [hc]; exact List.filter_sublist S
  · intro s hs
    rw [Fiats_eq_filter, List.mem_filter] at hs
    exact hs.2
  · intro s hs
    rw [Cryptos_eq_filter, List.mem_filter] at hs
    exact hs.2

/-- C6: `S.Roots()` equals `S.Children(0)`, `IsRoot` is the test
`ParentID = 0`, and a symbol of `S` is in `S.Roots()` exactly when `IsRoot`
holds for it. -/
theorem C6_roots_are_children_of_zero (S : Symbols) :
    S.Roots = S.Children 0
    ∧ (∀ s : Symbol, s.IsRoot = true ↔ s.ParentID = 0)
    ∧ (∀ s ∈ S, s ∈ S.Roots ↔ s.IsRoot = true) := by
  refine ⟨rfl, ?_, ?_⟩
  · intro s; simp [Symbol.IsRoot]
  · intro s hs
    unfold Symbols.Roots
    rw [Children_eq_filter, List.mem_filter]
    simp [hs, Symbol.IsRoot]

/-! ## The date-time parser: evaluation on digits -/

theorem isDigit_nil (i : Nat) : isDigit [] i = false := by simp [isDigit]

theorem isDigit_cons_zero (c : Nat) (s : Bytes) :
    isDigit (c :: s) 0 = (decide (48 ≤ c) && decide (c ≤ 57)) := by simp [isDigit]

theorem isDigit_cons_succ (c : Nat) (s : Bytes) (i : Nat) :
    isDigit (c :: s) (i + 1) = isDigit s i := by simp [isDigit]

theorem getnum_two_digits (a b : Nat) (rest : Bytes) (fixed : Bool)
    (ha : 48 ≤ a ∧ a ≤ 57) (hb : 48 ≤ b ∧ b ≤ 57) :
    getnum (a :: b :: rest) fixed = ((((a - 48) * 10 + (b - 48) : Nat) : Int), rest, false) := by
  have h0 : isDigit (a :: b :: rest) 0 = true := by simp [isDigit, ha]
  have h1 : isDigit (a :: b :: rest) 1 = true := by simp [isDigit, hb]
  simp [getnum, h0, h1]

theorem getnum_one_digit (a : Nat) (rest : Bytes)
    (ha : 48 ≤ a ∧ a ≤ 57) (hr : isDigit rest 0 = false) :
    getnum (a :: rest) false = (((a - 48 : Nat) : Int), rest, false) := by
  have h0 : isDigit (a :: rest) 0 = true := by simp [isDigit, ha]
  have h1 : isDigit (a :: rest) 1 = false := by rw [isDigit_cons_succ]; exact hr
  simp [getnum, h0, h1]

theorem leadingInt_digit (c x : Nat) (rest : Bytes) (hc : 48 ≤ c ∧ c ≤ 57)
    (hx : x ≤ 10 ^ 17) :
    leadingInt (c :: rest) x = leadingInt rest (x * 10 + (c - 48)) := by
  have h1 : ¬ (c < 48 ∨ c > 57) := by omega
  have h2 : ¬ (x > 2 ^ 63 / 10) := by
    norm_num at hx ⊢
    omega
  have h3 : ¬ (x * 10 + c - 48 > 2 ^ 63) := by
    norm_num at hx ⊢
    omega
  have e : x * 10 + c - 48 = x * 10 + (c - 48) := by omega
  rw [leadingInt, if_neg h1, if_neg h2, if_neg h3, e]

theorem toInt64_of_small (n : Nat) (h : n < 2 ^ 63) : toInt64 (n : Int) = n := by
  unfold toInt64
  norm_num at h ⊢
  omega

theorem atoi_four_digits (a b c d : Nat)
    (ha : 48 ≤ a ∧ a ≤ 57) (hb : 48 ≤ b ∧ b ≤ 57) (hc : 48 ≤ c ∧ c ≤ 57)
    (hd : 48 ≤ d ∧ d ≤ 57) :
    atoi [a, b, c, d]
      = ((((((a - 48) * 10 + (b - 48)) * 10 + (c - 48)) * 10 + (d - 48) : Nat) : Int),
          false) := by
  have hneg : ¬ (([a, b, c, d] : Bytes).length > 0 ∧ ([a, b, c, d] : Bytes).getD 0 0 = 45) := by
    simp; omega
  have hsign : ¬ (([a, b, c, d] : Bytes).length > 0 ∧
      (([a, b, c, d] : Bytes).getD 0 0 = 45 ∨ ([a, b, c, d] : Bytes).getD 0 0 = 43)) := by
    simp; omega
  have hl : leadingInt [a, b, c, d] 0
      = ((((a - 48) * 10 + (b - 48)) * 10 + (c - 48)) * 10 + (d - 48), [], false) := by
    rw [leadingInt_digit a 0 _ ha (by norm_num),
      leadingInt_digit b _ _ hb (by norm_num; omega),
      leadingInt_digit c _ _ hc (by norm_num; omega),
      leadingInt_digit d _ _ hd (by norm_num; omega)]
    simp [leadingInt]
  unfold atoi
  simp only [hneg, hsign, if_false, hl, decide_False]
  rw [toInt64_of_small _ (by norm_num; omega)]
  simp

theorem skip_nil (value : Bytes) : skip value [] = (value, false) := by
  simp [skip, skip.loop]

theorem skip_byte (p : Nat) (rest : Bytes) (hp : p ≠ 32) :
    skip (p :: rest) [p] = (rest, false) := by
  simp [skip, skip.loop, hp]

theorem skip_space (rest : Bytes) : skip (32 :: rest) [32] = (cutspace rest, false) := by
  simp [skip, skip.loop, cutspace]

theorem cutspace_digit (a : Nat) (rest : Bytes) (ha : digitByte a) :
    cutspace (a :: rest) = a :: rest := by
  have : a ≠ 32 := by unfold digitByte at ha; omega
  simp [cutspace, this]

theorem cutspace_replicate (k : Nat) (rest : Bytes) :
    cutspace (List.replicate k 32 ++ rest) = cutspace rest := by
  induction k with
  | zero => simp
  | succ k ih => simp [List.replicate_succ, cutspace, ih]

theorem parseStd_year_ok (a b c d : Nat) (rest : Bytes) (f : Fields)
    (ha : digitByte a) (hb : digitByte b) (hc : digitByte c) (hd : digitByte d) :
    parseStd Std.stdLongYear (a :: b :: c :: d :: rest) f
      = (rest, { f with year := (num4 a b c d : Nat) }, "", false) := by
  unfold digitByte at ha hb hc hd
  have h0 : isDigit (a :: b :: c :: d :: rest) 0 = true := by simp [isDigit, ha]
  simp [parseStd, h0, atoi_four_digits a b c d ha hb hc hd, num4]

theorem parseStd_month_ok (a b : Nat) (rest : Bytes) (f : Fields)
    (ha : digitByte a) (hb : digitByte b) (h1 : 1 ≤ num2 a b) (h2 : num2 a b ≤ 12) :
    parseStd Std.stdZeroMonth (a :: b :: rest) f
      = (rest, { f with month := (num2 a b : Nat) }, "", false) := by
  unfold digitByte at ha hb
  unfold num2 at h1 h2
  simp only [parseStd, getnum_two_digits a b rest true ha hb, num2]
  simp
  omega

theorem parseStd_day_ok (a b : Nat) (rest : Bytes) (f : Fields)
    (ha : digitByte a) (hb : digitByte b) :
    parseStd Std.stdZeroDay (a :: b :: rest) f
      = (rest, { f with day := (num2 a b : Nat) }, "", false) := by
  unfold digitByte at ha hb
  simp only [parseStd, getnum_two_digits a b rest true ha hb, num2]

theorem parseStd_hour2_ok (a b : Nat) (rest : Bytes) (f : Fields)
    (ha : digitByte a) (hb : digitByte b) (h2 : num2 a b < 24) :
    parseStd Std.stdHour (a :: b :: rest) f
      = (rest, { f with hour := (num2 a b : Nat) }, "", false) := by
  unfold digitByte at ha hb
  unfold num2 at h2
  simp only [parseStd, getnum_two_digits a b rest false ha hb, num2]
  simp
  omega

theorem parseStd_hour1_ok (a : Nat) (rest : Bytes) (f : Fields)
    (ha : digitByte a) (hrest : isDigit rest 0 = false) :
    parseStd Std.stdHour (a :: rest) f
      = (rest, { f with hour := ((a - 48 : Nat) : Int) }, "", false) := by
  unfold digitByte at ha
  simp only [parseStd, getnum_one_digit a rest ha hrest]
  simp
  omega

theorem parseStd_minute_ok (a b : Nat) (rest : Bytes) (f : Fields)
    (ha : digitByte a) (hb : digitByte b) (h2 : num2 a b < 60) :
    parseStd Std.stdZeroMinute (a :: b :: rest) f
      = (rest, { f with min := (num2 a b : Nat) }, "", false) := by
  unfold digitByte at ha hb
  unfold num2 at h2
  simp only [parseStd, getnum_two_digits a b rest true ha hb, num2]
  simp
  omega

theorem parseStd_second_plain_ok (a b : Nat) (f : Fields)
    (ha : digitByte a) (hb : digitByte b) (h2 : num2 a b < 60) :
    parseStd Std.stdZeroSecond [a, b] f
      = ([], { f with sec := (num2 a b : Nat) }, "", false) := by
  unfold digitByte at ha hb
  unfold num2 at h2
  simp only [parseStd, getnum_two_digits a b [] true ha hb, num2]
  simp
  omega

theorem leadingInt_all_digits (l : Bytes) :
    ∀ x : Nat, (∀ c ∈ l, 48 ≤ c ∧ c ≤ 57) → (x + 1) * 10 ^ l.length ≤ 10 ^ 18 →
      ∃ q, leadingInt l x = (q, [], false) ∧ q < 10 ^ 18 := by
  induction l with
  | nil =>
    intro x _ hx
    refine ⟨x, by simp [leadingInt], ?_⟩
    simp at hx
    omega
  | cons c l ih =>
    intro x hall hx
    have hc := hall c (List.mem_cons_self _ _)
    have hpos : 1 ≤ 10 ^ l.length := Nat.one_le_pow _ _ (by norm_num)
    have e : (x + 1) * 10 ^ (c :: l).length = ((x + 1) * 10) * 10 ^ l.length := by
      rw [List.length_cons, pow_succ]; ring
    rw [e] at hx
    have h10 : (x + 1) * 10 ≤ 10 ^ 18 :=
      le_trans (Nat.le_mul_of_pos_right _ hpos) hx
    have hx17 : x ≤ 10 ^ 17 := by norm_num at h10 ⊢; omega
    rw [leadingInt_digit c x l hc hx17]
    apply ih _ (fun d hd => hall d (List.mem_cons_of_mem _ hd))
    refine le_trans (Nat.mul_le_mul_right _ ?_) hx
    omega

theorem atoi_all_digits (d : Nat) (l : Bytes) (hall : ∀ c ∈ d :: l, 48 ≤ c ∧ c ≤ 57)
    (hlen : (d :: l).length ≤ 18) :
    ∃ q : Nat, atoi (d :: l) = ((q : Int), false) := by
  have hd := hall d (List.mem_cons_self _ _)
  have hneg : ¬ ((d :: l).length > 0 ∧ (d :: l).getD 0 0 = 45) := by
    simp; omega
  have hsign : ¬ ((d :: l).length > 0 ∧
      ((d :: l).getD 0 0 = 45 ∨ (d :: l).getD 0 0 = 43)) := by
    simp; omega
  have hb : (0 + 1) * 10 ^ (d :: l).length ≤ 10 ^ 18 := by
    rw [zero_add, one_mul]
    exact Nat.pow_le_pow_right (by norm_num) hlen
  obtain ⟨q, hq, hq18⟩ := leadingInt_all_digits (d :: l) 0 hall hb
  refine ⟨q, ?_⟩
  unfold atoi
  simp only [hneg, hsign, if_false, hq, decide_False]
  rw [toInt64_of_small _ (by norm_num at hq18 ⊢; omega)]
  simp

theorem iterate_mul_ten_nonneg (k : Nat) (q : Int) (hq : 0 ≤ q) :
    0 ≤ (fun n : Int => n * 10)^[k] q := by
  induction k generalizing q with
  | zero => simpa using hq
  | succ k ih =>
    rw [Function.iterate_succ_apply]
    exact ih _ (by omega)

theorem parseNanoseconds_ok (p d : Nat) (ds : Bytes) (n : Nat)
    (hp : p = 46 ∨ p = 44) (hall : ∀ c ∈ d :: ds, 48 ≤ c ∧ c ≤ 57) (hn : 2 ≤ n) :
    ∃ ns : Int, parseNanoseconds (p :: d :: ds) n = (ns, "", false) ∧ 0 ≤ ns := by
  have hcp : commaOrPeriod ((p :: d :: ds).getD 0 0) = true := by
    rcases hp with h | h <;> simp [commaOrPeriod, h]
  obtain ⟨m, hm, hm9⟩ : ∃ m, (if n > 10 then 10 else n) = m + 2 ∧ m ≤ 8 := by
    by_cases h : n > 10
    · exact ⟨8, by simp [h], le_refl _⟩
    · exact ⟨n - 2, by simp [h]; omega, by omega⟩
  have htake : (((if n > 10 then (p :: d :: ds).take 10 else (p :: d :: ds)).take
      (m + 2)).drop 1) = d :: ds.take m := by
    by_cases h : n > 10
    · have : m = 8 := by simp [h] at hm; omega
      subst this
      simp [h, List.take_take]
    · simp [h]
  have hall2 : ∀ c ∈ d :: ds.take m, 48 ≤ c ∧ c ≤ 57 := by
    intro c hc
    rcases List.mem_cons.1 hc with h | h
    · exact hall c (h ▸ List.mem_cons_self _ _)
    · exact hall c (List.mem_cons_of_mem _ (List.mem_of_mem_take h))
  have hlen : (d :: ds.take m).length ≤ 18 := by
    simp [List.length_take]; omega
  obtain ⟨q, hq⟩ := atoi_all_digits d (ds.take m) hall2 hlen
  refine ⟨(fun n : Int => n * 10)^[10 - (m + 2)] (q : Int), ?_, ?_⟩
  · unfold parseNanoseconds
    simp only [hcp, Bool.not_true, Bool.false_eq_true, if_false, hm, htake, hq]
    simp
  · exact iterate_mul_ten_nonneg _ _ (by omega)

theorem scanDigits_all (l : Bytes) :
    ∀ n : Nat, (∀ c ∈ l, 48 ≤ c ∧ c ≤ 57) → scanDigits l n = n + l.length := by
  induction l with
  | nil => intro n _; simp [scanDigits]
  | cons c l ih =>
    intro n hall
    have hc := hall c (List.mem_cons_self _ _)
    rw [scanDigits, if_pos hc, ih _ (fun d hd => hall d (List.mem_cons_of_mem _ hd))]
    simp; omega

theorem scanDigits_bounds (l : Bytes) :
    ∀ n : Nat, n ≤ scanDigits l n ∧ scanDigits l n ≤ n + l.length := by
  induction l with
  | nil => intro n; simp [scanDigits]
  | cons c l ih =>
    intro n
    rw [scanDigits]
    split
    · have := ih (n + 1)
      simp; omega
    · simp

theorem scanDigits_drop_nil (l : Bytes) :
    ∀ n : Nat, l.drop (scanDigits l n - n) = [] → ∀ c ∈ l, 48 ≤ c ∧ c ≤ 57 := by
  induction l with
  | nil => intro n _ c hc; simp at hc
  | cons c l ih =>
    intro n h
    rw [scanDigits] at h
    by_cases hc : 48 ≤ c ∧ c ≤ 57
    · rw [if_pos hc] at h
      have hb := (scanDigits_bounds l (n + 1)).1
      have e : scanDigits l (n + 1) - n = (scanDigits l (n + 1) - (n + 1)) + 1 := by omega
      rw [e, List.drop_succ_cons] at h
      intro x hx
      rcases List.mem_cons.1 hx with hx | hx
      · exact hx ▸ hc
      · exact ih (n + 1) h x hx
    · rw [if_neg hc] at h
      simp at h

theorem parseStd_second_frac_ok (a b p d : Nat) (ds : Bytes) (f : Fields)
    (ha : digitByte a) (hb : digitByte b) (h2 : num2 a b < 60)
    (hp : p = 46 ∨ p = 44) (hall : ∀ c ∈ d :: ds, digitByte c) :
    ∃ ns : Int, parseStd Std.stdZeroSecond (a :: b :: p :: d :: ds) f
      = ([], { f with sec := (num2 a b : Nat), nsec := ns }, "", false) := by
  unfold digitByte at ha hb hall
  unfold num2 at h2
  have hd := hall d (List.mem_cons_self _ _)
  have hn : scanDigits ds 2 = 2 + ds.length :=
    scanDigits_all ds 2 (fun c hc => hall c (List.mem_cons_of_mem _ hc))
  obtain ⟨ns, hns, _⟩ := parseNanoseconds_ok p d ds (2 + ds.length) hp hall (by omega)
  refine ⟨ns, ?_⟩
  have hcond : (p :: d :: ds).length ≥ 2 ∧ commaOrPeriod ((p :: d :: ds).getD 0 0) = true
      ∧ isDigit (p :: d :: ds) 1 = true := by
    refine ⟨by simp, ?_, ?_⟩
    · rcases hp with h | h <;> simp [commaOrPeriod, h]
    · simp [isDigit, hd]
  have hr : ¬ (((((a - 48) * 10 + (b - 48) : Nat) : Int) < 0) ∨
      (60 : Int) ≤ (((a - 48) * 10 + (b - 48) : Nat) : Int)) := by omega
  simp only [parseStd, getnum_two_digits a b _ true ha hb, Bool.false_eq_true, if_false,
    hr, hcond, and_self, if_true, List.drop_succ_cons, List.drop_zero, hn, hns, num2]
  have e : 2 + ds.length = ds.length + 1 + 1 := by omega
  simp [e]

theorem parse_loop_nil_ok_iff (av v : Bytes) (f : Fields) (r : Bytes × Fields) :
    parse.loop av [] v f = Except.ok r ↔ v = [] ∧ r = ([], f) := by
  cases v with
  | nil => simp [parse.loop, eq_comm]
  | cons c v => simp [parse.loop]

theorem parse_loop_cons_of (av pre ss : Bytes) (std : Std)
    (chunks : List (Bytes × Std × Bytes)) (v v1 v2 : Bytes) (f f2 : Fields)
    (hs : skip v pre = (v1, false)) (hp : parseStd std v1 f = (v2, f2, "", false)) :
    parse.loop av ((pre, std, ss) :: chunks) v f = parse.loop av chunks v2 f2 := by
  rw [parse.loop]
  simp [hs, hp]

theorem parse_loop_cons_inv (av pre ss : Bytes) (std : Std)
    (chunks : List (Bytes × Std × Bytes)) (v : Bytes) (f : Fields) (r : Bytes × Fields)
    (h : parse.loop av ((pre, std, ss) :: chunks) v f = Except.ok r) :
    ∃ v1 v2 f2, skip v pre = (v1, false) ∧ parseStd std v1 f = (v2, f2, "", false)
      ∧ parse.loop av chunks v2 f2 = Except.ok r := by
  rw [parse.loop] at h
  rcases hs : skip v pre with ⟨v1, e1⟩
  rcases hp : parseStd std v1 f with ⟨v2, f2, rs, e2⟩
  rw [hs] at h
  cases e1 with
  | true => simp at h
  | false =>
    simp only [hp] at h
    by_cases hrs : rs = ""
    · subst hrs
      cases e2 with
      | true => simp at h
      | false =>
        refine ⟨v1, v2, f2, rfl, hp, ?_⟩
        simpa using h
    · simp [hrs] at h

theorem skip_byte_inv (p : Nat) (v v1 : Bytes) (hp : p ≠ 32)
    (h : skip v [p] = (v1, false)) : v = p :: v1 := by
  cases v with
  | nil => simp [skip, skip.loop, hp] at h
  | cons c v =>
    by_cases hc : c = p
    · subst hc
      rw [skip_byte c v hp] at h
      simp at h
      rw [h]
    · simp [skip, skip.loop, hp, hc] at h

theorem skip_space_inv (v v1 : Bytes) (h : skip v [32] = (v1, false)) :
    (v = [] ∧ v1 = []) ∨ ∃ w, v = 32 :: w ∧ v1 = cutspace w := by
  cases v with
  | nil =>
    left
    simp [skip, skip.loop, cutspace] at h
    exact ⟨rfl, h⟩
  | cons c v =>
    right
    by_cases hc : c = 32
    · subst hc
      rw [skip_space] at h
      simp at h
      exact ⟨v, rfl, h.symm⟩
    · simp [skip, skip.loop, hc] at h

theorem getnum_fixed_inv (v rest : Bytes) (n : Int) (h : getnum v true = (n, rest, false)) :
    ∃ a b, v = a :: b :: rest ∧ digitByte a ∧ digitByte b ∧ n = (num2 a b : Nat) := by
  unfold getnum at h
  by_cases h0 : isDigit v 0 = true
  · by_cases h1 : isDigit v 1 = true
    · cases v with
      | nil => simp [isDigit] at h0
      | cons a v =>
        cases v with
        | nil => simp [isDigit] at h1
        | cons b v =>
          simp [h0, h1] at h
          simp [isDigit] at h0 h1
          exact ⟨a, b, by rw [h.2], h0, h1, by rw [← h.1]; simp [num2]⟩
    · simp [h0, h1] at h
  · simp [h0] at h

theorem getnum_free_inv (v rest : Bytes) (n : Int) (h : getnum v false = (n, rest, false)) :
    (∃ a b, v = a :: b :: rest ∧ digitByte a ∧ digitByte b ∧ n = (num2 a b : Nat))
    ∨ (∃ a, v = a :: rest ∧ digitByte a ∧ isDigit rest 0 = false ∧ n = ((a - 48 : Nat) : Int)) := by
  unfold getnum at h
  by_cases h0 : isDigit v 0 = true
  · cases v with
    | nil => simp [isDigit] at h0
    | cons a v =>
      by_cases h1 : isDigit (a :: v) 1 = true
      · left
        cases v with
        | nil => simp [isDigit] at h1
        | cons b v =>
          simp [h0, h1] at h
          simp [isDigit] at h0 h1
          exact ⟨a, b, by rw [h.2], h0, h1, by rw [← h.1]; simp [num2]⟩
      · right
        simp [h0, h1] at h
        obtain ⟨hn, hv⟩ := h
        subst hv
        rw [isDigit_cons_succ] at h1
        simp [isDigit] at h0
        exact ⟨a, rfl, h0, by simpa using h1, hn.symm⟩
  · simp [h0] at h

theorem leadingInt_nondigit (c x : Nat) (rest : Bytes) (hc : ¬ (48 ≤ c ∧ c ≤ 57)) :
    leadingInt (c :: rest) x = (x, c :: rest, false) := by
  have h1 : c < 48 ∨ c > 57 := by omega
  rw [leadingInt, if_pos h1]

theorem atoi_err_of_rem (a : Nat) (s : Bytes) (q c : Nat) (r : Bytes) (e : Bool)
    (ha : 48 ≤ a ∧ a ≤ 57) (hl : leadingInt (a :: s) 0 = (q, c :: r, e)) :
    atoi (a :: s) = (0, true) := by
  have hsign : ¬ ((a :: s).length > 0 ∧
      ((a :: s).getD 0 0 = 45 ∨ (a :: s).getD 0 0 = 43)) := by
    simp; omega
  unfold atoi
  simp only [hsign, if_false, hl]
  simp

theorem atoi_four_inv (a b c d : Nat) (y : Int) (ha : 48 ≤ a ∧ a ≤ 57)
    (h : atoi [a, b, c, d] = (y, false)) :
    (48 ≤ b ∧ b ≤ 57) ∧ (48 ≤ c ∧ c ≤ 57) ∧ (48 ≤ d ∧ d ≤ 57) := by
  by_cases hb : 48 ≤ b ∧ b ≤ 57
  · by_cases hc : 48 ≤ c ∧ c ≤ 57
    · by_cases hd : 48 ≤ d ∧ d ≤ 57
      · exact ⟨hb, hc, hd⟩
      · obtain ⟨q, hl⟩ : ∃ q, leadingInt [a, b, c, d] 0 = (q, [d], false) := by
          rw [leadingInt_digit a 0 _ ha (by norm_num),
            leadingInt_digit b _ _ hb (by norm_num; omega),
            leadingInt_digit c _ _ hc (by norm_num; omega),
            leadingInt_nondigit d _ _ hd]
          exact ⟨_, rfl⟩
        rw [atoi_err_of_rem a _ _ _ _ _ ha hl] at h
        simp at h
    · obtain ⟨q, hl⟩ : ∃ q, leadingInt [a, b, c, d] 0 = (q, [c, d], false) := by
        rw [leadingInt_digit a 0 _ ha (by norm_num),
          leadingInt_digit b _ _ hb (by norm_num; omega),
          leadingInt_nondigit c _ _ hc]
        exact ⟨_, rfl⟩
      rw [atoi_err_of_rem a _ _ _ _ _ ha hl] at h
      simp at h
  · obtain ⟨q, hl⟩ : ∃ q, leadingInt [a, b, c, d] 0 = (q, [b, c, d], false) := by
      rw [leadingInt_digit a 0 _ ha (by norm_num), leadingInt_nondigit b _ _ hb]
      exact ⟨_, rfl⟩
    rw [atoi_err_of_rem a _ _ _ _ _ ha hl] at h
    simp at h

theorem parseStd_year_inv (v v2 : Bytes) (f f2 : Fields)
    (h : parseStd Std.stdLongYear v f = (v2, f2, "", false)) :
    ∃ a b c d, v = a :: b :: c :: d :: v2 ∧ digitByte a ∧ digitByte b ∧ digitByte c
      ∧ digitByte d ∧ f2 = { f with year := (num4 a b c d : Nat) } := by
  by_cases hc : v.length < 4 ∨ (!isDigit v 0) = true
  · simp only [parseStd] at h
    rw [if_pos hc] at h
    simp at h
  · have hlen : 4 ≤ v.length := by omega
    have h0 : isDigit v 0 = true := by
      by_contra hne
      exact hc (Or.inr (by simpa using hne))
    match v, hlen, h0, h, hc with
    | a :: b :: c :: d :: rest, _, h0, h, hc =>
      have ha : 48 ≤ a ∧ a ≤ 57 := by simpa [isDigit] using h0
      rcases hat : atoi [a, b, c, d] with ⟨y, e⟩
      have h' := h
      simp only [parseStd] at h'
      rw [if_neg hc] at h'
      simp only [List.take_succ_cons, List.take_zero, hat,
        List.drop_succ_cons, List.drop_zero, Prod.mk.injEq] at h'
      obtain ⟨hv, _, _, he⟩ := h'
      subst he
      obtain ⟨hb, hcc, hd⟩ := atoi_four_inv a b c d y ha hat
      rw [parseStd_year_ok a b c d rest f ha hb hcc hd] at h
      simp only [Prod.mk.injEq] at h
      exact ⟨a, b, c, d, by rw [hv], ha, hb, hcc, hd, h.2.1.symm⟩

theorem parseStd_month_inv (v v2 : Bytes) (f f2 : Fields)
    (h : parseStd Std.stdZeroMonth v f = (v2, f2, "", false)) :
    ∃ a b, v = a :: b :: v2 ∧ digitByte a ∧ digitByte b ∧ 1 ≤ num2 a b ∧ num2 a b ≤ 12
      ∧ f2 = { f with month := (num2 a b : Nat) } := by
  rcases hg : getnum v true with ⟨n, rest, e⟩
  simp only [parseStd, hg, Prod.mk.injEq] at h
  obtain ⟨hv, hf, hr, he⟩ := h
  subst he; subst hv
  obtain ⟨a, b, rfl, ha, hb, hn⟩ := getnum_fixed_inv v rest n hg
  subst hn
  refine ⟨a, b, rfl, ha, hb, ?_, ?_, hf.symm⟩
  · by_contra hlt
    have : (num2 a b : Int) ≤ 0 := by omega
    simp [this] at hr
  · by_contra hlt
    have : (12 : Int) < (num2 a b : Int) := by omega
    simp [this] at hr

theorem parseStd_day_inv (v v2 : Bytes) (f f2 : Fields)
    (h : parseStd Std.stdZeroDay v f = (v2, f2, "", false)) :
    ∃ a b, v = a :: b :: v2 ∧ digitByte a ∧ digitByte b
      ∧ f2 = { f with day := (num2 a b : Nat) } := by
  rcases hg : getnum v true with ⟨n, rest, e⟩
  simp only [parseStd, hg, Prod.mk.injEq] at h
  obtain ⟨hv, hf, _, he⟩ := h
  subst he; subst hv
  obtain ⟨a, b, rfl, ha, hb, hn⟩ := getnum_fixed_inv v rest n hg
  subst hn
  exact ⟨a, b, rfl, ha, hb, hf.symm⟩

theorem parseStd_hour_inv (v v2 : Bytes) (f f2 : Fields)
    (h : parseStd Std.stdHour v f = (v2, f2, "", false)) :
    (∃ a b, v = a :: b :: v2 ∧ digitByte a ∧ digitByte b ∧ num2 a b < 24
      ∧ f2 = { f with hour := (num2 a b : Nat) })
    ∨ (∃ a, v = a :: v2 ∧ digitByte a ∧ isDigit v2 0 = false
      ∧ f2 = { f with hour := ((a - 48 : Nat) : Int) }) := by
  rcases hg : getnum v false with ⟨n, rest, e⟩
  simp only [parseStd, hg, Prod.mk.injEq] at h
  obtain ⟨hv, hf, hr, he⟩ := h
  subst he; subst hv
  rcases getnum_free_inv v rest n hg with ⟨a, b, rfl, ha, hb, hn⟩ | ⟨a, rfl, ha, hd, hn⟩
  · left
    subst hn
    refine ⟨a, b, rfl, ha, hb, ?_, hf.symm⟩
    by_contra hlt
    have : (24 : Int) ≤ (num2 a b : Int) := by omega
    simp [this] at hr
  · right
    subst hn
    exact ⟨a, rfl, ha, hd, hf.symm⟩

theorem parseStd_minute_inv (v v2 : Bytes) (f f2 : Fields)
    (h : parseStd Std.stdZeroMinute v f = (v2, f2, "", false)) :
    ∃ a b, v = a :: b :: v2 ∧ digitByte a ∧ digitByte b ∧ num2 a b < 60
      ∧ f2 = { f with min := (num2 a b : Nat) } := by
  rcases hg : getnum v true with ⟨n, rest, e⟩
  simp only [parseStd, hg, Prod.mk.injEq] at h
  obtain ⟨hv, hf, hr, he⟩ := h
  subst he; subst hv
  obtain ⟨a, b, rfl, ha, hb, hn⟩ := getnum_fixed_inv v rest n hg
  subst hn
  refine ⟨a, b, rfl, ha, hb, ?_, hf.symm⟩
  by_contra hlt
  have : (60 : Int) ≤ (num2 a b : Int) := by omega
  simp [this] at hr

theorem parseStd_second_inv (v : Bytes) (f f2 : Fields)
    (h : parseStd Std.stdZeroSecond v f = ([], f2, "", false)) :
    ∃ a b frac ns, v = a :: b :: frac ∧ digitByte a ∧ digitByte b ∧ num2 a b < 60
      ∧ fractionText frac ∧ f2 = { f with sec := (num2 a b : Nat), nsec := ns } := by
  rcases hg : getnum v true with ⟨n, rest, e⟩
  simp only [parseStd, hg] at h
  cases e with
  | true => simp at h
  | false =>
    obtain ⟨a, b, rfl, ha, hb, hn⟩ := getnum_fixed_inv v rest n hg
    subst hn
    simp only [Bool.false_eq_true, if_false] at h
    by_cases hr : (num2 a b : Int) < 0 ∨ (60 : Int) ≤ (num2 a b : Int)
    · rw [if_pos hr] at h
      simp at h
    · rw [if_neg hr] at h
      have h60 : num2 a b < 60 := by omega
      by_cases hfr : rest.length ≥ 2 ∧ commaOrPeriod (rest.getD 0 0) = true
          ∧ isDigit rest 1 = true
      · rw [if_pos hfr] at h
        match rest, hfr, h with
        | p :: d :: ds, hfr, h =>
          simp only [Prod.mk.injEq] at h
          obtain ⟨hdrop, hf, _, _⟩ := h
          have hb2 := (scanDigits_bounds ds 2).1
          have e2 : scanDigits ((p :: d :: ds).drop 2) 2
              = (scanDigits ds 2 - 2) + 1 + 1 := by
            simp only [List.drop_succ_cons, List.drop_zero]; omega
          rw [e2, List.drop_succ_cons, List.drop_succ_cons] at hdrop
          have hds := scanDigits_drop_nil ds 2 hdrop
          have hp : p = 46 ∨ p = 44 := by
            have := hfr.2.1
            simpa [commaOrPeriod] using this
          have hd : digitByte d := by
            have := hfr.2.2
            simpa [isDigit, digitByte] using this
          refine ⟨a, b, p :: d :: ds, _, rfl, ha, hb, h60, Or.inr ⟨p, d, ds, rfl, hp, ?_⟩,
            hf.symm⟩
          intro c hc
          rcases List.mem_cons.1 hc with hc | hc
          · exact hc ▸ hd
          · exact hds c hc
      · rw [if_neg hfr] at h
        simp only [Prod.mk.injEq] at h
        obtain ⟨hrest, hf, _⟩ := h
        subst hrest
        exact ⟨a, b, [], f.nsec, rfl, ha, hb, h60, Or.inl rfl, hf.symm⟩

theorem cutspace_decomp (w : Bytes) : ∃ k, w = List.replicate k 32 ++ cutspace w := by
  induction w with
  | nil => exact ⟨0, by simp [cutspace]⟩
  | cons c w ih =>
    by_cases hc : c = 32
    · obtain ⟨k, hk⟩ := ih
      refine ⟨k + 1, ?_⟩
      subst hc
      simp only [cutspace, if_true, List.replicate_succ, List.cons_append]
      rw [← hk]
    · exact ⟨0, by simp [cutspace, hc]⟩

theorem isLeap_eq_leapYear (y : Nat) : isLeap (y : Int) = leapYear y := by
  unfold isLeap leapYear
  have e4 : Int.tmod (y : Int) 4 = ((y % 4 : Nat) : Int) := (Int.ofNat_tmod y 4).symm
  have e100 : Int.tmod (y : Int) 100 = ((y % 100 : Nat) : Int) := (Int.ofNat_tmod y 100).symm
  have e400 : Int.tmod (y : Int) 400 = ((y % 400 : Nat) : Int) := (Int.ofNat_tmod y 400).symm
  have c : ∀ a : Nat, ((a : Int) == 0) = (a == 0) := by
    intro a
    by_cases ha : a = 0
    · simp [ha]
    · have : (a : Int) ≠ 0 := by omega
      simp [ha, this]
  rw [e4, e100, e400]
  simp only [bne, c]

theorem daysIn_eq_daysInMonth (y m : Nat) (h1 : 1 ≤ m) (h12 : m ≤ 12) :
    daysIn (m : Int) (y : Int) = (daysInMonth y m : Nat) := by
  unfold daysIn daysInMonth
  rw [isLeap_eq_leapYear]
  interval_cases m <;> cases leapYear y <;> simp [daysBefore]

theorem dateTimeChunks_eq : dateTimeChunks =
    ([], Std.stdLongYear, [50, 48, 48, 54]) :: ([45], Std.stdZeroMonth, [48, 49]) ::
    ([45], Std.stdZeroDay, [48, 50]) ::
    [([32], Std.stdHour, [49, 53]), ([58], Std.stdZeroMinute, [48, 52]),
     ([58], Std.stdZeroSecond, [48, 53])] := rfl

theorem parse_loop_date_ok (av : Bytes) (y1 y2 y3 y4 m1 m2 d1 d2 : Nat) (rest : Bytes)
    (f : Fields) (chunks : List (Bytes × Std × Bytes))
    (hy1 : digitByte y1) (hy2 : digitByte y2) (hy3 : digitByte y3) (hy4 : digitByte y4)
    (hm1 : digitByte m1) (hm2 : digitByte m2) (hd1 : digitByte d1) (hd2 : digitByte d2)
    (hmlo : 1 ≤ num2 m1 m2) (hmhi : num2 m1 m2 ≤ 12) :
    parse.loop av (([], Std.stdLongYear, [50, 48, 48, 54]) ::
        ([45], Std.stdZeroMonth, [48, 49]) :: ([45], Std.stdZeroDay, [48, 50]) :: chunks)
      (y1 :: y2 :: y3 :: y4 :: 45 :: m1 :: m2 :: 45 :: d1 :: d2 :: rest) f
    = parse.loop av chunks rest
        { f with year := (num4 y1 y2 y3 y4 : Nat), month := (num2 m1 m2 : Nat),
                 day := (num2 d1 d2 : Nat) } := by
  rw [parse_loop_cons_of av [] _ _ _ _ _ _ f _ (skip_nil _)
        (parseStd_year_ok y1 y2 y3 y4 _ f hy1 hy2 hy3 hy4),
    parse_loop_cons_of av [45] _ _ _ _ _ _ _ _ (skip_byte 45 _ (by decide))
        (parseStd_month_ok m1 m2 _ _ hm1 hm2 hmlo hmhi),
    parse_loop_cons_of av [45] _ _ _ _ _ _ _ _ (skip_byte 45 _ (by decide))
        (parseStd_day_ok d1 d2 _ _ hd1 hd2)]

theorem parse_loop_hour_ok (av : Bytes) (k : Nat) (hh : Bytes) (h : Nat) (rest : Bytes)
    (f : Fields) (chunks : List (Bytes × Std × Bytes))
    (hhour : hourText hh h) (h24 : h ≤ 23) :
    parse.loop av (([32], Std.stdHour, [49, 53]) :: chunks)
      (List.replicate (k + 1) 32 ++ (hh ++ 58 :: rest)) f
    = parse.loop av chunks (58 :: rest) { f with hour := (h : Nat) } := by
  rcases hhour with ⟨a, rfl, ha, rfl⟩ | ⟨a, b, rfl, ha, hb, rfl⟩
  · have hs : skip (List.replicate (k + 1) 32 ++ ([a] ++ 58 :: rest)) [32]
        = (a :: 58 :: rest, false) := by
      rw [List.replicate_succ, List.cons_append, skip_space, cutspace_replicate]
      exact congrArg (fun t => (t, false)) (cutspace_digit a _ ha)
    exact parse_loop_cons_of av [32] _ _ _ _ _ _ _ _ hs
      (parseStd_hour1_ok a _ f ha (by simp [isDigit]))
  · have hs : skip (List.replicate (k + 1) 32 ++ ([a, b] ++ 58 :: rest)) [32]
        = (a :: b :: 58 :: rest, false) := by
      rw [List.replicate_succ, List.cons_append, skip_space, cutspace_replicate]
      exact congrArg (fun t => (t, false)) (cutspace_digit a _ ha)
    exact parse_loop_cons_of av [32] _ _ _ _ _ _ _ _ hs
      (parseStd_hour2_ok a b _ f ha hb (by omega))

theorem parse_loop_minsec_ok (av : Bytes) (n1 n2 s1 s2 : Nat) (frac : Bytes) (f : Fields)
    (hn1 : digitByte n1) (hn2 : digitByte n2) (hs1 : digitByte s1) (hs2 : digitByte s2)
    (hmin : num2 n1 n2 ≤ 59) (hsec : num2 s1 s2 ≤ 59) (hfrac : fractionText frac) :
    ∃ ns : Int,
      parse.loop av [([58], Std.stdZeroMinute, [48, 52]), ([58], Std.stdZeroSecond, [48, 53])]
        (58 :: n1 :: n2 :: 58 :: s1 :: s2 :: frac) f
      = Except.ok ([], { f with min := (num2 n1 n2 : Nat), sec := (num2 s1 s2 : Nat),
                                nsec := ns })
      ∧ (frac = [] → ns = f.nsec) := by
  rw [parse_loop_cons_of av [58] _ _ _ _ _ _ f _ (skip_byte 58 _ (by decide))
        (parseStd_minute_ok n1 n2 _ f hn1 hn2 (by omega))]
  rcases hfrac with rfl | ⟨p, d, ds, rfl, hp, hall⟩
  · refine ⟨f.nsec, ?_, fun _ => rfl⟩
    rw [parse_loop_cons_of av [58] _ _ _ _ _ _ _ _ (skip_byte 58 _ (by decide))
        (parseStd_second_plain_ok s1 s2 _ hs1 hs2 (by omega))]
    simp [parse.loop]
  · obtain ⟨ns, hns⟩ := parseStd_second_frac_ok s1 s2 p d ds
      { f with min := (num2 n1 n2 : Nat) } hs1 hs2 (by omega) hp hall
    refine ⟨ns, ?_, fun h => by simp at h⟩
    rw [parse_loop_cons_of av [58] _ _ _ _ _ _ _ _ (skip_byte 58 _ (by decide)) hns]
    simp [parse.loop]

theorem parse_of_components (y1 y2 y3 y4 m1 m2 d1 d2 k : Nat) (hh : Bytes)
    (h n1 n2 s1 s2 : Nat) (frac : Bytes)
    (hy1 : digitByte y1) (hy2 : digitByte y2) (hy3 : digitByte y3) (hy4 : digitByte y4)
    (hm1 : digitByte m1) (hm2 : digitByte m2) (hd1 : digitByte d1) (hd2 : digitByte d2)
    (hhour : hourText hh h)
    (hn1 : digitByte n1) (hn2 : digitByte n2) (hs1 : digitByte s1) (hs2 : digitByte s2)
    (hfrac : fractionText frac)
    (hv : validCalendar (num4 y1 y2 y3 y4) (num2 m1 m2) (num2 d1 d2) h (num2 n1 n2)
      (num2 s1 s2)) :
    ∃ ns : Int,
      parse (y1 :: y2 :: y3 :: y4 :: 45 :: m1 :: m2 :: 45 :: d1 :: d2 ::
          (List.replicate (k + 1) 32 ++ (hh ++ 58 :: n1 :: n2 :: 58 :: s1 :: s2 :: frac)))
        = (Date (num4 y1 y2 y3 y4 : Nat) (num2 m1 m2 : Nat) (num2 d1 d2 : Nat) (h : Nat)
            (num2 n1 n2 : Nat) (num2 s1 s2 : Nat) ns, none)
      ∧ (frac = [] → ns = 0) := by
  obtain ⟨hmlo, hmhi, hdlo, hdhi, h24, hmin, hsec⟩ := hv
  obtain ⟨ns, hloop, hns⟩ := parse_loop_minsec_ok
    (y1 :: y2 :: y3 :: y4 :: 45 :: m1 :: m2 :: 45 :: d1 :: d2 ::
      (List.replicate (k + 1) 32 ++ (hh ++ 58 :: n1 :: n2 :: 58 :: s1 :: s2 :: frac)))
    n1 n2 s1 s2 frac
    { Fields.init with year := (num4 y1 y2 y3 y4 : Nat), month := (num2 m1 m2 : Nat),
                       day := (num2 d1 d2 : Nat), hour := (h : Nat) }
    hn1 hn2 hs1 hs2 hmin hsec hfrac
  refine ⟨ns, ?_, fun hf => by rw [hns hf]; rfl⟩
  have hm0 : ¬ ((num2 m1 m2 : Int) < 0) := by omega
  have hd0 : ¬ ((num2 d1 d2 : Int) < 0) := by omega
  have hday : ¬ ((num2 d1 d2 : Int) < 1 ∨
      (num2 d1 d2 : Int) > daysIn (num2 m1 m2 : Nat) (num4 y1 y2 y3 y4 : Nat)) := by
    rw [daysIn_eq_daysInMonth _ _ hmlo hmhi]
    omega
  unfold parse
  rw [dateTimeChunks_eq,
    parse_loop_date_ok _ y1 y2 y3 y4 m1 m2 d1 d2 _ _ _ hy1 hy2 hy3 hy4 hm1 hm2 hd1 hd2
      hmlo hmhi,
    parse_loop_hour_ok _ k hh h _ _ _ hhour h24, hloop]
  simp only [hm0, hd0, hday, if_false]

theorem parse_loop_inv (av s : Bytes) (r : Bytes × Fields)
    (hl : parse.loop av dateTimeChunks s Fields.init = Except.ok r) :
    ∃ (y1 y2 y3 y4 m1 m2 d1 d2 k : Nat) (hh : Bytes) (h n1 n2 s1 s2 : Nat) (frac : Bytes)
      (ns : Int),
      s = y1 :: y2 :: y3 :: y4 :: 45 :: m1 :: m2 :: 45 :: d1 :: d2 ::
            (List.replicate (k + 1) 32 ++ (hh ++ 58 :: n1 :: n2 :: 58 :: s1 :: s2 :: frac))
      ∧ digitByte y1 ∧ digitByte y2 ∧ digitByte y3 ∧ digitByte y4
      ∧ digitByte m1 ∧ digitByte m2 ∧ digitByte d1 ∧ digitByte d2
      ∧ hourText hh h
      ∧ digitByte n1 ∧ digitByte n2 ∧ digitByte s1 ∧ digitByte s2
      ∧ fractionText frac
      ∧ (1 ≤ num2 m1 m2 ∧ num2 m1 m2 ≤ 12 ∧ h ≤ 23 ∧ num2 n1 n2 ≤ 59 ∧ num2 s1 s2 ≤ 59)
      ∧ r = ([], { year := (num4 y1 y2 y3 y4 : Nat), month := (num2 m1 m2 : Nat),
                   day := (num2 d1 d2 : Nat), hour := (h : Nat), min := (num2 n1 n2 : Nat),
                   sec := (num2 s1 s2 : Nat), nsec := ns }) := by
  rw [dateTimeChunks_eq] at hl
  -- year
  obtain ⟨v1, v2, f2, hsk1, hp1, hl1⟩ := parse_loop_cons_inv _ _ _ _ _ _ _ _ hl
  rw [skip_nil] at hsk1
  obtain ⟨rfl⟩ : s = v1 := by simpa using hsk1
  obtain ⟨y1, y2, y3, y4, rfl, hy1, hy2, hy3, hy4, rfl⟩ := parseStd_year_inv _ _ _ _ hp1
  clear hp1 hsk1 hl
  -- month
  obtain ⟨v3, v4, f4, hsk2, hp2, hl2⟩ := parse_loop_cons_inv _ _ _ _ _ _ _ _ hl1
  have e2 := skip_byte_inv 45 _ _ (by decide) hsk2
  subst e2
  obtain ⟨m1, m2, rfl, hm1, hm2, hmlo, hmhi, rfl⟩ := parseStd_month_inv _ _ _ _ hp2
  clear hp2 hsk2 hl1
  -- day
  obtain ⟨v5, v6, f6, hsk3, hp3, hl3⟩ := parse_loop_cons_inv _ _ _ _ _ _ _ _ hl2
  have e3 := skip_byte_inv 45 _ _ (by decide) hsk3
  subst e3
  obtain ⟨d1, d2, rfl, hd1, hd2, rfl⟩ := parseStd_day_inv _ _ _ _ hp3
  clear hp3 hsk3 hl2
  -- hour
  obtain ⟨v7, v8, f8, hsk4, hp4, hl4⟩ := parse_loop_cons_inv _ _ _ _ _ _ _ _ hl3
  clear hl3
  -- minute
  obtain ⟨v9, v10, f10, hsk5, hp5, hl5⟩ := parse_loop_cons_inv _ _ _ _ _ _ _ _ hl4
  have e5 := skip_byte_inv 58 _ _ (by decide) hsk5
  subst e5
  obtain ⟨n1, n2, rfl, hn1, hn2, hmin, rfl⟩ := parseStd_minute_inv _ _ _ _ hp5
  clear hp5 hsk5 hl4
  -- second
  obtain ⟨v11, v12, f12, hsk6, hp6, hl6⟩ := parse_loop_cons_inv _ _ _ _ _ _ _ _ hl5
  have e6 := skip_byte_inv 58 _ _ (by decide) hsk6
  subst e6
  obtain ⟨rfl, rfl⟩ := (parse_loop_nil_ok_iff _ _ _ _).1 hl6
  obtain ⟨s1, s2, frac, ns, rfl, hs1, hs2, hsec, hfrac, rfl⟩ := parseStd_second_inv _ _ _ hp6
  clear hp6 hsk6 hl5 hl6
  -- the spaces and the hour
  have hv1 : ∃ a w, v7 = a :: w ∧ digitByte a := by
    rcases parseStd_hour_inv _ _ _ _ hp4 with ⟨a, b, rfl, ha, _, _, _⟩ | ⟨a, rfl, ha, _, _⟩
    · exact ⟨a, _, rfl, ha⟩
    · exact ⟨a, _, rfl, ha⟩
  obtain ⟨k, hk⟩ : ∃ k, v6 = List.replicate (k + 1) 32 ++ v7 := by
    rcases skip_space_inv _ _ hsk4 with ⟨_, rfl⟩ | ⟨w, rfl, rfl⟩
    · obtain ⟨a, w, hw, _⟩ := hv1
      simp at hw
    · obtain ⟨k, hk⟩ := cutspace_decomp w
      exact ⟨k, by rw [List.replicate_succ, List.cons_append, ← hk]⟩
  subst hk
  rcases parseStd_hour_inv _ _ _ _ hp4 with
    ⟨a, b, rfl, ha, hb, h24, rfl⟩ | ⟨a, rfl, ha, _, rfl⟩
  · exact ⟨y1, y2, y3, y4, m1, m2, d1, d2, k, [a, b], num2 a b, n1, n2, s1, s2, frac, ns,
      rfl, hy1, hy2, hy3, hy4, hm1, hm2, hd1, hd2, Or.inr ⟨a, b, rfl, ha, hb, rfl⟩,
      hn1, hn2, hs1, hs2, hfrac, ⟨hmlo, hmhi, by omega, by omega, by omega⟩, rfl⟩
  · have h9 : a - 48 ≤ 23 := by unfold digitByte at ha; omega
    exact ⟨y1, y2, y3, y4, m1, m2, d1, d2, k, [a], a - 48, n1, n2, s1, s2, frac, ns,
      rfl, hy1, hy2, hy3, hy4, hm1, hm2, hd1, hd2, Or.inl ⟨a, rfl, ha, rfl⟩,
      hn1, hn2, hs1, hs2, hfrac, ⟨hmlo, hmhi, h9, by omega, by omega⟩, rfl⟩

theorem parse_loop_error_value (av : Bytes) (chunks : List (Bytes × Std × Bytes)) :
    ∀ (v : Bytes) (f : Fields) (e : ParseError),
      parse.loop av chunks v f = Except.error e → e.Value = av := by
  induction chunks with
  | nil =>
    intro v f e h
    rw [parse.loop] at h
    split at h
    · simp only [Except.error.injEq] at h
      rw [← h]
    · simp at h
  | cons c chunks ih =>
    intro v f e h
    obtain ⟨pre, std, ss⟩ := c
    rw [parse.loop] at h
    rcases hs : skip v pre with ⟨v1, e1⟩
    rcases hp : parseStd std v1 f with ⟨v2, f2, rs, e2⟩
    rw [hs] at h
    cases e1 with
    | true =>
      simp only [Except.error.injEq] at h
      rw [← h]
    | false =>
      simp only [hp] at h
      split at h
      · simp only [Except.error.injEq] at h
        rw [← h]
      · split at h
        · simp only [Except.error.injEq] at h
          rw [← h]
        · exact ih _ _ _ h

theorem Parse_error_value (s : Bytes) (e : ParseError) (h : (Parse s).2 = some e) :
    e.Value = s ∧ (Parse s).1 = Time.zero := by
  unfold Parse parse at h ⊢
  rcases hl : parse.loop s dateTimeChunks s Fields.init with e1 | ⟨rest, f⟩
  · rw [hl] at h
    simp only [Option.some.injEq] at h
    subst h
    exact ⟨parse_loop_error_value s _ _ _ _ hl, rfl⟩
  · rw [hl] at h
    by_cases hc : (if f.day < 0 then 1 else f.day) < 1 ∨
        (if f.day < 0 then 1 else f.day) > daysIn (if f.month < 0 then 1 else f.month) f.year
    · simp only [if_pos hc, Option.some.injEq] at h ⊢
      exact ⟨by rw [← h], trivial⟩
    · simp only [if_neg hc] at h
      simp at h

theorem Parse_ok_iff_lenient (s : Bytes) : (Parse s).2 = none ↔ lenientDateTimeText s := by
  constructor
  · intro h
    unfold Parse parse at h
    rcases hl : parse.loop s dateTimeChunks s Fields.init with e1 | ⟨rest, f⟩
    · rw [hl] at h
      simp at h
    · rw [hl] at h
      obtain ⟨y1, y2, y3, y4, m1, m2, d1, d2, k, hh, hr, n1, n2, s1, s2, frac, ns, hs,
        hy1, hy2, hy3, hy4, hm1, hm2, hd1, hd2, hhour, hn1, hn2, hs1, hs2, hfrac,
        ⟨hmlo, hmhi, h24, hmin, hsec⟩, hrf⟩ := parse_loop_inv s s _ hl
      simp only [Prod.mk.injEq] at hrf
      obtain ⟨_, rfl⟩ := hrf
      have hm0 : ¬ ((num2 m1 m2 : Int) < 0) := by omega
      have hd0 : ¬ ((num2 d1 d2 : Int) < 0) := by omega
      simp only [hm0, hd0, if_false] at h
      rw [daysIn_eq_daysInMonth _ _ hmlo hmhi] at h
      by_cases hday : (num2 d1 d2 : Int) < 1 ∨
          (num2 d1 d2 : Int) > (daysInMonth (num4 y1 y2 y3 y4) (num2 m1 m2) : Nat)
      · simp only [if_pos hday] at h
        simp at h
      · exact ⟨y1, y2, y3, y4, m1, m2, d1, d2, k, hh, hr, n1, n2, s1, s2, frac, hs,
          hy1, hy2, hy3, hy4, hm1, hm2, hd1, hd2, hhour, hn1, hn2, hs1, hs2, hfrac,
          ⟨hmlo, hmhi, by omega, by omega, h24, hmin, hsec⟩⟩
  · rintro ⟨y1, y2, y3, y4, m1, m2, d1, d2, k, hh, hr, n1, n2, s1, s2, frac, rfl,
      hy1, hy2, hy3, hy4, hm1, hm2, hd1, hd2, hhour, hn1, hn2, hs1, hs2, hfrac, hv⟩
    obtain ⟨ns, hp, _⟩ := parse_of_components y1 y2 y3 y4 m1 m2 d1 d2 k hh hr n1 n2 s1 s2 frac
      hy1 hy2 hy3 hy4 hm1 hm2 hd1 hd2 hhour hn1 hn2 hs1 hs2 hfrac hv
    unfold Parse
    rw [hp]

/-! ## Properties of `DateTime.UnmarshalJSON` -/

theorem UnmarshalJSON_long (t : DateTime) (data : Bytes) (h : 7 ≤ data.length) :
    DateTime.UnmarshalJSON t data
      = ({ Time := some (Parse (innerText data)).1 }, (Parse (innerText data)).2) := by
  have h7 : ¬ data.length < 7 := by omega
  unfold DateTime.UnmarshalJSON innerText
  rw [if_neg h7]

theorem innerText_quoted (s : Bytes) : innerText (quoted s) = s := by
  unfold innerText quoted
  have e : ([34] ++ s ++ [34]).length - 1 = ([34] ++ s).length := by simp
  rw [e, List.take_left']
  · simp
  · rfl

theorem digitByte_mod (x : Nat) : digitByte (48 + x % 10) := by
  unfold digitByte; omega

theorem num2_digits (n : Nat) (h : n < 100) : num2 (48 + n / 10 % 10) (48 + n % 10) = n := by
  unfold num2; omega

theorem num4_digits (n : Nat) (h : n ≤ 9999) :
    num4 (48 + n / 1000 % 10) (48 + n / 100 % 10) (48 + n / 10 % 10) (48 + n % 10) = n := by
  unfold num4; omega

theorem daysInMonth_le (y m : Nat) : daysInMonth y m ≤ 31 := by
  unfold daysInMonth
  split
  · split <;> omega
  · split <;> omega

theorem Parse_formatDateTime (y m d h mi s : Nat) (hy : y ≤ 9999)
    (hv : validCalendar y m d h mi s) :
    Parse (formatDateTime y m d h mi s)
      = ({ Year := y, Month := m, Day := d, Hour := h, Minute := mi, Second := s,
           Nanosecond := 0 }, none) := by
  obtain ⟨hmlo, hmhi, hdlo, hdhi, h24, hmin, hsec⟩ := hv
  have hd31 := daysInMonth_le y m
  have ey := num4_digits y hy
  have em := num2_digits m (by omega)
  have ed := num2_digits d (by omega)
  have eh := num2_digits h (by omega)
  have emi := num2_digits mi (by omega)
  have es := num2_digits s (by omega)
  obtain ⟨ns, hp, hns⟩ := parse_of_components
    (48 + y / 1000 % 10) (48 + y / 100 % 10) (48 + y / 10 % 10) (48 + y % 10)
    (48 + m / 10 % 10) (48 + m % 10) (48 + d / 10 % 10) (48 + d % 10) 0
    [48 + h / 10 % 10, 48 + h % 10] h
    (48 + mi / 10 % 10) (48 + mi % 10) (48 + s / 10 % 10) (48 + s % 10) []
    (digitByte_mod _) (digitByte_mod _) (digitByte_mod _) (digitByte_mod _)
    (digitByte_mod _) (digitByte_mod _) (digitByte_mod _) (digitByte_mod _)
    (Or.inr ⟨_, _, rfl, digitByte_mod _, digitByte_mod _, eh.symm⟩)
    (digitByte_mod _) (digitByte_mod _) (digitByte_mod _) (digitByte_mod _)
    (Or.inl rfl)
    (by rw [ey, em, ed, emi, es]; exact ⟨hmlo, hmhi, hdlo, hdhi, h24, hmin, hsec⟩)
  rw [hns rfl, ey, em, ed, emi, es] at hp
  exact hp

/-- C7 (the code departs from the claim): on the input "2025-02-30 10:00:00"
in quotes, a well-formed text naming a day that does not exist, a wrapper that
held no value comes back holding a set value, the zero time, although the
call returned an error. -/
theorem C7_failed_parse_leaves_zero_time :
    (DateTime.UnmarshalJSON { Time := none } (bytesOf "\"2025-02-30 10:00:00\"")).2 ≠ none
    ∧ (DateTime.UnmarshalJSON { Time := none } (bytesOf "\"2025-02-30 10:00:00\"")).1
        = { Time := some Time.zero } := by
  decide

/-- On every input of at least seven bytes the wrapper is assigned: after a
failed parse it holds the zero time. -/
theorem UnmarshalJSON_error_sets_zero_time (t : DateTime) (data : Bytes)
    (h7 : 7 ≤ data.length) (e : ParseError) (he : (DateTime.UnmarshalJSON t data).2 = some e) :
    (DateTime.UnmarshalJSON t data).1 = { Time := some Time.zero } := by
  rw [UnmarshalJSON_long t data h7] at he ⊢
  rw [(Parse_error_value _ e he).2]

/-- C8: on every input of fewer than seven bytes `UnmarshalJSON` returns no
error and leaves the wrapper exactly as it was. -/
theorem C8_short_input_is_noop (t : DateTime) (data : Bytes) (h : data.length < 7) :
    DateTime.UnmarshalJSON t data = (t, none) := by
  unfold DateTime.UnmarshalJSON
  rw [if_pos h]

/-- Witness for C8: the quoted empty string has two bytes, and a fresh wrapper
still holds no value after decoding it. -/
theorem C8_short_input_is_noop_witness :
    (bytesOf "\"\"").length < 7
    ∧ DateTime.UnmarshalJSON { Time := none } (bytesOf "\"\"") = ({ Time := none }, none) :=
  ⟨by decide, C8_short_input_is_noop { Time := none } (bytesOf "\"\"") (by decide)⟩

/-- C9 (as stated, refuted): the quoted text "2025-06-15 4:30:00", whose hour
has one digit, has at least seven bytes and does not match the fixed format
"YYYY-MM-DD HH:MM:SS", yet `UnmarshalJSON` reports success, with the time
2025-06-15 04:30:00. -/
theorem C9_one_digit_hour_is_accepted :
    7 ≤ (bytesOf "\"2025-06-15 4:30:00\"").length
    ∧ fixedFormatText (innerText (bytesOf "\"2025-06-15 4:30:00\"")) = false
    ∧ DateTime.UnmarshalJSON { Time := none } (bytesOf "\"2025-06-15 4:30:00\"")
        = ({ Time := some { Year := 2025, Month := 6, Day := 15, Hour := 4, Minute := 30,
                            Second := 0, Nanosecond := 0 } }, none) := by
  decide

/-- C9 (amended): for every input of at least seven bytes whose text between
the first and last byte is not of the form `YYYY-MM-DD`, one or more spaces,
`H` or `HH`, `:MM:SS`, optionally `.` or `,` and digits, naming an existing
date and time, `UnmarshalJSON` returns a format error, and the error names
that text. -/
theorem C9_unaccepted_text_is_format_error (t : DateTime) (data : Bytes)
    (h7 : 7 ≤ data.length) (hn : ¬ lenientDateTimeText (innerText data)) :
    ∃ e : ParseError, (DateTime.UnmarshalJSON t data).2 = some e
      ∧ e.Value = innerText data := by
  rw [UnmarshalJSON_long t data h7]
  rcases hp : (Parse (innerText data)).2 with _ | e
  · exact absurd ((Parse_ok_iff_lenient _).1 hp) hn
  · exact ⟨e, rfl, (Parse_error_value _ e hp).1⟩

/-- Witness for C9 (amended): "not-a-date" in quotes is not of the accepted
form, and decoding it returns an error naming it. -/
theorem C9_unaccepted_text_is_format_error_witness :
    7 ≤ (bytesOf "\"not-a-date\"").length
    ∧ ¬ lenientDateTimeText (innerText (bytesOf "\"not-a-date\""))
    ∧ ∃ e : ParseError,
        (DateTime.UnmarshalJSON { Time := none } (bytesOf "\"not-a-date\"")).2 = some e
        ∧ e.Value = innerText (bytesOf "\"not-a-date\"") :=
  have hn : ¬ lenientDateTimeText (innerText (bytesOf "\"not-a-date\"")) := by
    rintro ⟨y1, y2, y3, y4, m1, m2, d1, d2, k, hh, h, n1, n2, s1, s2, frac, hs, _⟩
    have e : innerText (bytesOf "\"not-a-date\"")
        = [110, 111, 116, 45, 97, 45, 100, 97, 116, 101] := by decide
    rw [e] at hs
    simp at hs
  ⟨by decide, hn,
    C9_unaccepted_text_is_format_error { Time := none } (bytesOf "\"not-a-date\"")
      (by decide) hn⟩

/-- The text written by `formatDateTime` matches the fixed format read literally. -/
theorem formatDateTime_is_fixedFormat (y m d h mi s : Nat) :
    fixedFormatText (formatDateTime y m d h mi s) = true := by
  simp [fixedFormatText, formatDateTime, digits4, digits2, isDigit]
  omega

/-- C10: for every existing date and time with a year of at most four digits,
decoding its text "YYYY-MM-DD HH:MM:SS" in double quotes succeeds and yields
a present time with exactly those year, month, day, hour, minute and second. -/
theorem C10_valid_text_decodes_to_its_fields (t : DateTime) (y m d h mi s : Nat)
    (hy : y ≤ 9999) (hv : validCalendar y m d h mi s) :
    DateTime.UnmarshalJSON t (quoted (formatDateTime y m d h mi s))
      = ({ Time := some { Year := y, Month := m, Day := d, Hour := h, Minute := mi,
                          Second := s, Nanosecond := 0 } }, none) := by
  have hlen : 7 ≤ (quoted (formatDateTime y m d h mi s)).length := by
    simp [quoted, formatDateTime, digits4, digits2]
  rw [UnmarshalJSON_long t _ hlen, innerText_quoted, Parse_formatDateTime y m d h mi s hy hv]

/-- Witness for C10: "2025-06-15 14:30:00" in quotes is the text of the fields
2025, 6, 15, 14, 30, 0, which exist, and decodes to them. -/
theorem C10_valid_text_decodes_to_its_fields_witness :
    bytesOf "\"2025-06-15 14:30:00\"" = quoted (formatDateTime 2025 6 15 14 30 0)
    ∧ (2025 ≤ 9999 ∧ validCalendar 2025 6 15 14 30 0)
    ∧ DateTime.UnmarshalJSON { Time := none } (quoted (formatDateTime 2025 6 15 14 30 0))
        = ({ Time := some { Year := 2025, Month := 6, Day := 15, Hour := 14, Minute := 30,
                            Second := 0, Nanosecond := 0 } }, none) :=
  ⟨by decide, ⟨by decide, by unfold validCalendar; decide⟩,
    C10_valid_text_decodes_to_its_fields { Time := none } 2025 6 15 14 30 0 (by decide)
      (by unfold validCalendar; decide)⟩

/-! ## Package `uuid`: which texts parse, and the round trip through `String` -/

theorem xvalues_ne_255_iff (c : Nat) : uuid.xvalues c ≠ 255 ↔ hexDigit c = true := by
  unfold uuid.xvalues hexDigit
  by_cases h1 : 48 ≤ c ∧ c ≤ 57
  · simp [h1]
    try omega
  · by_cases h2 : 97 ≤ c ∧ c ≤ 102
    · simp [h1, h2]
      try omega
    · by_cases h3 : 65 ≤ c ∧ c ≤ 70
      · simp [h1, h2, h3]
        try omega
      · simp [h1, h2, h3]
        try omega

theorem xtob_ok_iff (a b : Nat) :
    (uuid.xtob a b).2 = true ↔ hexDigit a = true ∧ hexDigit b = true := by
  unfold uuid.xtob
  simp only [Bool.and_eq_true, bne_iff_ne, ne_eq]
  rw [← xvalues_ne_255_iff, ← xvalues_ne_255_iff]

/-- The digit positions are the sixteen pair offsets, each with its successor. -/
theorem uuidDigitPositions_eq :
    uuidDigitPositions = uuid.hyphenatedOffsets.flatMap (fun x => [x, x + 1]) := by
  decide

theorem all_pairs_iff (P : Nat → Bool) (offsets : List Nat) :
    (offsets.flatMap (fun x => [x, x + 1])).all P = true
      ↔ ∀ x ∈ offsets, P x = true ∧ P (x + 1) = true := by
  induction offsets with
  | nil => simp
  | cons x xs ih =>
    simp only [List.flatMap_cons, List.all_append, Bool.and_eq_true, ih, List.all_cons,
      List.all_nil, Bool.and_true, List.mem_cons, forall_eq_or_imp]

theorem parseBytes_ok_iff (s : Bytes) (offsets : List Nat) :
    (∃ id, uuid.parseBytes s offsets = Except.ok id)
      ↔ ∀ x ∈ offsets, hexDigit (s.getD x 0) = true ∧ hexDigit (s.getD (x + 1) 0) = true := by
  induction offsets with
  | nil => simp [uuid.parseBytes]
  | cons x xs ih =>
    rw [uuid.parseBytes]
    rcases hx : uuid.xtob (s.getD x 0) (s.getD (x + 1) 0) with ⟨v, ok⟩
    have hok := xtob_ok_iff (s.getD x 0) (s.getD (x + 1) 0)
    rw [hx] at hok
    cases ok with
    | false =>
      simp only [List.mem_cons, forall_eq_or_imp]
      constructor
      · rintro ⟨id, h⟩
        simp at h
      · rintro ⟨h, _⟩
        have := hok.2 h
        simp at this
    | true =>
      have hd := hok.1 rfl
      simp only [List.mem_cons, forall_eq_or_imp, ← ih]
      rcases hr : uuid.parseBytes s xs with e | rest
      · simp
      · exact ⟨fun _ => ⟨hd, rest, rfl⟩, fun _ => ⟨v :: rest, rfl⟩⟩

theorem parseBytes_eq_map (s : Bytes) (offsets : List Nat)
    (h : ∀ x ∈ offsets, (uuid.xtob (s.getD x 0) (s.getD (x + 1) 0)).2 = true) :
    uuid.parseBytes s offsets
      = Except.ok (offsets.map (fun x => (uuid.xtob (s.getD x 0) (s.getD (x + 1) 0)).1)) := by
  induction offsets with
  | nil => simp [uuid.parseBytes]
  | cons x xs ih =>
    rw [uuid.parseBytes]
    have hx := h x (List.mem_cons_self _ _)
    rcases hxt : uuid.xtob (s.getD x 0) (s.getD (x + 1) 0) with ⟨v, ok⟩
    rw [hxt] at hx
    simp only at hx
    subst hx
    simp only [ih (fun y hy => h y (List.mem_cons_of_mem _ hy)), List.map_cons, hxt]

theorem all_iff_getD (P : Nat → Bool) (s : Bytes) :
    s.all P = true ↔ ∀ i, i < s.length → P (s.getD i 0) = true := by
  rw [List.all_eq_true]
  constructor
  · intro h i hi
    rw [List.getD_eq_getElem _ _ hi]
    exact h _ (List.getElem_mem _)
  · intro h x hx
    obtain ⟨i, hi, rfl⟩ := List.mem_iff_getElem.1 hx
    have := h i hi
    rwa [List.getD_eq_getElem _ _ hi] at this

theorem rawOffsets_pairs :
    uuid.rawOffsets.flatMap (fun x => [x, x + 1]) = List.range 32 := by
  decide

theorem parseBytes_raw_ok_iff (s : Bytes) (hlen : s.length = 32) :
    (∃ id, uuid.parseBytes s uuid.rawOffsets = Except.ok id) ↔ s.all hexDigit = true := by
  rw [parseBytes_ok_iff, ← all_pairs_iff (fun i => hexDigit (s.getD i 0)), rawOffsets_pairs,
    List.all_eq_true, all_iff_getD hexDigit s, hlen]
  constructor
  · intro h i hi
    exact h i (List.mem_range.2 hi)
  · intro h i hi
    exact h i (List.mem_range.1 hi)

theorem parseBytes_hyphenated_ok_iff (t : Bytes) :
    (∃ id, uuid.parseBytes t uuid.hyphenatedOffsets = Except.ok id)
      ↔ uuidDigitPositions.all (fun i => hexDigit (t.getD i 0)) = true := by
  rw [parseBytes_ok_iff, uuidDigitPositions_eq,
    all_pairs_iff (fun i => hexDigit (t.getD i 0))]

/-- The hyphenated branch of `uuid.Parse`. -/
theorem hyphenated_ok_iff (t : Bytes) :
    (∃ id, (if t.getD 8 0 ≠ 45 ∨ t.getD 13 0 ≠ 45 ∨ t.getD 18 0 ≠ 45 ∨ t.getD 23 0 ≠ 45 then
        (Except.error uuid.ParseError.invalidFormat : Except uuid.ParseError uuid.UUID)
      else uuid.parseBytes t uuid.hyphenatedOffsets) = Except.ok id)
      ↔ hyphenatedAt hexDigit t = true := by
  unfold hyphenatedAt
  by_cases h : t.getD 8 0 ≠ 45 ∨ t.getD 13 0 ≠ 45 ∨ t.getD 18 0 ≠ 45 ∨ t.getD 23 0 ≠ 45
  · rw [if_pos h]
    constructor
    · rintro ⟨id, hid⟩
      simp at hid
    · intro hh
      simp only [Bool.and_eq_true, beq_iff_eq] at hh
      omega
  · rw [if_neg h, parseBytes_hyphenated_ok_iff]
    have h' : t.getD 8 0 = 45 ∧ t.getD 13 0 = 45 ∧ t.getD 18 0 = 45 ∧ t.getD 23 0 = 45 := by
      omega
    simp only [Bool.and_eq_true, beq_iff_eq, h'.1, h'.2.1, h'.2.2.1, h'.2.2.2, true_and]

/-- The texts `uuid.Parse` accepts are exactly those of `acceptedUUIDText`. -/
theorem uuid_Parse_ok_iff (s : Bytes) :
    (∃ id, uuid.Parse s = Except.ok id) ↔ acceptedUUIDText s = true := by
  unfold uuid.Parse acceptedUUIDText
  simp only []
  by_cases h36 : s.length = 36
  · rw [if_pos h36, hyphenated_ok_iff]
    simp [h36]
  · rw [if_neg h36]
    by_cases h45 : s.length = 36 + 9
    · rw [if_pos h45]
      have e45 : s.length = 45 := h45
      by_cases hurn : (s.take 9).map asciiLower ≠ uuid.urnText
      · rw [if_pos hurn]
        simp [-List.map_take, e45, hurn]
      · rw [if_neg hurn, hyphenated_ok_iff]
        have hu : (s.take 9).map asciiLower = uuid.urnText := by
          by_contra hne; exact hurn hne
        simp [-List.map_take, e45, hu]
    · rw [if_neg h45]
      have n45 : ¬ s.length = 45 := h45
      by_cases h38 : s.length = 36 + 2
      · rw [if_pos h38, hyphenated_ok_iff]
        have e38 : s.length = 38 := h38
        simp [e38]
      · rw [if_neg h38]
        have n38 : ¬ s.length = 38 := h38
        by_cases h32 : s.length = 32
        · rw [if_pos h32, parseBytes_raw_ok_iff s h32]
          simp [h32]
        · rw [if_neg h32]
          simp [h36, n45, n38, h32]

theorem uuid_Parse_error_of_not_accepted (s : Bytes) (h : acceptedUUIDText s = false) :
    ∃ e, uuid.Parse s = Except.error e := by
  rcases hp : uuid.Parse s with e | id
  · exact ⟨e, rfl⟩
  · have := (uuid_Parse_ok_iff s).1 ⟨id, hp⟩
    rw [h] at this
    simp at this

/-! ## Package `encoding/json`: string literals without escapes -/

theorem scanString_plain (body rest : Bytes) (h : ∀ c ∈ body, plainByte c = true) :
    json.scanString (body ++ 34 :: rest) = some (body, rest) := by
  induction body with
  | nil =>
    rw [List.nil_append, json.scanString.eq_def]
    simp
  | cons c body ih =>
    have hc := h c (List.mem_cons_self _ _)
    simp only [plainByte, Bool.and_eq_true, decide_eq_true_eq] at hc
    have h1 : ¬ c = 34 := hc.1.2
    have h2 : ¬ c = 92 := hc.2
    have h3 : ¬ c < 32 := by omega
    rw [List.cons_append, json.scanString.eq_def]
    simp only [if_neg h1, if_neg h2, if_neg h3,
      ih (fun d hd => h d (List.mem_cons_of_mem _ hd)), Option.map_some']

theorem unquotePlain_plain (body : Bytes) (h : ∀ c ∈ body, plainByte c = true) :
    ∀ n, body.length ≤ n → json.unquotePlain n body = true := by
  induction body with
  | nil => intro n _; cases n <;> simp [json.unquotePlain]
  | cons c body ih =>
    intro n hn
    have hc := h c (List.mem_cons_self _ _)
    simp only [plainByte, Bool.and_eq_true, decide_eq_true_eq] at hc
    cases n with
    | zero => simp at hn
    | succ n =>
      have h1 : ¬ (c = 92 ∨ c = 34 ∨ c < 32) := by omega
      have h2 : c < 128 := hc.1.1.2
      rw [json.unquotePlain, if_neg h1, if_pos h2]
      exact ih (fun d hd => h d (List.mem_cons_of_mem _ hd)) n (by simpa using hn)

theorem skipSpace_nil : json.skipSpace [] = [] := rfl

/-- A string literal of plain bytes decodes to its content. -/
theorem UnmarshalString_quoted_plain (body : Bytes) (h : ∀ c ∈ body, plainByte c = true) :
    json.UnmarshalString (quoted body) = json.StringResult.str body := by
  have hq : quoted body = 34 :: (body ++ 34 :: []) := by simp [quoted]
  have hs : json.skipSpace (34 :: (body ++ 34 :: [])) = 34 :: (body ++ 34 :: []) := by
    simp [json.skipSpace, json.isSpace]
  unfold json.UnmarshalString
  rw [hq, hs]
  simp only [scanString_plain body [] h, skipSpace_nil, if_true, json.unquote,
    unquotePlain_plain body h _ (le_refl _)]

theorem ext_getD (l1 l2 : Bytes) (hlen : l1.length = l2.length)
    (h : ∀ i, i < l1.length → l1.getD i 0 = l2.getD i 0) : l1 = l2 := by
  apply List.ext_getElem hlen
  intro n h1 h2
  have := h n h1
  rwa [List.getD_eq_getElem _ _ h1, List.getD_eq_getElem _ _ h2] at this

/-! ## The round trip of a canonical UUID text -/

theorem shift_or_eq (va vb : Nat) (ha : va < 16) (hb : vb < 16) :
    ((va <<< 4) ||| vb) % 256 = va * 16 + vb := by
  have key : ∀ a : Fin 16, ∀ b : Fin 16, ((a.1 <<< 4) ||| b.1) % 256 = a.1 * 16 + b.1 := by
    decide
  exact key ⟨va, ha⟩ ⟨vb, hb⟩

theorem xvalues_lowerHex (a : Nat) (ha : lowerHexDigit a = true) :
    uuid.xvalues a < 16 ∧ hex.hextable (uuid.xvalues a) = a := by
  simp only [lowerHexDigit, Bool.or_eq_true, Bool.and_eq_true, decide_eq_true_eq] at ha
  unfold uuid.xvalues hex.hextable
  rcases ha with h | h
  · rw [if_pos h]
    constructor
    · omega
    · rw [if_pos (by omega)]; omega
  · have h1 : ¬ (48 ≤ a ∧ a ≤ 57) := by omega
    rw [if_neg h1, if_pos h]
    constructor
    · omega
    · rw [if_neg (by omega)]; omega

theorem xtob_lowerHex (a b : Nat) (ha : lowerHexDigit a = true) (hb : lowerHexDigit b = true) :
    (uuid.xtob a b).2 = true ∧ hex.hextable ((uuid.xtob a b).1 / 16) = a
      ∧ hex.hextable ((uuid.xtob a b).1 % 16) = b := by
  obtain ⟨ha16, hah⟩ := xvalues_lowerHex a ha
  obtain ⟨hb16, hbh⟩ := xvalues_lowerHex b hb
  unfold uuid.xtob
  simp only [shift_or_eq _ _ ha16 hb16]
  refine ⟨?_, ?_, ?_⟩
  · have h1 : uuid.xvalues a ≠ 255 := by omega
    have h2 : uuid.xvalues b ≠ 255 := by omega
    simp [h1, h2]
  · have e : (uuid.xvalues a * 16 + uuid.xvalues b) / 16 = uuid.xvalues a := by omega
    rw [e, hah]
  · have e : (uuid.xvalues a * 16 + uuid.xvalues b) % 16 = uuid.xvalues b := by omega
    rw [e, hbh]

theorem lowerHex_hexDigit (a : Nat) (ha : lowerHexDigit a = true) : hexDigit a = true := by
  simp only [lowerHexDigit, Bool.or_eq_true, Bool.and_eq_true, decide_eq_true_eq] at ha
  simp only [hexDigit, Bool.or_eq_true, Bool.and_eq_true, decide_eq_true_eq]
  omega

theorem lowerHex_plain (a : Nat) (ha : lowerHexDigit a = true) : plainByte a = true := by
  simp only [lowerHexDigit, Bool.or_eq_true, Bool.and_eq_true, decide_eq_true_eq] at ha
  simp only [plainByte, Bool.and_eq_true, decide_eq_true_eq]
  omega

theorem canonical_facts (s : Bytes) (hs : canonicalUUIDText s = true) :
    s.length = 36
    ∧ (s.getD 8 0 = 45 ∧ s.getD 13 0 = 45 ∧ s.getD 18 0 = 45 ∧ s.getD 23 0 = 45)
    ∧ ∀ i ∈ uuidDigitPositions, lowerHexDigit (s.getD i 0) = true := by
  simp only [canonicalUUIDText, hyphenatedAt, Bool.and_eq_true, beq_iff_eq,
    List.all_eq_true] at hs
  exact ⟨hs.1, ⟨hs.2.1.1.1.1, hs.2.1.1.1.2, hs.2.1.1.2, hs.2.1.2⟩, hs.2.2⟩

theorem canonical_plain (s : Bytes) (hs : canonicalUUIDText s = true) :
    ∀ c ∈ s, plainByte c = true := by
  obtain ⟨hlen, ⟨h8, h13, h18, h23⟩, hd⟩ := canonical_facts s hs
  have hall : s.all plainByte = true := by
    rw [all_iff_getD, hlen]
    intro i hi
    interval_cases i <;>
      first
        | exact lowerHex_plain _ (hd _ (by decide))
        | (rw [h8]; decide)
        | (rw [h13]; decide)
        | (rw [h18]; decide)
        | (rw [h23]; decide)
  exact List.all_eq_true.1 hall

theorem Parse_canonical (s : Bytes) (hs : canonicalUUIDText s = true) :
    uuid.Parse s = Except.ok
      (uuid.hyphenatedOffsets.map (fun x => (uuid.xtob (s.getD x 0) (s.getD (x + 1) 0)).1)) := by
  obtain ⟨hlen, ⟨h8, h13, h18, h23⟩, hd⟩ := canonical_facts s hs
  have hno : ¬ (s.getD 8 0 ≠ 45 ∨ s.getD 13 0 ≠ 45 ∨ s.getD 18 0 ≠ 45 ∨ s.getD 23 0 ≠ 45) := by
    omega
  unfold uuid.Parse
  simp only [if_pos hlen, if_neg hno]
  apply parseBytes_eq_map
  intro x hx
  have hx1 : x ∈ uuidDigitPositions ∧ x + 1 ∈ uuidDigitPositions := by
    revert x
    decide
  exact (xtob_lowerHex _ _ (hd x hx1.1) (hd (x + 1) hx1.2)).1

theorem list36_eq (s : Bytes) (hlen : s.length = 36) :
    s = [s.getD 0 0, s.getD 1 0, s.getD 2 0, s.getD 3 0, s.getD 4 0, s.getD 5 0, s.getD 6 0, s.getD 7 0, s.getD 8 0, s.getD 9 0, s.getD 10 0, s.getD 11 0, s.getD 12 0, s.getD 13 0, s.getD 14 0, s.getD 15 0, s.getD 16 0, s.getD 17 0, s.getD 18 0, s.getD 19 0, s.getD 20 0, s.getD 21 0, s.getD 22 0, s.getD 23 0, s.getD 24 0, s.getD 25 0, s.getD 26 0, s.getD 27 0, s.getD 28 0, s.getD 29 0, s.getD 30 0, s.getD 31 0, s.getD 32 0, s.getD 33 0, s.getD 34 0, s.getD 35 0] := by
  apply ext_getD
  · rw [hlen]; rfl
  · intro i hi
    rw [hlen] at hi
    interval_cases i <;> rfl

theorem String_Parse_canonical (s : Bytes) (hs : canonicalUUIDText s = true) :
    uuid.UUID.String
      (uuid.hyphenatedOffsets.map (fun x => (uuid.xtob (s.getD x 0) (s.getD (x + 1) 0)).1))
      = s := by
  obtain ⟨hlen, ⟨h8, h13, h18, h23⟩, hd⟩ := canonical_facts s hs
  have hr : ∀ x, x ∈ uuidDigitPositions → x + 1 ∈ uuidDigitPositions →
      hex.hextable ((uuid.xtob (s.getD x 0) (s.getD (x + 1) 0)).1 / 16) = s.getD x 0
      ∧ hex.hextable ((uuid.xtob (s.getD x 0) (s.getD (x + 1) 0)).1 % 16) = s.getD (x + 1) 0 :=
    fun x h1 h2 => (xtob_lowerHex _ _ (hd x h1) (hd (x + 1) h2)).2
  conv_rhs => rw [list36_eq s hlen]
  simp only [uuid.hyphenatedOffsets, List.map, uuid.UUID.String, List.take, List.drop,
    hex.Encode, List.cons_append, List.nil_append, List.append_nil]
  rw [(hr 0 (by decide) (by decide)).1, (hr 0 (by decide) (by decide)).2, (hr 2 (by decide) (by decide)).1, (hr 2 (by decide) (by decide)).2, (hr 4 (by decide) (by decide)).1, (hr 4 (by decide) (by decide)).2, (hr 6 (by decide) (by decide)).1, (hr 6 (by decide) (by decide)).2, (hr 9 (by decide) (by decide)).1, (hr 9 (by decide) (by decide)).2, (hr 11 (by decide) (by decide)).1, (hr 11 (by decide) (by decide)).2, (hr 14 (by decide) (by decide)).1, (hr 14 (by decide) (by decide)).2, (hr 16 (by decide) (by decide)).1, (hr 16 (by decide) (by decide)).2, (hr 19 (by decide) (by decide)).1, (hr 19 (by decide) (by decide)).2, (hr 21 (by decide) (by decide)).1, (hr 21 (by decide) (by decide)).2, (hr 24 (by decide) (by decide)).1, (hr 24 (by decide) (by decide)).2, (hr 26 (by decide) (by decide)).1, (hr 26 (by decide) (by decide)).2, (hr 28 (by decide) (by decide)).1, (hr 28 (by decide) (by decide)).2, (hr 30 (by decide) (by decide)).1, (hr 30 (by decide) (by decide)).2, (hr 32 (by decide) (by decide)).1, (hr 32 (by decide) (by decide)).2, (hr 34 (by decide) (by decide)).1, (hr 34 (by decide) (by decide)).2, h8, h13, h18, h23]

/-! ## Properties of `UUID.UnmarshalJSON` and `UUID.String` -/

theorem UUID_UnmarshalJSON_long (u : UUID) (data : Bytes) (h7 : 7 ≤ data.length)
    (content : Bytes) (hjs : json.UnmarshalString data = json.StringResult.str content) :
    UUID.UnmarshalJSON u data
      = (match uuid.Parse content with
          | Except.error e => (u, some (UUIDError.parse e))
          | Except.ok id => ({ Value := some id }, none)) := by
  have hlt : ¬ data.length < 7 := by omega
  unfold UUID.UnmarshalJSON
  rw [if_neg hlt, hjs]

/-- C11 (as stated, refuted): the 40-byte input
`"x550e8400-e29b-41d4-a716-446655440000y"` is a JSON string whose content, a
hyphenated UUID with a stray byte before and after it, is not UUID text in any
customary form; `UnmarshalJSON` on a fresh wrapper returns no error and the
wrapper holds a value. -/
theorem C11_stray_delimiters_are_accepted :
    7 ≤ (bytesOf "\"x550e8400-e29b-41d4-a716-446655440000y\"").length
    ∧ json.UnmarshalString (bytesOf "\"x550e8400-e29b-41d4-a716-446655440000y\"")
        = json.StringResult.str (bytesOf "x550e8400-e29b-41d4-a716-446655440000y")
    ∧ standardUUIDText (bytesOf "x550e8400-e29b-41d4-a716-446655440000y") = false
    ∧ UUID.UnmarshalJSON { Value := none }
          (bytesOf "\"x550e8400-e29b-41d4-a716-446655440000y\"")
        = ({ Value := some [85, 14, 132, 0, 226, 155, 65, 212, 167, 22, 68, 102, 85, 68, 0, 0] },
            none) := by
  decide

/-- C11 (amended): for every input of at least seven bytes that is a JSON
string whose content `uuid.Parse` does not accept (it is neither 36 bytes of
hyphenated hexadecimal digits, nor that after "urn:uuid:", nor 38 bytes whose
middle 36 are of that form, nor 32 hexadecimal digits), `UnmarshalJSON`
returns an error and leaves the wrapper as it was; a fresh wrapper keeps no
value and its `String()` is empty. -/
theorem C11_unaccepted_text_is_error (u : UUID) (data content : Bytes)
    (h7 : 7 ≤ data.length)
    (hjs : json.UnmarshalString data = json.StringResult.str content)
    (hbad : acceptedUUIDText content = false) :
    (∃ e, UUID.UnmarshalJSON u data = (u, some e))
    ∧ (∃ e, UUID.UnmarshalJSON { Value := none } data = ({ Value := none }, some e))
    ∧ (UUID.UnmarshalJSON { Value := none } data).1.String = [] := by
  obtain ⟨e, he⟩ := uuid_Parse_error_of_not_accepted content hbad
  have key : ∀ w : UUID, UUID.UnmarshalJSON w data = (w, some (UUIDError.parse e)) := by
    intro w
    rw [UUID_UnmarshalJSON_long w data h7 content hjs, he]
  refine ⟨⟨_, key u⟩, ⟨_, key _⟩, ?_⟩
  rw [key]
  rfl

/-- Witness for C11 (amended): "not a uuid" in quotes is a JSON string of
twelve bytes whose content is not accepted. -/
theorem C11_unaccepted_text_is_error_witness :
    (7 ≤ (bytesOf "\"not a uuid\"").length
      ∧ json.UnmarshalString (bytesOf "\"not a uuid\"")
          = json.StringResult.str (bytesOf "not a uuid")
      ∧ acceptedUUIDText (bytesOf "not a uuid") = false)
    ∧ ((∃ e, UUID.UnmarshalJSON { Value := none } (bytesOf "\"not a uuid\"")
          = ({ Value := none }, some e))
      ∧ (∃ e, UUID.UnmarshalJSON { Value := none } (bytesOf "\"not a uuid\"")
          = ({ Value := none }, some e))
      ∧ (UUID.UnmarshalJSON { Value := none } (bytesOf "\"not a uuid\"")).1.String = []) :=
  ⟨by decide,
    C11_unaccepted_text_is_error { Value := none } (bytesOf "\"not a uuid\"")
      (bytesOf "not a uuid") (by decide) (by decide) (by decide)⟩

/-- C12: on every input of fewer than seven bytes `UnmarshalJSON` returns no
error and leaves the wrapper exactly as it was, whatever the bytes are. -/
theorem C12_uuid_short_input_is_noop (u : UUID) (data : Bytes) (h : data.length < 7) :
    UUID.UnmarshalJSON u data = (u, none) := by
  unfold UUID.UnmarshalJSON
  rw [if_pos h]

/-- Witness for C12: the four bytes `"abc`, an unterminated string literal,
are not well-formed JSON (decoding them as JSON is an error), and a fresh
wrapper is returned unchanged with no error. -/
theorem C12_uuid_short_input_is_noop_witness :
    ((bytesOf "\"abc").length < 7
      ∧ json.UnmarshalString (bytesOf "\"abc") = json.StringResult.error)
    ∧ UUID.UnmarshalJSON { Value := none } (bytesOf "\"abc") = ({ Value := none }, none) :=
  ⟨by decide, C12_uuid_short_input_is_noop { Value := none } (bytesOf "\"abc") (by decide)⟩

/-- C13: for every text `s` in canonical lower-case 8-4-4-4-12 hexadecimal
form, decoding `s` in double quotes succeeds, the wrapper holds a value, and
`String()` of the result is `s`. -/
theorem C13_canonical_uuid_round_trip (u : UUID) (s : Bytes)
    (hs : canonicalUUIDText s = true) :
    ∃ id, UUID.UnmarshalJSON u (quoted s) = ({ Value := some id }, none)
      ∧ (UUID.UnmarshalJSON u (quoted s)).1.String = s := by
  have hlen := (canonical_facts s hs).1
  have h7 : 7 ≤ (quoted s).length := by simp [quoted, hlen]
  have hjs := UnmarshalString_quoted_plain s (canonical_plain s hs)
  have hres := UUID_UnmarshalJSON_long u (quoted s) h7 s hjs
  rw [Parse_canonical s hs] at hres
  refine ⟨_, hres, ?_⟩
  rw [hres]
  exact String_Parse_canonical s hs

/-- Witness for C13: the text of the repository's test,
"550e8400-e29b-41d4-a716-446655440000". -/
theorem C13_canonical_uuid_round_trip_witness :
    canonicalUUIDText (bytesOf "550e8400-e29b-41d4-a716-446655440000") = true
    ∧ bytesOf "\"550e8400-e29b-41d4-a716-446655440000\""
        = quoted (bytesOf "550e8400-e29b-41d4-a716-446655440000")
    ∧ ∃ id, UUID.UnmarshalJSON { Value := none }
          (quoted (bytesOf "550e8400-e29b-41d4-a716-446655440000"))
          = ({ Value := some id }, none)
        ∧ (UUID.UnmarshalJSON { Value := none }
            (quoted (bytesOf "550e8400-e29b-41d4-a716-446655440000"))).1.String
          = bytesOf "550e8400-e29b-41d4-a716-446655440000" :=
  ⟨by decide, by decide,
    C13_canonical_uuid_round_trip { Value := none }
      (bytesOf "550e8400-e29b-41d4-a716-446655440000") (by decide)⟩

theorem hex_Encode_length (l : Bytes) : (hex.Encode l).length = 2 * l.length := by
  induction l with
  | nil => rfl
  | cons v rest ih => simp only [hex.Encode, List.length_cons, ih]; omega

/-- C14: `String()` on a wrapper that holds no value is the empty string (the
function is total, it cannot fail); on a wrapper that holds a value it is
never empty, and it has 36 bytes when the value has its sixteen bytes; so
`String()` is empty exactly when the wrapper holds no value. -/
theorem C14_string_empty_iff_absent (u : UUID) :
    (UUID.String { Value := none } = [])
    ∧ (∀ id : uuid.UUID, UUID.String { Value := some id } ≠ [])
    ∧ (∀ id : uuid.UUID, id.length = 16 → (UUID.String { Value := some id }).length = 36)
    ∧ (u.String = [] ↔ u.Value = none) := by
  have hne : ∀ id : uuid.UUID, UUID.String { Value := some id } ≠ [] := by
    intro id h
    have := congrArg List.length h
    simp [UUID.String, uuid.UUID.String] at this
  refine ⟨rfl, hne, ?_, ?_⟩
  · intro id hid
    simp only [UUID.String, uuid.UUID.String, List.length_append, hex_Encode_length,
      List.length_take, List.length_drop, List.length_cons, List.length_nil, hid]
    rfl
  · obtain ⟨v⟩ := u
    cases v with
    | none => simp [UUID.String]
    | some id =>
      constructor
      · intro h; exact absurd h (hne id)
      · intro h; simp at h

/-! ## Package `strconv`: the texts `ParseInt(s, 10, 64)` accepts -/

theorem decimalValue_ge (ds : Bytes) : ∀ acc, acc ≤ decimalValue ds acc := by
  induction ds with
  | nil => intro acc; exact le_refl _
  | cons c ds ih =>
    intro acc
    rw [decimalValue]
    exact le_trans (by omega) (ih _)

theorem parseUintLoop_ok_iff (ds : Bytes) :
    ∀ (acc v : Nat), acc ≤ 2 ^ 64 - 1 →
      (strconv.parseUintLoop ds acc = (v, none) ↔
        (∀ c ∈ ds, 48 ≤ c ∧ c ≤ 57) ∧ v = decimalValue ds acc ∧ v ≤ 2 ^ 64 - 1) := by
  induction ds with
  | nil =>
    intro acc v hacc
    simp only [strconv.parseUintLoop, Prod.mk.injEq, and_true, List.not_mem_nil,
      false_implies, implies_true, true_and, decimalValue]
    constructor
    · intro h; subst h; exact ⟨rfl, hacc⟩
    · intro h; exact h.1.symm
  | cons c ds ih =>
    intro acc v hacc
    rw [strconv.parseUintLoop]
    by_cases hc : 48 ≤ c ∧ c ≤ 57
    · rw [if_neg (not_not.2 hc)]
      by_cases h1 : acc ≥ (2 ^ 64 - 1) / 10 + 1
      · rw [if_pos h1]
        constructor
        · intro h; simp at h
        · rintro ⟨_, hv, hle⟩
          have := decimalValue_ge ds (acc * 10 + (c - 48))
          rw [decimalValue] at hv
          norm_num at h1 hle
          omega
      · rw [if_neg h1]
        by_cases h2 : acc * 10 + (c - 48) > 2 ^ 64 - 1
        · rw [if_pos h2]
          constructor
          · intro h; simp at h
          · rintro ⟨_, hv, hle⟩
            have := decimalValue_ge ds (acc * 10 + (c - 48))
            rw [decimalValue] at hv
            omega
        · rw [if_neg h2, ih _ v (by omega), decimalValue]
          constructor
          · rintro ⟨hd, hv, hle⟩
            refine ⟨?_, hv, hle⟩
            intro x hx
            rcases List.mem_cons.1 hx with rfl | hx
            · exact hc
            · exact hd x hx
          · rintro ⟨hd, hv, hle⟩
            exact ⟨fun x hx => hd x (List.mem_cons_of_mem _ hx), hv, hle⟩
    · rw [if_pos hc]
      constructor
      · intro h; simp at h
      · rintro ⟨hd, _⟩
        exact absurd (hd c (List.mem_cons_self _ _)) hc

theorem parseUintLoop_not_ErrSyntax (ds : Bytes) (hd : ∀ c ∈ ds, 48 ≤ c ∧ c ≤ 57) :
    ∀ acc, (strconv.parseUintLoop ds acc).2 ≠ some strconv.NumError.ErrSyntax := by
  induction ds with
  | nil => intro acc; simp [strconv.parseUintLoop]
  | cons c ds ih =>
    intro acc
    have hc := hd c (List.mem_cons_self _ _)
    rw [strconv.parseUintLoop, if_neg (not_not.2 hc)]
    split
    · simp
    · split
      · simp
      · exact ih (fun x hx => hd x (List.mem_cons_of_mem _ hx)) _

theorem ParseUint_ok_iff (ds : Bytes) (v : Nat) :
    strconv.ParseUint ds = (v, none) ↔
      ds ≠ [] ∧ (∀ c ∈ ds, 48 ≤ c ∧ c ≤ 57) ∧ v = decimalValue ds 0 ∧ v ≤ 2 ^ 64 - 1 := by
  unfold strconv.ParseUint
  by_cases h : ds = []
  · simp [h]
  · rw [if_neg h, parseUintLoop_ok_iff ds 0 v (by norm_num)]
    simp [h]

theorem parseUintLoop_error (ds : Bytes) :
    ∀ (acc v : Nat) (e : strconv.NumError), strconv.parseUintLoop ds acc = (v, some e) →
      (e = strconv.NumError.ErrSyntax ∧ v = 0) ∨ (e = strconv.NumError.ErrRange ∧ v = 2 ^ 64 - 1) := by
  induction ds with
  | nil => intro acc v e h; simp [strconv.parseUintLoop] at h
  | cons c ds ih =>
    intro acc v e h
    rw [strconv.parseUintLoop] at h
    split at h
    · simp only [Prod.mk.injEq, Option.some.injEq] at h
      exact Or.inl ⟨h.2.symm, h.1.symm⟩
    · split at h
      · simp only [Prod.mk.injEq, Option.some.injEq] at h
        exact Or.inr ⟨h.2.symm, h.1.symm⟩
      · split at h
        · simp only [Prod.mk.injEq, Option.some.injEq] at h
          exact Or.inr ⟨h.2.symm, h.1.symm⟩
        · exact ih _ _ _ h

theorem ParseUint_error (ds : Bytes) (v : Nat) (e : strconv.NumError)
    (h : strconv.ParseUint ds = (v, some e)) :
    (e = strconv.NumError.ErrSyntax ∧ v = 0) ∨ (e = strconv.NumError.ErrRange ∧ v = 2 ^ 64 - 1) := by
  unfold strconv.ParseUint at h
  split at h
  · simp only [Prod.mk.injEq, Option.some.injEq] at h
    exact Or.inl ⟨h.2.symm, h.1.symm⟩
  · exact parseUintLoop_error _ _ _ _ h

/-- The body of `ParseInt` after the sign is taken off. -/
theorem ParseInt_cons (c : Nat) (rest : Bytes) :
    strconv.ParseInt (c :: rest) =
      (match strconv.ParseUint (if c = 43 ∨ c = 45 then rest else c :: rest) with
        | (_, some strconv.NumError.ErrSyntax) => (0, some strconv.NumError.ErrSyntax)
        | (un, _) =>
          if ¬ (decide (c = 45) = true) ∧ un ≥ 2 ^ 63 then
            ((2 : Int) ^ 63 - 1, some strconv.NumError.ErrRange)
          else if decide (c = 45) = true ∧ un > 2 ^ 63 then
            (-(2 : Int) ^ 63, some strconv.NumError.ErrRange)
          else (if decide (c = 45) = true then -(un : Int) else (un : Int), none)) := rfl

theorem ParseInt_of_ParseUint_ok (c : Nat) (rest : Bytes) (un : Nat)
    (h : strconv.ParseUint (if c = 43 ∨ c = 45 then rest else c :: rest) = (un, none)) :
    strconv.ParseInt (c :: rest) =
      (if ¬ (c = 45) ∧ un ≥ 2 ^ 63 then ((2 : Int) ^ 63 - 1, some strconv.NumError.ErrRange)
       else if c = 45 ∧ un > 2 ^ 63 then (-(2 : Int) ^ 63, some strconv.NumError.ErrRange)
       else (if c = 45 then -(un : Int) else (un : Int), none)) := by
  rw [ParseInt_cons, h]
  simp only [decide_eq_true_eq]

theorem ParseInt_of_ParseUint_error (c : Nat) (rest : Bytes) (un : Nat) (e : strconv.NumError)
    (h : strconv.ParseUint (if c = 43 ∨ c = 45 then rest else c :: rest) = (un, some e)) :
    (strconv.ParseInt (c :: rest)).2 ≠ none := by
  rw [ParseInt_cons, h]
  rcases ParseUint_error _ _ _ h with ⟨rfl, _⟩ | ⟨rfl, hv⟩
  · simp
  · subst hv
    by_cases hc : c = 45
    · simp [hc]
    · simp [hc]

/-- `strconv.ParseInt(s, 10, 64)` succeeds with `n` exactly on the base-10
texts of `n`. -/
theorem ParseInt_ok_iff (s : Bytes) (n : Int) :
    strconv.ParseInt s = (n, none) ↔ decimalInt64Text s n := by
  constructor
  · intro h
    cases s with
    | nil => simp [strconv.ParseInt] at h
    | cons c rest =>
      rcases hu : strconv.ParseUint (if c = 43 ∨ c = 45 then rest else c :: rest) with ⟨un, e⟩
      cases e with
      | some e =>
        have := ParseInt_of_ParseUint_error c rest un e hu
        rw [h] at this
        exact absurd rfl this
      | none =>
        rw [ParseInt_of_ParseUint_ok c rest un hu] at h
        obtain ⟨hne, hd, hv, hle⟩ := (ParseUint_ok_iff _ _).1 hu
        by_cases h1 : ¬ (c = 45) ∧ un ≥ 2 ^ 63
        · rw [if_pos h1] at h; simp at h
        · rw [if_neg h1] at h
          by_cases h2 : c = 45 ∧ un > 2 ^ 63
          · rw [if_pos h2] at h; simp at h
          · rw [if_neg h2] at h
            simp only [Prod.mk.injEq, and_true] at h
            by_cases h45 : c = 45
            · subst h45
              simp only [or_true, if_true] at hne hd hv
              rw [if_pos rfl] at h
              refine ⟨[45], rest, rfl, Or.inr (Or.inr rfl), hne, hd, ?_, ?_, ?_⟩
              · rw [if_pos rfl, ← hv, h]
              · norm_num at h2 ⊢; omega
              · norm_num; omega
            · rw [if_neg h45] at h
              by_cases h43 : c = 43
              · subst h43
                simp only [true_or, if_true] at hne hd hv
                refine ⟨[43], rest, rfl, Or.inr (Or.inl rfl), hne, hd, ?_, ?_, ?_⟩
                · rw [if_neg (by decide), ← hv, h]
                · norm_num; omega
                · norm_num at h1 ⊢; omega
              · have hcond : ¬ (c = 43 ∨ c = 45) := by omega
                rw [if_neg hcond] at hne hd hv
                refine ⟨[], c :: rest, rfl, Or.inl rfl, hne, hd, ?_, ?_, ?_⟩
                · rw [if_neg (by decide), ← hv, h]
                · norm_num; omega
                · norm_num at h1 ⊢; omega
  · rintro ⟨sign, digits, rfl, hsign, hne, hd, hn, hlo, hhi⟩
    obtain ⟨d, ds, rfl⟩ := List.exists_cons_of_ne_nil hne
    have hdd := hd d (List.mem_cons_self _ _)
    rcases hsign with rfl | rfl | rfl
    · rw [if_neg (by decide)] at hn
      have hcond : ¬ (d = 43 ∨ d = 45) := by omega
      have hu : strconv.ParseUint (if d = 43 ∨ d = 45 then ds else d :: ds)
          = (decimalValue (d :: ds) 0, none) := by
        rw [if_neg hcond, ParseUint_ok_iff]
        refine ⟨by simp, hd, rfl, ?_⟩
        norm_num at hhi ⊢; omega
      rw [List.nil_append, ParseInt_of_ParseUint_ok d ds _ hu]
      have h45 : ¬ d = 45 := by omega
      have h1 : ¬ (¬ (d = 45) ∧ decimalValue (d :: ds) 0 ≥ 2 ^ 63) := by
        norm_num at hhi ⊢; omega
      rw [if_neg h1, if_neg (by tauto), if_neg h45, hn]
    · rw [if_neg (by decide)] at hn
      have hu : strconv.ParseUint (if (43 : Nat) = 43 ∨ (43 : Nat) = 45 then d :: ds
          else 43 :: d :: ds) = (decimalValue (d :: ds) 0, none) := by
        rw [if_pos (Or.inl rfl), ParseUint_ok_iff]
        refine ⟨by simp, hd, rfl, ?_⟩
        norm_num at hhi ⊢; omega
      have e : [43] ++ d :: ds = 43 :: d :: ds := rfl
      rw [e, ParseInt_of_ParseUint_ok 43 (d :: ds) _ hu]
      have h1 : ¬ (¬ ((43 : Nat) = 45) ∧ decimalValue (d :: ds) 0 ≥ 2 ^ 63) := by
        norm_num at hhi ⊢; omega
      have h2 : ¬ ((43 : Nat) = 45 ∧ decimalValue (d :: ds) 0 > 2 ^ 63) := by simp
      have h3 : ¬ ((43 : Nat) = 45) := by decide
      rw [if_neg h1, if_neg h2, if_neg h3, hn]
    · rw [if_pos rfl] at hn
      have hu : strconv.ParseUint (if (45 : Nat) = 43 ∨ (45 : Nat) = 45 then d :: ds
          else 45 :: d :: ds) = (decimalValue (d :: ds) 0, none) := by
        rw [if_pos (Or.inr rfl), ParseUint_ok_iff]
        refine ⟨by simp, hd, rfl, ?_⟩
        norm_num at hlo ⊢; omega
      have e : [45] ++ d :: ds = 45 :: d :: ds := rfl
      rw [e, ParseInt_of_ParseUint_ok 45 (d :: ds) _ hu]
      have h1 : ¬ (¬ ((45 : Nat) = 45) ∧ decimalValue (d :: ds) 0 ≥ 2 ^ 63) := by simp
      have h2 : ¬ ((45 : Nat) = 45 ∧ decimalValue (d :: ds) 0 > 2 ^ 63) := by
        norm_num at hlo ⊢; omega
      rw [if_neg h1, if_neg h2, if_pos rfl, hn]

theorem ParseInt_error_of_not_decimal (s : Bytes) (h : ¬ ∃ n, decimalInt64Text s n) :
    ∃ e, (strconv.ParseInt s).2 = some e := by
  rcases hp : strconv.ParseInt s with ⟨n, e⟩
  cases e with
  | some e => exact ⟨e, rfl⟩
  | none => exact absurd ⟨n, (ParseInt_ok_iff s n).1 hp⟩ h

/-! ## Package `mapstructure`: the decoders of the fields -/

theorem decodeHook_uint8 (b : Nat) :
    Order.decodeHook "uint8" (GoValue.uint8 b) = HookResult.ok (GoValue.int64 b) := by
  simp [Order.decodeHook]

theorem decodeElems_eq (l : List Nat) :
    ∀ (pre old post : List Nat) (fl : Bool), old.length = l.length → (∀ b ∈ l, b < 256) →
      mapstructure.decodeElems l pre.length (pre ++ old ++ post) fl
        = some (pre ++ l ++ post, fl) := by
  induction l with
  | nil =>
    intro pre old post fl hlen _
    have : old = [] := List.length_eq_zero.1 hlen
    subst this
    simp [mapstructure.decodeElems]
  | cons b rest ih =>
    intro pre old post fl hlen hb
    cases old with
    | nil => simp at hlen
    | cons o olds =>
      have hb256 : b < 256 := hb b (List.mem_cons_self _ _)
      rw [mapstructure.decodeElems, decodeHook_uint8]
      simp only
      have hneg : ¬ ((b : Int) < 0) := by omega
      rw [if_neg hneg]
      have hset : (pre ++ (o :: olds) ++ post).set pre.length ((b : Int).toNat % 256)
          = (pre ++ [b]) ++ olds ++ post := by
        simp [List.set_append, Nat.mod_eq_of_lt hb256]
      rw [hset]
      have hl : pre.length + 1 = (pre ++ [b]).length := by simp
      rw [hl, ih (pre ++ [b]) olds post fl (by simpa using hlen)
        (fun c hc => hb c (List.mem_cons_of_mem _ hc))]
      simp

theorem decodeElems_ne_none (l : List Nat) :
    ∀ (i : Nat) (arr : List Nat) (fl : Bool), ∃ arr1,
      mapstructure.decodeElems l i arr fl = some (arr1, fl) := by
  induction l with
  | nil => intro i arr fl; exact ⟨arr, rfl⟩
  | cons b rest ih =>
    intro i arr fl
    rw [mapstructure.decodeElems, decodeHook_uint8]
    simp only
    have hneg : ¬ ((b : Int) < 0) := by omega
    rw [if_neg hneg]
    exact ih _ _ _

theorem parseBytes_bytes (s : Bytes) (offsets : List Nat) :
    ∀ id, uuid.parseBytes s offsets = Except.ok id →
      id.length = offsets.length ∧ ∀ b ∈ id, b < 256 := by
  induction offsets with
  | nil =>
    intro id h
    simp only [uuid.parseBytes, Except.ok.injEq] at h
    subst h
    simp
  | cons x xs ih =>
    intro id h
    rw [uuid.parseBytes] at h
    rcases hx : uuid.xtob (s.getD x 0) (s.getD (x + 1) 0) with ⟨v, ok⟩
    rw [hx] at h
    cases ok with
    | false => simp at h
    | true =>
      simp only at h
      rcases hr : uuid.parseBytes s xs with e | rest
      · rw [hr] at h; simp at h
      · rw [hr] at h
        simp only [Except.ok.injEq] at h
        subst h
        obtain ⟨h1, h2⟩ := ih rest hr
        have hv : v < 256 := by
          have := congrArg Prod.fst hx
          simp only [uuid.xtob] at this
          rw [← this]
          exact Nat.mod_lt _ (by decide)
        refine ⟨by simp [h1], ?_⟩
        intro b hbm
        rcases List.mem_cons.1 hbm with rfl | hbm
        · exact hv
        · exact h2 b hbm

theorem uuid_Parse_bytes (s : Bytes) (id : uuid.UUID) (h : uuid.Parse s = Except.ok id) :
    id.length = 16 ∧ ∀ b ∈ id, b < 256 := by
  unfold uuid.Parse at h
  simp only [] at h
  split at h
  · split at h
    · simp at h
    · exact parseBytes_bytes _ _ _ h
  · split at h
    · split at h
      · simp at h
      · split at h
        · simp at h
        · exact parseBytes_bytes _ _ _ h
    · split at h
      · split at h
        · simp at h
        · exact parseBytes_bytes _ _ _ h
      · split at h
        · exact parseBytes_bytes _ _ _ h
        · simp at h

theorem decodeInt64_null (cur : Int) :
    mapstructure.decodeInt64 (GoValue.json json.Value.null) cur = mapstructure.Step.ok cur := by
  simp [mapstructure.decodeInt64, GoValue.isNil]

theorem decodeInt64_string (s : Bytes) (cur : Int) :
    mapstructure.decodeInt64 (GoValue.json (json.Value.string s)) cur
      = (match strconv.ParseInt s with
          | (i, none) => mapstructure.Step.ok i
          | (_, some e) =>
            mapstructure.Step.failed cur (mapstructure.Cause.hook (HookError.number e))) := by
  rcases hp : strconv.ParseInt s with ⟨i, e⟩
  cases e <;> simp [mapstructure.decodeInt64, GoValue.isNil, Order.decodeHook, hp]

theorem decodeString_null (cur : Bytes) :
    mapstructure.decodeString (GoValue.json json.Value.null) cur = mapstructure.Step.ok cur := by
  simp [mapstructure.decodeString, GoValue.isNil]

theorem decodeString_string (s cur : Bytes) :
    mapstructure.decodeString (GoValue.json (json.Value.string s)) cur
      = mapstructure.Step.ok s := by
  simp [mapstructure.decodeString, GoValue.isNil, Order.decodeHook]

theorem decodeTimePtr_null (cur : Option Time) :
    mapstructure.decodeTimePtr (GoValue.json json.Value.null) cur
      = mapstructure.Step.ok cur := by
  simp [mapstructure.decodeTimePtr, GoValue.isNil]

theorem decodeTimePtr_string (s : Bytes) (cur : Option Time) :
    mapstructure.decodeTimePtr (GoValue.json (json.Value.string s)) cur
      = (if s = [] then mapstructure.Step.ok (some Time.zero)
         else
          match Parse s with
          | (ts, none) => mapstructure.Step.ok (some ts)
          | (_, some e) =>
            mapstructure.Step.failed cur (mapstructure.Cause.hook (HookError.time e))) := by
  by_cases hs : s = []
  · subst hs
    simp [mapstructure.decodeTimePtr, GoValue.isNil, Order.decodeHook]
  · rcases hp : Parse s with ⟨ts, e⟩
    cases e <;> simp [mapstructure.decodeTimePtr, GoValue.isNil, Order.decodeHook, hp, hs]

theorem decodeUUID_null (cur : uuid.UUID) :
    mapstructure.decodeUUID (GoValue.json json.Value.null) cur = mapstructure.Step.ok cur := by
  simp [mapstructure.decodeUUID, GoValue.isNil]

theorem decodeUUID_string_error (s : Bytes) (cur : uuid.UUID) (e : uuid.ParseError)
    (h : uuid.Parse s = Except.error e) :
    mapstructure.decodeUUID (GoValue.json (json.Value.string s)) cur
      = mapstructure.Step.failed cur (mapstructure.Cause.hook (HookError.uuid e)) := by
  simp [mapstructure.decodeUUID, GoValue.isNil, Order.decodeHook, h]

theorem decodeUUID_string_some (s : Bytes) (cur id : uuid.UUID)
    (h : uuid.Parse s = Except.ok id) :
    ∃ a, mapstructure.decodeUUID (GoValue.json (json.Value.string s)) cur
      = mapstructure.Step.ok a := by
  obtain ⟨arr1, h1⟩ := decodeElems_ne_none id 0 (if cur = uuid.Nil then uuid.Nil else cur) false
  exact ⟨arr1, by simp [mapstructure.decodeUUID, GoValue.isNil, Order.decodeHook, h, h1]⟩

theorem decodeUUID_string_ok (s : Bytes) (cur id : uuid.UUID) (hcur : cur.length = 16)
    (h : uuid.Parse s = Except.ok id) :
    mapstructure.decodeUUID (GoValue.json (json.Value.string s)) cur
      = mapstructure.Step.ok id := by
  obtain ⟨hlen, hb⟩ := uuid_Parse_bytes s id h
  have hbase : (if cur = uuid.Nil then uuid.Nil else cur).length = id.length := by
    split
    · rw [hlen]; rfl
    · rw [hlen, hcur]
  have h1 := decodeElems_eq id [] (if cur = uuid.Nil then uuid.Nil else cur) [] false hbase hb
  simp only [List.nil_append, List.append_nil, List.length_nil] at h1
  simp [mapstructure.decodeUUID, GoValue.isNil, Order.decodeHook, h, h1]

/-- A value that is a JSON string or `null` makes no decoder of a field panic. -/
theorem decoders_no_panic (v : json.Value) (hv : v.isStringOrNull = true) :
    (∀ cur, mapstructure.decodeUUID (GoValue.json v) cur ≠ mapstructure.Step.panic)
    ∧ (∀ cur, mapstructure.decodeInt64 (GoValue.json v) cur ≠ mapstructure.Step.panic)
    ∧ (∀ cur, mapstructure.decodeString (GoValue.json v) cur ≠ mapstructure.Step.panic)
    ∧ (∀ cur, mapstructure.decodeTimePtr (GoValue.json v) cur ≠ mapstructure.Step.panic) := by
  cases v with
  | null =>
    refine ⟨?_, ?_, ?_, ?_⟩ <;> intro cur
    · rw [decodeUUID_null]; simp
    · rw [decodeInt64_null]; simp
    · rw [decodeString_null]; simp
    · rw [decodeTimePtr_null]; simp
  | string s =>
    refine ⟨?_, ?_, ?_, ?_⟩ <;> intro cur
    · rcases hp : uuid.Parse s with e | id
      · rw [decodeUUID_string_error s cur e hp]; simp
      · obtain ⟨a, ha⟩ := decodeUUID_string_some s cur id hp
        rw [ha]; simp
    · rw [decodeInt64_string]
      rcases strconv.ParseInt s with ⟨i, e⟩
      cases e <;> simp
    · rw [decodeString_string]; simp
    · rw [decodeTimePtr_string]
      by_cases hs : s = []
      · rw [if_pos hs]; simp
      · rw [if_neg hs]
        rcases Parse s with ⟨ts, e⟩
        cases e <;> simp
  | bool b => simp [json.Value.isStringOrNull] at hv
  | number l => simp [json.Value.isStringOrNull] at hv
  | array l => simp [json.Value.isStringOrNull] at hv
  | object l => simp [json.Value.isStringOrNull] at hv

theorem lookup_mem (l : List (Bytes × json.Value)) (key : Bytes) (w : json.Value)
    (hl : l.lookup key = some w) : (key, w) ∈ l := by
  induction l with
  | nil => simp at hl
  | cons p ps ih =>
    rcases p with ⟨k, x⟩
    rw [List.lookup_cons] at hl
    rcases hk : (key == k) with _ | _
    · rw [hk] at hl
      exact List.mem_cons_of_mem _ (ih hl)
    · rw [hk] at hl
      simp only [Option.some.injEq] at hl
      subst hl
      have : key = k := by simpa using hk
      subst this
      exact List.mem_cons_self _ _

theorem lookup_ne_none (l : List (Bytes × json.Value)) (key : Bytes)
    (h : key ∈ l.map (fun kv => kv.1)) : l.lookup key ≠ none := by
  induction l with
  | nil => simp at h
  | cons p ps ih =>
    rcases p with ⟨k, x⟩
    rw [List.lookup_cons]
    rcases hk : (key == k) with _ | _
    · simp only
      have hne : key ≠ k := by simpa using hk
      simp only [List.map_cons, List.mem_cons] at h
      rcases h with h | h
      · exact absurd h hne
      · exact ih h
    · simp

theorem mem_foldKeys (aux : List (Bytes × json.Value)) (name key : Bytes) :
    key ∈ mapstructure.foldKeys aux name
      ↔ key ∈ aux.map (fun kv => kv.1) ∧ strings.EqualFold key name = true := by
  unfold mapstructure.foldKeys
  rw [List.mem_filter]

theorem getD_mem_cons (k : Bytes) (ks : List Bytes) (i : Nat) :
    (k :: ks).getD i k ∈ k :: ks := by
  rw [List.getD_eq_getElem?_getD]
  rcases h : (k :: ks)[i]? with _ | x
  · exact List.mem_cons_self _ _
  · exact List.mem_iff_getElem?.2 ⟨i, h⟩

/-- The value found for a field is a value the payload gives under a key that
equals the name of the field, exactly or up to case. -/
theorem mapIndex_mem (first : mapstructure.MapOrder) (aux : List (Bytes × json.Value))
    (name : Bytes) (v : json.Value)
    (h : mapstructure.mapIndex first aux name = some v) :
    ∃ kv ∈ aux, Order.keyFor name kv = true ∧ kv.2 = v := by
  unfold mapstructure.mapIndex at h
  rcases hl : aux.reverse.lookup name with _ | w
  · rw [hl] at h
    rcases hk : mapstructure.foldKeys aux name with _ | ⟨k, ks⟩
    · rw [hk] at h
      cases h
    · rw [hk] at h
      simp only at h
      have hmem0 := getD_mem_cons k ks (first name (k :: ks) % (ks.length + 1))
      have hmem : (k :: ks).getD (first name (k :: ks) % (ks.length + 1)) k
          ∈ mapstructure.foldKeys aux name := by
        rw [hk]
        exact hmem0
      have hfold := ((mem_foldKeys aux name _).1 hmem).2
      have hm := lookup_mem _ _ _ h
      refine ⟨(_, v), List.mem_reverse.1 hm, ?_, rfl⟩
      unfold Order.keyFor
      rw [hfold, Bool.or_true]
  · rw [hl] at h
    simp only [Option.some.injEq] at h
    subst h
    have hm := lookup_mem _ _ _ hl
    exact ⟨(name, w), List.mem_reverse.1 hm, by simp [Order.keyFor], rfl⟩

theorem lookup_none_of_not_mem (l : List (Bytes × json.Value)) (key : Bytes)
    (h : ∀ kv ∈ l, kv.1 ≠ key) : l.lookup key = none := by
  induction l with
  | nil => rfl
  | cons p ps ih =>
    rcases p with ⟨k, x⟩
    rw [List.lookup_cons]
    have hne : key ≠ k := fun e => h (k, x) (List.mem_cons_self _ _) e.symm
    have hk : (key == k) = false := by simpa using hne
    rw [hk]
    exact ih (fun kv hkv => h kv (List.mem_cons_of_mem _ hkv))

/-- No value is found for a field exactly when the payload has no key that
equals the name of the field, exactly or up to case. -/
theorem mapIndex_none_iff (first : mapstructure.MapOrder) (aux : List (Bytes × json.Value))
    (name : Bytes) :
    mapstructure.mapIndex first aux name = none ↔ ∀ kv ∈ aux, Order.keyFor name kv = false := by
  constructor
  · intro h kv hkv
    rcases hkf : Order.keyFor name kv with _ | _
    · rfl
    · exfalso
      unfold mapstructure.mapIndex at h
      rcases hl : aux.reverse.lookup name with _ | w
      · rw [hl] at h
        have hne : ¬ (kv.1 == name) = true := by
          intro he
          have he2 : kv.1 = name := by simpa using he
          have hmem : name ∈ aux.reverse.map (fun kv => kv.1) := by
            rw [← he2]
            exact List.mem_map.2 ⟨kv, List.mem_reverse.2 hkv, rfl⟩
          exact lookup_ne_none _ _ hmem hl
        have hfold : strings.EqualFold kv.1 name = true := by
          simp only [Order.keyFor, Bool.or_eq_true] at hkf
          rcases hkf with h1 | h2
          · exact absurd h1 hne
          · exact h2
        have hin : kv.1 ∈ mapstructure.foldKeys aux name :=
          (mem_foldKeys aux name kv.1).2 ⟨List.mem_map.2 ⟨kv, hkv, rfl⟩, hfold⟩
        rcases hk : mapstructure.foldKeys aux name with _ | ⟨k, ks⟩
        · rw [hk] at hin
          cases hin
        · rw [hk] at h
          simp only at h
          have hmem0 := getD_mem_cons k ks (first name (k :: ks) % (ks.length + 1))
          have hmem : (k :: ks).getD (first name (k :: ks) % (ks.length + 1)) k
              ∈ mapstructure.foldKeys aux name := by
            rw [hk]
            exact hmem0
          have hkey := ((mem_foldKeys aux name _).1 hmem).1
          have hkey2 : (k :: ks).getD (first name (k :: ks) % (ks.length + 1)) k
              ∈ aux.reverse.map (fun kv => kv.1) := by
            rw [List.map_reverse]
            exact List.mem_reverse.2 hkey
          exact lookup_ne_none _ _ hkey2 h
      · rw [hl] at h
        cases h
  · intro h
    unfold mapstructure.mapIndex
    have hl : aux.reverse.lookup name = none := by
      apply lookup_none_of_not_mem
      intro kv hkv he
      have hk := h kv (List.mem_reverse.1 hkv)
      simp [Order.keyFor, he] at hk
    have hf : mapstructure.foldKeys aux name = [] := by
      rw [List.eq_nil_iff_forall_not_mem]
      intro key hkey
      obtain ⟨hm, hfold⟩ := (mem_foldKeys aux name key).1 hkey
      obtain ⟨kv, hkv, rfl⟩ := List.mem_map.1 hm
      have hk := h kv hkv
      simp [Order.keyFor, hfold] at hk
    rw [hl, hf]

/-! ## Package `mapstructure`: `decodeStructFromMap` on the fields of `Order` -/

theorem decodeInt64_keep (v : GoValue) (cur a : Int) (e : mapstructure.Cause)
    (h : mapstructure.decodeInt64 v cur = mapstructure.Step.failed a e) : a = cur := by
  unfold mapstructure.decodeInt64 at h
  split at h
  · simp at h
  · split at h <;> simp at h <;> exact h.1.symm

theorem decodeString_keep (v : GoValue) (cur a : Bytes) (e : mapstructure.Cause)
    (h : mapstructure.decodeString v cur = mapstructure.Step.failed a e) : a = cur := by
  unfold mapstructure.decodeString at h
  split at h
  · simp at h
  · split at h <;> simp at h <;> exact h.1.symm

theorem decodeTimePtr_keep (v : GoValue) (cur a : Option Time) (e : mapstructure.Cause)
    (h : mapstructure.decodeTimePtr v cur = mapstructure.Step.failed a e) : a = cur := by
  unfold mapstructure.decodeTimePtr at h
  split at h
  · simp at h
  · split at h
    · simp at h
    · simp at h; exact h.1.symm
    · split at h
      · simp at h
      · split at h <;> simp at h <;> exact h.1.symm

theorem decodeUUID_keep (v : GoValue) (cur a : uuid.UUID) (e : mapstructure.Cause)
    (h : mapstructure.decodeUUID v cur = mapstructure.Step.failed a e) : a = cur := by
  unfold mapstructure.decodeUUID at h
  split at h
  · simp at h
  · split at h
    · simp at h
    · simp at h; exact h.1.symm
    · rename_i id _
      obtain ⟨arr1, h1⟩ :=
        decodeElems_ne_none id 0 (if cur = uuid.Nil then uuid.Nil else cur) false
      rw [h1] at h
      simp at h
    · simp at h; exact h.1.symm

theorem decodeStruct_step (first : mapstructure.MapOrder)
    {α : Type} (dec : GoValue → α → mapstructure.Step α)
    (get : Order → α) (set : α → Order → Order) (aux : List (Bytes × json.Value))
    (tag : Bytes) (fs : List Order.Field) (r : Order) (errs : List mapstructure.FieldError)
    (hkeep : ∀ v cur a e, dec v cur = mapstructure.Step.failed a e → a = cur)
    (hset : set (get r) r = r)
    (hnp : Order.fieldPanics first dec aux tag (get r) = false) :
    mapstructure.decodeStructFromMap first aux
        ({ tag := tag, decode := fun v r => (dec v (get r)).map (fun a => set a r) } :: fs)
        r errs
      = mapstructure.decodeStructFromMap first aux fs
          (set (Order.fieldValue first dec aux tag (get r)) r)
          (errs ++ Order.fieldErrors first dec aux tag (get r)) := by
  rw [mapstructure.decodeStructFromMap]
  unfold Order.fieldPanics at hnp
  unfold Order.fieldValue Order.fieldErrors
  rcases hm : mapstructure.mapIndex first aux tag with _ | v
  · simp only [hset, List.append_nil]
  · rw [hm] at hnp
    simp only at hnp ⊢
    rcases hd : dec (GoValue.json v) (get r) with a | ⟨a, e⟩ | _
    · simp only [mapstructure.Step.map, mapstructure.Step.value, List.append_nil]
    · have ha := hkeep _ _ _ _ hd
      subst ha
      simp only [mapstructure.Step.map, mapstructure.Step.value, hset]
    · rw [hd] at hnp
      simp at hnp

theorem decodeStruct_step_panic (first : mapstructure.MapOrder)
    {α : Type} (dec : GoValue → α → mapstructure.Step α)
    (get : Order → α) (set : α → Order → Order) (aux : List (Bytes × json.Value))
    (tag : Bytes) (fs : List Order.Field) (r : Order) (errs : List mapstructure.FieldError)
    (hp : Order.fieldPanics first dec aux tag (get r) = true) :
    (mapstructure.decodeStructFromMap first aux
        ({ tag := tag, decode := fun v r => (dec v (get r)).map (fun a => set a r) } :: fs)
        r errs).2 = Order.Outcome.panic := by
  rw [mapstructure.decodeStructFromMap]
  unfold Order.fieldPanics at hp
  rcases hm : mapstructure.mapIndex first aux tag with _ | v
  · rw [hm] at hp
    simp at hp
  · rw [hm] at hp
    simp only at hp ⊢
    rcases hd : dec (GoValue.json v) (get r) with a | ⟨a, e⟩ | _
    · rw [hd] at hp; simp at hp
    · rw [hd] at hp; simp at hp
    · simp only [mapstructure.Step.map]

/-- When no field panics, the loop over the fields of `Order` leaves every
field decoded on its own and returns the errors of the fields together. -/
theorem decodeStructFromMap_fields (first : mapstructure.MapOrder)
    (aux : List (Bytes × json.Value)) (r : Order)
    (h : Order.panics first aux r = false) :
    mapstructure.decodeStructFromMap first aux Order.fields r []
      = (Order.fieldwise first aux r, Order.outcomeOf (Order.errorsOf first aux r)) := by
  simp only [Order.panics, Bool.or_eq_false_iff] at h
  obtain ⟨⟨⟨⟨⟨⟨⟨h1, h2⟩, h3⟩, h4⟩, h5⟩, h6⟩, h7⟩, h8⟩ := h
  unfold Order.fields
  refine (decodeStruct_step first mapstructure.decodeUUID (fun r => r.OrderID)
    (fun a r => { r with OrderID := a }) aux _ _ r [] decodeUUID_keep (by rfl)
    (by exact h1)).trans ?_
  refine (decodeStruct_step first mapstructure.decodeInt64 (fun r => r.CustomerID)
    (fun a r => { r with CustomerID := a }) aux _ _ _ _ decodeInt64_keep (by rfl)
    (by exact h2)).trans ?_
  refine (decodeStruct_step first mapstructure.decodeString (fun r => r.Status)
    (fun a r => { r with Status := a }) aux _ _ _ _ decodeString_keep (by rfl)
    (by exact h3)).trans ?_
  refine (decodeStruct_step first mapstructure.decodeTimePtr (fun r => r.ApprovedAt)
    (fun a r => { r with ApprovedAt := a }) aux _ _ _ _ decodeTimePtr_keep (by rfl)
    (by exact h4)).trans ?_
  refine (decodeStruct_step first mapstructure.decodeTimePtr (fun r => r.DeliveredToCustomerAt)
    (fun a r => { r with DeliveredToCustomerAt := a }) aux _ _ _ _ decodeTimePtr_keep (by rfl)
    (by exact h5)).trans ?_
  refine (decodeStruct_step first mapstructure.decodeTimePtr (fun r => r.DeliveredToCarrierAt)
    (fun a r => { r with DeliveredToCarrierAt := a }) aux _ _ _ _ decodeTimePtr_keep (by rfl)
    (by exact h6)).trans ?_
  refine (decodeStruct_step first mapstructure.decodeTimePtr (fun r => r.DeliveryEstimatedAt)
    (fun a r => { r with DeliveryEstimatedAt := a }) aux _ _ _ _ decodeTimePtr_keep (by rfl)
    (by exact h7)).trans ?_
  refine (decodeStruct_step first mapstructure.decodeTimePtr (fun r => r.PurchaseAt)
    (fun a r => { r with PurchaseAt := a }) aux _ _ _ _ decodeTimePtr_keep (by rfl)
    (by exact h8)).trans ?_
  rfl

/-- When a field panics, the loop over the fields of `Order` ends in the panic. -/
theorem decodeStructFromMap_fields_panic (first : mapstructure.MapOrder)
    (aux : List (Bytes × json.Value)) (r : Order)
    (h : Order.panics first aux r = true) :
    (mapstructure.decodeStructFromMap first aux Order.fields r []).2 = Order.Outcome.panic := by
  unfold Order.fields
  by_cases h1 : Order.fieldPanics first mapstructure.decodeUUID aux (bytesOf "order_id") r.OrderID
    = true
  · exact decodeStruct_step_panic first mapstructure.decodeUUID (fun r => r.OrderID)
      (fun a r => { r with OrderID := a }) aux _ _ r [] h1
  rw [Bool.not_eq_true] at h1
  refine (congrArg Prod.snd (decodeStruct_step first mapstructure.decodeUUID (fun r => r.OrderID)
    (fun a r => { r with OrderID := a }) aux _ _ r [] decodeUUID_keep (by rfl)
    (by exact h1))).trans ?_
  by_cases h2 : Order.fieldPanics first mapstructure.decodeInt64 aux (bytesOf "customer_id")
    r.CustomerID = true
  · exact decodeStruct_step_panic first mapstructure.decodeInt64 (fun r => r.CustomerID)
      (fun a r => { r with CustomerID := a }) aux _ _ _ _ (by exact h2)
  rw [Bool.not_eq_true] at h2
  refine (congrArg Prod.snd (decodeStruct_step first mapstructure.decodeInt64 (fun r => r.CustomerID)
    (fun a r => { r with CustomerID := a }) aux _ _ _ _ decodeInt64_keep (by rfl)
    (by exact h2))).trans ?_
  by_cases h3 : Order.fieldPanics first mapstructure.decodeString aux (bytesOf "order_status")
    r.Status = true
  · exact decodeStruct_step_panic first mapstructure.decodeString (fun r => r.Status)
      (fun a r => { r with Status := a }) aux _ _ _ _ (by exact h3)
  rw [Bool.not_eq_true] at h3
  refine (congrArg Prod.snd (decodeStruct_step first mapstructure.decodeString (fun r => r.Status)
    (fun a r => { r with Status := a }) aux _ _ _ _ decodeString_keep (by rfl)
    (by exact h3))).trans ?_
  by_cases h4 : Order.fieldPanics first mapstructure.decodeTimePtr aux (bytesOf "order_approved_at")
    r.ApprovedAt = true
  · exact decodeStruct_step_panic first mapstructure.decodeTimePtr (fun r => r.ApprovedAt)
      (fun a r => { r with ApprovedAt := a }) aux _ _ _ _ (by exact h4)
  rw [Bool.not_eq_true] at h4
  refine (congrArg Prod.snd (decodeStruct_step first mapstructure.decodeTimePtr
    (fun r => r.ApprovedAt) (fun a r => { r with ApprovedAt := a }) aux _ _ _ _
    decodeTimePtr_keep (by rfl)
    (by exact h4))).trans ?_
  by_cases h5 : Order.fieldPanics first mapstructure.decodeTimePtr aux
    (bytesOf "order_delivered_customer_date") r.DeliveredToCustomerAt = true
  · exact decodeStruct_step_panic first mapstructure.decodeTimePtr (fun r => r.DeliveredToCustomerAt)
      (fun a r => { r with DeliveredToCustomerAt := a }) aux _ _ _ _ (by exact h5)
  rw [Bool.not_eq_true] at h5
  refine (congrArg Prod.snd (decodeStruct_step first mapstructure.decodeTimePtr
    (fun r => r.DeliveredToCustomerAt) (fun a r => { r with DeliveredToCustomerAt := a }) aux
    _ _ _ _ decodeTimePtr_keep (by rfl)
    (by exact h5))).trans ?_
  by_cases h6 : Order.fieldPanics first mapstructure.decodeTimePtr aux
    (bytesOf "order_delivered_carrier_date") r.DeliveredToCarrierAt = true
  · exact decodeStruct_step_panic first mapstructure.decodeTimePtr (fun r => r.DeliveredToCarrierAt)
      (fun a r => { r with DeliveredToCarrierAt := a }) aux _ _ _ _ (by exact h6)
  rw [Bool.not_eq_true] at h6
  refine (congrArg Prod.snd (decodeStruct_step first mapstructure.decodeTimePtr
    (fun r => r.DeliveredToCarrierAt) (fun a r => { r with DeliveredToCarrierAt := a }) aux
    _ _ _ _ decodeTimePtr_keep (by rfl)
    (by exact h6))).trans ?_
  by_cases h7 : Order.fieldPanics first mapstructure.decodeTimePtr aux
    (bytesOf "order_estimated_delivery_date") r.DeliveryEstimatedAt = true
  · exact decodeStruct_step_panic first mapstructure.decodeTimePtr (fun r => r.DeliveryEstimatedAt)
      (fun a r => { r with DeliveryEstimatedAt := a }) aux _ _ _ _ (by exact h7)
  rw [Bool.not_eq_true] at h7
  refine (congrArg Prod.snd (decodeStruct_step first mapstructure.decodeTimePtr
    (fun r => r.DeliveryEstimatedAt) (fun a r => { r with DeliveryEstimatedAt := a }) aux
    _ _ _ _ decodeTimePtr_keep (by rfl)
    (by exact h7))).trans ?_
  by_cases h8 : Order.fieldPanics first mapstructure.decodeTimePtr aux
    (bytesOf "order_purchase_timestamp") r.PurchaseAt = true
  · exact decodeStruct_step_panic first mapstructure.decodeTimePtr (fun r => r.PurchaseAt)
      (fun a r => { r with PurchaseAt := a }) aux _ _ _ _ (by exact h8)
  rw [Bool.not_eq_true] at h8
  exfalso
  simp [Order.panics, h1, h2, h3, h4, h5, h6, h7, h8] at h

theorem Decode_eq (first : mapstructure.MapOrder) (aux : List (Bytes × json.Value)) (r : Order) :
    mapstructure.Decode first aux r = mapstructure.decodeStructFromMap first aux Order.fields r [] := by
  simp [mapstructure.Decode, Order.decodeHook]

/-- The call of `Order.UnmarshalJSON` in closed form: the error of
`json.Unmarshal` with the record untouched; a panic when a field panics; else
every field decoded on its own and the errors of the fields together. -/
theorem UnmarshalJSON_eq (first : mapstructure.MapOrder) (r : Order) (data : Bytes) :
    (json.UnmarshalMap data = none →
      Order.UnmarshalJSON first r data = (r, Order.Outcome.jsonError))
    ∧ (∀ aux, json.UnmarshalMap data = some aux → Order.panics first aux r = true →
      (Order.UnmarshalJSON first r data).2 = Order.Outcome.panic)
    ∧ (∀ aux, json.UnmarshalMap data = some aux → Order.panics first aux r = false →
      Order.UnmarshalJSON first r data
        = (Order.fieldwise first aux r, Order.outcomeOf (Order.errorsOf first aux r))) := by
  refine ⟨?_, ?_, ?_⟩
  · intro h
    simp [Order.UnmarshalJSON, h]
  · intro aux h hp
    simp only [Order.UnmarshalJSON, h, Decode_eq]
    exact decodeStructFromMap_fields_panic first aux r hp
  · intro aux h hp
    simp only [Order.UnmarshalJSON, h, Decode_eq]
    exact decodeStructFromMap_fields first aux r hp

theorem mapIndex_exactKey (first first2 : mapstructure.MapOrder)
    (aux : List (Bytes × json.Value)) (name : Bytes)
    (h : ((aux.reverse.lookup name).isSome || (mapstructure.foldKeys aux name).isEmpty)
      = true) :
    mapstructure.mapIndex first aux name = mapstructure.mapIndex first2 aux name := by
  unfold mapstructure.mapIndex
  rcases hl : aux.reverse.lookup name with _ | w
  · rw [hl] at h
    simp only [Option.isSome_none, Bool.false_or, List.isEmpty_iff] at h
    rw [h]
  · rfl

theorem decodeStructFromMap_congr (first first2 : mapstructure.MapOrder)
    (aux : List (Bytes × json.Value)) (fs : List Order.Field)
    (h : ∀ f ∈ fs, mapstructure.mapIndex first aux f.tag = mapstructure.mapIndex first2 aux f.tag)
    (r : Order) (errs : List mapstructure.FieldError) :
    mapstructure.decodeStructFromMap first aux fs r errs
      = mapstructure.decodeStructFromMap first2 aux fs r errs := by
  induction fs generalizing r errs with
  | nil => rfl
  | cons f fs ih =>
    rw [mapstructure.decodeStructFromMap, mapstructure.decodeStructFromMap,
      h f (List.mem_cons_self _ _)]
    have ih2 := ih (fun g hg => h g (List.mem_cons_of_mem _ hg))
    rcases mapstructure.mapIndex first2 aux f.tag with _ | v
    · exact ih2 r errs
    · simp only
      rcases f.decode (GoValue.json v) r with a | ⟨a, e⟩ | _
      · exact ih2 _ _
      · exact ih2 _ _
      · rfl

/-- For a payload whose fields are looked up under their exact names, the order
in which the keys of the map are visited plays no part in the call. -/
theorem UnmarshalJSON_exactKeys (first first2 : mapstructure.MapOrder) (r : Order)
    (data : Bytes) (h : Order.exactKeys (Order.mapOf data) = true) :
    Order.UnmarshalJSON first r data = Order.UnmarshalJSON first2 r data := by
  unfold Order.UnmarshalJSON
  rcases hd : json.UnmarshalMap data with _ | aux
  · rfl
  · simp only
    rw [Decode_eq, Decode_eq]
    apply decodeStructFromMap_congr
    intro f hf
    apply mapIndex_exactKey
    have e : Order.mapOf data = aux := by simp [Order.mapOf, hd]
    rw [e] at h
    unfold Order.exactKeys at h
    rw [List.all_eq_true] at h
    exact h f.tag (List.mem_map.2 ⟨f, hf, rfl⟩)

/-! ## Order payloads -/

theorem mapIndex_of_lookup (first : mapstructure.MapOrder)
    (aux : List (Bytes × json.Value)) (name : Bytes) (v : json.Value)
    (h : aux.reverse.lookup name = some v) : mapstructure.mapIndex first aux name = some v := by
  simp [mapstructure.mapIndex, h]

theorem exchangeStyle_value (first : mapstructure.MapOrder) (aux : List (Bytes × json.Value))
    (h : Order.exchangeStyle aux = true) (name : Bytes) (hname : name ∈ Order.tags)
    (v : json.Value) (hm : mapstructure.mapIndex first aux name = some v) :
    v.isStringOrNull = true := by
  obtain ⟨kv, hkv, hkey, rfl⟩ := mapIndex_mem first aux name v hm
  unfold Order.exchangeStyle at h
  have h1 := List.all_eq_true.1 h name hname
  have h2 := List.all_eq_true.1 h1 kv hkv
  rw [hkey] at h2
  simpa using h2

theorem wellFormed_value (first : mapstructure.MapOrder)
    (aux : List (Bytes × json.Value)) (h : Order.wellFormed aux)
    (name : Bytes) (hname : name ∈ Order.tags) (v : json.Value)
    (hm : mapstructure.mapIndex first aux name = some v) : Order.validFor name v := by
  obtain ⟨kv, hkv, hkey, rfl⟩ := mapIndex_mem first aux name v hm
  exact h name hname kv hkv hkey

theorem validFor_isStringOrNull (name : Bytes) (v : json.Value) (h : Order.validFor name v) :
    v.isStringOrNull = true := by
  rcases h with rfl | ⟨s, rfl, _⟩ <;> rfl

theorem wellFormed_exchangeStyle (aux : List (Bytes × json.Value)) (h : Order.wellFormed aux) :
    Order.exchangeStyle aux = true := by
  unfold Order.exchangeStyle
  rw [List.all_eq_true]
  intro name hname
  rw [List.all_eq_true]
  intro kv hkv
  by_cases hkey : Order.keyFor name kv = true
  · rw [hkey, validFor_isStringOrNull name kv.2 (h name hname kv hkv hkey)]
    rfl
  · rw [Bool.not_eq_true] at hkey
    rw [hkey]
    rfl

theorem fieldPanics_false (first : mapstructure.MapOrder)
    {α : Type} (dec : GoValue → α → mapstructure.Step α)
    (aux : List (Bytes × json.Value)) (name : Bytes) (cur : α)
    (h : ∀ v, mapstructure.mapIndex first aux name = some v →
      dec (GoValue.json v) cur ≠ mapstructure.Step.panic) :
    Order.fieldPanics first dec aux name cur = false := by
  unfold Order.fieldPanics
  rcases hm : mapstructure.mapIndex first aux name with _ | v
  · rfl
  · have hne := h v hm
    rcases hd : dec (GoValue.json v) cur with a | ⟨a, e⟩ | _
    · simp only [hd]
    · simp only [hd]
    · exact absurd hd hne

theorem fieldErrors_nil (first : mapstructure.MapOrder)
    {α : Type} (dec : GoValue → α → mapstructure.Step α)
    (aux : List (Bytes × json.Value)) (name : Bytes) (cur : α)
    (h : ∀ v, mapstructure.mapIndex first aux name = some v →
      ∃ a, dec (GoValue.json v) cur = mapstructure.Step.ok a) :
    Order.fieldErrors first dec aux name cur = [] := by
  unfold Order.fieldErrors
  rcases hm : mapstructure.mapIndex first aux name with _ | v
  · rfl
  · obtain ⟨a, ha⟩ := h v hm
    simp only [ha]

/-- A payload in the exchange style makes no field panic. -/
theorem exchangeStyle_no_panic (first : mapstructure.MapOrder)
    (aux : List (Bytes × json.Value)) (r : Order)
    (h : Order.exchangeStyle aux = true) : Order.panics first aux r = false := by
  have key : ∀ name ∈ Order.tags, ∀ v, mapstructure.mapIndex first aux name = some v →
      v.isStringOrNull = true := fun name hname v hm => exchangeStyle_value first aux h name hname v hm
  unfold Order.panics
  rw [fieldPanics_false first mapstructure.decodeUUID aux _ _
      (fun v hm => (decoders_no_panic v (key _ (by decide) v hm)).1 _),
    fieldPanics_false first mapstructure.decodeInt64 aux _ _
      (fun v hm => (decoders_no_panic v (key _ (by decide) v hm)).2.1 _),
    fieldPanics_false first mapstructure.decodeString aux _ _
      (fun v hm => (decoders_no_panic v (key _ (by decide) v hm)).2.2.1 _),
    fieldPanics_false first mapstructure.decodeTimePtr aux (bytesOf "order_approved_at") _
      (fun v hm => (decoders_no_panic v (key _ (by decide) v hm)).2.2.2 _),
    fieldPanics_false first mapstructure.decodeTimePtr aux (bytesOf "order_delivered_customer_date") _
      (fun v hm => (decoders_no_panic v (key _ (by decide) v hm)).2.2.2 _),
    fieldPanics_false first mapstructure.decodeTimePtr aux (bytesOf "order_delivered_carrier_date") _
      (fun v hm => (decoders_no_panic v (key _ (by decide) v hm)).2.2.2 _),
    fieldPanics_false first mapstructure.decodeTimePtr aux (bytesOf "order_estimated_delivery_date") _
      (fun v hm => (decoders_no_panic v (key _ (by decide) v hm)).2.2.2 _),
    fieldPanics_false first mapstructure.decodeTimePtr aux (bytesOf "order_purchase_timestamp") _
      (fun v hm => (decoders_no_panic v (key _ (by decide) v hm)).2.2.2 _)]
  rfl

theorem decodeUUID_valid (v : json.Value) (cur : uuid.UUID)
    (h : Order.validFor (bytesOf "order_id") v) :
    ∃ a, mapstructure.decodeUUID (GoValue.json v) cur = mapstructure.Step.ok a := by
  rcases h with rfl | ⟨s, rfl, h1, _, _⟩
  · exact ⟨cur, decodeUUID_null cur⟩
  · obtain ⟨id, hid⟩ := (uuid_Parse_ok_iff s).2 (h1 rfl)
    exact decodeUUID_string_some s cur id hid

theorem decodeInt64_valid (v : json.Value) (cur : Int)
    (h : Order.validFor (bytesOf "customer_id") v) :
    ∃ a, mapstructure.decodeInt64 (GoValue.json v) cur = mapstructure.Step.ok a := by
  rcases h with rfl | ⟨s, rfl, _, h2, _⟩
  · exact ⟨cur, decodeInt64_null cur⟩
  · obtain ⟨n, hn⟩ := h2 rfl
    rw [decodeInt64_string, (ParseInt_ok_iff s n).2 hn]
    exact ⟨n, rfl⟩

theorem decodeString_valid (name : Bytes) (v : json.Value) (cur : Bytes)
    (h : Order.validFor name v) :
    ∃ a, mapstructure.decodeString (GoValue.json v) cur = mapstructure.Step.ok a := by
  rcases h with rfl | ⟨s, rfl, _⟩
  · exact ⟨cur, decodeString_null cur⟩
  · exact ⟨s, decodeString_string s cur⟩

theorem decodeTimePtr_lenient (s : Bytes) (cur : Option Time) (hs : s ≠ [])
    (h : lenientDateTimeText s) :
    mapstructure.decodeTimePtr (GoValue.json (json.Value.string s)) cur
      = mapstructure.Step.ok (some (Parse s).1) := by
  rw [decodeTimePtr_string, if_neg hs]
  have hp := (Parse_ok_iff_lenient s).2 h
  rcases hq : Parse s with ⟨ts, e⟩
  rw [hq] at hp
  simp only at hp
  subst hp
  rfl

theorem decodeTimePtr_not_lenient (s : Bytes) (cur : Option Time) (hs : s ≠ [])
    (h : ¬ lenientDateTimeText s) :
    ∃ e, mapstructure.decodeTimePtr (GoValue.json (json.Value.string s)) cur
      = mapstructure.Step.failed cur (mapstructure.Cause.hook (HookError.time e)) := by
  rw [decodeTimePtr_string, if_neg hs]
  rcases hq : Parse s with ⟨ts, e⟩
  cases e with
  | none =>
    have : (Parse s).2 = none := by rw [hq]
    exact absurd ((Parse_ok_iff_lenient s).1 this) h
  | some e => exact ⟨e, rfl⟩

theorem decodeTimePtr_valid (name : Bytes) (hname : name ∈ Order.timestampTags)
    (v : json.Value) (cur : Option Time) (h : Order.validFor name v) :
    ∃ a, mapstructure.decodeTimePtr (GoValue.json v) cur = mapstructure.Step.ok a := by
  rcases h with rfl | ⟨s, rfl, _, _, h3⟩
  · exact ⟨cur, decodeTimePtr_null cur⟩
  · by_cases hs : s = []
    · rw [decodeTimePtr_string, if_pos hs]
      exact ⟨_, rfl⟩
    · rcases h3 hname with h0 | hl
      · exact absurd h0 hs
      · exact ⟨_, decodeTimePtr_lenient s cur hs hl⟩

/-- A well-formed payload gives no field an error. -/
theorem wellFormed_no_errors (first : mapstructure.MapOrder)
    (aux : List (Bytes × json.Value)) (r : Order)
    (h : Order.wellFormed aux) : Order.errorsOf first aux r = [] := by
  have key : ∀ name ∈ Order.tags, ∀ v, mapstructure.mapIndex first aux name = some v →
      Order.validFor name v := fun name hname v hm => wellFormed_value first aux h name hname v hm
  unfold Order.errorsOf
  rw [fieldErrors_nil first mapstructure.decodeUUID aux _ _
      (fun v hm => decodeUUID_valid v _ (key _ (by decide) v hm)),
    fieldErrors_nil first mapstructure.decodeInt64 aux _ _
      (fun v hm => decodeInt64_valid v _ (key _ (by decide) v hm)),
    fieldErrors_nil first mapstructure.decodeString aux _ _
      (fun v hm => decodeString_valid _ v _ (key _ (by decide) v hm)),
    fieldErrors_nil first mapstructure.decodeTimePtr aux (bytesOf "order_approved_at") _
      (fun v hm => decodeTimePtr_valid _ (by decide) v _ (key _ (by decide) v hm)),
    fieldErrors_nil first mapstructure.decodeTimePtr aux (bytesOf "order_delivered_customer_date") _
      (fun v hm => decodeTimePtr_valid _ (by decide) v _ (key _ (by decide) v hm)),
    fieldErrors_nil first mapstructure.decodeTimePtr aux (bytesOf "order_delivered_carrier_date") _
      (fun v hm => decodeTimePtr_valid _ (by decide) v _ (key _ (by decide) v hm)),
    fieldErrors_nil first mapstructure.decodeTimePtr aux (bytesOf "order_estimated_delivery_date") _
      (fun v hm => decodeTimePtr_valid _ (by decide) v _ (key _ (by decide) v hm)),
    fieldErrors_nil first mapstructure.decodeTimePtr aux (bytesOf "order_purchase_timestamp") _
      (fun v hm => decodeTimePtr_valid _ (by decide) v _ (key _ (by decide) v hm))]
  rfl

/-- A well-formed payload decodes without error, every field on its own. -/
theorem UnmarshalJSON_wellFormed (first : mapstructure.MapOrder)
    (r : Order) (data : Bytes) (aux : List (Bytes × json.Value))
    (hdata : json.UnmarshalMap data = some aux) (h : Order.wellFormed aux) :
    Order.UnmarshalJSON first r data = (Order.fieldwise first aux r, Order.Outcome.ok) := by
  rw [(UnmarshalJSON_eq first r data).2.2 aux hdata
    (exchangeStyle_no_panic first aux r (wellFormed_exchangeStyle aux h)), wellFormed_no_errors first aux r h]
  rfl

theorem validFor_of_check (name : Bytes) (v : json.Value)
    (h : Order.validForCheck name v = true) : Order.validFor name v := by
  cases v with
  | null => exact Or.inl rfl
  | string s =>
    simp only [Order.validForCheck, Bool.and_eq_true, Bool.or_eq_true, bne_iff_ne, ne_eq,
      Bool.not_eq_true', beq_iff_eq, List.contains_eq_any_beq, List.any_eq_true,
      not_exists] at h
    obtain ⟨⟨h1, h2⟩, h3⟩ := h
    refine Or.inr ⟨s, rfl, ?_, ?_, ?_⟩
    · intro hn
      rcases h1 with h1 | h1
      · exact absurd hn h1
      · exact h1
    · intro hn
      rcases h2 with h2 | h2
      · exact absurd hn h2
      · rcases hp : strconv.ParseInt s with ⟨n, e⟩
        rw [hp] at h2
        simp only at h2
        subst h2
        exact ⟨n, (ParseInt_ok_iff s n).1 hp⟩
    · intro hn
      rcases h3 with (h3 | h3) | h3
      · exfalso
        rw [Bool.eq_false_iff] at h3
        apply h3
        rw [List.any_eq_true]
        exact ⟨name, hn, by simp⟩
      · exact Or.inl h3
      · exact Or.inr ((Parse_ok_iff_lenient s).1 h3)
  | bool b => simp [Order.validForCheck] at h
  | number l => simp [Order.validForCheck] at h
  | array l => simp [Order.validForCheck] at h
  | object l => simp [Order.validForCheck] at h

theorem wellFormed_of_check (aux : List (Bytes × json.Value))
    (h : Order.wellFormedCheck aux = true) : Order.wellFormed aux := by
  intro name hname kv hkv hkey
  unfold Order.wellFormedCheck at h
  have h1 := List.all_eq_true.1 (List.all_eq_true.1 h name hname) kv hkv
  rw [hkey] at h1
  exact validFor_of_check name kv.2 (by simpa using h1)

set_option maxRecDepth 200000 in
theorem validPayload_map :
    json.UnmarshalMap Order.validPayload = some (Order.mapOf Order.validPayload) := rfl

set_option maxRecDepth 200000 in
theorem validPayload_wellFormed : Order.wellFormed (Order.mapOf Order.validPayload) :=
  wellFormed_of_check _ (by decide)

theorem outcomeOf_of_mem (es : List mapstructure.FieldError) (fe : mapstructure.FieldError)
    (h : fe ∈ es) : Order.outcomeOf es = Order.Outcome.fieldErrors es := by
  cases es with
  | nil => simp at h
  | cons a rest => rfl

theorem outcomeOf_ne_panic (es : List mapstructure.FieldError) :
    Order.outcomeOf es ≠ Order.Outcome.panic := by
  unfold Order.outcomeOf
  split <;> simp

/-- A call that does not end in a panic is in the closed form. -/
theorem UnmarshalJSON_of_returns (first : mapstructure.MapOrder)
    (r : Order) (data : Bytes) (aux : List (Bytes × json.Value))
    (hdata : json.UnmarshalMap data = some aux)
    (h : (Order.UnmarshalJSON first r data).2 ≠ Order.Outcome.panic) :
    Order.UnmarshalJSON first r data
      = (Order.fieldwise first aux r, Order.outcomeOf (Order.errorsOf first aux r)) := by
  rcases hp : Order.panics first aux r with _ | _
  · exact (UnmarshalJSON_eq first r data).2.2 aux hdata hp
  · exact absurd ((UnmarshalJSON_eq first r data).2.1 aux hdata hp) h

theorem customer_id_error (first : mapstructure.MapOrder)
    (aux : List (Bytes × json.Value)) (r : Order) (s : Bytes)
    (hcid : mapstructure.mapIndex first aux (bytesOf "customer_id") = some (json.Value.string s))
    (hs : ¬ ∃ n, decimalInt64Text s n) :
    ∃ e, ({ field := bytesOf "customer_id",
            cause := mapstructure.Cause.hook (HookError.number e) } : mapstructure.FieldError)
          ∈ Order.errorsOf first aux r := by
  obtain ⟨e, he⟩ := ParseInt_error_of_not_decimal s hs
  refine ⟨e, ?_⟩
  have h1 : Order.fieldErrors first mapstructure.decodeInt64 aux (bytesOf "customer_id") r.CustomerID
      = [{ field := bytesOf "customer_id",
           cause := mapstructure.Cause.hook (HookError.number e) }] := by
    unfold Order.fieldErrors
    rw [hcid]
    simp only [decodeInt64_string]
    rcases hp : strconv.ParseInt s with ⟨n, e1⟩
    rw [hp] at he
    simp only at he
    subst he
    rfl
  unfold Order.errorsOf
  rw [h1]
  simp

/-- For every payload whose `customer_id` is a JSON string `s`: when `s` is a
base-10 representation of a 64-bit signed integer `n` and the values of all
fields are well formed, the decode succeeds with `CustomerID = n`; when `s`
is not a base-10 64-bit integer the decode never succeeds, and for a payload
in the exchange style (the value of every field of `Order` is a JSON string
or `null`) it returns an error that lists `customer_id` with the error of
`strconv.ParseInt`. -/
theorem customer_id_string_is_parsed (first : mapstructure.MapOrder) (r : Order) (data : Bytes)
    (aux : List (Bytes × json.Value)) (s : Bytes)
    (hdata : json.UnmarshalMap data = some aux)
    (hcid : aux.reverse.lookup (bytesOf "customer_id") = some (json.Value.string s)) :
    (∀ n, decimalInt64Text s n → Order.wellFormed aux →
      (Order.UnmarshalJSON first r data).2 = Order.Outcome.ok
      ∧ (Order.UnmarshalJSON first r data).1.CustomerID = n)
    ∧ ((¬ ∃ n, decimalInt64Text s n) →
      (Order.UnmarshalJSON first r data).2 ≠ Order.Outcome.ok
      ∧ (Order.exchangeStyle aux = true →
          ∃ es e, (Order.UnmarshalJSON first r data).2 = Order.Outcome.fieldErrors es
            ∧ ({ field := bytesOf "customer_id",
                 cause := mapstructure.Cause.hook (HookError.number e) }
                : mapstructure.FieldError) ∈ es)) := by
  have hm := mapIndex_of_lookup first aux _ _ hcid
  constructor
  · intro n hn hwf
    rw [UnmarshalJSON_wellFormed first r data aux hdata hwf]
    refine ⟨rfl, ?_⟩
    show Order.fieldValue first mapstructure.decodeInt64 aux (bytesOf "customer_id") r.CustomerID = n
    unfold Order.fieldValue
    rw [hm]
    simp only [decodeInt64_string, (ParseInt_ok_iff s n).2 hn]
    rfl
  · intro hs
    obtain ⟨e, he⟩ := customer_id_error first aux r s hm hs
    constructor
    · intro hok
      have hnp : (Order.UnmarshalJSON first r data).2 ≠ Order.Outcome.panic := by
        rw [hok]; simp
      rw [UnmarshalJSON_of_returns first r data aux hdata hnp, outcomeOf_of_mem _ _ he] at hok
      simp at hok
    · intro hstyle
      refine ⟨Order.errorsOf first aux r, e, ?_, he⟩
      rw [(UnmarshalJSON_eq first r data).2.2 aux hdata (exchangeStyle_no_panic first aux r hstyle),
        outcomeOf_of_mem _ _ he]

set_option maxRecDepth 200000 in
/-- The payload of the test "valid data" has the string "41" under
`customer_id`, "41" is the base-10 text of 41 and the payload is well formed;
the decode succeeds with `CustomerID = 41`. -/
theorem customer_id_string_is_parsed_valid_data (first : mapstructure.MapOrder) :
    json.UnmarshalMap Order.validPayload = some (Order.mapOf Order.validPayload)
    ∧ (Order.mapOf Order.validPayload).reverse.lookup (bytesOf "customer_id")
        = some (json.Value.string (bytesOf "41"))
    ∧ decimalInt64Text (bytesOf "41") 41
    ∧ Order.wellFormed (Order.mapOf Order.validPayload)
    ∧ (Order.UnmarshalJSON first Order.zero Order.validPayload).2 = Order.Outcome.ok
    ∧ (Order.UnmarshalJSON first Order.zero Order.validPayload).1.CustomerID = 41 :=
  have h41 : decimalInt64Text (bytesOf "41") 41 :=
    (ParseInt_ok_iff (bytesOf "41") 41).1 (by decide)
  ⟨validPayload_map, rfl, h41, validPayload_wellFormed,
    (customer_id_string_is_parsed first Order.zero Order.validPayload
      (Order.mapOf Order.validPayload) (bytesOf "41") validPayload_map rfl).1 41 h41
      validPayload_wellFormed⟩

/-- C15: the payload whose `customer_id` is the string "invalid" and whose
`order_id` is the JSON number 5: `json.Unmarshal` accepts it, `customer_id`
is a JSON string that is no base-10 integer, and the call of
`Order.UnmarshalJSON` ends in a panic instead of returning an error, in
whatever order the keys of the map are visited: the decode hook asserts
`data.(string)` on the number given for `order_id`. -/
theorem C15_number_order_id_beside_invalid_customer_id_panics :
    json.UnmarshalMap Order.numberIdPayload
      = some [(bytesOf "order_id", json.Value.number (bytesOf "5")),
              (bytesOf "customer_id", json.Value.string (bytesOf "invalid"))]
    ∧ (strconv.ParseInt (bytesOf "invalid")).2 = some strconv.NumError.ErrSyntax
    ∧ ∀ first : mapstructure.MapOrder,
        (Order.UnmarshalJSON first Order.zero Order.numberIdPayload).2 = Order.Outcome.panic :=
  ⟨rfl, by decide, fun first => by
    rw [UnmarshalJSON_exactKeys first mapstructure.textOrder _ _ (by decide)]
    decide⟩

set_option maxRecDepth 200000 in
/-- C16 (counterexample): the payload of the test "invalid customer_id", whose
other fields are valid, decoded into the zero `Order`: in whatever order the
keys of the map are visited the call ends in the same way, it returns the
error of `customer_id` and the record is partially populated, `Status` is
"shipped" and `OrderID` and `ApprovedAt` are set. -/
theorem C16_failed_decode_populates_record :
    (∀ first : mapstructure.MapOrder,
      Order.UnmarshalJSON first Order.zero Order.invalidPayload
        = Order.UnmarshalJSON mapstructure.textOrder Order.zero Order.invalidPayload)
    ∧ (Order.UnmarshalJSON mapstructure.textOrder Order.zero Order.invalidPayload).2
      = Order.Outcome.fieldErrors
          [{ field := bytesOf "customer_id",
             cause := mapstructure.Cause.hook (HookError.number strconv.NumError.ErrSyntax) }]
    ∧ (Order.UnmarshalJSON mapstructure.textOrder Order.zero Order.invalidPayload).1
        ≠ Order.zero
    ∧ (Order.UnmarshalJSON mapstructure.textOrder Order.zero Order.invalidPayload).1.Status
        = bytesOf "shipped"
    ∧ uuid.UUID.String
          (Order.UnmarshalJSON mapstructure.textOrder Order.zero Order.invalidPayload).1.OrderID
        = bytesOf "b68d6956-4a79-dea4-776a-fa33d1d2fcab"
    ∧ (Order.UnmarshalJSON mapstructure.textOrder Order.zero Order.invalidPayload).1.ApprovedAt
        = some { Year := 2018, Month := 2, Day := 28, Hour := 10, Minute := 40, Second := 35,
                 Nanosecond := 0 } := by
  refine ⟨fun first => UnmarshalJSON_exactKeys first mapstructure.textOrder _ _ (by decide), ?_⟩
  decide

set_option maxRecDepth 200000 in
/-- A payload with two keys that equal `customer_id` only up to case, and an
`order_id` that is no UUID: the call returns the error of `order_id`, and
`CustomerID` is 1 when the loop over the keys meets `Customer_id` first and 2
when it meets `CUSTOMER_ID` first. -/
theorem mixed_case_keys_follow_the_order :
    json.UnmarshalMap Order.mixedCasePayload
      = some [(bytesOf "Customer_id", json.Value.string (bytesOf "1")),
              (bytesOf "CUSTOMER_ID", json.Value.string (bytesOf "2")),
              (bytesOf "order_id", json.Value.string (bytesOf "bad"))]
    ∧ Order.UnmarshalJSON mapstructure.textOrder Order.zero Order.mixedCasePayload
      = ({ Order.zero with CustomerID := 1 },
         Order.Outcome.fieldErrors
          [{ field := bytesOf "order_id",
             cause := mapstructure.Cause.hook
               (HookError.uuid (uuid.ParseError.invalidLength 3)) }])
    ∧ Order.UnmarshalJSON mapstructure.lastInText Order.zero Order.mixedCasePayload
      = ({ Order.zero with CustomerID := 2 },
         Order.Outcome.fieldErrors
          [{ field := bytesOf "order_id",
             cause := mapstructure.Cause.hook
               (HookError.uuid (uuid.ParseError.invalidLength 3)) }]) :=
  ⟨rfl, by decide, by decide⟩

/-- C16 (amended): when `json.Unmarshal` fails, the call returns its error and
every field of the record is the same as before; when the call returns the
errors of fields, every field whose own coercion failed, that the payload does
not give, or that it gives as `null` is the same as before, and every other
field holds its decoded value (`Order.fieldwise`), the errors returned being
those of the fields whose coercion failed. This holds in whatever order the
keys of the map are visited (`first`). The value decoded for a field is a value
the payload gives under a key equal to the name of the field exactly or up to
case: the last one under the exact name if there is one, else the value under
one of the keys that match up to case; a field is not given when no key
matches. Each of the four decoders leaves the field as it is for `null`. -/
theorem C16_failed_fields_keep_value (first : mapstructure.MapOrder) (r : Order)
    (data : Bytes) :
    (json.UnmarshalMap data = none →
      Order.UnmarshalJSON first r data = (r, Order.Outcome.jsonError))
    ∧ (∀ aux es, json.UnmarshalMap data = some aux →
        (Order.UnmarshalJSON first r data).2 = Order.Outcome.fieldErrors es →
        (Order.UnmarshalJSON first r data).1 = Order.fieldwise first aux r
        ∧ es = Order.errorsOf first aux r)
    ∧ (∀ (aux : List (Bytes × json.Value)) (name : Bytes),
        (mapstructure.mapIndex first aux name = none
          ↔ ∀ kv ∈ aux, Order.keyFor name kv = false)
        ∧ (∀ v, mapstructure.mapIndex first aux name = some v →
            ∃ kv ∈ aux, Order.keyFor name kv = true ∧ kv.2 = v)
        ∧ (∀ v, aux.reverse.lookup name = some v →
            mapstructure.mapIndex first aux name = some v))
    ∧ (∀ (id : uuid.UUID) (n : Int) (s : Bytes) (t : Option Time),
        mapstructure.decodeUUID (GoValue.json json.Value.null) id = mapstructure.Step.ok id
        ∧ mapstructure.decodeInt64 (GoValue.json json.Value.null) n = mapstructure.Step.ok n
        ∧ mapstructure.decodeString (GoValue.json json.Value.null) s = mapstructure.Step.ok s
        ∧ mapstructure.decodeTimePtr (GoValue.json json.Value.null) t
            = mapstructure.Step.ok t) := by
  refine ⟨(UnmarshalJSON_eq first r data).1, ?_,
    fun aux name => ⟨mapIndex_none_iff first aux name, mapIndex_mem first aux name,
      mapIndex_of_lookup first aux name⟩,
    fun id n s t => ⟨decodeUUID_null id, decodeInt64_null n, decodeString_null s,
      decodeTimePtr_null t⟩⟩
  intro aux es hdata hout
  have hnp : (Order.UnmarshalJSON first r data).2 ≠ Order.Outcome.panic := by
    rw [hout]; simp
  have hcl := UnmarshalJSON_of_returns first r data aux hdata hnp
  rw [hcl] at hout ⊢
  refine ⟨rfl, ?_⟩
  simp only [Order.outcomeOf] at hout
  split at hout
  · simp at hout
  · simp only [Order.Outcome.fieldErrors.injEq] at hout
    exact hout.symm

theorem fieldErrors_field (first : mapstructure.MapOrder)
    {α : Type} (dec : GoValue → α → mapstructure.Step α)
    (aux : List (Bytes × json.Value)) (name : Bytes) (cur : α) (fe : mapstructure.FieldError)
    (h : fe ∈ Order.fieldErrors first dec aux name cur) : fe.field = name := by
  unfold Order.fieldErrors at h
  rcases hm : mapstructure.mapIndex first aux name with _ | v
  · rw [hm] at h; simp at h
  · rw [hm] at h
    simp only at h
    rcases hd : dec (GoValue.json v) cur with a | ⟨a, e⟩ | _
    · rw [hd] at h; simp at h
    · rw [hd] at h
      simp only [List.mem_singleton] at h
      rw [h]
    · rw [hd] at h; simp at h

theorem timestampTags_cases (tag : Bytes) (h : tag ∈ Order.timestampTags) :
    tag = bytesOf "order_approved_at" ∨ tag = bytesOf "order_delivered_customer_date"
    ∨ tag = bytesOf "order_delivered_carrier_date"
    ∨ tag = bytesOf "order_estimated_delivery_date"
    ∨ tag = bytesOf "order_purchase_timestamp" := by
  have e : Order.timestampTags = [bytesOf "order_approved_at",
      bytesOf "order_delivered_customer_date", bytesOf "order_delivered_carrier_date",
      bytesOf "order_estimated_delivery_date", bytesOf "order_purchase_timestamp"] := rfl
  rw [e] at h
  simpa using h

theorem timeField_fieldwise (first : mapstructure.MapOrder)
    (aux : List (Bytes × json.Value)) (r : Order) (tag : Bytes)
    (h : tag ∈ Order.timestampTags) :
    Order.timeField tag (Order.fieldwise first aux r)
      = Order.fieldValue first mapstructure.decodeTimePtr aux tag (Order.timeField tag r) := by
  rcases timestampTags_cases tag h with rfl | rfl | rfl | rfl | rfl <;> rfl

/-- The errors listed under the name of a timestamp field are the errors of
that field. -/
theorem errorsOf_timestamp (first : mapstructure.MapOrder)
    (aux : List (Bytes × json.Value)) (r : Order) (tag : Bytes)
    (h : tag ∈ Order.timestampTags) (fe : mapstructure.FieldError) :
    (fe ∈ Order.errorsOf first aux r ∧ fe.field = tag)
      ↔ fe ∈ Order.fieldErrors first mapstructure.decodeTimePtr aux tag (Order.timeField tag r) := by
  have hne : ∀ {α : Type} (dec : GoValue → α → mapstructure.Step α) (name : Bytes) (cur : α),
      name ≠ tag → fe.field = tag → ¬ fe ∈ Order.fieldErrors first dec aux name cur :=
    fun dec name cur hn hf hmem => hn ((fieldErrors_field first dec aux name cur fe hmem).symm.trans hf)
  constructor
  · rintro ⟨hmem, hf⟩
    simp only [Order.errorsOf, List.mem_append] at hmem
    rcases timestampTags_cases tag h with rfl | rfl | rfl | rfl | rfl
    · rcases hmem with ((((((h1 | h1) | h1) | h1) | h1) | h1) | h1) | h1
      · exact absurd h1 (hne _ _ _ (by decide) hf)
      · exact absurd h1 (hne _ _ _ (by decide) hf)
      · exact absurd h1 (hne _ _ _ (by decide) hf)
      · exact h1
      · exact absurd h1 (hne _ _ _ (by decide) hf)
      · exact absurd h1 (hne _ _ _ (by decide) hf)
      · exact absurd h1 (hne _ _ _ (by decide) hf)
      · exact absurd h1 (hne _ _ _ (by decide) hf)
    · rcases hmem with ((((((h1 | h1) | h1) | h1) | h1) | h1) | h1) | h1
      · exact absurd h1 (hne _ _ _ (by decide) hf)
      · exact absurd h1 (hne _ _ _ (by decide) hf)
      · exact absurd h1 (hne _ _ _ (by decide) hf)
      · exact absurd h1 (hne _ _ _ (by decide) hf)
      · exact h1
      · exact absurd h1 (hne _ _ _ (by decide) hf)
      · exact absurd h1 (hne _ _ _ (by decide) hf)
      · exact absurd h1 (hne _ _ _ (by decide) hf)
    · rcases hmem with ((((((h1 | h1) | h1) | h1) | h1) | h1) | h1) | h1
      · exact absurd h1 (hne _ _ _ (by decide) hf)
      · exact absurd h1 (hne _ _ _ (by decide) hf)
      · exact absurd h1 (hne _ _ _ (by decide) hf)
      · exact absurd h1 (hne _ _ _ (by decide) hf)
      · exact absurd h1 (hne _ _ _ (by decide) hf)
      · exact h1
      · exact absurd h1 (hne _ _ _ (by decide) hf)
      · exact absurd h1 (hne _ _ _ (by decide) hf)
    · rcases hmem with ((((((h1 | h1) | h1) | h1) | h1) | h1) | h1) | h1
      · exact absurd h1 (hne _ _ _ (by decide) hf)
      · exact absurd h1 (hne _ _ _ (by decide) hf)
      · exact absurd h1 (hne _ _ _ (by decide) hf)
      · exact absurd h1 (hne _ _ _ (by decide) hf)
      · exact absurd h1 (hne _ _ _ (by decide) hf)
      · exact absurd h1 (hne _ _ _ (by decide) hf)
      · exact h1
      · exact absurd h1 (hne _ _ _ (by decide) hf)
    · rcases hmem with ((((((h1 | h1) | h1) | h1) | h1) | h1) | h1) | h1
      · exact absurd h1 (hne _ _ _ (by decide) hf)
      · exact absurd h1 (hne _ _ _ (by decide) hf)
      · exact absurd h1 (hne _ _ _ (by decide) hf)
      · exact absurd h1 (hne _ _ _ (by decide) hf)
      · exact absurd h1 (hne _ _ _ (by decide) hf)
      · exact absurd h1 (hne _ _ _ (by decide) hf)
      · exact absurd h1 (hne _ _ _ (by decide) hf)
      · exact h1
  · intro hmem
    refine ⟨?_, fieldErrors_field first _ aux tag _ fe hmem⟩
    simp only [Order.errorsOf, List.mem_append]
    rcases timestampTags_cases tag h with rfl | rfl | rfl | rfl | rfl
    · exact Or.inl (Or.inl (Or.inl (Or.inl (Or.inr hmem))))
    · exact Or.inl (Or.inl (Or.inl (Or.inr hmem)))
    · exact Or.inl (Or.inl (Or.inr hmem))
    · exact Or.inl (Or.inr hmem)
    · exact Or.inr hmem

set_option maxRecDepth 200000 in
/-- C17 (counterexample): the timestamp "2018-02-28 8:57:03" is not empty and,
with its one-digit hour, does not match "YYYY-MM-DD HH:MM:SS", yet the decode
of the payload that gives it for `order_approved_at` returns no error and
sets the field to 2018-02-28 08:57:03. -/
theorem C17_one_digit_hour_timestamp_is_accepted :
    json.UnmarshalMap Order.oneDigitHourPayload
      = some [(bytesOf "order_approved_at", json.Value.string (bytesOf "2018-02-28 8:57:03"))]
    ∧ fixedFormatText (bytesOf "2018-02-28 8:57:03") = false
    ∧ ∀ first : mapstructure.MapOrder,
        Order.UnmarshalJSON first Order.zero Order.oneDigitHourPayload
          = ({ Order.zero with
                ApprovedAt := some { Year := 2018, Month := 2, Day := 28, Hour := 8,
                                     Minute := 57, Second := 3, Nanosecond := 0 } },
             Order.Outcome.ok) :=
  ⟨rfl, by decide, fun first => by
    rw [UnmarshalJSON_exactKeys first mapstructure.textOrder _ _ (by decide)]
    decide⟩

/-- C17 (amended): for every payload in the exchange style (the value of every
field of `Order` is a JSON string or `null`) that gives the string `s` for a
timestamp field: when `s` is empty the field is set to the zero time and no
error is listed for it; when `s` is a text `time.Parse` accepts for the
layout "2006-01-02 15:04:05" the field is set to the parsed time and no error
is listed for it; when `s` is any other text the call returns an error that
lists the field with the error of `time.Parse`, and the field keeps its
value. -/
theorem C17_timestamp_string_is_parsed (first : mapstructure.MapOrder) (r : Order) (data : Bytes)
    (aux : List (Bytes × json.Value)) (tag s : Bytes)
    (hdata : json.UnmarshalMap data = some aux)
    (htag : tag ∈ Order.timestampTags)
    (hval : aux.reverse.lookup tag = some (json.Value.string s))
    (hstyle : Order.exchangeStyle aux = true) :
    (s = [] →
      Order.timeField tag (Order.UnmarshalJSON first r data).1 = some Time.zero
      ∧ ∀ es, (Order.UnmarshalJSON first r data).2 = Order.Outcome.fieldErrors es →
          ∀ fe ∈ es, fe.field ≠ tag)
    ∧ (s ≠ [] → lenientDateTimeText s →
      Order.timeField tag (Order.UnmarshalJSON first r data).1 = some (Parse s).1
      ∧ ∀ es, (Order.UnmarshalJSON first r data).2 = Order.Outcome.fieldErrors es →
          ∀ fe ∈ es, fe.field ≠ tag)
    ∧ (s ≠ [] → ¬ lenientDateTimeText s →
      ∃ es e, (Order.UnmarshalJSON first r data).2 = Order.Outcome.fieldErrors es
        ∧ ({ field := tag, cause := mapstructure.Cause.hook (HookError.time e) }
            : mapstructure.FieldError) ∈ es
        ∧ Order.timeField tag (Order.UnmarshalJSON first r data).1 = Order.timeField tag r) := by
  have hm := mapIndex_of_lookup first aux _ _ hval
  have hcl := (UnmarshalJSON_eq first r data).2.2 aux hdata (exchangeStyle_no_panic first aux r hstyle)
  have hnone : ∀ a, mapstructure.decodeTimePtr (GoValue.json (json.Value.string s))
        (Order.timeField tag r) = mapstructure.Step.ok a →
      Order.timeField tag (Order.UnmarshalJSON first r data).1 = a
      ∧ ∀ es, (Order.UnmarshalJSON first r data).2 = Order.Outcome.fieldErrors es →
          ∀ fe ∈ es, fe.field ≠ tag := by
    intro a ha
    rw [hcl]
    constructor
    · show Order.timeField tag (Order.fieldwise first aux r) = a
      rw [timeField_fieldwise first aux r tag htag]
      unfold Order.fieldValue
      rw [hm]
      simp only [ha, mapstructure.Step.value]
    · intro es hes fe hfe hf
      have hes2 : es = Order.errorsOf first aux r := by
        simp only [Order.outcomeOf] at hes
        split at hes
        · simp at hes
        · simp only [Order.Outcome.fieldErrors.injEq] at hes
          exact hes.symm
      subst hes2
      have hin := (errorsOf_timestamp first aux r tag htag fe).1 ⟨hfe, hf⟩
      unfold Order.fieldErrors at hin
      rw [hm] at hin
      simp only [ha] at hin
      simp at hin
  refine ⟨?_, ?_, ?_⟩
  · intro hs
    apply hnone
    rw [decodeTimePtr_string, if_pos hs]
  · intro hs hl
    apply hnone
    exact decodeTimePtr_lenient s _ hs hl
  · intro hs hl
    obtain ⟨e, he⟩ := decodeTimePtr_not_lenient s (Order.timeField tag r) hs hl
    have hmem : ({ field := tag, cause := mapstructure.Cause.hook (HookError.time e) }
        : mapstructure.FieldError) ∈ Order.errorsOf first aux r := by
      apply ((errorsOf_timestamp first aux r tag htag _).2 _).1
      unfold Order.fieldErrors
      rw [hm]
      simp only [he]
      simp
    refine ⟨Order.errorsOf first aux r, e, ?_, hmem, ?_⟩
    · rw [hcl, outcomeOf_of_mem _ _ hmem]
    · rw [hcl]
      show Order.timeField tag (Order.fieldwise first aux r) = Order.timeField tag r
      rw [timeField_fieldwise first aux r tag htag]
      unfold Order.fieldValue
      rw [hm]
      simp only [he, mapstructure.Step.value]


theorem xvalues_hex (a : Nat) (ha : hexDigit a = true) :
    uuid.xvalues a < 16 ∧ hex.hextable (uuid.xvalues a) = asciiLower a := by
  have hlt : a < 128 := by
    simp only [hexDigit, Bool.or_eq_true, Bool.and_eq_true, decide_eq_true_eq] at ha
    omega
  have key : ∀ c : Fin 128, hexDigit c.1 = true →
      uuid.xvalues c.1 < 16 ∧ hex.hextable (uuid.xvalues c.1) = asciiLower c.1 := by
    decide
  exact key ⟨a, hlt⟩ ha

theorem xtob_hex (a b : Nat) (ha : hexDigit a = true) (hb : hexDigit b = true) :
    (uuid.xtob a b).2 = true ∧ hex.hextable ((uuid.xtob a b).1 / 16) = asciiLower a
      ∧ hex.hextable ((uuid.xtob a b).1 % 16) = asciiLower b := by
  obtain ⟨ha16, hah⟩ := xvalues_hex a ha
  obtain ⟨hb16, hbh⟩ := xvalues_hex b hb
  refine ⟨(xtob_ok_iff a b).2 ⟨ha, hb⟩, ?_, ?_⟩
  · unfold uuid.xtob
    simp only [shift_or_eq _ _ ha16 hb16]
    have e : (uuid.xvalues a * 16 + uuid.xvalues b) / 16 = uuid.xvalues a := by omega
    rw [e, hah]
  · unfold uuid.xtob
    simp only [shift_or_eq _ _ ha16 hb16]
    have e : (uuid.xvalues a * 16 + uuid.xvalues b) % 16 = uuid.xvalues b := by omega
    rw [e, hbh]

theorem list32_eq (s : Bytes) (hlen : s.length = 32) :
    s = [s.getD 0 0, s.getD 1 0, s.getD 2 0, s.getD 3 0, s.getD 4 0, s.getD 5 0, s.getD 6 0, s.getD 7 0, s.getD 8 0, s.getD 9 0, s.getD 10 0, s.getD 11 0, s.getD 12 0, s.getD 13 0, s.getD 14 0, s.getD 15 0, s.getD 16 0, s.getD 17 0, s.getD 18 0, s.getD 19 0, s.getD 20 0, s.getD 21 0, s.getD 22 0, s.getD 23 0, s.getD 24 0, s.getD 25 0, s.getD 26 0, s.getD 27 0, s.getD 28 0, s.getD 29 0, s.getD 30 0, s.getD 31 0] := by
  apply ext_getD
  · rw [hlen]; rfl
  · intro i hi
    rw [hlen] at hi
    interval_cases i <;> rfl

theorem Parse_raw (s : Bytes) (hlen : s.length = 32) (hhex : s.all hexDigit = true) :
    uuid.Parse s = Except.ok
      (uuid.rawOffsets.map (fun x => (uuid.xtob (s.getD x 0) (s.getD (x + 1) 0)).1)) := by
  have hd := (all_iff_getD hexDigit s).1 hhex
  rw [hlen] at hd
  unfold uuid.Parse
  simp only [hlen]
  rw [if_neg (by decide), if_neg (by decide), if_neg (by decide), if_pos trivial]
  apply parseBytes_eq_map
  intro x hx
  have hx1 : x < 32 ∧ x + 1 < 32 := by
    revert x
    decide
  exact (xtob_hex _ _ (hd x hx1.1) (hd (x + 1) hx1.2)).1

theorem String_Parse_raw (s : Bytes) (hlen : s.length = 32) (hhex : s.all hexDigit = true) :
    uuid.UUID.String
      (uuid.rawOffsets.map (fun x => (uuid.xtob (s.getD x 0) (s.getD (x + 1) 0)).1))
      = regroupUUID (s.map asciiLower) := by
  have hd := (all_iff_getD hexDigit s).1 hhex
  rw [hlen] at hd
  have hr : ∀ x, x + 1 < 32 →
      hex.hextable ((uuid.xtob (s.getD x 0) (s.getD (x + 1) 0)).1 / 16) = asciiLower (s.getD x 0)
      ∧ hex.hextable ((uuid.xtob (s.getD x 0) (s.getD (x + 1) 0)).1 % 16)
          = asciiLower (s.getD (x + 1) 0) :=
    fun x h1 => (xtob_hex _ _ (hd x (by omega)) (hd (x + 1) h1)).2
  have hs : s.map asciiLower = [asciiLower (s.getD 0 0), asciiLower (s.getD 1 0), asciiLower (s.getD 2 0), asciiLower (s.getD 3 0), asciiLower (s.getD 4 0), asciiLower (s.getD 5 0), asciiLower (s.getD 6 0), asciiLower (s.getD 7 0), asciiLower (s.getD 8 0), asciiLower (s.getD 9 0), asciiLower (s.getD 10 0), asciiLower (s.getD 11 0), asciiLower (s.getD 12 0), asciiLower (s.getD 13 0), asciiLower (s.getD 14 0), asciiLower (s.getD 15 0), asciiLower (s.getD 16 0), asciiLower (s.getD 17 0), asciiLower (s.getD 18 0), asciiLower (s.getD 19 0), asciiLower (s.getD 20 0), asciiLower (s.getD 21 0), asciiLower (s.getD 22 0), asciiLower (s.getD 23 0), asciiLower (s.getD 24 0), asciiLower (s.getD 25 0), asciiLower (s.getD 26 0), asciiLower (s.getD 27 0), asciiLower (s.getD 28 0), asciiLower (s.getD 29 0), asciiLower (s.getD 30 0), asciiLower (s.getD 31 0)] := by
    conv_lhs => rw [list32_eq s hlen]
    rfl
  rw [hs]
  simp only [uuid.rawOffsets, List.map, uuid.UUID.String, regroupUUID, List.take, List.drop,
    hex.Encode, List.cons_append, List.nil_append, List.append_nil]
  rw [(hr 0 (by decide)).1, (hr 0 (by decide)).2, (hr 2 (by decide)).1, (hr 2 (by decide)).2, (hr 4 (by decide)).1, (hr 4 (by decide)).2, (hr 6 (by decide)).1, (hr 6 (by decide)).2, (hr 8 (by decide)).1, (hr 8 (by decide)).2, (hr 10 (by decide)).1, (hr 10 (by decide)).2, (hr 12 (by decide)).1, (hr 12 (by decide)).2, (hr 14 (by decide)).1, (hr 14 (by decide)).2, (hr 16 (by decide)).1, (hr 16 (by decide)).2, (hr 18 (by decide)).1, (hr 18 (by decide)).2, (hr 20 (by decide)).1, (hr 20 (by decide)).2, (hr 22 (by decide)).1, (hr 22 (by decide)).2, (hr 24 (by decide)).1, (hr 24 (by decide)).2, (hr 26 (by decide)).1, (hr 26 (by decide)).2, (hr 28 (by decide)).1, (hr 28 (by decide)).2, (hr 30 (by decide)).1, (hr 30 (by decide)).2]

/-- C19: for every payload that gives for `order_id` a string of 32
hexadecimal digits without hyphens and whose field values are well formed,
the decode succeeds and `OrderID.String()` is the 32 digits in lower case
regrouped in the hyphenated form 8-4-4-4-12. -/
theorem C19_raw_order_id_is_regrouped (first : mapstructure.MapOrder) (r : Order) (data : Bytes)
    (aux : List (Bytes × json.Value)) (s : Bytes)
    (hdata : json.UnmarshalMap data = some aux)
    (hoid : aux.reverse.lookup (bytesOf "order_id") = some (json.Value.string s))
    (hlen : s.length = 32) (hhex : s.all hexDigit = true)
    (hr : r.OrderID.length = 16) (hwf : Order.wellFormed aux) :
    (Order.UnmarshalJSON first r data).2 = Order.Outcome.ok
    ∧ uuid.UUID.String (Order.UnmarshalJSON first r data).1.OrderID
        = regroupUUID (s.map asciiLower) := by
  have hm := mapIndex_of_lookup first aux _ _ hoid
  rw [UnmarshalJSON_wellFormed first r data aux hdata hwf]
  refine ⟨rfl, ?_⟩
  show uuid.UUID.String
    (Order.fieldValue first mapstructure.decodeUUID aux (bytesOf "order_id") r.OrderID) = _
  unfold Order.fieldValue
  rw [hm]
  simp only [decodeUUID_string_ok s r.OrderID _ hr (Parse_raw s hlen hhex),
    mapstructure.Step.value]
  exact String_Parse_raw s hlen hhex

set_option maxRecDepth 200000 in
/-- Witness for C19: the payload of the test "valid data" gives
"b68d69564a79dea4776afa33d1d2fcab" for `order_id`; the decode succeeds and
`OrderID.String()` is "b68d6956-4a79-dea4-776a-fa33d1d2fcab". -/
theorem C19_raw_order_id_is_regrouped_witness :
    json.UnmarshalMap Order.validPayload = some (Order.mapOf Order.validPayload)
    ∧ (Order.mapOf Order.validPayload).reverse.lookup (bytesOf "order_id")
        = some (json.Value.string (bytesOf "b68d69564a79dea4776afa33d1d2fcab"))
    ∧ Order.wellFormed (Order.mapOf Order.validPayload)
    ∧ regroupUUID ((bytesOf "b68d69564a79dea4776afa33d1d2fcab").map asciiLower)
        = bytesOf "b68d6956-4a79-dea4-776a-fa33d1d2fcab"
    ∧ (Order.UnmarshalJSON mapstructure.textOrder Order.zero Order.validPayload).2 = Order.Outcome.ok
    ∧ uuid.UUID.String (Order.UnmarshalJSON mapstructure.textOrder Order.zero Order.validPayload).1.OrderID
        = regroupUUID ((bytesOf "b68d69564a79dea4776afa33d1d2fcab").map asciiLower) :=
  ⟨validPayload_map, rfl, validPayload_wellFormed, by decide,
    C19_raw_order_id_is_regrouped mapstructure.textOrder Order.zero Order.validPayload
      (Order.mapOf Order.validPayload) (bytesOf "b68d69564a79dea4776afa33d1d2fcab")
      validPayload_map rfl (by decide) (by decide) (by decide) validPayload_wellFormed⟩

set_option maxRecDepth 200000 in
/-- Witness for C16 (amended): the payload of the test "invalid customer_id"
returns the error of `customer_id`; the record afterwards is the one in which
every field is decoded on its own, `CustomerID` keeping its value 0. -/
theorem C16_failed_fields_keep_value_witness :
    json.UnmarshalMap Order.invalidPayload = some (Order.mapOf Order.invalidPayload)
    ∧ (Order.UnmarshalJSON mapstructure.textOrder Order.zero Order.invalidPayload).2
        = Order.Outcome.fieldErrors
            [{ field := bytesOf "customer_id",
               cause := mapstructure.Cause.hook (HookError.number strconv.NumError.ErrSyntax) }]
    ∧ (Order.UnmarshalJSON mapstructure.textOrder Order.zero Order.invalidPayload).1
        = Order.fieldwise mapstructure.textOrder (Order.mapOf Order.invalidPayload) Order.zero
    ∧ [{ field := bytesOf "customer_id",
         cause := mapstructure.Cause.hook (HookError.number strconv.NumError.ErrSyntax) }]
        = Order.errorsOf mapstructure.textOrder (Order.mapOf Order.invalidPayload) Order.zero :=
  ⟨rfl, by decide,
    (C16_failed_fields_keep_value mapstructure.textOrder Order.zero Order.invalidPayload).2.1
      (Order.mapOf Order.invalidPayload) _ rfl (by decide)⟩

/-- Witness for C17 (amended): the payload that gives the empty string for
`order_approved_at` is in the exchange style; the decode sets the field to
the zero time and lists no error for it. -/
theorem C17_timestamp_string_is_parsed_witness :
    json.UnmarshalMap Order.emptyTimestampPayload
      = some [(bytesOf "order_approved_at", json.Value.string [])]
    ∧ bytesOf "order_approved_at" ∈ Order.timestampTags
    ∧ Order.exchangeStyle [(bytesOf "order_approved_at", json.Value.string [])] = true
    ∧ Order.timeField (bytesOf "order_approved_at")
        (Order.UnmarshalJSON mapstructure.textOrder Order.zero Order.emptyTimestampPayload).1 = some Time.zero
    ∧ ∀ es, (Order.UnmarshalJSON mapstructure.textOrder Order.zero Order.emptyTimestampPayload).2
          = Order.Outcome.fieldErrors es →
        ∀ fe ∈ es, fe.field ≠ bytesOf "order_approved_at" :=
  ⟨rfl, by decide, by decide,
    (C17_timestamp_string_is_parsed mapstructure.textOrder Order.zero Order.emptyTimestampPayload
      [(bytesOf "order_approved_at", json.Value.string [])] (bytesOf "order_approved_at") []
      rfl (by decide) rfl (by decide)).1 rfl⟩

/-- For a target type that is none of "int64", "uint8", "uuid.UUID" and
"time.Time" the decode hook returns the source value. -/
theorem decodeHook_other (t : String) (data : GoValue) (h1 : t ≠ "int64") (h2 : t ≠ "uint8")
    (h3 : t ≠ "uuid.UUID") (h4 : t ≠ "time.Time") :
    ∃ v, Order.decodeHook t data = HookResult.ok v := by
  unfold Order.decodeHook
  rw [if_neg h1, if_neg h2, if_neg h3, if_neg h4]
  exact ⟨data, rfl⟩

/-- C18: a JSON number as the source value for an `int64`, a `uuid.UUID` or a
`time.Time` target makes the decode hook panic in the type assertion
`data.(string)`, and so does every value that is not a `uint8` for a `uint8`
target; the payload with the number 41 for `customer_id` ends the call of
`Order.UnmarshalJSON` in that panic. -/
theorem C18_number_source_panics (lit : Bytes) :
    Order.decodeHook "int64" (GoValue.json (json.Value.number lit)) = HookResult.panic
    ∧ Order.decodeHook "uuid.UUID" (GoValue.json (json.Value.number lit)) = HookResult.panic
    ∧ Order.decodeHook "time.Time" (GoValue.json (json.Value.number lit)) = HookResult.panic
    ∧ Order.decodeHook "uint8" (GoValue.json (json.Value.number lit)) = HookResult.panic
    ∧ json.UnmarshalMap Order.numberPayload
        = some [(bytesOf "customer_id", json.Value.number (bytesOf "41"))]
    ∧ ∀ first : mapstructure.MapOrder,
        (Order.UnmarshalJSON first Order.zero Order.numberPayload).2 = Order.Outcome.panic :=
  ⟨rfl, rfl, rfl, rfl, rfl, fun first => by
    rw [UnmarshalJSON_exactKeys first mapstructure.textOrder _ _ (by decide)]
    decide⟩

/-! ## Package `strconv`: printing and reading a number -/

theorem decimalValue_append (l : Bytes) (d acc : Nat) :
    decimalValue (l ++ [d]) acc = decimalValue l acc * 10 + (d - 48) := by
  induction l generalizing acc with
  | nil => simp [decimalValue]
  | cons c rest ih => simp [decimalValue, ih]

/-- The digits `formatBits` writes: decimal digits, at least one, no leading
zero except for the number zero itself, and they write the number. -/
theorem formatBits_spec (fuel : Nat) : ∀ u, u < 10 ^ (fuel + 1) →
    (∀ c ∈ strconv.formatBits (fuel + 1) u, 48 ≤ c ∧ c ≤ 57)
    ∧ decimalValue (strconv.formatBits (fuel + 1) u) 0 = u
    ∧ (∃ d ds, strconv.formatBits (fuel + 1) u = d :: ds ∧ (d = 48 → u = 0 ∧ ds = [])) := by
  induction fuel with
  | zero =>
    intro u hu
    have h10 : u < 10 := by simpa using hu
    rw [strconv.formatBits, if_pos h10]
    refine ⟨?_, ?_, ⟨48 + u, [], rfl, ?_⟩⟩
    · intro c hc
      simp only [List.mem_singleton] at hc
      omega
    · simp [decimalValue]
    · intro h0
      exact ⟨by omega, rfl⟩
  | succ n ih =>
    intro u hu
    rw [strconv.formatBits]
    by_cases h10 : u < 10
    · rw [if_pos h10]
      refine ⟨?_, ?_, ⟨48 + u, [], rfl, ?_⟩⟩
      · intro c hc
        simp only [List.mem_singleton] at hc
        omega
      · simp [decimalValue]
      · intro h0
        exact ⟨by omega, rfl⟩
    · rw [if_neg h10]
      have hlt : u / 10 < 10 ^ (n + 1) := by
        rw [Nat.div_lt_iff_lt_mul (by decide)]
        rw [pow_succ] at hu
        exact hu
      obtain ⟨hd, hv, d, ds, hds, h0⟩ := ih (u / 10) hlt
      refine ⟨?_, ?_, ⟨d, ds ++ [48 + u % 10], by rw [hds]; rfl, ?_⟩⟩
      · intro c hc
        rcases List.mem_append.1 hc with h | h
        · exact hd c h
        · simp only [List.mem_singleton] at h
          omega
      · rw [decimalValue_append, hv]
        omega
      · intro h48
        have := (h0 h48).1
        omega

theorem FormatUint_spec (u : Nat) (hu : u < 2 ^ 64) :
    (∀ c ∈ strconv.FormatUint u, 48 ≤ c ∧ c ≤ 57)
    ∧ decimalValue (strconv.FormatUint u) 0 = u
    ∧ (∃ d ds, strconv.FormatUint u = d :: ds ∧ (d = 48 → u = 0 ∧ ds = [])) :=
  formatBits_spec 19 u (lt_trans hu (by norm_num))

theorem ParseUint_FormatUint (u : Nat) (hu : u < 2 ^ 64) :
    strconv.ParseUint (strconv.FormatUint u) = (u, none) := by
  obtain ⟨hd, hv, d, ds, hds, _⟩ := FormatUint_spec u hu
  rw [ParseUint_ok_iff]
  refine ⟨by rw [hds]; simp, hd, hv.symm, by omega⟩

theorem ParseInt_FormatInt (i : Int) (hi : isInt64 i) :
    strconv.ParseInt (strconv.FormatInt i) = (i, none) := by
  rw [ParseInt_ok_iff]
  unfold isInt64 at hi
  unfold strconv.FormatInt
  by_cases hneg : i < 0
  · rw [if_pos hneg]
    have hu : (-i).toNat < 2 ^ 64 := by
      have : ((-i).toNat : Int) = -i := Int.toNat_of_nonneg (by omega)
      have h2 : ((-i).toNat : Int) < 2 ^ 64 := by rw [this]; norm_num at hi ⊢; omega
      exact_mod_cast h2
    obtain ⟨hd, hv, d, ds, hds, _⟩ := FormatUint_spec _ hu
    refine ⟨[45], strconv.formatBits 20 (-i).toNat, rfl, Or.inr (Or.inr rfl), ?_, hd, ?_,
      hi.1, hi.2⟩
    · change strconv.FormatUint (-i).toNat ≠ []
      rw [hds]; simp
    · rw [if_pos rfl]
      change i = -((decimalValue (strconv.FormatUint (-i).toNat) 0 : Nat) : Int)
      rw [hv, Int.toNat_of_nonneg (by omega)]
      omega
  · rw [if_neg hneg]
    have hu : i.toNat < 2 ^ 64 := by
      have : (i.toNat : Int) = i := Int.toNat_of_nonneg (by omega)
      have h2 : (i.toNat : Int) < 2 ^ 64 := by rw [this]; norm_num at hi ⊢; omega
      exact_mod_cast h2
    obtain ⟨hd, hv, d, ds, hds, _⟩ := FormatUint_spec _ hu
    refine ⟨[], strconv.formatBits 20 i.toNat, rfl, Or.inl rfl, ?_, hd, ?_, hi.1, hi.2⟩
    · change strconv.FormatUint i.toNat ≠ []
      rw [hds]; simp
    · rw [if_neg (by decide)]
      change i = ((decimalValue (strconv.FormatUint i.toNat) 0 : Nat) : Int)
      rw [hv, Int.toNat_of_nonneg (by omega)]

theorem spanDigits_append (ds rest : Bytes) (hd : ∀ c ∈ ds, 48 ≤ c ∧ c ≤ 57)
    (hr : ∀ c ∈ rest.head?, ¬ (48 ≤ c ∧ c ≤ 57)) :
    json.spanDigits (ds ++ rest) = (ds, rest) := by
  induction ds with
  | nil =>
    cases rest with
    | nil => rfl
    | cons c r =>
      have := hr c (by simp)
      simp [json.spanDigits, this]
  | cons d ds ih =>
    have h1 := hd d (List.mem_cons_self _ _)
    have h2 := ih (fun c hc => hd c (List.mem_cons_of_mem _ hc))
    simp [json.spanDigits, h1, h2]

theorem scanSign_digit (d : Nat) (t : Bytes) (h : d ≠ 45) :
    json.scanSign (d :: t) = ([], d :: t) := by
  unfold json.scanSign
  split
  · rename_i heq
    simp only [List.cons.injEq] at heq
    exact absurd heq.1 h
  · rfl

theorem scanNumber_digits (d : Nat) (ds rest : Bytes) (hd : ∀ c ∈ d :: ds, 48 ≤ c ∧ c ≤ 57)
    (h0 : d = 48 → ds = [])
    (hr : ∀ c ∈ rest.head?, c = 44 ∨ c = 125) :
    json.scanNumber (d :: ds ++ rest) = some (d :: ds, rest) := by
  have hd0 := hd d (List.mem_cons_self _ _)
  have hrd : ∀ c ∈ rest.head?, ¬ (48 ≤ c ∧ c ≤ 57) := by
    intro c hc
    rcases hr c hc with h | h <;> omega
  have hfrac : json.scanFraction rest = some ([], rest) := by
    cases rest with
    | nil => rfl
    | cons c r =>
      have : c ≠ 46 := by rcases hr c (by simp) with h | h <;> omega
      unfold json.scanFraction
      split
      · rename_i heq
        simp only [List.cons.injEq] at heq
        exact absurd heq.1 this
      · rfl
  have hexp : json.scanExponent rest = some ([], rest) := by
    cases rest with
    | nil => rfl
    | cons c r =>
      have h1 : ¬ (c = 101 ∨ c = 69) := by rcases hr c (by simp) with h | h <;> omega
      simp [json.scanExponent, h1]
  have h45 : d ≠ 45 := by omega
  unfold json.scanNumber
  rw [List.cons_append, scanSign_digit d _ h45]
  by_cases h48 : d = 48
  · have hds := h0 h48
    subst hds
    subst h48
    simp [json.scanIntPart, hfrac, hexp]
  · have h49 : 49 ≤ d ∧ d ≤ 57 := by omega
    have hsp := spanDigits_append ds rest (fun c hc => hd c (List.mem_cons_of_mem _ hc)) hrd
    simp [json.scanIntPart, h48, h49, hsp, hfrac, hexp]

theorem scanNumber_FormatUint (u : Nat) (hu : u < 2 ^ 64) (rest : Bytes)
    (hr : ∀ c ∈ rest.head?, c = 44 ∨ c = 125) :
    json.scanNumber (strconv.FormatUint u ++ rest) = some (strconv.FormatUint u, rest) := by
  obtain ⟨hd, _, d, ds, hds, h0⟩ := FormatUint_spec u hu
  rw [hds] at hd ⊢
  exact scanNumber_digits d ds rest hd (fun h => (h0 h).2) hr

theorem FormatInt_neg (i : Int) (h : i < 0) :
    strconv.FormatInt i = 45 :: strconv.FormatUint (-i).toNat := by
  unfold strconv.FormatInt strconv.FormatUint
  rw [if_pos h]

theorem FormatInt_nonneg (i : Int) (h : ¬ i < 0) :
    strconv.FormatInt i = strconv.FormatUint i.toNat := by
  unfold strconv.FormatInt strconv.FormatUint
  rw [if_neg h]

theorem scanNumber_neg (ds rest r : Bytes)
    (h : json.scanNumber (ds ++ rest) = some (ds, r)) (hne : ∀ c ∈ ds.head?, c ≠ 45)
    (hds : ds ≠ []) :
    json.scanNumber (45 :: ds ++ rest) = some (45 :: ds, r) := by
  obtain ⟨d, ds1, rfl⟩ := List.exists_cons_of_ne_nil hds
  have hd : d ≠ 45 := hne d (by simp)
  unfold json.scanNumber at h ⊢
  rw [List.cons_append, scanSign_digit d _ hd] at h
  have hsg : json.scanSign (45 :: (d :: ds1) ++ rest) = ([45], d :: (ds1 ++ rest)) := rfl
  rw [hsg]
  simp only at h ⊢
  rcases hip : json.scanIntPart (d :: (ds1 ++ rest)) with _ | ⟨ip, r1⟩
  · rw [hip] at h; simp at h
  · rw [hip] at h
    simp only at h ⊢
    rcases hfp : json.scanFraction r1 with _ | ⟨fp, r2⟩
    · rw [hfp] at h; simp at h
    · rw [hfp] at h
      simp only at h ⊢
      rcases hep : json.scanExponent r2 with _ | ⟨ep, r3⟩
      · rw [hep] at h; simp at h
      · rw [hep] at h
        simp only [Option.some.injEq, Prod.mk.injEq, List.nil_append, List.append_assoc,
          List.cons_append, List.singleton_append] at h ⊢
        exact ⟨by rw [h.1], h.2⟩

theorem scanNumber_FormatInt (i : Int) (hi : isInt64 i) (rest : Bytes)
    (hr : ∀ c ∈ rest.head?, c = 44 ∨ c = 125) :
    json.scanNumber (strconv.FormatInt i ++ rest) = some (strconv.FormatInt i, rest) := by
  unfold isInt64 at hi
  by_cases hneg : i < 0
  · have hu : (-i).toNat < 2 ^ 64 := by
      have : ((-i).toNat : Int) = -i := Int.toNat_of_nonneg (by omega)
      have h2 : ((-i).toNat : Int) < 2 ^ 64 := by rw [this]; norm_num at hi ⊢; omega
      exact_mod_cast h2
    rw [FormatInt_neg i hneg]
    obtain ⟨hd, _, d, ds, hds, _⟩ := FormatUint_spec _ hu
    have := scanNumber_FormatUint _ hu rest hr
    apply scanNumber_neg _ _ _ this
    · intro c hc
      rw [hds] at hc hd
      simp only [List.head?_cons, Option.mem_def, Option.some.injEq] at hc
      subst hc
      have := hd d (List.mem_cons_self _ _)
      omega
    · rw [hds]; simp
  · have hu : i.toNat < 2 ^ 64 := by
      have : (i.toNat : Int) = i := Int.toNat_of_nonneg (by omega)
      have h2 : (i.toNat : Int) < 2 ^ 64 := by rw [this]; norm_num at hi ⊢; omega
      exact_mod_cast h2
    rw [FormatInt_nonneg i hneg]
    exact scanNumber_FormatUint _ hu rest hr

/-! ## Package `unicode/utf8`: well-formed encodings -/

theorem DecodeRune_two (c b1 : Nat) (q : Bytes) (hc : 194 ≤ c ∧ c ≤ 223)
    (h1 : utf8.cont b1 = true) :
    utf8.DecodeRune (c :: b1 :: q) = ((c % 32) * 64 + b1 % 64, 2)
    ∧ utf8.EncodeRune ((c % 32) * 64 + b1 % 64) = [c, b1]
    ∧ (c % 32) * 64 + b1 % 64 ≠ 8232 ∧ (c % 32) * 64 + b1 % 64 ≠ 8233 := by
  simp only [utf8.cont, Bool.and_eq_true, decide_eq_true_eq] at h1
  have hf : utf8.first c = 2 := by
    unfold utf8.first
    rw [if_neg (by omega), if_neg (by omega), if_pos (by omega)]
  refine ⟨?_, ?_, by omega, by omega⟩
  · unfold utf8.DecodeRune
    have ha : utf8.acceptRanges (2 / 16) = (128, 191) := by decide
    simp only [hf, ha, List.length_cons, List.getD_cons_zero]
    rw [if_neg (by omega), if_neg (by omega), if_neg (by omega), if_pos (by omega)]
  · unfold utf8.EncodeRune
    rw [if_neg (by omega), if_pos (by omega)]
    have e1 : 192 + ((c % 32) * 64 + b1 % 64) / 64 = c := by omega
    have e2 : 128 + ((c % 32) * 64 + b1 % 64) % 64 = b1 := by omega
    rw [e1, e2]

theorem DecodeRune_three (c b1 b2 : Nat) (q : Bytes) (hc : 224 ≤ c ∧ c ≤ 239)
    (h1 : utf8.second3 c b1 = true) (h2 : utf8.cont b2 = true) :
    utf8.DecodeRune (c :: b1 :: b2 :: q)
      = ((c % 16) * 4096 + (b1 % 64) * 64 + b2 % 64, 3)
    ∧ utf8.EncodeRune ((c % 16) * 4096 + (b1 % 64) * 64 + b2 % 64) = [c, b1, b2] := by
  simp only [utf8.cont, Bool.and_eq_true, decide_eq_true_eq] at h2
  have hb1 : (c = 224 ∧ 160 ≤ b1 ∧ b1 ≤ 191) ∨ (c = 237 ∧ 128 ≤ b1 ∧ b1 ≤ 159)
      ∨ (c ≠ 224 ∧ c ≠ 237 ∧ 128 ≤ b1 ∧ b1 ≤ 191) := by
    unfold utf8.second3 at h1
    by_cases e1 : c = 224
    · rw [if_pos e1] at h1
      simp only [Bool.and_eq_true, decide_eq_true_eq] at h1
      exact Or.inl ⟨e1, h1⟩
    · rw [if_neg e1] at h1
      by_cases e2 : c = 237
      · rw [if_pos e2] at h1
        simp only [Bool.and_eq_true, decide_eq_true_eq] at h1
        exact Or.inr (Or.inl ⟨e2, h1⟩)
      · rw [if_neg e2] at h1
        simp only [utf8.cont, Bool.and_eq_true, decide_eq_true_eq] at h1
        exact Or.inr (Or.inr ⟨e1, e2, h1⟩)
  have henc : utf8.EncodeRune ((c % 16) * 4096 + (b1 % 64) * 64 + b2 % 64) = [c, b1, b2] := by
    unfold utf8.EncodeRune
    rw [if_neg (by omega), if_neg (by omega), if_neg (by omega), if_pos (by omega)]
    unfold utf8.encode3
    have e1 : 224 + ((c % 16) * 4096 + (b1 % 64) * 64 + b2 % 64) / 4096 = c := by omega
    have e2 : 128 + ((c % 16) * 4096 + (b1 % 64) * 64 + b2 % 64) / 64 % 64 = b1 := by omega
    have e3 : 128 + ((c % 16) * 4096 + (b1 % 64) * 64 + b2 % 64) % 64 = b2 := by omega
    rw [e1, e2, e3]
  refine ⟨?_, henc⟩
  unfold utf8.DecodeRune
  rcases hb1 with ⟨rfl, hb⟩ | ⟨rfl, hb⟩ | ⟨n1, n2, hb⟩
  · have hf : utf8.first 224 = 19 := by decide
    have ha : utf8.acceptRanges (19 / 16) = (160, 191) := by decide
    simp only [hf, ha, List.length_cons, List.getD_cons_zero,
      List.getD_cons_succ]
    rw [if_neg (by omega), if_neg (by omega), if_neg (by omega), if_neg (by omega),
      if_neg (by omega), if_pos (by omega)]
  · have hf : utf8.first 237 = 35 := by decide
    have ha : utf8.acceptRanges (35 / 16) = (128, 159) := by decide
    simp only [hf, ha, List.length_cons, List.getD_cons_zero,
      List.getD_cons_succ]
    rw [if_neg (by omega), if_neg (by omega), if_neg (by omega), if_neg (by omega),
      if_neg (by omega), if_pos (by omega)]
  · have hf : utf8.first c = 3 := by
      unfold utf8.first
      by_cases h236 : c < 237
      · rw [if_neg (by omega), if_neg (by omega), if_neg (by omega), if_neg (by omega),
          if_pos h236]
      · rw [if_neg (by omega), if_neg (by omega), if_neg (by omega), if_neg (by omega),
          if_neg h236, if_neg (by omega), if_pos (by omega)]
    have ha : utf8.acceptRanges (3 / 16) = (128, 191) := by decide
    simp only [hf, ha, List.length_cons, List.getD_cons_zero,
      List.getD_cons_succ]
    rw [if_neg (by omega), if_neg (by omega), if_neg (by omega), if_neg (by omega),
      if_neg (by omega), if_pos (by omega)]

theorem DecodeRune_four (c b1 b2 b3 : Nat) (q : Bytes) (hc : 240 ≤ c ∧ c ≤ 244)
    (h1 : utf8.second4 c b1 = true) (h2 : utf8.cont b2 = true) (h3 : utf8.cont b3 = true) :
    utf8.DecodeRune (c :: b1 :: b2 :: b3 :: q)
      = ((c % 8) * 262144 + (b1 % 64) * 4096 + (b2 % 64) * 64 + b3 % 64, 4)
    ∧ utf8.EncodeRune ((c % 8) * 262144 + (b1 % 64) * 4096 + (b2 % 64) * 64 + b3 % 64)
        = [c, b1, b2, b3]
    ∧ 65536 ≤ (c % 8) * 262144 + (b1 % 64) * 4096 + (b2 % 64) * 64 + b3 % 64 := by
  simp only [utf8.cont, Bool.and_eq_true, decide_eq_true_eq] at h2 h3
  have hb1 : (c = 240 ∧ 144 ≤ b1 ∧ b1 ≤ 191) ∨ (c = 244 ∧ 128 ≤ b1 ∧ b1 ≤ 143)
      ∨ (c ≠ 240 ∧ c ≠ 244 ∧ 128 ≤ b1 ∧ b1 ≤ 191) := by
    unfold utf8.second4 at h1
    by_cases e1 : c = 240
    · rw [if_pos e1] at h1
      simp only [Bool.and_eq_true, decide_eq_true_eq] at h1
      exact Or.inl ⟨e1, h1⟩
    · rw [if_neg e1] at h1
      by_cases e2 : c = 244
      · rw [if_pos e2] at h1
        simp only [Bool.and_eq_true, decide_eq_true_eq] at h1
        exact Or.inr (Or.inl ⟨e2, h1⟩)
      · rw [if_neg e2] at h1
        simp only [utf8.cont, Bool.and_eq_true, decide_eq_true_eq] at h1
        exact Or.inr (Or.inr ⟨e1, e2, h1⟩)
  have hge : 65536 ≤ (c % 8) * 262144 + (b1 % 64) * 4096 + (b2 % 64) * 64 + b3 % 64 := by
    omega
  have henc : utf8.EncodeRune ((c % 8) * 262144 + (b1 % 64) * 4096 + (b2 % 64) * 64 + b3 % 64)
      = [c, b1, b2, b3] := by
    unfold utf8.EncodeRune
    rw [if_neg (by omega), if_neg (by omega), if_neg (by omega), if_neg (by omega)]
    have e1 : 240 + ((c % 8) * 262144 + (b1 % 64) * 4096 + (b2 % 64) * 64 + b3 % 64) / 262144
        = c := by omega
    have e2 : 128 + ((c % 8) * 262144 + (b1 % 64) * 4096 + (b2 % 64) * 64 + b3 % 64) / 4096
        % 64 = b1 := by omega
    have e3 : 128 + ((c % 8) * 262144 + (b1 % 64) * 4096 + (b2 % 64) * 64 + b3 % 64) / 64 % 64
        = b2 := by omega
    have e4 : 128 + ((c % 8) * 262144 + (b1 % 64) * 4096 + (b2 % 64) * 64 + b3 % 64) % 64
        = b3 := by omega
    rw [e1, e2, e3, e4]
  refine ⟨?_, henc, hge⟩
  unfold utf8.DecodeRune
  rcases hb1 with ⟨rfl, hb⟩ | ⟨rfl, hb⟩ | ⟨n1, n2, hb⟩
  · have hf : utf8.first 240 = 52 := by decide
    have ha : utf8.acceptRanges (52 / 16) = (144, 191) := by decide
    simp only [hf, ha, List.length_cons, List.getD_cons_zero,
      List.getD_cons_succ]
    rw [if_neg (by omega), if_neg (by omega), if_neg (by omega), if_neg (by omega),
      if_neg (by omega), if_neg (by omega), if_neg (by omega)]
  · have hf : utf8.first 244 = 68 := by decide
    have ha : utf8.acceptRanges (68 / 16) = (128, 143) := by decide
    simp only [hf, ha, List.length_cons, List.getD_cons_zero,
      List.getD_cons_succ]
    rw [if_neg (by omega), if_neg (by omega), if_neg (by omega), if_neg (by omega),
      if_neg (by omega), if_neg (by omega), if_neg (by omega)]
  · have hf : utf8.first c = 4 := by
      unfold utf8.first
      rw [if_neg (by omega), if_neg (by omega), if_neg (by omega), if_neg (by omega),
        if_neg (by omega), if_neg (by omega), if_neg (by omega), if_neg (by omega),
        if_pos (by omega)]
    have ha : utf8.acceptRanges (4 / 16) = (128, 191) := by decide
    simp only [hf, ha, List.length_cons, List.getD_cons_zero,
      List.getD_cons_succ]
    rw [if_neg (by omega), if_neg (by omega), if_neg (by omega), if_neg (by omega),
      if_neg (by omega), if_neg (by omega), if_neg (by omega)]

/-! ## Package `encoding/json`: a string literal written by `appendString` -/

theorem validLoop_induction (P : Bytes → Prop) (hnil : P [])
    (hascii : ∀ b t, b < 128 → P t → P (b :: t))
    (htwo : ∀ c b1 t, 194 ≤ c ∧ c ≤ 223 → utf8.cont b1 = true → P t → P (c :: b1 :: t))
    (hthree : ∀ c b1 b2 t, 224 ≤ c ∧ c ≤ 239 → utf8.second3 c b1 = true →
      utf8.cont b2 = true → P t → P (c :: b1 :: b2 :: t))
    (hfour : ∀ c b1 b2 b3 t, 240 ≤ c ∧ c ≤ 244 → utf8.second4 c b1 = true →
      utf8.cont b2 = true → utf8.cont b3 = true → P t → P (c :: b1 :: b2 :: b3 :: t)) :
    ∀ n s, utf8.validLoop n s = true → P s := by
  intro n
  induction n with
  | zero =>
    intro s hv
    cases s with
    | nil => exact hnil
    | cons c rest => simp [utf8.validLoop] at hv
  | succ n ih =>
    intro s hv
    cases s with
    | nil => exact hnil
    | cons c rest =>
      rw [utf8.validLoop] at hv
      rcases hstep : utf8.wellFormedStep c rest with _ | t
      · rw [hstep] at hv
        simp at hv
      · rw [hstep] at hv
        simp only at hv
        have hP := ih t hv
        unfold utf8.wellFormedStep at hstep
        by_cases h1 : c < 128
        · rw [if_pos h1] at hstep
          simp only [Option.some.injEq] at hstep
          subst hstep
          exact hascii c rest h1 hP
        · rw [if_neg h1] at hstep
          by_cases h2 : 194 ≤ c ∧ c ≤ 223
          · rw [if_pos h2] at hstep
            cases rest with
            | nil => simp at hstep
            | cons b1 t1 =>
              simp only at hstep
              by_cases hc1 : utf8.cont b1 = true
              · rw [if_pos hc1] at hstep
                simp only [Option.some.injEq] at hstep
                subst hstep
                exact htwo c b1 t1 h2 hc1 hP
              · rw [if_neg hc1] at hstep
                simp at hstep
          · rw [if_neg h2] at hstep
            by_cases h3 : 224 ≤ c ∧ c ≤ 239
            · rw [if_pos h3] at hstep
              rcases rest with _ | ⟨b1, _ | ⟨b2, t1⟩⟩
              · simp at hstep
              · simp at hstep
              · simp only at hstep
                by_cases hc1 : (utf8.second3 c b1 && utf8.cont b2) = true
                · rw [if_pos hc1] at hstep
                  simp only [Option.some.injEq] at hstep
                  subst hstep
                  simp only [Bool.and_eq_true] at hc1
                  exact hthree c b1 b2 t1 h3 hc1.1 hc1.2 hP
                · rw [if_neg hc1] at hstep
                  simp at hstep
            · rw [if_neg h3] at hstep
              by_cases h4 : 240 ≤ c ∧ c ≤ 244
              · rw [if_pos h4] at hstep
                rcases rest with _ | ⟨b1, _ | ⟨b2, _ | ⟨b3, t1⟩⟩⟩
                · simp at hstep
                · simp at hstep
                · simp at hstep
                · simp only at hstep
                  by_cases hc1 : (utf8.second4 c b1 && utf8.cont b2 && utf8.cont b3) = true
                  · rw [if_pos hc1] at hstep
                    simp only [Option.some.injEq] at hstep
                    subst hstep
                    simp only [Bool.and_eq_true] at hc1
                    exact hfour c b1 b2 b3 t1 h4 hc1.1.1 hc1.1.2 hc1.2 hP
                  · rw [if_neg hc1] at hstep
                    simp at hstep
              · rw [if_neg h4] at hstep
                simp at hstep

theorem hexVal_hextable (n : Nat) (h : n < 16) : json.hexVal (hex.hextable n) = some n := by
  have key : ∀ k : Fin 16, json.hexVal (hex.hextable k.1) = some k.1 := by decide
  exact key ⟨n, h⟩

theorem scanString_copy (c : Nat) (t : Bytes) (h1 : c ≠ 34) (h2 : c ≠ 92) (h3 : ¬ c < 32) :
    json.scanString (c :: t) = (json.scanString t).map (fun r => (c :: r.1, r.2)) := by
  rw [json.scanString.eq_def]
  simp only [if_neg h1, if_neg h2, if_neg h3]

theorem scanString_escape2 (e : Nat) (t : Bytes)
    (h : e = 98 ∨ e = 102 ∨ e = 110 ∨ e = 114 ∨ e = 116 ∨ e = 92 ∨ e = 47 ∨ e = 34) :
    json.scanString (92 :: e :: t)
      = (json.scanString t).map (fun r => (92 :: e :: r.1, r.2)) := by
  rw [json.scanString.eq_def]
  simp only [if_neg (show (92 : Nat) ≠ 34 by decide), if_pos h, if_true]

theorem scanString_escapeU (a b x d : Nat) (t : Bytes)
    (ha : (json.hexVal a).isSome = true) (hb : (json.hexVal b).isSome = true)
    (hx : (json.hexVal x).isSome = true) (hd : (json.hexVal d).isSome = true) :
    json.scanString (92 :: 117 :: a :: b :: x :: d :: t)
      = (json.scanString t).map (fun r => (92 :: 117 :: a :: b :: x :: d :: r.1, r.2)) := by
  rw [json.scanString.eq_def]
  simp [ha, hb, hx, hd]

theorem unquoteSlow_copy (g c : Nat) (t : Bytes) (h1 : c ≠ 92) (h2 : c ≠ 34) (h3 : ¬ c < 32)
    (h4 : c < 128) :
    json.unquoteSlow (g + 1) (c :: t) = (json.unquoteSlow g t).map (c :: ·) := by
  have e : json.unquoteSlow (g + 1) (c :: t)
      = if c = 92 then _
        else if c = 34 ∨ c < 32 then none
        else if c < 128 then (json.unquoteSlow g t).map (c :: ·)
        else _ := rfl
  have h5 : ¬ (c = 34 ∨ c < 32) := by omega
  rw [e, if_neg h1, if_neg h5, if_pos h4]

theorem unquoteSlow_rune (g c : Nat) (t : Bytes) (h : 128 ≤ c) :
    json.unquoteSlow (g + 1) (c :: t)
      = (json.unquoteSlow g ((c :: t).drop (utf8.DecodeRune (c :: t)).2)).map
          (utf8.EncodeRune (utf8.DecodeRune (c :: t)).1 ++ ·) := by
  have e : json.unquoteSlow (g + 1) (c :: t)
      = if c = 92 then _
        else if c = 34 ∨ c < 32 then none
        else if c < 128 then (json.unquoteSlow g t).map (c :: ·)
        else (json.unquoteSlow g ((c :: t).drop (utf8.DecodeRune (c :: t)).2)).map
          (utf8.EncodeRune (utf8.DecodeRune (c :: t)).1 ++ ·) := rfl
  have h1 : c ≠ 92 := by omega
  have h5 : ¬ (c = 34 ∨ c < 32) := by omega
  have h4 : ¬ c < 128 := by omega
  rw [e, if_neg h1, if_neg h5, if_neg h4]

theorem unquotePlain_copy (g c : Nat) (t : Bytes) (h1 : c ≠ 92) (h2 : c ≠ 34) (h3 : ¬ c < 32)
    (h4 : c < 128) :
    json.unquotePlain (g + 1) (c :: t) = json.unquotePlain g t := by
  rw [json.unquotePlain.eq_def]
  simp only
  have h5 : ¬ (c = 92 ∨ c = 34 ∨ c < 32) := by omega
  rw [if_neg h5, if_pos h4]

theorem unquotePlain_backslash (g : Nat) (t : Bytes) :
    json.unquotePlain g (92 :: t) = false := by
  cases g with
  | zero => rfl
  | succ g =>
    have e : json.unquotePlain (g + 1) (92 :: t)
        = if (92 : Nat) = 92 ∨ (92 : Nat) = 34 ∨ (92 : Nat) < 32 then false else _ := rfl
    rw [e, if_pos (Or.inl rfl)]

theorem unquotePlain_rune (g c : Nat) (t : Bytes) (h : 128 ≤ c)
    (hs : (utf8.DecodeRune (c :: t)).2 ≠ 1) :
    json.unquotePlain (g + 1) (c :: t)
      = json.unquotePlain g ((c :: t).drop (utf8.DecodeRune (c :: t)).2) := by
  have e : json.unquotePlain (g + 1) (c :: t)
      = if c = 92 ∨ c = 34 ∨ c < 32 then false
        else if c < 128 then json.unquotePlain g t
        else if (utf8.DecodeRune (c :: t)).1 = utf8.RuneError ∧ (utf8.DecodeRune (c :: t)).2 = 1
          then false
        else json.unquotePlain g ((c :: t).drop (utf8.DecodeRune (c :: t)).2) := rfl
  have h5 : ¬ (c = 92 ∨ c = 34 ∨ c < 32) := by omega
  have h4 : ¬ c < 128 := by omega
  rw [e, if_neg h5, if_neg h4, if_neg (fun hh => hs hh.2)]

theorem appendStringLoop_ascii (f b : Nat) (t : Bytes) (hb : b < 128) :
    json.appendStringLoop (f + 1) (b :: t)
      = if json.htmlSafe b then b :: json.appendStringLoop f t
        else json.escapeByte b ++ json.appendStringLoop f t := by
  have e : json.appendStringLoop (f + 1) (b :: t)
      = if b < 128 then
          (if json.htmlSafe b then b :: json.appendStringLoop f t
           else json.escapeByte b ++ json.appendStringLoop f t)
        else _ := rfl
  rw [e, if_pos hb]

theorem appendStringLoop_rune (f c : Nat) (t : Bytes) (hc : ¬ c < 128) :
    json.appendStringLoop (f + 1) (c :: t)
      = if (utf8.DecodeRune ((c :: t).take 4)).1 = utf8.RuneError
            ∧ (utf8.DecodeRune ((c :: t).take 4)).2 = 1 then
          [92, 117, 102, 102, 102, 100]
            ++ json.appendStringLoop f ((c :: t).drop (utf8.DecodeRune ((c :: t).take 4)).2)
        else if (utf8.DecodeRune ((c :: t).take 4)).1 = 8232
            ∨ (utf8.DecodeRune ((c :: t).take 4)).1 = 8233 then
          [92, 117, 50, 48, 50, hex.hextable ((utf8.DecodeRune ((c :: t).take 4)).1 % 16)]
            ++ json.appendStringLoop f ((c :: t).drop (utf8.DecodeRune ((c :: t).take 4)).2)
        else (c :: t).take (utf8.DecodeRune ((c :: t).take 4)).2
            ++ json.appendStringLoop f ((c :: t).drop (utf8.DecodeRune ((c :: t).take 4)).2) := by
  have e : json.appendStringLoop (f + 1) (c :: t)
      = if c < 128 then _
        else
          if (utf8.DecodeRune ((c :: t).take 4)).1 = utf8.RuneError
              ∧ (utf8.DecodeRune ((c :: t).take 4)).2 = 1 then
            [92, 117, 102, 102, 102, 100]
              ++ json.appendStringLoop f ((c :: t).drop (utf8.DecodeRune ((c :: t).take 4)).2)
          else if (utf8.DecodeRune ((c :: t).take 4)).1 = 8232
              ∨ (utf8.DecodeRune ((c :: t).take 4)).1 = 8233 then
            [92, 117, 50, 48, 50, hex.hextable ((utf8.DecodeRune ((c :: t).take 4)).1 % 16)]
              ++ json.appendStringLoop f ((c :: t).drop (utf8.DecodeRune ((c :: t).take 4)).2)
          else (c :: t).take (utf8.DecodeRune ((c :: t).take 4)).2
              ++ json.appendStringLoop f ((c :: t).drop (utf8.DecodeRune ((c :: t).take 4)).2) :=
    rfl
  rw [e, if_neg hc]

theorem unquoteSlow_escape (g e : Nat) (r : Bytes) :
    json.unquoteSlow (g + 1) (92 :: e :: r)
      = if e = 34 ∨ e = 92 ∨ e = 47 ∨ e = 39 then (json.unquoteSlow g r).map (e :: ·)
        else if e = 98 then (json.unquoteSlow g r).map (8 :: ·)
        else if e = 102 then (json.unquoteSlow g r).map (12 :: ·)
        else if e = 110 then (json.unquoteSlow g r).map (10 :: ·)
        else if e = 114 then (json.unquoteSlow g r).map (13 :: ·)
        else if e = 116 then (json.unquoteSlow g r).map (9 :: ·)
        else if e = 117 then
          if json.getu4 (92 :: e :: r) < 0 then none
          else if utf16.IsSurrogate (json.getu4 (92 :: e :: r)).toNat then
            if utf16.DecodeRune (json.getu4 (92 :: e :: r)).toNat
                (json.getu4 ((92 :: e :: r).drop 6)) ≠ 65533 then
              (json.unquoteSlow g (((92 :: e :: r).drop 6).drop 6)).map
                (utf8.EncodeRune (utf16.DecodeRune (json.getu4 (92 :: e :: r)).toNat
                  (json.getu4 ((92 :: e :: r).drop 6))) ++ ·)
            else (json.unquoteSlow g ((92 :: e :: r).drop 6)).map (utf8.EncodeRune 65533 ++ ·)
          else (json.unquoteSlow g ((92 :: e :: r).drop 6)).map
            (utf8.EncodeRune (json.getu4 (92 :: e :: r)).toNat ++ ·)
        else none := rfl

theorem getu4_hex (a b : Nat) (ha : a < 16) (hb : b < 16) (Y : Bytes) :
    json.getu4 (92 :: 117 :: 48 :: 48 :: hex.hextable a :: hex.hextable b :: Y)
      = ((a * 16 + b : Nat) : Int) := by
  have h0 : json.hexVal 48 = some 0 := by decide
  simp [json.getu4, h0, hexVal_hextable a ha, hexVal_hextable b hb]

theorem getu4_2028 (d : Nat) (hd : d = 8 ∨ d = 9) (Y : Bytes) :
    json.getu4 (92 :: 117 :: 50 :: 48 :: 50 :: hex.hextable d :: Y)
      = ((8224 + d : Nat) : Int) := by
  have h0 : json.hexVal 48 = some 0 := by decide
  have h2 : json.hexVal 50 = some 2 := by decide
  have hh : json.hexVal (hex.hextable d) = some d := hexVal_hextable d (by omega)
  simp [json.getu4, h0, h2, hh]

/-- The escape of an ASCII byte outside `htmlSafeSet` is read back as that
byte: by the scanner as part of the literal, by `unquoteBytes` as the byte. -/
theorem escapeByte_facts (b : Nat) (hb : b < 128) (hu : json.htmlSafe b = false) :
    (∀ Y, json.scanString (json.escapeByte b ++ Y)
      = (json.scanString Y).map (fun r => (json.escapeByte b ++ r.1, r.2)))
    ∧ (∀ g Y, json.unquoteSlow (g + 1) (json.escapeByte b ++ Y)
      = (json.unquoteSlow g Y).map (b :: ·))
    ∧ (∀ g Y, json.unquotePlain g (json.escapeByte b ++ Y) = false)
    ∧ 1 ≤ (json.escapeByte b).length := by
  have hcases : b = 34 ∨ b = 92 ∨ b = 8 ∨ b = 12 ∨ b = 10 ∨ b = 13 ∨ b = 9
      ∨ ((b < 32 ∨ b = 38 ∨ b = 60 ∨ b = 62) ∧ b ≠ 8 ∧ b ≠ 12 ∧ b ≠ 10 ∧ b ≠ 13 ∧ b ≠ 9) := by
    simp only [json.htmlSafe, Bool.and_eq_false_iff, decide_eq_false_iff_not] at hu
    omega
  have two : ∀ e v : Nat, (e = 98 ∨ e = 102 ∨ e = 110 ∨ e = 114 ∨ e = 116 ∨ e = 92 ∨ e = 47
      ∨ e = 34) → (∀ g r, json.unquoteSlow (g + 1) (92 :: e :: r)
        = (json.unquoteSlow g r).map (v :: ·)) →
      (∀ Y, json.scanString ([92, e] ++ Y)
        = (json.scanString Y).map (fun r => ([92, e] ++ r.1, r.2)))
      ∧ (∀ g Y, json.unquoteSlow (g + 1) ([92, e] ++ Y) = (json.unquoteSlow g Y).map (v :: ·))
      ∧ (∀ g Y, json.unquotePlain g ([92, e] ++ Y) = false)
      ∧ 1 ≤ ([92, e] : Bytes).length := by
    intro e v he hv
    refine ⟨fun Y => scanString_escape2 e Y he, fun g Y => hv g Y,
      fun g Y => unquotePlain_backslash g _, by simp⟩
  rcases hcases with rfl | rfl | rfl | rfl | rfl | rfl | rfl | ⟨hr, n1, n2, n3, n4, n5⟩
  · exact two 34 34 (by decide) (fun g r => by rw [unquoteSlow_escape]; simp)
  · exact two 92 92 (by decide) (fun g r => by rw [unquoteSlow_escape]; simp)
  · exact two 98 8 (by decide) (fun g r => by rw [unquoteSlow_escape]; simp)
  · exact two 102 12 (by decide) (fun g r => by rw [unquoteSlow_escape]; simp)
  · exact two 110 10 (by decide) (fun g r => by rw [unquoteSlow_escape]; simp)
  · exact two 114 13 (by decide) (fun g r => by rw [unquoteSlow_escape]; simp)
  · exact two 116 9 (by decide) (fun g r => by rw [unquoteSlow_escape]; simp)
  · have hesc : json.escapeByte b
        = [92, 117, 48, 48, hex.hextable (b / 16), hex.hextable (b % 16)] := by
      unfold json.escapeByte
      rw [if_neg (by omega), if_neg n1, if_neg n2, if_neg n3, if_neg n4, if_neg n5]
    have h16 : b / 16 < 16 := by omega
    have hm16 : b % 16 < 16 := by omega
    have hsome : ∀ n, n < 16 → (json.hexVal (hex.hextable n)).isSome = true := by
      intro n hn
      rw [hexVal_hextable n hn]
      rfl
    rw [hesc]
    refine ⟨?_, ?_, fun g Y => unquotePlain_backslash g _, by simp⟩
    · intro Y
      exact scanString_escapeU 48 48 _ _ Y (by decide) (by decide) (hsome _ h16) (hsome _ hm16)
    · intro g Y
      have hg : json.getu4 (92 :: 117 :: 48 :: 48 :: hex.hextable (b / 16)
          :: hex.hextable (b % 16) :: Y) = ((b : Nat) : Int) := by
        rw [getu4_hex _ _ h16 hm16]
        congr 1
        omega
      have hsur : utf16.IsSurrogate b = false := by
        simp only [utf16.IsSurrogate, decide_eq_false_iff_not]
        omega
      have henc : utf8.EncodeRune b = [b] := by
        unfold utf8.EncodeRune
        rw [if_pos (by omega)]
      show json.unquoteSlow (g + 1) (92 :: 117 :: 48 :: 48 :: hex.hextable (b / 16)
          :: hex.hextable (b % 16) :: Y) = _
      rw [unquoteSlow_escape, hg]
      simp only [Int.toNat_ofNat, hsur, henc]
      simp

theorem appendStringLoop_nil (f : Nat) : json.appendStringLoop f [] = [] := by
  cases f <;> rfl

theorem unquoteSlow_nil (g : Nat) : json.unquoteSlow g [] = some [] := by
  cases g <;> rfl

theorem unquotePlain_zero_cons (c : Nat) (t : Bytes) : json.unquotePlain 0 (c :: t) = false :=
  rfl

theorem scanString_high (seq : Bytes) (h : ∀ b ∈ seq, 128 ≤ b) (Y : Bytes) :
    json.scanString (seq ++ Y) = (json.scanString Y).map (fun r => (seq ++ r.1, r.2)) := by
  induction seq with
  | nil => simp
  | cons b tl ih =>
    have hb := h b (List.mem_cons_self _ _)
    rw [List.cons_append, scanString_copy b _ (by omega) (by omega) (by omega),
      ih (fun x hx => h x (List.mem_cons_of_mem _ hx)), Option.map_map]
    rfl

theorem ReadsBack_nil : json.ReadsBackAs [] [] := by
  intro f _
  rw [appendStringLoop_nil]
  refine ⟨fun Y => by simp, fun g _ => unquoteSlow_nil g, fun g _ => rfl⟩

theorem ReadsBack_ascii (b : Nat) (t out : Bytes) (hb : b < 128)
    (ih : json.ReadsBackAs t out) : json.ReadsBackAs (b :: t) (b :: out) := by
  intro f hf
  simp only [List.length_cons] at hf
  obtain ⟨f1, rfl⟩ : ∃ f1, f = f1 + 1 := ⟨f - 1, by omega⟩
  obtain ⟨ih1, ih2, ih3⟩ := ih f1 (by omega)
  rw [appendStringLoop_ascii f1 b t hb]
  by_cases hsafe : json.htmlSafe b = true
  · rw [if_pos hsafe]
    simp only [json.htmlSafe, Bool.and_eq_true, decide_eq_true_eq] at hsafe
    have n1 : b ≠ 34 := by omega
    have n2 : b ≠ 92 := by omega
    have n3 : ¬ b < 32 := by omega
    refine ⟨?_, ?_, ?_⟩
    · intro Y
      rw [List.cons_append, scanString_copy b _ n1 n2 n3, ih1 Y, Option.map_map]
      rfl
    · intro g hg
      simp only [List.length_cons] at hg
      obtain ⟨g1, rfl⟩ : ∃ g1, g = g1 + 1 := ⟨g - 1, by omega⟩
      rw [unquoteSlow_copy g1 b _ n2 n1 n3 hb, ih2 g1 (by omega)]
      rfl
    · intro g hg
      cases g with
      | zero => rw [unquotePlain_zero_cons] at hg; cases hg
      | succ g1 =>
        rw [unquotePlain_copy g1 b _ n2 n1 n3 hb] at hg
        rw [ih3 g1 hg]
  · rw [Bool.not_eq_true] at hsafe
    rw [if_neg (by rw [hsafe]; decide)]
    obtain ⟨e1, e2, e3, e4⟩ := escapeByte_facts b hb hsafe
    refine ⟨?_, ?_, ?_⟩
    · intro Y
      rw [List.append_assoc, e1, ih1 Y, Option.map_map]
      congr 1
      funext r
      simp
    · intro g hg
      simp only [List.length_append] at hg
      obtain ⟨g1, rfl⟩ : ∃ g1, g = g1 + 1 := ⟨g - 1, by omega⟩
      rw [e2 g1, ih2 g1 (by omega)]
      rfl
    · intro g hg
      rw [e3] at hg
      cases hg

/-- A well-formed encoding of more than one byte is read back as itself. -/
theorem ReadsBack_rune (c : Nat) (tl t out : Bytes) (r k : Nat) (hc : 128 ≤ c)
    (htl : ∀ b ∈ tl, 128 ≤ b) (hk : (c :: tl).length = k) (hk4 : k ≤ 4) (hk2 : 2 ≤ k)
    (hdec : ∀ q, utf8.DecodeRune (c :: tl ++ q) = (r, k))
    (henc : utf8.EncodeRune r = c :: tl) (ih : json.ReadsBackAs t out) :
    json.ReadsBackAs (c :: tl ++ t) (c :: tl ++ out) := by
  intro f hf
  simp only [List.length_append] at hf
  obtain ⟨f1, rfl⟩ : ∃ f1, f = f1 + 1 := ⟨f - 1, by omega⟩
  obtain ⟨ih1, ih2, ih3⟩ := ih f1 (by omega)
  have hall : ∀ b ∈ c :: tl, 128 ≤ b := by
    intro b hb
    rcases List.mem_cons.1 hb with rfl | hb
    · exact hc
    · exact htl b hb
  have htake4 : (c :: tl ++ t).take 4 = c :: tl ++ t.take (4 - k) := by
    rw [List.take_append_eq_append_take, hk]
    congr 1
    exact List.take_of_length_le (by omega)
  have htake : (c :: tl ++ t).take k = c :: tl := by
    rw [← hk]
    exact List.take_left' rfl
  have hdrop : (c :: tl ++ t).drop k = t := by
    rw [← hk]
    exact List.drop_left' rfl
  have hstep := appendStringLoop_rune f1 c (tl ++ t) (by omega)
  rw [← List.cons_append, htake4, hdec] at hstep
  simp only at hstep
  rw [if_neg (by omega), htake, hdrop] at hstep
  rw [hstep]
  by_cases hsep : r = 8232 ∨ r = 8233
  · rw [if_pos hsep]
    have hd : r % 16 = 8 ∨ r % 16 = 9 := by omega
    have hr : 8224 + r % 16 = r := by omega
    have hsome : (json.hexVal (hex.hextable (r % 16))).isSome = true := by
      rw [hexVal_hextable _ (by omega)]
      rfl
    refine ⟨?_, ?_, ?_⟩
    · intro Y
      simp only [List.cons_append, List.nil_append, List.append_assoc]
      rw [scanString_escapeU 50 48 50 _ _ (by decide) (by decide) (by decide) hsome, ih1 Y,
        Option.map_map]
      rfl
    · intro g hg
      simp only [List.length_append, List.length_cons, List.length_nil] at hg
      obtain ⟨g1, rfl⟩ : ∃ g1, g = g1 + 1 := ⟨g - 1, by omega⟩
      have hsur : utf16.IsSurrogate r = false := by
        simp only [utf16.IsSurrogate, decide_eq_false_iff_not]
        omega
      show json.unquoteSlow (g1 + 1)
        (92 :: 117 :: 50 :: 48 :: 50 :: hex.hextable (r % 16) :: json.appendStringLoop f1 t) = _
      rw [unquoteSlow_escape, getu4_2028 _ hd, hr]
      simp only [Int.toNat_ofNat, hsur, henc]
      simp [ih2 g1 (by omega)]
    · intro g hg
      have : json.unquotePlain g
          (92 :: 117 :: 50 :: 48 :: 50 :: hex.hextable (r % 16) :: json.appendStringLoop f1 t)
          = false := unquotePlain_backslash g _
      rw [show [92, 117, 50, 48, 50, hex.hextable (r % 16)] ++ json.appendStringLoop f1 t
        = 92 :: 117 :: 50 :: 48 :: 50 :: hex.hextable (r % 16) :: json.appendStringLoop f1 t
        from rfl, this] at hg
      cases hg
  · rw [if_neg hsep]
    refine ⟨?_, ?_, ?_⟩
    · intro Y
      rw [List.append_assoc, scanString_high (c :: tl) hall, ih1 Y, Option.map_map]
      congr 1
      funext x
      simp
    · intro g hg
      simp only [List.length_append] at hg
      obtain ⟨g1, rfl⟩ : ∃ g1, g = g1 + 1 := ⟨g - 1, by omega⟩
      have hlen : (json.appendStringLoop f1 t).length ≤ g1 := by omega
      rw [List.cons_append, unquoteSlow_rune g1 c _ hc, ← List.cons_append, hdec]
      simp only
      have hd2 : (c :: tl ++ json.appendStringLoop f1 t).drop k = json.appendStringLoop f1 t := by
        rw [← hk]
        exact List.drop_left' rfl
      rw [hd2, ih2 g1 hlen, henc]
      rfl
    · intro g hg
      cases g with
      | zero => rw [List.cons_append, unquotePlain_zero_cons] at hg; cases hg
      | succ g1 =>
        have hs : (utf8.DecodeRune (c :: (tl ++ json.appendStringLoop f1 t))).2 ≠ 1 := by
          rw [← List.cons_append, hdec]
          simp only
          omega
        rw [List.cons_append, unquotePlain_rune g1 c _ hc hs, ← List.cons_append, hdec] at hg
        simp only at hg
        have hd2 : (c :: tl ++ json.appendStringLoop f1 t).drop k
            = json.appendStringLoop f1 t := by
          rw [← hk]
          exact List.drop_left' rfl
        rw [hd2] at hg
        rw [ih3 g1 hg]

theorem wellFormedStep_some (c : Nat) (rest t : Bytes)
    (hstep : utf8.wellFormedStep c rest = some t) :
    (c < 128 ∧ rest = t)
    ∨ (∃ b1, (194 ≤ c ∧ c ≤ 223) ∧ utf8.cont b1 = true ∧ rest = b1 :: t)
    ∨ (∃ b1 b2, (224 ≤ c ∧ c ≤ 239) ∧ utf8.second3 c b1 = true ∧ utf8.cont b2 = true
        ∧ rest = b1 :: b2 :: t)
    ∨ (∃ b1 b2 b3, (240 ≤ c ∧ c ≤ 244) ∧ utf8.second4 c b1 = true ∧ utf8.cont b2 = true
        ∧ utf8.cont b3 = true ∧ rest = b1 :: b2 :: b3 :: t) := by
  unfold utf8.wellFormedStep at hstep
  by_cases h1 : c < 128
  · rw [if_pos h1] at hstep
    simp only [Option.some.injEq] at hstep
    exact Or.inl ⟨h1, hstep⟩
  · rw [if_neg h1] at hstep
    by_cases h2 : 194 ≤ c ∧ c ≤ 223
    · rw [if_pos h2] at hstep
      cases rest with
      | nil => simp at hstep
      | cons b1 t1 =>
        simp only at hstep
        by_cases hc1 : utf8.cont b1 = true
        · rw [if_pos hc1] at hstep
          simp only [Option.some.injEq] at hstep
          subst hstep
          exact Or.inr (Or.inl ⟨b1, h2, hc1, rfl⟩)
        · rw [if_neg hc1] at hstep
          simp at hstep
    · rw [if_neg h2] at hstep
      by_cases h3 : 224 ≤ c ∧ c ≤ 239
      · rw [if_pos h3] at hstep
        rcases rest with _ | ⟨b1, _ | ⟨b2, t1⟩⟩
        · simp at hstep
        · simp at hstep
        · simp only at hstep
          by_cases hc1 : (utf8.second3 c b1 && utf8.cont b2) = true
          · rw [if_pos hc1] at hstep
            simp only [Option.some.injEq] at hstep
            subst hstep
            simp only [Bool.and_eq_true] at hc1
            exact Or.inr (Or.inr (Or.inl ⟨b1, b2, h3, hc1.1, hc1.2, rfl⟩))
          · rw [if_neg hc1] at hstep
            simp at hstep
      · rw [if_neg h3] at hstep
        by_cases h4 : 240 ≤ c ∧ c ≤ 244
        · rw [if_pos h4] at hstep
          rcases rest with _ | ⟨b1, _ | ⟨b2, _ | ⟨b3, t1⟩⟩⟩
          · simp at hstep
          · simp at hstep
          · simp at hstep
          · simp only at hstep
            by_cases hc1 : (utf8.second4 c b1 && utf8.cont b2 && utf8.cont b3) = true
            · rw [if_pos hc1] at hstep
              simp only [Option.some.injEq] at hstep
              subst hstep
              simp only [Bool.and_eq_true] at hc1
              exact Or.inr (Or.inr (Or.inr ⟨b1, b2, b3, h4, hc1.1.1, hc1.1.2, hc1.2, rfl⟩))
            · rw [if_neg hc1] at hstep
              simp at hstep
        · rw [if_neg h4] at hstep
          simp at hstep

/-- The decoder of `utf8` in its unfolded form, for a leading byte that is
neither ASCII nor invalid on its own. -/
theorem DecodeRune_unfold (p0 : Nat) (rest : Bytes) (x lo hi : Nat)
    (hx : utf8.first p0 = x) (hlt : x < 240) (ha : utf8.acceptRanges (x / 16) = (lo, hi)) :
    utf8.DecodeRune (p0 :: rest)
      = if rest.length + 1 < x % 8 then (utf8.RuneError, 1)
        else if rest.getD 0 0 < lo ∨ hi < rest.getD 0 0 then (utf8.RuneError, 1)
        else if x % 8 ≤ 2 then ((p0 % 32) * 64 + rest.getD 0 0 % 64, 2)
        else if rest.getD 1 0 < 128 ∨ 191 < rest.getD 1 0 then (utf8.RuneError, 1)
        else if x % 8 ≤ 3 then
          ((p0 % 16) * 4096 + (rest.getD 0 0 % 64) * 64 + rest.getD 1 0 % 64, 3)
        else if rest.getD 2 0 < 128 ∨ 191 < rest.getD 2 0 then (utf8.RuneError, 1)
        else ((p0 % 8) * 262144 + (rest.getD 0 0 % 64) * 4096 + (rest.getD 1 0 % 64) * 64
          + rest.getD 2 0 % 64, 4) := by
  unfold utf8.DecodeRune
  simp only [hx, ha, List.length_cons]
  rw [if_neg (by omega)]

theorem cont_false (b : Nat) (h : ¬ utf8.cont b = true) : b < 128 ∨ 191 < b := by
  simp only [utf8.cont, Bool.and_eq_true, decide_eq_true_eq] at h
  omega

/-- A byte of 128 or more that starts no well-formed sequence is decoded as
`(RuneError, 1)`. -/
theorem DecodeRune_invalid (c : Nat) (rest : Bytes) (hc : 128 ≤ c)
    (h : utf8.wellFormedStep c rest = none) :
    utf8.DecodeRune ((c :: rest).take 4) = (utf8.RuneError, 1) := by
  have e4 : (c :: rest).take 4 = c :: rest.take 3 := rfl
  rw [e4]
  unfold utf8.wellFormedStep at h
  rw [if_neg (by omega)] at h
  by_cases h2 : 194 ≤ c ∧ c ≤ 223
  · rw [if_pos h2] at h
    have hf : utf8.first c = 2 := by
      unfold utf8.first
      rw [if_neg (by omega), if_neg (by omega), if_pos (by omega)]
    rw [DecodeRune_unfold c _ 2 128 191 hf (by decide) (by decide)]
    cases rest with
    | nil => rfl
    | cons b1 t1 =>
      simp only at h
      have hb : ¬ utf8.cont b1 = true := by
        intro hc1
        rw [if_pos hc1] at h
        cases h
      have hb1 := cont_false b1 hb
      have e : ((b1 :: t1).take 3).getD 0 0 = b1 := rfl
      rw [e, if_neg (by simp), if_pos hb1]
  · rw [if_neg h2] at h
    by_cases h3 : 224 ≤ c ∧ c ≤ 239
    · rw [if_pos h3] at h
      have hfa : ∃ x lo hi, utf8.first c = x ∧ x < 240 ∧ x % 8 = 3
          ∧ utf8.acceptRanges (x / 16) = (lo, hi)
          ∧ ∀ b1, ¬ utf8.second3 c b1 = true → b1 < lo ∨ hi < b1 := by
        by_cases e1 : c = 224
        · subst e1
          refine ⟨19, 160, 191, by decide, by decide, by decide, by decide, ?_⟩
          intro b1 hb
          simp only [utf8.second3, if_true, Bool.and_eq_true, decide_eq_true_eq] at hb
          omega
        · by_cases e2 : c = 237
          · subst e2
            refine ⟨35, 128, 159, by decide, by decide, by decide, by decide, ?_⟩
            intro b1 hb
            have e : utf8.second3 237 b1 = (decide (128 ≤ b1) && decide (b1 ≤ 159)) := by
              unfold utf8.second3
              rw [if_neg (by decide), if_pos rfl]
            rw [e] at hb
            simp only [Bool.and_eq_true, decide_eq_true_eq] at hb
            omega
          · refine ⟨3, 128, 191, ?_, by decide, by decide, by decide, ?_⟩
            · unfold utf8.first
              by_cases h236 : c < 237
              · rw [if_neg (by omega), if_neg (by omega), if_neg (by omega), if_neg (by omega),
                  if_pos h236]
              · rw [if_neg (by omega), if_neg (by omega), if_neg (by omega), if_neg (by omega),
                  if_neg h236, if_neg (by omega), if_pos (by omega)]
            · intro b1 hb
              have e : utf8.second3 c b1 = utf8.cont b1 := by
                unfold utf8.second3
                rw [if_neg e1, if_neg e2]
              rw [e] at hb
              exact cont_false b1 hb
      obtain ⟨x, lo, hi, hx, hlt, hsz, ha, hsec⟩ := hfa
      rw [DecodeRune_unfold c _ x lo hi hx hlt ha, hsz]
      rcases rest with _ | ⟨b1, _ | ⟨b2, t1⟩⟩
      · rfl
      · rfl
      · simp only at h
        have e0 : ((b1 :: b2 :: t1).take 3).getD 0 0 = b1 := rfl
        have e1 : ((b1 :: b2 :: t1).take 3).getD 1 0 = b2 := rfl
        rw [e0, e1, if_neg (by simp)]
        by_cases hs : utf8.second3 c b1 = true
        · have hb2 : ¬ utf8.cont b2 = true := by
            intro hc2
            rw [hs, hc2] at h
            simp at h
          have hb := cont_false b2 hb2
          by_cases hb1 : b1 < lo ∨ hi < b1
          · rw [if_pos hb1]
          · rw [if_neg hb1, if_neg (by omega), if_pos hb]
        · rw [if_pos (hsec b1 hs)]
    · rw [if_neg h3] at h
      by_cases h4 : 240 ≤ c ∧ c ≤ 244
      · rw [if_pos h4] at h
        have hfa : ∃ x lo hi, utf8.first c = x ∧ x < 240 ∧ x % 8 = 4
            ∧ utf8.acceptRanges (x / 16) = (lo, hi)
            ∧ ∀ b1, ¬ utf8.second4 c b1 = true → b1 < lo ∨ hi < b1 := by
          by_cases e1 : c = 240
          · subst e1
            refine ⟨52, 144, 191, by decide, by decide, by decide, by decide, ?_⟩
            intro b1 hb
            simp only [utf8.second4, if_true, Bool.and_eq_true, decide_eq_true_eq] at hb
            omega
          · by_cases e2 : c = 244
            · subst e2
              refine ⟨68, 128, 143, by decide, by decide, by decide, by decide, ?_⟩
              intro b1 hb
              have e : utf8.second4 244 b1 = (decide (128 ≤ b1) && decide (b1 ≤ 143)) := by
                unfold utf8.second4
                rw [if_neg (by decide), if_pos rfl]
              rw [e] at hb
              simp only [Bool.and_eq_true, decide_eq_true_eq] at hb
              omega
            · refine ⟨4, 128, 191, ?_, by decide, by decide, by decide, ?_⟩
              · unfold utf8.first
                rw [if_neg (by omega), if_neg (by omega), if_neg (by omega), if_neg (by omega),
                  if_neg (by omega), if_neg (by omega), if_neg (by omega), if_neg (by omega),
                  if_pos (by omega)]
              · intro b1 hb
                have e : utf8.second4 c b1 = utf8.cont b1 := by
                  unfold utf8.second4
                  rw [if_neg e1, if_neg e2]
                rw [e] at hb
                exact cont_false b1 hb
        obtain ⟨x, lo, hi, hx, hlt, hsz, ha, hsec⟩ := hfa
        rw [DecodeRune_unfold c _ x lo hi hx hlt ha, hsz]
        rcases rest with _ | ⟨b1, _ | ⟨b2, _ | ⟨b3, t1⟩⟩⟩
        · rfl
        · rfl
        · rfl
        · simp only at h
          have e0 : ((b1 :: b2 :: b3 :: t1).take 3).getD 0 0 = b1 := rfl
          have e1 : ((b1 :: b2 :: b3 :: t1).take 3).getD 1 0 = b2 := rfl
          have e2 : ((b1 :: b2 :: b3 :: t1).take 3).getD 2 0 = b3 := rfl
          rw [e0, e1, e2, if_neg (by simp)]
          by_cases hs : utf8.second4 c b1 = true
          · by_cases hb1 : b1 < lo ∨ hi < b1
            · rw [if_pos hb1]
            · rw [if_neg hb1, if_neg (by omega)]
              by_cases hc2 : utf8.cont b2 = true
              · have hb3 : ¬ utf8.cont b3 = true := by
                  intro hc3
                  rw [hs, hc2, hc3] at h
                  simp at h
                have hb := cont_false b3 hb3
                by_cases hb2 : b2 < 128 ∨ 191 < b2
                · rw [if_pos hb2]
                · rw [if_neg hb2, if_neg (by omega), if_pos hb]
              · rw [if_pos (cont_false b2 hc2)]
          · rw [if_pos (hsec b1 hs)]
      · have hf : utf8.first c = 241 := by
          unfold utf8.first
          by_cases hlow : c < 194
          · rw [if_neg (by omega), if_pos hlow]
          · rw [if_neg (by omega), if_neg (by omega), if_neg (by omega), if_neg (by omega),
              if_neg (by omega), if_neg (by omega), if_neg (by omega), if_neg (by omega),
              if_neg (by omega), if_neg (by omega)]
        unfold utf8.DecodeRune
        simp only [hf]
        rfl

/-- A byte that starts no well-formed sequence is written as the escape of
U+FFFD and read back as the three bytes of U+FFFD. -/
theorem ReadsBack_invalid (c : Nat) (rest out : Bytes) (hc : 128 ≤ c)
    (hdec : utf8.DecodeRune ((c :: rest).take 4) = (utf8.RuneError, 1))
    (ih : json.ReadsBackAs rest out) :
    json.ReadsBackAs (c :: rest) (239 :: 191 :: 189 :: out) := by
  intro f hf
  simp only [List.length_cons] at hf
  obtain ⟨f1, rfl⟩ : ∃ f1, f = f1 + 1 := ⟨f - 1, by omega⟩
  obtain ⟨ih1, ih2, ih3⟩ := ih f1 (by omega)
  have hstep := appendStringLoop_rune f1 c rest (by omega)
  rw [hdec] at hstep
  simp only at hstep
  rw [if_pos (by simp)] at hstep
  have hd : (c :: rest).drop 1 = rest := rfl
  rw [hd] at hstep
  rw [hstep]
  have hlit : [92, 117, 102, 102, 102, 100] ++ json.appendStringLoop f1 rest
      = 92 :: 117 :: 102 :: 102 :: 102 :: 100 :: json.appendStringLoop f1 rest := rfl
  rw [hlit]
  refine ⟨?_, ?_, ?_⟩
  · intro Y
    simp only [List.cons_append]
    rw [scanString_escapeU 102 102 102 100 _ (by decide) (by decide) (by decide) (by decide),
      ih1 Y, Option.map_map]
    rfl
  · intro g hg
    simp only [List.length_cons] at hg
    obtain ⟨g1, rfl⟩ : ∃ g1, g = g1 + 1 := ⟨g - 1, by omega⟩
    have hg4 : json.getu4 (92 :: 117 :: 102 :: 102 :: 102 :: 100
        :: json.appendStringLoop f1 rest) = ((65533 : Nat) : Int) := by
      have hf : json.hexVal 102 = some 15 := by decide
      have hd : json.hexVal 100 = some 13 := by decide
      simp [json.getu4, hf, hd]
    have hsur : utf16.IsSurrogate 65533 = false := by decide
    have henc : utf8.EncodeRune 65533 = [239, 191, 189] := by decide
    rw [unquoteSlow_escape, hg4]
    simp only [Int.toNat_ofNat, hsur, henc]
    simp [ih2 g1 (by omega)]
  · intro g hg
    rw [unquotePlain_backslash] at hg
    cases hg

theorem replaceInvalidLoop_nil (n : Nat) : utf8.replaceInvalidLoop n [] = [] := by
  cases n <;> rfl

theorem replaceInvalidLoop_cons (n c : Nat) (rest : Bytes) :
    utf8.replaceInvalidLoop (n + 1) (c :: rest)
      = match utf8.wellFormedStep c rest with
        | none => 239 :: 191 :: 189 :: utf8.replaceInvalidLoop n rest
        | some t =>
          (c :: rest).take (rest.length + 1 - t.length) ++ utf8.replaceInvalidLoop n t := rfl

/-- What a well-formed sequence at the head of a text looks like: the sequence
`seq` of one to four bytes, then the text `t` that `wellFormedStep` returns. -/
theorem wellFormedStep_split (c : Nat) (rest t : Bytes)
    (h : utf8.wellFormedStep c rest = some t) :
    ∃ tl, rest = tl ++ t ∧ tl.length ≤ 3
      ∧ (c :: rest).take (rest.length + 1 - t.length) = c :: tl := by
  rcases wellFormedStep_some c rest t h with ⟨_, rfl⟩ | ⟨b1, _, _, rfl⟩ | ⟨b1, b2, _, _, _, rfl⟩
    | ⟨b1, b2, b3, _, _, _, _, rfl⟩
  · refine ⟨[], rfl, by simp, ?_⟩
    have e : rest.length + 1 - rest.length = 1 := by omega
    rw [e]
    rfl
  · refine ⟨[b1], rfl, by simp, ?_⟩
    have e : (b1 :: t).length + 1 - t.length = 2 := by
      simp only [List.length_cons]
      omega
    rw [e]
    rfl
  · refine ⟨[b1, b2], rfl, by simp, ?_⟩
    have e : (b1 :: b2 :: t).length + 1 - t.length = 3 := by
      simp only [List.length_cons]
      omega
    rw [e]
    rfl
  · refine ⟨[b1, b2, b3], rfl, by simp, ?_⟩
    have e : (b1 :: b2 :: b3 :: t).length + 1 - t.length = 4 := by
      simp only [List.length_cons]
      omega
    rw [e]
    rfl

theorem wellFormedStep_none_high (c : Nat) (rest : Bytes)
    (h : utf8.wellFormedStep c rest = none) : 128 ≤ c := by
  by_contra hlt
  unfold utf8.wellFormedStep at h
  rw [if_pos (by omega)] at h
  cases h

/-- The literal `appendString` writes for any string is read back as the
string with each invalid byte replaced by U+FFFD. -/
theorem ReadsBackAs_replaceInvalidLoop :
    ∀ n s, s.length ≤ n → json.ReadsBackAs s (utf8.replaceInvalidLoop n s) := by
  intro n
  induction n with
  | zero =>
    intro s hs
    cases s with
    | nil => exact ReadsBack_nil
    | cons c rest => simp at hs
  | succ n ih =>
    intro s hs
    cases s with
    | nil => exact ReadsBack_nil
    | cons c rest =>
      simp only [List.length_cons] at hs
      rw [replaceInvalidLoop_cons]
      rcases hstep : utf8.wellFormedStep c rest with _ | t
      · simp only
        exact ReadsBack_invalid c rest _ (wellFormedStep_none_high c rest hstep)
          (DecodeRune_invalid c rest (wellFormedStep_none_high c rest hstep) hstep)
          (ih rest (by omega))
      · simp only
        obtain ⟨tl, hrest, _, htake⟩ := wellFormedStep_split c rest t hstep
        rw [htake]
        have hlen : t.length ≤ n := by
          rw [hrest, List.length_append] at hs
          omega
        have iht := ih t hlen
        rcases wellFormedStep_some c rest t hstep with ⟨h1, rfl⟩ | ⟨b1, hc, h1, rfl⟩
          | ⟨b1, b2, hc, h1, h2, rfl⟩ | ⟨b1, b2, b3, hc, h1, h2, h3, rfl⟩
        · have e : tl = [] := by
            have := congrArg List.length hrest
            simp only [List.length_append] at this
            exact List.eq_nil_of_length_eq_zero (by omega)
          subst e
          exact ReadsBack_ascii c _ _ h1 iht
        · have e : tl = [b1] := List.append_cancel_right (hrest.symm.trans rfl)
          subst e
          have hb1 : 128 ≤ b1 := by
            simp only [utf8.cont, Bool.and_eq_true, decide_eq_true_eq] at h1
            exact h1.1
          exact ReadsBack_rune c [b1] t _ _ 2 (by omega)
            (fun b hb => by simp only [List.mem_singleton] at hb; omega) rfl (by decide)
            (by decide) (fun q => (DecodeRune_two c b1 q hc h1).1)
            (DecodeRune_two c b1 [] hc h1).2.1 iht
        · have e : tl = [b1, b2] := List.append_cancel_right (hrest.symm.trans rfl)
          subst e
          have hb2 : 128 ≤ b2 := by
            simp only [utf8.cont, Bool.and_eq_true, decide_eq_true_eq] at h2
            exact h2.1
          have hb1 : 128 ≤ b1 := by
            unfold utf8.second3 at h1
            split at h1
            · simp only [Bool.and_eq_true, decide_eq_true_eq] at h1; omega
            · split at h1
              · simp only [Bool.and_eq_true, decide_eq_true_eq] at h1; omega
              · simp only [utf8.cont, Bool.and_eq_true, decide_eq_true_eq] at h1; omega
          exact ReadsBack_rune c [b1, b2] t _ _ 3 (by omega)
            (fun b hb => by
              simp only [List.mem_cons, List.mem_singleton, List.mem_nil_iff, or_false] at hb
              omega)
            rfl (by decide) (by decide)
            (fun q => (DecodeRune_three c b1 b2 q hc h1 h2).1)
            (DecodeRune_three c b1 b2 [] hc h1 h2).2 iht
        · have e : tl = [b1, b2, b3] := List.append_cancel_right (hrest.symm.trans rfl)
          subst e
          have hb2 : 128 ≤ b2 := by
            simp only [utf8.cont, Bool.and_eq_true, decide_eq_true_eq] at h2
            exact h2.1
          have hb3 : 128 ≤ b3 := by
            simp only [utf8.cont, Bool.and_eq_true, decide_eq_true_eq] at h3
            exact h3.1
          have hb1 : 128 ≤ b1 := by
            unfold utf8.second4 at h1
            split at h1
            · simp only [Bool.and_eq_true, decide_eq_true_eq] at h1; omega
            · split at h1
              · simp only [Bool.and_eq_true, decide_eq_true_eq] at h1; omega
              · simp only [utf8.cont, Bool.and_eq_true, decide_eq_true_eq] at h1; omega
          exact ReadsBack_rune c [b1, b2, b3] t _ _ 4 (by omega)
            (fun b hb => by
              simp only [List.mem_cons, List.mem_singleton, List.mem_nil_iff, or_false] at hb
              omega)
            rfl (by decide) (by decide)
            (fun q => (DecodeRune_four c b1 b2 b3 q hc h1 h2 h3).1)
            (DecodeRune_four c b1 b2 b3 [] hc h1 h2 h3).2.1 iht

/-- Valid UTF-8 has no byte to replace. -/
theorem replaceInvalidLoop_of_valid :
    ∀ n s, utf8.validLoop n s = true → utf8.replaceInvalidLoop n s = s := by
  intro n
  induction n with
  | zero =>
    intro s hv
    cases s with
    | nil => rfl
    | cons c rest => simp [utf8.validLoop] at hv
  | succ n ih =>
    intro s hv
    cases s with
    | nil => rfl
    | cons c rest =>
      rw [utf8.validLoop] at hv
      rw [replaceInvalidLoop_cons]
      rcases hstep : utf8.wellFormedStep c rest with _ | t
      · rw [hstep] at hv
        simp at hv
      · rw [hstep] at hv
        simp only at hv ⊢
        obtain ⟨tl, hrest, _, htake⟩ := wellFormedStep_split c rest t hstep
        rw [htake, ih t hv, hrest]
        rfl

theorem replaceInvalid_of_valid (s : Bytes) (h : utf8.Valid s = true) :
    utf8.replaceInvalid s = s :=
  replaceInvalidLoop_of_valid s.length s h

/-- Replacing never shortens the text, and it lengthens a text that is not
valid UTF-8. -/
theorem replaceInvalidLoop_length :
    ∀ n s, s.length ≤ n →
      s.length ≤ (utf8.replaceInvalidLoop n s).length
      ∧ (utf8.validLoop n s = false → s.length < (utf8.replaceInvalidLoop n s).length) := by
  intro n
  induction n with
  | zero =>
    intro s hs
    cases s with
    | nil => exact ⟨le_refl _, fun h => by simp [utf8.validLoop] at h⟩
    | cons c rest => simp at hs
  | succ n ih =>
    intro s hs
    cases s with
    | nil => exact ⟨le_refl _, fun h => by simp [utf8.validLoop] at h⟩
    | cons c rest =>
      simp only [List.length_cons] at hs
      rw [replaceInvalidLoop_cons, utf8.validLoop]
      rcases hstep : utf8.wellFormedStep c rest with _ | t
      · simp only [List.length_cons]
        have h1 := (ih rest (by omega)).1
        exact ⟨by omega, fun _ => by omega⟩
      · simp only
        obtain ⟨tl, hrest, _, htake⟩ := wellFormedStep_split c rest t hstep
        have hlen : t.length ≤ n := by
          rw [hrest, List.length_append] at hs
          omega
        obtain ⟨h1, h2⟩ := ih t hlen
        rw [htake, hrest]
        simp only [List.length_cons, List.length_append]
        exact ⟨by omega, fun hv => by have := h2 hv; omega⟩

theorem replaceInvalid_ne_of_invalid (s : Bytes) (h : utf8.Valid s = false) :
    utf8.replaceInvalid s ≠ s := by
  intro he
  have hl := (replaceInvalidLoop_length s.length s (le_refl _)).2 h
  unfold utf8.replaceInvalid at he
  rw [he] at hl
  exact Nat.lt_irrefl _ hl

theorem replaceInvalid_eq_iff_valid (s : Bytes) :
    utf8.replaceInvalid s = s ↔ utf8.Valid s = true := by
  constructor
  · intro he
    cases hv : utf8.Valid s with
    | true => rfl
    | false => exact absurd he (replaceInvalid_ne_of_invalid s hv)
  · exact replaceInvalid_of_valid s

/-- The bound given to the loop does not matter once it covers the length. -/
theorem replaceInvalidLoop_fuel :
    ∀ n s, s.length ≤ n → utf8.replaceInvalidLoop n s = utf8.replaceInvalid s := by
  intro n
  induction n using Nat.strong_induction_on with
  | _ n ih =>
    intro s hs
    cases s with
    | nil =>
      rw [replaceInvalidLoop_nil]
      rfl
    | cons c rest =>
      simp only [List.length_cons] at hs
      obtain ⟨m, rfl⟩ : ∃ m, n = m + 1 := ⟨n - 1, by omega⟩
      unfold utf8.replaceInvalid
      simp only [List.length_cons]
      rw [replaceInvalidLoop_cons, replaceInvalidLoop_cons]
      rcases hstep : utf8.wellFormedStep c rest with _ | t
      · simp only
        rw [ih m (by omega) rest (by omega)]
        by_cases hm : rest.length < m + 1
        · rw [ih rest.length hm rest (le_refl _)]
        · rfl
      · simp only
        obtain ⟨tl, hrest, _, htake⟩ := wellFormedStep_split c rest t hstep
        have hlen : t.length ≤ rest.length := by
          rw [hrest, List.length_append]
          omega
        rw [ih m (by omega) t (by omega), ih rest.length (by omega) t hlen]

/-- How the replacement goes along the text: a byte that starts no well-formed
sequence becomes the three bytes of U+FFFD, a well-formed sequence is kept. -/
theorem replaceInvalid_cons (c : Nat) (rest : Bytes) :
    (utf8.wellFormedStep c rest = none →
      utf8.replaceInvalid (c :: rest) = 239 :: 191 :: 189 :: utf8.replaceInvalid rest)
    ∧ (∀ t, utf8.wellFormedStep c rest = some t →
      ∃ tl, rest = tl ++ t
        ∧ utf8.replaceInvalid (c :: rest) = c :: tl ++ utf8.replaceInvalid t) := by
  constructor
  · intro h
    show utf8.replaceInvalidLoop (rest.length + 1) (c :: rest) = _
    rw [replaceInvalidLoop_cons, h]
    rfl
  · intro t h
    obtain ⟨tl, hrest, _, htake⟩ := wellFormedStep_split c rest t h
    refine ⟨tl, hrest, ?_⟩
    show utf8.replaceInvalidLoop (rest.length + 1) (c :: rest) = _
    have hlen : t.length ≤ rest.length := by
      rw [hrest, List.length_append]
      omega
    rw [replaceInvalidLoop_cons, h]
    simp only
    rw [htake, replaceInvalidLoop_fuel rest.length t hlen]

theorem ReadsBackAs_replaceInvalid (s : Bytes) :
    json.ReadsBackAs s (utf8.replaceInvalid s) :=
  ReadsBackAs_replaceInvalidLoop s.length s (le_refl _)

theorem ReadsBack_of_valid (s : Bytes) (h : utf8.Valid s = true) : json.ReadsBack s := by
  have hr := ReadsBackAs_replaceInvalid s
  rw [replaceInvalid_of_valid s h] at hr
  exact hr

theorem scanString_quote (rest : Bytes) : json.scanString (34 :: rest) = some ([], rest) := by
  rw [json.scanString.eq_def]
  simp

/-- The literal `appendString` writes for a string is scanned whole and
unquoted to the string with each invalid byte replaced by U+FFFD. -/
theorem appendString_reads (s : Bytes) (rest : Bytes) :
    json.scanString (json.appendStringLoop s.length s ++ 34 :: rest)
      = some (json.appendStringLoop s.length s, rest)
    ∧ json.unquote (json.appendStringLoop s.length s) = some (utf8.replaceInvalid s) := by
  obtain ⟨h1, h2, h3⟩ := ReadsBackAs_replaceInvalid s s.length (le_refl _)
  constructor
  · rw [h1, scanString_quote]
    simp
  · unfold json.unquote
    by_cases hp : json.unquotePlain (json.appendStringLoop s.length s).length
        (json.appendStringLoop s.length s) = true
    · rw [if_pos hp, h3 _ hp]
    · rw [if_neg hp]
      exact h2 _ (le_refl _)

theorem skipSpace_of_not_space (c : Nat) (t : Bytes) (h : json.isSpace c = false) :
    json.skipSpace (c :: t) = c :: t := by
  rw [json.skipSpace, h]
  rfl

theorem parseValue_string (fuel depth : Nat) (rest : Bytes) :
    json.parseValue (fuel + 1) depth (34 :: rest)
      = match json.scanString rest with
        | none => none
        | some (body, rest1) => (json.unquote body).map (fun t => (json.Value.string t, rest1)) :=
  rfl

theorem parseValue_number (fuel depth c : Nat) (rest : Bytes)
    (hc : c = 45 ∨ (48 ≤ c ∧ c ≤ 57)) :
    json.parseValue (fuel + 1) depth (c :: rest)
      = (json.scanNumber (c :: rest)).map (fun r => (json.Value.number r.1, r.2)) := by
  have e : json.parseValue (fuel + 1) depth (c :: rest)
      = match json.skipSpace (c :: rest) with
        | [] => none
        | c :: rest =>
          if c = 123 then _
          else if c = 91 then _
          else if c = 34 then _
          else if c = 45 ∨ (48 ≤ c ∧ c ≤ 57) then
            (json.scanNumber (c :: rest)).map (fun r => (json.Value.number r.1, r.2))
          else _ := rfl
  have hsp : json.isSpace c = false := by
    simp only [json.isSpace, Bool.or_eq_false_iff, beq_eq_false_iff_ne]
    omega
  rw [e, skipSpace_of_not_space c rest hsp]
  simp only
  rw [if_neg (by omega), if_neg (by omega), if_neg (by omega), if_pos hc]

theorem parseValue_object (fuel depth : Nat) (rest : Bytes)
    (hd : depth + 1 ≤ json.maxNestingDepth) :
    json.parseValue (fuel + 1) depth (123 :: 34 :: rest)
      = (json.parseMembers fuel (depth + 1) (34 :: rest)).map
          (fun r => (json.Value.object r.1, r.2)) := by
  have e : json.parseValue (fuel + 1) depth (123 :: 34 :: rest)
      = if depth + 1 > json.maxNestingDepth then none
        else (json.parseMembers fuel (depth + 1) (34 :: rest)).map
          (fun r => (json.Value.object r.1, r.2)) := rfl
  rw [e, if_neg (by omega)]

theorem parseValue_empty_object (fuel depth : Nat) (rest : Bytes)
    (hd : depth + 1 ≤ json.maxNestingDepth) :
    json.parseValue (fuel + 1) depth (123 :: 125 :: rest)
      = some (json.Value.object [], rest) := by
  have e : json.parseValue (fuel + 1) depth (123 :: 125 :: rest)
      = if depth + 1 > json.maxNestingDepth then none
        else some (json.Value.object [], rest) := rfl
  rw [e, if_neg (by omega)]

theorem parseMembers_quote (fuel depth : Nat) (rest : Bytes) :
    json.parseMembers (fuel + 1) depth (34 :: rest)
      = match json.scanString rest with
        | none => none
        | some (body, rest1) =>
          match json.unquote body, json.skipSpace rest1 with
          | some key, 58 :: rest2 =>
            match json.parseValue fuel depth rest2 with
            | none => none
            | some (v, rest3) =>
              match json.skipSpace rest3 with
              | 44 :: rest4 =>
                (json.parseMembers fuel depth rest4).map (fun r => ((key, v) :: r.1, r.2))
              | 125 :: rest4 => some ([(key, v)], rest4)
              | _ => none
          | _, _ => none := rfl

/-! ## Package `encoding/json`: reading what the struct encoder writes -/

theorem ParsesTo_FormatInt (i : Int) (hi : isInt64 i) :
    json.ParsesTo (strconv.FormatInt i) (json.Value.number (strconv.FormatInt i)) 1 0 := by
  intro fuel hf depth _ rest hrest
  obtain ⟨f1, rfl⟩ : ∃ f1, fuel = f1 + 1 := ⟨fuel - 1, by omega⟩
  have hscan := scanNumber_FormatInt i hi rest hrest
  have hne : ∃ c t, strconv.FormatInt i = c :: t ∧ (c = 45 ∨ (48 ≤ c ∧ c ≤ 57)) := by
    unfold isInt64 at hi
    by_cases hneg : i < 0
    · rw [FormatInt_neg i hneg]
      exact ⟨45, _, rfl, Or.inl rfl⟩
    · rw [FormatInt_nonneg i hneg]
      have hu : i.toNat < 2 ^ 64 := by
        have : (i.toNat : Int) = i := Int.toNat_of_nonneg (by omega)
        have h2 : (i.toNat : Int) < 2 ^ 64 := by rw [this]; norm_num at hi ⊢; omega
        exact_mod_cast h2
      obtain ⟨hd, _, d, ds, hds, _⟩ := FormatUint_spec _ hu
      rw [hds] at hd ⊢
      exact ⟨d, ds, rfl, Or.inr (hd d (List.mem_cons_self _ _))⟩
  obtain ⟨c, t, hct, hc⟩ := hne
  rw [hct] at hscan ⊢
  rw [List.cons_append, parseValue_number f1 depth c _ hc, ← List.cons_append, hscan]
  rfl

theorem ParsesTo_FormatUint (u : Nat) (hu : u < 2 ^ 64) :
    json.ParsesTo (strconv.FormatUint u) (json.Value.number (strconv.FormatUint u)) 1 0 := by
  intro fuel hf depth _ rest hrest
  obtain ⟨f1, rfl⟩ : ∃ f1, fuel = f1 + 1 := ⟨fuel - 1, by omega⟩
  have hscan := scanNumber_FormatUint u hu rest hrest
  obtain ⟨hd, _, d, ds, hds, _⟩ := FormatUint_spec _ hu
  rw [hds] at hd hscan ⊢
  rw [List.cons_append, parseValue_number f1 depth d _ (Or.inr (hd d (List.mem_cons_self _ _))),
    ← List.cons_append, hscan]
  rfl

theorem ParsesTo_appendString (s : Bytes) :
    json.ParsesTo (json.appendString s) (json.Value.string (utf8.replaceInvalid s)) 1 0 := by
  intro fuel hf depth _ rest _
  obtain ⟨f1, rfl⟩ : ∃ f1, fuel = f1 + 1 := ⟨fuel - 1, by omega⟩
  obtain ⟨h1, h2⟩ := appendString_reads s rest
  unfold json.appendString
  have hshape : 34 :: json.appendStringLoop s.length s ++ [34] ++ rest
      = 34 :: (json.appendStringLoop s.length s ++ 34 :: rest) := by simp
  rw [hshape, parseValue_string]
  show (match json.scanString (json.appendStringLoop s.length s ++ 34 :: rest) with
    | none => none
    | some (body, rest1) =>
      (json.unquote body).map (fun t => (json.Value.string t, rest1))) = _
  rw [h1]
  simp only [h2]
  rfl

theorem ParsesTo_mono (ev : Bytes) (v : json.Value) (k k1 m m1 : Nat) (hk : k ≤ k1)
    (hm : m ≤ m1) (h : json.ParsesTo ev v k m) : json.ParsesTo ev v k1 m1 :=
  fun fuel hf depth hd rest hrest => h fuel (by omega) depth (by omega) rest hrest

theorem encodeStruct_head (fs : List json.EncField) :
    ∃ c t, json.encodeStruct fs 44 = c :: t ∧ (c = 44 ∨ c = 125) := by
  induction fs with
  | nil => exact ⟨125, [], rfl, Or.inr rfl⟩
  | cons f fs ih =>
    rw [json.encodeStruct]
    by_cases ho : f.omitted = true
    · rw [if_pos ho]
      exact ih
    · rw [if_neg ho]
      exact ⟨44, _, rfl, Or.inl rfl⟩

theorem name_reads (nm : Bytes) (hnm : ∀ c ∈ nm, plainByte c = true) (rest : Bytes) :
    json.scanString (nm ++ 34 :: rest) = some (nm, rest) ∧ json.unquote nm = some nm := by
  refine ⟨scanString_plain nm rest hnm, ?_⟩
  unfold json.unquote
  rw [if_pos (unquotePlain_plain nm hnm nm.length (le_refl _))]

/-- What follows a value in the output of the struct encoder, the remaining
fields and the closing brace, is read as the remaining members. -/
theorem parseMembers_tail (k m : Nat) (fs : List json.FieldSpec)
    (hfs : ∀ f ∈ fs, f.omitted = false →
      (∀ c ∈ f.nm, plainByte c = true) ∧ json.ParsesTo f.value f.tree k m) :
    ∀ fuel, k + fs.length ≤ fuel → ∀ depth, depth + m ≤ json.maxNestingDepth →
      ∀ (key : Bytes) (v : json.Value) (rest : Bytes),
        (match json.skipSpace (json.encodeStruct (fs.map json.FieldSpec.enc) 44 ++ rest) with
          | 44 :: rest4 =>
            (json.parseMembers fuel depth rest4).map (fun r => ((key, v) :: r.1, r.2))
          | 125 :: rest4 => some ([(key, v)], rest4)
          | _ => none)
        = some ((key, v) :: json.keptMembers fs, rest) := by
  induction fs with
  | nil =>
    intro fuel _ depth _ key v rest
    rfl
  | cons f fs ih =>
    intro fuel hfuel depth hdepth key v rest
    simp only [List.length_cons] at hfuel
    have ih1 := ih (fun g hg => hfs g (List.mem_cons_of_mem _ hg))
    simp only [List.map_cons, json.encodeStruct, json.keptMembers]
    by_cases ho : f.omitted = true
    · have ho2 : (json.FieldSpec.enc f).omitted = true := ho
      rw [if_pos ho2, if_pos ho]
      exact ih1 fuel (by omega) depth hdepth key v rest
    · have ho2 : ¬ (json.FieldSpec.enc f).omitted = true := ho
      rw [if_neg ho2, if_neg ho]
      rw [Bool.not_eq_true] at ho
      obtain ⟨hnm, hval⟩ := hfs f (List.mem_cons_self _ _) ho
      obtain ⟨f1, rfl⟩ : ∃ f1, fuel = f1 + 1 := ⟨fuel - 1, by omega⟩
      obtain ⟨c0, t0, hct, hc0⟩ := encodeStruct_head (fs.map json.FieldSpec.enc)
      have hhead : ∀ c ∈ (json.encodeStruct (fs.map json.FieldSpec.enc) 44 ++ rest).head?,
          c = 44 ∨ c = 125 := by
        intro c hc
        rw [hct] at hc
        simp only [List.cons_append, List.head?_cons, Option.mem_def, Option.some.injEq] at hc
        subst hc
        exact hc0
      have hv := hval f1 (by omega) depth hdepth _ hhead
      have hsp : json.skipSpace (44 :: ((json.FieldSpec.enc f).name
          ++ (json.FieldSpec.enc f).value
          ++ json.encodeStruct (fs.map json.FieldSpec.enc) 44) ++ rest)
          = 44 :: ((json.FieldSpec.enc f).name ++ (json.FieldSpec.enc f).value
          ++ json.encodeStruct (fs.map json.FieldSpec.enc) 44 ++ rest) := rfl
      rw [hsp]
      simp only
      have hshape : (json.FieldSpec.enc f).name ++ (json.FieldSpec.enc f).value
          ++ json.encodeStruct (fs.map json.FieldSpec.enc) 44 ++ rest
          = 34 :: (f.nm ++ 34 :: 58 :: (f.value
              ++ (json.encodeStruct (fs.map json.FieldSpec.enc) 44 ++ rest))) := by
        simp [json.FieldSpec.enc]
      rw [hshape, parseMembers_quote]
      obtain ⟨hs1, hs2⟩ := name_reads f.nm hnm (58 :: (f.value
        ++ (json.encodeStruct (fs.map json.FieldSpec.enc) 44 ++ rest)))
      rw [hs1]
      simp only [hs2]
      have hsp2 : json.skipSpace (58 :: (f.value
          ++ (json.encodeStruct (fs.map json.FieldSpec.enc) 44 ++ rest)))
          = 58 :: (f.value ++ (json.encodeStruct (fs.map json.FieldSpec.enc) 44 ++ rest)) := rfl
      rw [hsp2]
      simp only [hv]
      rw [ih1 f1 (by omega) depth hdepth f.nm f.tree rest]
      rfl

/-- The output of the struct encoder is read as the object of the fields that
were not left out. -/
theorem ParsesTo_encodeStruct (k m : Nat) (fs : List json.FieldSpec)
    (hfs : ∀ f ∈ fs, f.omitted = false →
      (∀ c ∈ f.nm, plainByte c = true) ∧ json.ParsesTo f.value f.tree k m) :
    json.ParsesTo (json.encodeStruct (fs.map json.FieldSpec.enc) 123)
      (json.Value.object (json.keptMembers fs)) (k + fs.length + 2) (m + 1) := by
  induction fs with
  | nil =>
    intro fuel hf depth hd rest _
    obtain ⟨f1, rfl⟩ : ∃ f1, fuel = f1 + 1 := ⟨fuel - 1, by omega⟩
    exact parseValue_empty_object f1 depth rest (by omega)
  | cons f fs ih =>
    intro fuel hfuel depth hdepth rest hrest
    simp only [List.length_cons] at hfuel
    simp only [List.map_cons, json.encodeStruct, json.keptMembers]
    by_cases ho : f.omitted = true
    · have ho2 : (json.FieldSpec.enc f).omitted = true := ho
      rw [if_pos ho2, if_pos ho]
      exact ih (fun g hg => hfs g (List.mem_cons_of_mem _ hg)) fuel (by omega) depth hdepth
        rest hrest
    · have ho2 : ¬ (json.FieldSpec.enc f).omitted = true := ho
      rw [if_neg ho2, if_neg ho]
      rw [Bool.not_eq_true] at ho
      obtain ⟨hnm, hval⟩ := hfs f (List.mem_cons_self _ _) ho
      obtain ⟨f1, rfl⟩ : ∃ f1, fuel = f1 + 1 := ⟨fuel - 1, by omega⟩
      obtain ⟨f2, rfl⟩ : ∃ f2, f1 = f2 + 1 := ⟨f1 - 1, by omega⟩
      obtain ⟨c0, t0, hct, hc0⟩ := encodeStruct_head (fs.map json.FieldSpec.enc)
      have hhead : ∀ c ∈ (json.encodeStruct (fs.map json.FieldSpec.enc) 44 ++ rest).head?,
          c = 44 ∨ c = 125 := by
        intro c hc
        rw [hct] at hc
        simp only [List.cons_append, List.head?_cons, Option.mem_def, Option.some.injEq] at hc
        subst hc
        exact hc0
      have hv := hval f2 (by omega) (depth + 1) (by omega) _ hhead
      have hshape : 123 :: ((json.FieldSpec.enc f).name ++ (json.FieldSpec.enc f).value
          ++ json.encodeStruct (fs.map json.FieldSpec.enc) 44) ++ rest
          = 123 :: 34 :: (f.nm ++ 34 :: 58 :: (f.value
              ++ (json.encodeStruct (fs.map json.FieldSpec.enc) 44 ++ rest))) := by
        simp [json.FieldSpec.enc]
      rw [hshape, parseValue_object (f2 + 1) depth _ (by omega), parseMembers_quote]
      obtain ⟨hs1, hs2⟩ := name_reads f.nm hnm (58 :: (f.value
        ++ (json.encodeStruct (fs.map json.FieldSpec.enc) 44 ++ rest)))
      rw [hs1]
      simp only [hs2]
      have hsp2 : json.skipSpace (58 :: (f.value
          ++ (json.encodeStruct (fs.map json.FieldSpec.enc) 44 ++ rest)))
          = 58 :: (f.value ++ (json.encodeStruct (fs.map json.FieldSpec.enc) 44 ++ rest)) := rfl
      rw [hsp2]
      simp only [hv]
      rw [parseMembers_tail k m fs (fun g hg => hfs g (List.mem_cons_of_mem _ hg)) f2 (by omega)
        (depth + 1) (by omega) f.nm f.tree rest]
      rfl

/-- A text that is read as a value with nothing after it is what `json.parse`
returns, given that the text is long enough for the rounds needed. -/
theorem parse_of_ParsesTo (data : Bytes) (v : json.Value) (k m : Nat)
    (h : json.ParsesTo data v k m) (hk : k ≤ data.length + 1)
    (hm : m ≤ json.maxNestingDepth) : json.parse data = some v := by
  have := h (data.length + 1) hk 0 (by omega) [] (by simp)
  rw [List.append_nil] at this
  unfold json.parse
  rw [this]
  rfl

theorem storeInt64_FormatInt (i : Int) (hi : isInt64 i) (cur : Int) :
    json.storeInt 64 (json.Value.number (strconv.FormatInt i)) cur = (i, none) := by
  unfold json.storeInt
  simp only [ParseInt_FormatInt i hi]
  unfold isInt64 at hi
  rw [if_neg (by norm_num at hi ⊢; omega)]

theorem storeInt8_FormatInt (i : Int) (h1 : -128 ≤ i) (h2 : i ≤ 127) (cur : Int) :
    json.storeInt 8 (json.Value.number (strconv.FormatInt i)) cur = (i, none) := by
  unfold json.storeInt
  have hi : isInt64 i := by unfold isInt64; norm_num; omega
  simp only [ParseInt_FormatInt i hi]
  rw [if_neg (by norm_num; omega)]

theorem storeUint_FormatUint (u : Nat) (hu : u < 2 ^ 64) (cur : Nat) :
    json.storeUint (json.Value.number (strconv.FormatUint u)) cur = (u, none) := by
  unfold json.storeUint
  simp only [ParseUint_FormatUint u hu]

theorem plain_of_all (nm : Bytes) (h : nm.all plainByte = true) :
    ∀ c ∈ nm, plainByte c = true := List.all_eq_true.1 h

/-! ## The round trip of `Temperatures` -/

theorem AskBid_encode_ParsesTo (a : AskBid) (h1 : isInt64 a.Ask) (h2 : isInt64 a.Bid) :
    json.ParsesTo a.encode
      (json.Value.object [(bytesOf "ask", json.Value.number (strconv.FormatInt a.Ask)),
        (bytesOf "bid", json.Value.number (strconv.FormatInt a.Bid))]) 5 1 := by
  have h := ParsesTo_encodeStruct 1 0
    [ { nm := bytesOf "ask", omitted := false, value := strconv.FormatInt a.Ask,
        tree := json.Value.number (strconv.FormatInt a.Ask) },
      { nm := bytesOf "bid", omitted := false, value := strconv.FormatInt a.Bid,
        tree := json.Value.number (strconv.FormatInt a.Bid) } ]
    (by
      intro f hf _
      simp only [List.mem_cons, List.mem_singleton, List.mem_nil_iff, or_false] at hf
      rcases hf with rfl | rfl
      · exact ⟨plain_of_all (bytesOf "ask") (by decide), ParsesTo_FormatInt _ h1⟩
      · exact ⟨plain_of_all (bytesOf "bid") (by decide), ParsesTo_FormatInt _ h2⟩)
  exact h

theorem Temperatures_Marshal_ParsesTo (t : Temperatures) (h : Temperatures.wellTyped t) :
    json.ParsesTo (Temperatures.Marshal t).1
      (json.Value.object
        [(bytesOf "askBid",
          json.Value.object [(bytesOf "ask", json.Value.number (strconv.FormatInt t.AskBid.Ask)),
            (bytesOf "bid", json.Value.number (strconv.FormatInt t.AskBid.Bid))]),
         (bytesOf "timeDurationMs", json.Value.number (strconv.FormatInt t.TimeDurationMS)),
         (bytesOf "tradesCount", json.Value.number (strconv.FormatInt t.TradesCount))]) 10 2 := by
  obtain ⟨h1, h2, h3, h4⟩ := h
  have h := ParsesTo_encodeStruct 5 1
    [ { nm := bytesOf "askBid", omitted := false, value := t.AskBid.encode,
        tree := json.Value.object
          [(bytesOf "ask", json.Value.number (strconv.FormatInt t.AskBid.Ask)),
            (bytesOf "bid", json.Value.number (strconv.FormatInt t.AskBid.Bid))] },
      { nm := bytesOf "timeDurationMs", omitted := false,
        value := strconv.FormatInt t.TimeDurationMS,
        tree := json.Value.number (strconv.FormatInt t.TimeDurationMS) },
      { nm := bytesOf "tradesCount", omitted := false,
        value := strconv.FormatInt t.TradesCount,
        tree := json.Value.number (strconv.FormatInt t.TradesCount) } ]
    (by
      intro f hf _
      simp only [List.mem_cons, List.mem_singleton, List.mem_nil_iff, or_false] at hf
      rcases hf with rfl | rfl | rfl
      · exact ⟨plain_of_all (bytesOf "askBid") (by decide), AskBid_encode_ParsesTo _ h1 h2⟩
      · exact ⟨plain_of_all (bytesOf "timeDurationMs") (by decide),
          ParsesTo_mono _ _ 1 5 0 1 (by decide) (by decide) (ParsesTo_FormatInt _ h3)⟩
      · exact ⟨plain_of_all (bytesOf "tradesCount") (by decide),
          ParsesTo_mono _ _ 1 5 0 1 (by decide) (by decide) (ParsesTo_FormatInt _ h4)⟩)
  exact h

/-- The round trip of `Temperatures`: `Marshal` returns no error and
`UnmarshalTemperatures` of its output returns the value and no error. -/
theorem Temperatures_round_trip (t : Temperatures) (h : Temperatures.wellTyped t) :
    (Temperatures.Marshal t).2 = none
    ∧ UnmarshalTemperatures (Temperatures.Marshal t).1 = (t, none) := by
  refine ⟨rfl, ?_⟩
  have hp := parse_of_ParsesTo _ _ 10 2 (Temperatures_Marshal_ParsesTo t h)
    (by simp [Temperatures.Marshal, json.encodeStruct, bytesOf]) (by decide)
  obtain ⟨h1, h2, h3, h4⟩ := h
  unfold UnmarshalTemperatures
  rw [hp]
  have i0 : json.fieldIndex [bytesOf "askBid", bytesOf "timeDurationMs", bytesOf "tradesCount"]
      (bytesOf "askBid") = some 0 := by decide
  have i1 : json.fieldIndex [bytesOf "askBid", bytesOf "timeDurationMs", bytesOf "tradesCount"]
      (bytesOf "timeDurationMs") = some 1 := by decide
  have i2 : json.fieldIndex [bytesOf "askBid", bytesOf "timeDurationMs", bytesOf "tradesCount"]
      (bytesOf "tradesCount") = some 2 := by decide
  have j0 : json.fieldIndex [bytesOf "ask", bytesOf "bid"] (bytesOf "ask") = some 0 := by decide
  have j1 : json.fieldIndex [bytesOf "ask", bytesOf "bid"] (bytesOf "bid") = some 1 := by decide
  simp only [List.foldl, Temperatures.storeMember, AskBid.store, AskBid.storeMember, i0, i1, i2,
    j0, j1, storeInt64_FormatInt _ h1, storeInt64_FormatInt _ h2, storeInt64_FormatInt _ h3,
    storeInt64_FormatInt _ h4, json.saveError, Temperatures.zero]

/-! ## The round trip of `Symbol` -/

theorem Symbol_Marshal_ParsesTo (s : Symbol) (ht : Symbol.wellTyped s) :
    json.ParsesTo (Symbol.Marshal s).1
      (json.Value.object (json.keptMembers
        [ { nm := bytesOf "id", omitted := false, value := strconv.FormatUint s.ID,
            tree := json.Value.number (strconv.FormatUint s.ID) },
          { nm := bytesOf "type", omitted := false, value := strconv.FormatInt s.Type_,
            tree := json.Value.number (strconv.FormatInt s.Type_) },
          { nm := bytesOf "parentId", omitted := s.ParentID == 0,
            value := strconv.FormatUint s.ParentID,
            tree := json.Value.number (strconv.FormatUint s.ParentID) },
          { nm := bytesOf "code", omitted := false, value := json.appendString s.Code,
            tree := json.Value.string (utf8.replaceInvalid s.Code) },
          { nm := bytesOf "name", omitted := false, value := json.appendString s.Name,
            tree := json.Value.string (utf8.replaceInvalid s.Name) },
          { nm := bytesOf "description", omitted := s.Description.isEmpty,
            value := json.appendString s.Description,
            tree := json.Value.string (utf8.replaceInvalid s.Description) },
          { nm := bytesOf "website", omitted := s.Website.isEmpty,
            value := json.appendString s.Website,
            tree := json.Value.string (utf8.replaceInvalid s.Website) } ])) 10 1 := by
  obtain ⟨t1, t2, t3, t4⟩ := ht
  have hty : isInt64 s.Type_ :=
    ⟨le_trans (by norm_num) t3, le_trans t4 (by norm_num)⟩
  have h := ParsesTo_encodeStruct 1 0
    [ { nm := bytesOf "id", omitted := false, value := strconv.FormatUint s.ID,
        tree := json.Value.number (strconv.FormatUint s.ID) },
      { nm := bytesOf "type", omitted := false, value := strconv.FormatInt s.Type_,
        tree := json.Value.number (strconv.FormatInt s.Type_) },
      { nm := bytesOf "parentId", omitted := s.ParentID == 0,
        value := strconv.FormatUint s.ParentID,
        tree := json.Value.number (strconv.FormatUint s.ParentID) },
      { nm := bytesOf "code", omitted := false, value := json.appendString s.Code,
        tree := json.Value.string (utf8.replaceInvalid s.Code) },
      { nm := bytesOf "name", omitted := false, value := json.appendString s.Name,
        tree := json.Value.string (utf8.replaceInvalid s.Name) },
      { nm := bytesOf "description", omitted := s.Description.isEmpty,
        value := json.appendString s.Description,
        tree := json.Value.string (utf8.replaceInvalid s.Description) },
      { nm := bytesOf "website", omitted := s.Website.isEmpty,
        value := json.appendString s.Website,
        tree := json.Value.string (utf8.replaceInvalid s.Website) } ]
    (by
      intro f hf _
      simp only [List.mem_cons, List.mem_singleton, List.mem_nil_iff, or_false] at hf
      rcases hf with rfl | rfl | rfl | rfl | rfl | rfl | rfl
      · exact ⟨plain_of_all (bytesOf "id") (by decide), ParsesTo_FormatUint _ t1⟩
      · exact ⟨plain_of_all (bytesOf "type") (by decide), ParsesTo_FormatInt _ hty⟩
      · exact ⟨plain_of_all (bytesOf "parentId") (by decide), ParsesTo_FormatUint _ t2⟩
      · exact ⟨plain_of_all (bytesOf "code") (by decide), ParsesTo_appendString _⟩
      · exact ⟨plain_of_all (bytesOf "name") (by decide), ParsesTo_appendString _⟩
      · exact ⟨plain_of_all (bytesOf "description") (by decide), ParsesTo_appendString _⟩
      · exact ⟨plain_of_all (bytesOf "website") (by decide), ParsesTo_appendString _⟩)
  exact h

theorem replaceInvalid_nil : utf8.replaceInvalid [] = [] := rfl

theorem replaceInvalid_eq_nil (s : Bytes) (h : utf8.replaceInvalid s = []) : s = [] := by
  have hl := (replaceInvalidLoop_length s.length s (le_refl _)).1
  unfold utf8.replaceInvalid at h
  rw [h] at hl
  exact List.eq_nil_of_length_eq_zero (Nat.le_zero.1 hl)

/-- What comes back of any `Symbol`: `json.Marshal` returns no error and
`json.Unmarshal` of its output into a zero `Symbol` returns, with no error, the
symbol in which each invalid byte of a string is replaced by U+FFFD. -/
theorem Symbol_round_trip_any (s : Symbol) (ht : Symbol.wellTyped s) :
    (Symbol.Marshal s).2 = none
    ∧ Symbol.Unmarshal (Symbol.Marshal s).1 Symbol.zero = (Symbol.replaceInvalid s, none) := by
  refine ⟨rfl, ?_⟩
  have hlen : 10 ≤ (Symbol.Marshal s).1.length + 1 := by
    have e : (Symbol.Marshal s).1
        = 123 :: (bytesOf "\"id\":" ++ strconv.FormatUint s.ID
            ++ (44 :: (bytesOf "\"type\":" ++ strconv.FormatInt s.Type_ ++ _))) := rfl
    have e1 : (bytesOf "\"id\":").length = 5 := rfl
    have e2 : (bytesOf "\"type\":").length = 7 := rfl
    rw [e]
    simp only [List.length_cons, List.length_append, e1, e2]
    omega
  have hp := parse_of_ParsesTo _ _ 10 1 (Symbol_Marshal_ParsesTo s ht) hlen (by decide)
  obtain ⟨t1, t2, t3, t4⟩ := ht
  unfold Symbol.Unmarshal
  rw [hp]
  have i0 : json.fieldIndex [bytesOf "id", bytesOf "type", bytesOf "parentId", bytesOf "code",
      bytesOf "name", bytesOf "description", bytesOf "website"] (bytesOf "id") = some 0 := by
    decide
  have i1 : json.fieldIndex [bytesOf "id", bytesOf "type", bytesOf "parentId", bytesOf "code",
      bytesOf "name", bytesOf "description", bytesOf "website"] (bytesOf "type") = some 1 := by
    decide
  have i2 : json.fieldIndex [bytesOf "id", bytesOf "type", bytesOf "parentId", bytesOf "code",
      bytesOf "name", bytesOf "description", bytesOf "website"] (bytesOf "parentId")
      = some 2 := by decide
  have i3 : json.fieldIndex [bytesOf "id", bytesOf "type", bytesOf "parentId", bytesOf "code",
      bytesOf "name", bytesOf "description", bytesOf "website"] (bytesOf "code") = some 3 := by
    decide
  have i4 : json.fieldIndex [bytesOf "id", bytesOf "type", bytesOf "parentId", bytesOf "code",
      bytesOf "name", bytesOf "description", bytesOf "website"] (bytesOf "name") = some 4 := by
    decide
  have i5 : json.fieldIndex [bytesOf "id", bytesOf "type", bytesOf "parentId", bytesOf "code",
      bytesOf "name", bytesOf "description", bytesOf "website"] (bytesOf "description")
      = some 5 := by decide
  have i6 : json.fieldIndex [bytesOf "id", bytesOf "type", bytesOf "parentId", bytesOf "code",
      bytesOf "name", bytesOf "description", bytesOf "website"] (bytesOf "website")
      = some 6 := by decide
  rcases s with ⟨id, ty, pid, code, name, desc, web⟩
  simp only at t1 t2 t3 t4 ⊢
  by_cases hpz : pid = 0 <;> by_cases hdz : desc = [] <;> by_cases hwz : web = [] <;>
    simp [json.keptMembers, hpz, hdz, hwz, List.foldl, Symbol.storeMember, i0, i1, i2, i3, i4,
      i5, i6, storeUint_FormatUint _ t1, storeUint_FormatUint _ t2,
      storeInt8_FormatInt _ t3 t4, json.storeString, json.saveError, Symbol.zero,
      Symbol.replaceInvalid, replaceInvalid_nil]

theorem Symbol_replaceInvalid_eq_iff (s : Symbol) :
    Symbol.replaceInvalid s = s ↔ Symbol.validText s := by
  rcases s with ⟨id, ty, pid, code, name, desc, web⟩
  simp only [Symbol.replaceInvalid, Symbol.validText, Symbol.mk.injEq, true_and,
    replaceInvalid_eq_iff_valid]

/-- The round trip of `Symbol`: `json.Marshal` returns no error and
`json.Unmarshal` of its output into a zero `Symbol` returns the symbol and no
error, for a symbol whose strings are valid UTF-8. -/
theorem Symbol_round_trip (s : Symbol) (ht : Symbol.wellTyped s) (hv : Symbol.validText s) :
    (Symbol.Marshal s).2 = none
    ∧ Symbol.Unmarshal (Symbol.Marshal s).1 Symbol.zero = (s, none) := by
  have h := Symbol_round_trip_any s ht
  rw [(Symbol_replaceInvalid_eq_iff s).2 hv] at h
  exact h

/-- C20 (counterexample): a `Symbol` whose `Code` is the single byte `0xff`,
which is not valid UTF-8: `json.Marshal` writes the code as the escape of
U+FFFD, and decoding the encoding succeeds with `Code` equal to the three
bytes of U+FFFD, so the decoded symbol is not the original one. -/
theorem C20_invalid_utf8_code_is_not_restored :
    utf8.Valid invalidTextSymbol.Code = false
    ∧ (Symbol.Marshal invalidTextSymbol).2 = none
    ∧ Symbol.Unmarshal (Symbol.Marshal invalidTextSymbol).1 Symbol.zero
        = ({ invalidTextSymbol with Code := [239, 191, 189] }, none)
    ∧ (Symbol.Unmarshal (Symbol.Marshal invalidTextSymbol).1 Symbol.zero).1
        ≠ invalidTextSymbol := by
  decide

/-- C20 (amended): for every `Temperatures` value, `Marshal` returns no error
and `UnmarshalTemperatures` of its output returns the value and no error; and
for every `Symbol` whose four strings are valid UTF-8, `json.Marshal` returns
no error and `json.Unmarshal` of its output into a fresh `Symbol` returns the
symbol and no error, whether or not `parentId`, `description` and `website`
are empty and so left out of the encoding. The numeric fields are values of
their Go types. For every `Symbol` `x`, whatever its strings, `json.Marshal`
returns no error and `json.Unmarshal` of its output returns, with no error,
the symbol `x` in which each byte of a string that starts no well-formed UTF-8
sequence is replaced by the three bytes `EF BF BD` of U+FFFD and every
well-formed sequence is kept; so a symbol with a string that is not valid
UTF-8 is not restored. -/
theorem C20_json_round_trip (t : Temperatures) (s : Symbol) (ht : Temperatures.wellTyped t)
    (hs : Symbol.wellTyped s) (hv : Symbol.validText s) :
    ((Temperatures.Marshal t).2 = none
      ∧ UnmarshalTemperatures (Temperatures.Marshal t).1 = (t, none))
    ∧ ((Symbol.Marshal s).2 = none
      ∧ Symbol.Unmarshal (Symbol.Marshal s).1 Symbol.zero = (s, none))
    ∧ (∀ x : Symbol, Symbol.wellTyped x →
        (Symbol.Marshal x).2 = none
        ∧ Symbol.Unmarshal (Symbol.Marshal x).1 Symbol.zero = (Symbol.replaceInvalid x, none)
        ∧ (¬ Symbol.validText x →
            (Symbol.Unmarshal (Symbol.Marshal x).1 Symbol.zero).1 ≠ x))
    ∧ (utf8.replaceInvalid [] = []
      ∧ ∀ (c : Nat) (rest : Bytes),
        (utf8.wellFormedStep c rest = none →
          utf8.replaceInvalid (c :: rest) = 239 :: 191 :: 189 :: utf8.replaceInvalid rest)
        ∧ (∀ q, utf8.wellFormedStep c rest = some q →
          ∃ tl, rest = tl ++ q
            ∧ utf8.replaceInvalid (c :: rest) = c :: tl ++ utf8.replaceInvalid q)) := by
  refine ⟨Temperatures_round_trip t ht, Symbol_round_trip s hs hv, ?_,
    replaceInvalid_nil, replaceInvalid_cons⟩
  intro x hx
  have h := Symbol_round_trip_any x hx
  refine ⟨h.1, h.2, ?_⟩
  intro hnv he
  rw [h.2] at he
  exact hnv ((Symbol_replaceInvalid_eq_iff x).1 he)

/-- Witness for C20 (amended): the values of the tests
`TestTemperaturesRoundTrip` and `TestSymbolJSON`; the symbol has no parent
and no description, so `parentId` and `description` are left out of its
encoding. -/
theorem C20_json_round_trip_witness :
    Temperatures.wellTyped sampleTemperatures
    ∧ Symbol.wellTyped bitcoinSymbol
    ∧ Symbol.validText bitcoinSymbol
    ∧ (Symbol.Marshal bitcoinSymbol).1
        = bytesOf ("\x7b\"id\":14,\"type\":1,\"code\":\"BTC\",\"name\":\"Bitcoin\","
            ++ "\"website\":\"https://bitcoin.org\"\x7d")
    ∧ ((Temperatures.Marshal sampleTemperatures).2 = none
      ∧ UnmarshalTemperatures (Temperatures.Marshal sampleTemperatures).1
          = (sampleTemperatures, none))
    ∧ ((Symbol.Marshal bitcoinSymbol).2 = none
      ∧ Symbol.Unmarshal (Symbol.Marshal bitcoinSymbol).1 Symbol.zero = (bitcoinSymbol, none)) :=
  have h1 : Temperatures.wellTyped sampleTemperatures := by
    simp [Temperatures.wellTyped, isInt64, sampleTemperatures]
  have h2 : Symbol.wellTyped bitcoinSymbol := by
    simp [Symbol.wellTyped, bitcoinSymbol, SymbolCrypto]
  have h3 : Symbol.validText bitcoinSymbol := by
    simp only [Symbol.validText]
    decide
  ⟨h1, h2, h3, by decide,
    (C20_json_round_trip sampleTemperatures bitcoinSymbol h1 h2 h3).1,
    (C20_json_round_trip sampleTemperatures bitcoinSymbol h1 h2 h3).2.1⟩

/-! ## Properties of float64 comparison and of candles -/

theorem float64_low_bits (a : float64) :
    a.bits % 2 ^ 63 = a.exponent * 2 ^ 52 + a.fraction ∧ a.fraction < 2 ^ 52 := by
  simp only [float64.exponent, float64.fraction]
  omega

theorem float64_magnitude_lt (a b : float64) (h : a.bits % 2 ^ 63 < b.bits % 2 ^ 63) :
    a.magnitude < b.magnitude := by
  obtain ⟨ha, fa⟩ := float64_low_bits a
  obtain ⟨hb, fb⟩ := float64_low_bits b
  rw [ha, hb] at h
  simp only [float64.magnitude]
  generalize a.exponent = ea at *
  generalize b.exponent = eb at *
  generalize a.fraction = x at *
  generalize b.fraction = y at *
  rcases Nat.lt_trichotomy ea eb with hlt | heq | hgt
  · have hb0 : ¬ eb = 0 := by omega
    rw [if_neg hb0]
    have hq : 0 < 2 ^ (eb - 1) := Nat.two_pow_pos _
    by_cases ha0 : ea = 0
    · rw [if_pos ha0]
      calc x < 2 ^ 52 := fa
        _ ≤ 2 ^ 52 + y := Nat.le_add_right _ _
        _ ≤ (2 ^ 52 + y) * 2 ^ (eb - 1) := Nat.le_mul_of_pos_right _ hq
    · rw [if_neg ha0]
      have hp : 0 < 2 ^ (ea - 1) := Nat.two_pow_pos _
      have h2 : 2 * 2 ^ (ea - 1) ≤ 2 ^ (eb - 1) := by
        rw [← pow_succ']
        exact Nat.pow_le_pow_right (by norm_num) (by omega)
      generalize 2 ^ (ea - 1) = P at *
      generalize 2 ^ (eb - 1) = Q at *
      calc (2 ^ 52 + x) * P < (2 ^ 52 + 2 ^ 52) * P :=
            Nat.mul_lt_mul_of_pos_right (by omega) hp
        _ = 2 ^ 52 * (2 * P) := by ring
        _ ≤ 2 ^ 52 * Q := Nat.mul_le_mul_left _ h2
        _ ≤ (2 ^ 52 + y) * Q := Nat.mul_le_mul_right _ (Nat.le_add_right _ _)
  · subst heq
    have hxy : x < y := by omega
    by_cases ha0 : ea = 0
    · rw [if_pos ha0, if_pos ha0]
      exact hxy
    · rw [if_neg ha0, if_neg ha0]
      exact Nat.mul_lt_mul_of_pos_right (by omega) (Nat.two_pow_pos _)
  · omega

theorem float64_magnitude_eq (a b : float64) (h : a.bits % 2 ^ 63 = b.bits % 2 ^ 63) :
    a.magnitude = b.magnitude := by
  have he : a.exponent = b.exponent := by
    simp only [float64.exponent]
    omega
  have hf : a.fraction = b.fraction := by
    simp only [float64.fraction]
    omega
  simp only [float64.magnitude, he, hf]

/-- The order of the sign-and-magnitude readings of two bit patterns is the order
of the numbers they stand for. -/
theorem float64_key_lt_iff (a b : float64) : a.key < b.key ↔ a.units < b.units := by
  have h1 := float64_magnitude_lt a b
  have h2 := float64_magnitude_lt b a
  have h3 := float64_magnitude_eq a b
  have h4 : 0 < a.bits % 2 ^ 63 → 0 < a.magnitude := fun h =>
    Nat.zero_lt_of_lt (float64_magnitude_lt ⟨0⟩ a h)
  have h5 : 0 < b.bits % 2 ^ 63 → 0 < b.magnitude := fun h =>
    Nat.zero_lt_of_lt (float64_magnitude_lt ⟨0⟩ b h)
  have h6 : a.bits % 2 ^ 63 = 0 → a.magnitude = 0 := fun h =>
    float64_magnitude_eq a ⟨0⟩ h
  have h7 : b.bits % 2 ^ 63 = 0 → b.magnitude = 0 := fun h =>
    float64_magnitude_eq b ⟨0⟩ h
  simp only [float64.key, float64.units]
  generalize a.magnitude = MA at *
  generalize b.magnitude = MB at *
  generalize a.bits % 2 ^ 63 = A at *
  generalize b.bits % 2 ^ 63 = B at *
  rcases Nat.lt_trichotomy A B with hlt | heq | hgt
  · have := h1 hlt
    cases a.negative <;> cases b.negative <;>
      simp only [Bool.false_eq_true, if_true, if_false] <;> omega
  · have := h3 heq
    cases a.negative <;> cases b.negative <;>
      simp only [Bool.false_eq_true, if_true, if_false] <;> omega
  · have := h2 hgt
    cases a.negative <;> cases b.negative <;>
      simp only [Bool.false_eq_true, if_true, if_false] <;> omega

theorem float64_key_eq_iff (a b : float64) : a.key = b.key ↔ a.units = b.units := by
  have h1 := float64_key_lt_iff a b
  have h2 := float64_key_lt_iff b a
  omega

/-- Go `a > b` holds exactly when neither operand is NaN and the number `a`
stands for is the greater one. -/
theorem float64_gt_iff (a b : float64) :
    float64.gt a b = true ↔ a.isNaN = false ∧ b.isNaN = false ∧ a.units > b.units := by
  have h := float64_key_lt_iff b a
  simp only [float64.gt, Bool.and_eq_true, Bool.not_eq_true', decide_eq_true_eq, gt_iff_lt, h,
    and_assoc]

theorem float64_lt_iff (a b : float64) :
    float64.lt a b = true ↔ a.isNaN = false ∧ b.isNaN = false ∧ a.units < b.units := by
  have h := float64_key_lt_iff a b
  simp only [float64.lt, Bool.and_eq_true, Bool.not_eq_true', decide_eq_true_eq, h, and_assoc]

theorem float64_eq_iff (a b : float64) :
    float64.eq a b = true ↔ a.isNaN = false ∧ b.isNaN = false ∧ a.units = b.units := by
  have h := float64_key_eq_iff a b
  simp only [float64.eq, Bool.and_eq_true, Bool.not_eq_true', decide_eq_true_eq, h, and_assoc]

theorem float64_units_hundred : float64.units float64.hundred = 100 * 2 ^ 1074 := by
  have e : float64.exponent float64.hundred = 1029 := by decide
  have f : float64.fraction float64.hundred = 0x9000000000000 := by decide
  have n : float64.negative float64.hundred = false := by decide
  rw [float64.units, float64.magnitude, e, f, n]
  norm_num

theorem float64_units_hundredEight :
    float64.units float64.hundredEight = 108 * 2 ^ 1074 := by
  have e : float64.exponent float64.hundredEight = 1029 := by decide
  have f : float64.fraction float64.hundredEight = 0xB000000000000 := by decide
  have n : float64.negative float64.hundredEight = false := by decide
  rw [float64.units, float64.magnitude, e, f, n]
  norm_num

theorem float64_units_ninety : float64.units float64.ninety = 90 * 2 ^ 1074 := by
  have e : float64.exponent float64.ninety = 1029 := by decide
  have f : float64.fraction float64.ninety = 0x6800000000000 := by decide
  have n : float64.negative float64.ninety = false := by decide
  rw [float64.units, float64.magnitude, e, f, n]
  norm_num

/-- A candle whose close is NaN is neither bullish nor bearish, and so is one
that opens at `+0` and closes at `-0`, the two zeros being equal. -/
theorem candle_nan_and_zero_are_neither :
    (Candle.ofOpenClose float64.hundred float64.quietNaN).IsBullish = false
    ∧ (Candle.ofOpenClose float64.hundred float64.quietNaN).IsBearish = false
    ∧ float64.eq float64.negZero ⟨0⟩ = true
    ∧ (Candle.ofOpenClose ⟨0⟩ float64.negZero).IsBullish = false
    ∧ (Candle.ofOpenClose ⟨0⟩ float64.negZero).IsBearish = false := by
  decide

/-- C21: for every candle, `IsBullish` is the comparison `Close > Open` and
`IsBearish` the comparison `Close < Open`, that is: the candle is bullish exactly
when neither price is NaN and the number `Close` stands for is greater than the
one `Open` stands for, and bearish exactly when it is smaller. Hence no candle is
both bullish and bearish, and a candle with `Close == Open` is neither. The candle
with open 100 and close 108 is bullish and not bearish, the one with open 100 and
close 90 is bearish and not bullish. -/
theorem C21_bullish_and_bearish_compare_close_with_open (c : Candle) :
    c.IsBullish = float64.gt c.Close c.Open
    ∧ c.IsBearish = float64.lt c.Close c.Open
    ∧ (c.IsBullish = true ↔
        c.Close.isNaN = false ∧ c.Open.isNaN = false ∧ c.Close.units > c.Open.units)
    ∧ (c.IsBearish = true ↔
        c.Close.isNaN = false ∧ c.Open.isNaN = false ∧ c.Close.units < c.Open.units)
    ∧ ¬ (c.IsBullish = true ∧ c.IsBearish = true)
    ∧ (float64.eq c.Close c.Open = true → c.IsBullish = false ∧ c.IsBearish = false)
    ∧ (Candle.testCandle.Open.units = 100 * 2 ^ 1074
        ∧ Candle.testCandle.Close.units = 108 * 2 ^ 1074
        ∧ Candle.testCandle.IsBullish = true ∧ Candle.testCandle.IsBearish = false)
    ∧ ((Candle.ofOpenClose float64.hundred float64.ninety).Close.units = 90 * 2 ^ 1074
        ∧ (Candle.ofOpenClose float64.hundred float64.ninety).IsBearish = true
        ∧ (Candle.ofOpenClose float64.hundred float64.ninety).IsBullish = false) := by
  have hb := float64_gt_iff c.Close c.Open
  have hs := float64_lt_iff c.Close c.Open
  have he := float64_eq_iff c.Close c.Open
  refine ⟨rfl, rfl, hb, hs, ?_, ?_,
    ⟨float64_units_hundred, float64_units_hundredEight, by decide, by decide⟩,
    ⟨float64_units_ninety, by decide, by decide⟩⟩
  · rintro ⟨h1, h2⟩
    have a1 := (hb.1 h1).2.2
    have a2 := (hs.1 h2).2.2
    omega
  · intro h
    have a := (he.1 h).2.2
    constructor
    · cases hx : c.IsBullish with
      | false => rfl
      | true =>
        have a1 := (hb.1 hx).2.2
        omega
    · cases hx : c.IsBearish with
      | false => rfl
      | true =>
        have a2 := (hs.1 hx).2.2
        omega

/-- A candle whose close and open are both 100 is neither bullish nor bearish. -/
theorem C21_bullish_and_bearish_compare_close_with_open_witness :
    float64.eq (Candle.ofOpenClose float64.hundred float64.hundred).Close
        (Candle.ofOpenClose float64.hundred float64.hundred).Open = true
    ∧ (Candle.ofOpenClose float64.hundred float64.hundred).IsBullish = false
    ∧ (Candle.ofOpenClose float64.hundred float64.hundred).IsBearish = false :=
  ⟨by decide,
    (C21_bullish_and_bearish_compare_close_with_open
      (Candle.ofOpenClose float64.hundred float64.hundred)).2.2.2.2.2.1 (by decide)⟩


/-! ## Markets -/

/-- C22: for every market, `String()` is `FromSymbol`, then the one byte `/`,
then `ToSymbol`; changing `ID`, `Title` and `Description` does not change it. The
market with symbols "BTC" and "USDT" gives "BTC/USDT". -/
theorem C22_market_string_joins_symbols_with_slash (m : Market) :
    m.String = m.FromSymbol ++ 47 :: m.ToSymbol
    ∧ (∀ (id : Int) (title description : Bytes),
        Market.String { m with ID := id, Title := title, Description := description }
          = m.String)
    ∧ Market.btcUsdt.String = bytesOf "BTC/USDT" := by
  refine ⟨?_, ?_, by decide⟩
  · simp [Market.String, bytesOf]
  · intro id title description
    rfl

/-! ## Currencies -/

theorem Currencies_Get_none (C : currency.Currencies) (c : Bytes) :
    C.Get c = none ↔ ∀ v ∈ C, v.Code ≠ c := by
  induction C with
  | nil => simp [currency.Currencies.Get]
  | cons x xs ih =>
    by_cases hx : x.Code = c
    · simp [currency.Currencies.Get, hx]
    · simp [currency.Currencies.Get, hx, ih]

theorem Currencies_Get_some (C : currency.Currencies) (c : Bytes) (r : currency.Currency) :
    C.Get c = some r ↔
      ∃ i : Nat, C[i]? = some r ∧ r.Code = c
        ∧ ∀ j : Nat, j < i → ∀ t : currency.Currency, C[j]? = some t → t.Code ≠ c := by
  induction C with
  | nil => simp [currency.Currencies.Get]
  | cons x xs ih =>
    by_cases hx : x.Code = c
    · simp only [currency.Currencies.Get, hx, beq_self_eq_true, if_true, Option.some.injEq]
      constructor
      · intro h
        subst h
        exact ⟨0, by simp, hx, by simp⟩
      · rintro ⟨i, hi, hrc, hmin⟩
        rcases Nat.eq_zero_or_pos i with h0 | hpos
        · subst h0
          simpa using hi
        · exact absurd hx (hmin 0 hpos x (by simp))
    · have hb : (x.Code == c) = false := by simpa using hx
      simp only [currency.Currencies.Get, hb, Bool.false_eq_true, if_false, ih]
      constructor
      · rintro ⟨i, hi, hrc, hmin⟩
        refine ⟨i + 1, by simpa using hi, hrc, ?_⟩
        intro j hj t ht
        cases j with
        | zero =>
          simp only [List.getElem?_cons_zero, Option.some.injEq] at ht
          subst ht
          exact hx
        | succ k =>
          simp only [List.getElem?_cons_succ] at ht
          exact hmin k (by omega) t ht
      · rintro ⟨i, hi, hrc, hmin⟩
        cases i with
        | zero =>
          simp only [List.getElem?_cons_zero, Option.some.injEq] at hi
          subst hi
          exact absurd hrc hx
        | succ k =>
          simp only [List.getElem?_cons_succ] at hi
          refine ⟨k, hi, hrc, ?_⟩
          intro j hj t ht
          exact hmin (j + 1) (by omega) t (by simpa using ht)

/-- C23: `C.Get c` is nil exactly when no currency of `C` has `Code` equal to
`c`, and it is a currency `r` exactly when `r` equals the element of `C` at the
lowest index whose `Code` is `c`. In the sample list, where "BTC" occurs at
indices 1 and 2, `Get` gives the element at index 1, and "ZZZZZ" gives nil. -/
theorem C23_currencies_get_first_match (C : currency.Currencies) (c : Bytes) :
    (C.Get c = none ↔ ∀ v ∈ C, v.Code ≠ c)
    ∧ (∀ r, C.Get c = some r ↔
        ∃ i : Nat, C[i]? = some r ∧ r.Code = c
          ∧ ∀ j : Nat, j < i → ∀ t : currency.Currency, C[j]? = some t → t.Code ≠ c)
    ∧ ((∃ v ∈ C, v.Code = c) ↔ ∃ r, C.Get c = some r)
    ∧ currency.sampleCurrencies.Get (bytesOf "BTC") = currency.sampleCurrencies[1]?
    ∧ currency.sampleCurrencies.Get (bytesOf "BTC") ≠ currency.sampleCurrencies[2]?
    ∧ currency.sampleCurrencies.Get (bytesOf "ZZZZZ") = none := by
  refine ⟨Currencies_Get_none C c, Currencies_Get_some C c, ?_, by decide, by decide, by decide⟩
  have hn := Currencies_Get_none C c
  constructor
  · rintro ⟨v, hv, hvc⟩
    cases hg : C.Get c with
    | none => exact absurd hvc (hn.1 hg v hv)
    | some r => exact ⟨r, rfl⟩
  · rintro ⟨r, hr⟩
    by_contra hno
    have hall : ∀ v ∈ C, v.Code ≠ c := fun v hv hvc => hno ⟨v, hv, hvc⟩
    rw [hn.2 hall] at hr
    exact Option.noConfusion hr

/-! ## UUID.UnmarshalJSON leaves the wrapper alone unless it succeeds -/

theorem UUID_UnmarshalJSON_cases (u : UUID) (data : Bytes) :
    (data.length < 7 ∧ UUID.UnmarshalJSON u data = (u, none))
    ∨ (7 ≤ data.length ∧ ∃ e, UUID.UnmarshalJSON u data = (u, some e))
    ∨ (7 ≤ data.length ∧ ∃ content id,
        json.UnmarshalString data = json.StringResult.str content
        ∧ uuid.Parse content = Except.ok id
        ∧ UUID.UnmarshalJSON u data = ({ Value := some id }, none)) := by
  by_cases h : data.length < 7
  · left
    refine ⟨h, ?_⟩
    unfold UUID.UnmarshalJSON
    rw [if_pos h]
  · right
    have h7 : 7 ≤ data.length := by omega
    unfold UUID.UnmarshalJSON
    rw [if_neg h]
    rcases hr : json.UnmarshalString data with _ | _ | content
    · left
      exact ⟨h7, _, rfl⟩
    · left
      refine ⟨h7, ?_⟩
      have hp : ∃ e, uuid.Parse [] = Except.error e :=
        ⟨uuid.ParseError.invalidLength 0, rfl⟩
      obtain ⟨e, he⟩ := hp
      refine ⟨UUIDError.parse e, ?_⟩
      simp only [he]
    · rcases hp : uuid.Parse content with e | id
      · left
        refine ⟨h7, UUIDError.parse e, ?_⟩
        simp only [hp]
      · right
        refine ⟨h7, content, id, rfl, hp, ?_⟩
        simp only [hp]

/-- C24: `UUID.UnmarshalJSON` changes the wrapper only when it succeeds. Whenever
it returns an error the wrapper afterwards is the wrapper before; an input
shorter than 7 bytes leaves the wrapper as it was and returns no error; and if
the wrapper afterwards differs from the wrapper before, then the input has at
least 7 bytes, is a JSON string whose content `uuid.Parse` accepts, no error is
returned and the wrapper holds the parsed value. -/
theorem C24_uuid_unmarshal_changes_value_only_on_success (u : UUID) (data : Bytes) :
    (∀ e, (UUID.UnmarshalJSON u data).2 = some e → (UUID.UnmarshalJSON u data).1 = u)
    ∧ (data.length < 7 → UUID.UnmarshalJSON u data = (u, none))
    ∧ (json.UnmarshalString data = json.StringResult.error →
        (UUID.UnmarshalJSON u data).1 = u)
    ∧ (∀ content, json.UnmarshalString data = json.StringResult.str content →
        (∀ id, uuid.Parse content ≠ Except.ok id) → (UUID.UnmarshalJSON u data).1 = u)
    ∧ ((UUID.UnmarshalJSON u data).1 ≠ u →
        7 ≤ data.length ∧ ∃ content id,
          json.UnmarshalString data = json.StringResult.str content
          ∧ uuid.Parse content = Except.ok id
          ∧ UUID.UnmarshalJSON u data = ({ Value := some id }, none)) := by
  rcases UUID_UnmarshalJSON_cases u data with ⟨hlt, hr⟩ | ⟨h7, e, hr⟩ | ⟨h7, content, id, hjs, hp, hr⟩
  · refine ⟨fun _ _ => by rw [hr], fun _ => hr, fun _ => by rw [hr], fun _ _ _ => by rw [hr], ?_⟩
    intro hne
    rw [hr] at hne
    exact absurd rfl hne
  · refine ⟨fun _ _ => by rw [hr], fun hlt => absurd hlt (by omega), fun _ => by rw [hr],
      fun _ _ _ => by rw [hr], ?_⟩
    intro hne
    rw [hr] at hne
    exact absurd rfl hne
  · refine ⟨?_, fun hlt => absurd hlt (by omega), ?_, ?_, fun _ => ⟨h7, content, id, hjs, hp, hr⟩⟩
    · intro e he
      rw [hr] at he
      exact Option.noConfusion he
    · intro herr
      rw [hjs] at herr
      exact json.StringResult.noConfusion herr
    · intro content2 hc2 hno
      rw [hjs] at hc2
      injection hc2 with hc
      subst hc
      exact absurd hp (hno id)

/-- Witness for C24: a wrapper holding the nil UUID is given the JSON string
"not a uuid", which `uuid.Parse` rejects; an error is returned and the wrapper
still holds the nil UUID. -/
theorem C24_uuid_unmarshal_changes_value_only_on_success_witness :
    (UUID.UnmarshalJSON { Value := some uuid.Nil } (bytesOf "\"not a uuid\"")).2
        = some (UUIDError.parse (uuid.ParseError.invalidLength 10))
    ∧ (UUID.UnmarshalJSON { Value := some uuid.Nil } (bytesOf "\"not a uuid\"")).1
        = { Value := some uuid.Nil } :=
  ⟨by decide,
    (C24_uuid_unmarshal_changes_value_only_on_success { Value := some uuid.Nil }
      (bytesOf "\"not a uuid\"")).1 (UUIDError.parse (uuid.ParseError.invalidLength 10))
      (by decide)⟩


/-! ## DateTime.UnmarshalJSON reads the bytes between the first and the last -/

theorem innerText_wrapped (a b : Nat) (s : Bytes) : innerText (a :: s ++ [b]) = s := by
  unfold innerText
  have e : (a :: s ++ [b]).length - 1 = (a :: s).length := by simp
  have e2 : a :: s ++ [b] = (a :: s) ++ [b] := rfl
  rw [e, e2, List.take_left']
  · rfl
  · rfl

theorem innerText_length (data : Bytes) : (innerText data).length = data.length - 2 := by
  unfold innerText
  simp only [List.length_drop, List.length_take]
  omega

theorem lenient_fourth_is_digit (s : Bytes) (h : lenientDateTimeText s) :
    digitByte (s.getD 3 0) := by
  obtain ⟨y1, y2, y3, y4, m1, m2, d1, d2, k, hh, hr, n1, n2, s1, s2, frac, hs,
    hy1, hy2, hy3, hy4, hrest⟩ := h
  rw [hs]
  exact hy4

theorem innerText_getD_three (s : Bytes) (h : s.length = 19) :
    (innerText s).getD 3 0 = s.getD 4 0 := by
  unfold innerText
  rw [h]
  simp only [List.getD_eq_getElem?_getD, List.getElem?_drop, List.getElem?_take]
  simp

/-- A text of the fixed format, given without quotes, is rejected: the fourth
byte of what is parsed is the first `-`, where a digit of the year is needed. -/
theorem unquoted_fixedFormat_rejected (s : Bytes) (h : fixedFormatText s = true) :
    (Parse (innerText s)).2 ≠ none := by
  intro hnone
  have hl := lenient_fourth_is_digit _ ((Parse_ok_iff_lenient _).1 hnone)
  simp only [fixedFormatText, Bool.and_eq_true, beq_iff_eq] at h
  obtain ⟨⟨⟨⟨⟨⟨hlen, _⟩, h4⟩, _⟩, _⟩, _⟩, _⟩ := h
  rw [innerText_getD_three s hlen, h4] at hl
  unfold digitByte at hl
  omega

/-- C25: for every input of at least 7 bytes, `DateTime.UnmarshalJSON` hands
`time.Parse` the bytes between the first and the last byte, whatever these two
are: the wrapper then holds the time `time.Parse` returned and the error is its
error, so that two inputs of at least 7 bytes with the same inner bytes give the
same result on any two wrappers, and replacing the first and the last byte by any
two bytes changes nothing. Hence an input that is itself a text of the fixed
format "YYYY-MM-DD HH:MM:SS", without quotes, is rejected with an error; and an
input whose inner bytes are the text of an existing date and time with a year of
at most four digits is accepted with exactly those fields, as the same text in
double quotes is. -/
theorem C25_datetime_unmarshal_parses_inner_bytes (t : DateTime) (data : Bytes)
    (h7 : 7 ≤ data.length) :
    DateTime.UnmarshalJSON t data
      = ({ Time := some (Parse (innerText data)).1 }, (Parse (innerText data)).2)
    ∧ (∀ (t2 : DateTime) (data2 : Bytes), 7 ≤ data2.length →
        innerText data2 = innerText data →
        DateTime.UnmarshalJSON t2 data2 = DateTime.UnmarshalJSON t data)
    ∧ (∀ (t2 : DateTime) (a b : Nat),
        DateTime.UnmarshalJSON t2 (a :: innerText data ++ [b]) = DateTime.UnmarshalJSON t data)
    ∧ (fixedFormatText data = true → ∃ e, (DateTime.UnmarshalJSON t data).2 = some e)
    ∧ (∀ y m d h mi s : Nat, y ≤ 9999 → validCalendar y m d h mi s →
        innerText data = formatDateTime y m d h mi s →
        DateTime.UnmarshalJSON t data
            = ({ Time := some { Year := y, Month := m, Day := d, Hour := h, Minute := mi,
                                Second := s, Nanosecond := 0 } }, none)
        ∧ DateTime.UnmarshalJSON t data
            = DateTime.UnmarshalJSON t (quoted (formatDateTime y m d h mi s))
        ∧ ∃ e, (DateTime.UnmarshalJSON t (formatDateTime y m d h mi s)).2 = some e) := by
  have hmain := UnmarshalJSON_long t data h7
  have hsame : ∀ (t2 : DateTime) (data2 : Bytes), 7 ≤ data2.length →
      innerText data2 = innerText data →
      DateTime.UnmarshalJSON t2 data2 = DateTime.UnmarshalJSON t data := by
    intro t2 data2 h2 hin
    rw [UnmarshalJSON_long t2 data2 h2, hmain, hin]
  have hrej : ∀ s : Bytes, fixedFormatText s = true →
      ∃ e, (DateTime.UnmarshalJSON t s).2 = some e := by
    intro s hs
    have hlen : 7 ≤ s.length := by
      simp only [fixedFormatText, Bool.and_eq_true, beq_iff_eq] at hs
      omega
    rw [UnmarshalJSON_long t s hlen]
    have hne := unquoted_fixedFormat_rejected s hs
    cases hp : (Parse (innerText s)).2 with
    | none => exact absurd hp hne
    | some e => exact ⟨e, rfl⟩
  refine ⟨hmain, hsame, ?_, hrej data, ?_⟩
  · intro t2 a b
    have hl := innerText_length data
    refine hsame t2 _ ?_ (innerText_wrapped a b _)
    simp only [List.length_cons, List.length_append, List.length_singleton, hl]
    omega
  · intro y m d h mi s hy hv hin
    have hq : 7 ≤ (quoted (formatDateTime y m d h mi s)).length := by
      simp [quoted, formatDateTime, digits4, digits2]
    have hres : DateTime.UnmarshalJSON t data
        = ({ Time := some { Year := y, Month := m, Day := d, Hour := h, Minute := mi,
                            Second := s, Nanosecond := 0 } }, none) := by
      rw [hmain, hin, Parse_formatDateTime y m d h mi s hy hv]
    refine ⟨hres, ?_, hrej _ (formatDateTime_is_fixedFormat y m d h mi s)⟩
    rw [hres, UnmarshalJSON_long t _ hq, innerText_quoted,
      Parse_formatDateTime y m d h mi s hy hv]

/-- Witness for C25: the 21 bytes `x2025-06-15 14:30:00y`, the text of an
existing date and time between two bytes that are no quotes, are accepted with
the fields 2025, 6, 15, 14, 30, 0; the 19 bytes of the text alone are rejected. -/
theorem C25_datetime_unmarshal_parses_inner_bytes_witness :
    (7 ≤ (bytesOf "x2025-06-15 14:30:00y").length
      ∧ innerText (bytesOf "x2025-06-15 14:30:00y") = formatDateTime 2025 6 15 14 30 0
      ∧ DateTime.UnmarshalJSON { Time := none } (bytesOf "x2025-06-15 14:30:00y")
          = ({ Time := some { Year := 2025, Month := 6, Day := 15, Hour := 14, Minute := 30,
                              Second := 0, Nanosecond := 0 } }, none))
    ∧ (7 ≤ (bytesOf "2025-06-15 14:30:00").length
      ∧ fixedFormatText (bytesOf "2025-06-15 14:30:00") = true
      ∧ ∃ e, (DateTime.UnmarshalJSON { Time := none } (bytesOf "2025-06-15 14:30:00")).2
          = some e) :=
  ⟨⟨by decide, by decide,
      ((C25_datetime_unmarshal_parses_inner_bytes { Time := none }
        (bytesOf "x2025-06-15 14:30:00y") (by decide)).2.2.2.2
        2025 6 15 14 30 0 (by decide) (by unfold validCalendar; decide) (by decide)).1⟩,
    ⟨by decide, by decide,
      (C25_datetime_unmarshal_parses_inner_bytes { Time := none }
        (bytesOf "2025-06-15 14:30:00") (by decide)).2.2.2.1 (by decide)⟩⟩

end Trade
